import Mathlib

/-!
The docopts grammar front end, `parser/docopt_language.go`.

A shallow embedding of the recursive-descent parser of `docopt_language.go`
and theorems about it.

Modelling conventions

* Go pointers to AST nodes are indices into a node store (`Heap`); `nil` is
  `none`.  Dereferencing `nil` (or indexing a slice out of range) is the fault
  `Fault.panic`.
* Go `error` values are `Option String` (`none` is `nil`).
* Every `for p.run { ... }` loop is a function recursive on a fuel argument; a
  loop that needs more iterations than the fuel allows yields `Fault.fuel`.
* Printing to standard output (`fmt.Println`, `fmt.Printf`) is not modelled.
-/

set_option autoImplicit false

namespace Docopt

/-! ## Tokens and the lexer interface -/

/-- Token kinds: the runes `lexer.EOF`, `NEWLINE`, `SECTION`, ... looked up in
`all_symbols` by `ParserInit`; `OTHER` stands for every further kind a state
table may emit. -/
inductive TokenKind where
  | EOF | NEWLINE | SECTION | PROG_NAME | USAGE | SHORT | LONG | ARGUMENT
  | PUNCT | IDENT | LONG_BLANK | DEFAULT | BLANK | OTHER
  deriving DecidableEq, Repr

/-- Name of a token kind, the map `symbols_name`. -/
def TokenKind.name : TokenKind → String
  | .EOF => "EOF" | .NEWLINE => "NEWLINE" | .SECTION => "SECTION"
  | .PROG_NAME => "PROG_NAME" | .USAGE => "USAGE" | .SHORT => "SHORT"
  | .LONG => "LONG" | .ARGUMENT => "ARGUMENT" | .PUNCT => "PUNCT"
  | .IDENT => "IDENT" | .LONG_BLANK => "LONG_BLANK" | .DEFAULT => "DEFAULT"
  | .BLANK => "BLANK" | .OTHER => "OTHER"

/-- Modelled from the spec: the `lexer.Token` value type (kind tag, literal
text, source position); the package `grammar/lexer` is not part of the
sources.  `Pos` is the position the token was read at. -/
structure Token where
  Typ : TokenKind
  Value : String
  Pos : Nat
  deriving DecidableEq, Repr

/-- Modelled from the spec: what the scanner finds at one position of the
source, either a token (kind and literal) or a byte no rule matches. -/
inductive LexItem where
  | tok (k : TokenKind) (v : String)
  | bad (msg : String)
  deriving DecidableEq, Repr

/-- Modelled from the spec: the stateful lexer `lexer_state.StateLexer`
(package `grammar/lexer_state`, not part of the sources).  The source text is
given as the sequence of items the scanner produces under the states the
parser selects; `pos` is the cursor. -/
structure StateLexer where
  items : List LexItem
  pos : Nat
  Current_state : String
  deriving DecidableEq, Repr

/-- Modelled from the spec: `next()` yields the token at the cursor and
advances, a lexer error when no rule matches there (the cursor stays), and
`EOF` at the end of the source. -/
def StateLexer.Next (s : StateLexer) : Except String Token × StateLexer :=
  match s.items[s.pos]? with
  | none => (.ok ⟨.EOF, "", s.pos⟩, s)
  | some (.tok k v) => (.ok ⟨k, v, s.pos⟩, { s with pos := s.pos + 1 })
  | some (.bad m) => (.error m, s)

/-- Modelled from the spec: `reject(tok)` returns `tok` to the stream such that
the next `next()` re-scans from the position of `tok`. -/
def StateLexer.Reject (s : StateLexer) (t : Token) : StateLexer :=
  { s with pos := t.Pos }

/-- Modelled from the spec: `discard(n)` advances the cursor by `n`. -/
def StateLexer.Discard (s : StateLexer) (n : Nat) : StateLexer :=
  { s with pos := s.pos + n }

/-- Modelled from the spec: `change_state(name)` selects a named state. -/
def StateLexer.ChangeState (s : StateLexer) (new_state : String) : StateLexer :=
  { s with Current_state := new_state }

/-- Modelled from the spec: `dynamic_rule_update(rule_name, literal)`
recompiles one rule; the item sequence already lists the tokens as scanned
with the updated rule. -/
def StateLexer.DynamicRuleUpdate (s : StateLexer) (_rule _literal : String) : StateLexer :=
  s

/-! ## AST nodes -/

/-- Modelled from the spec: the node kinds `DocoptNodeType` (declared in the
AST file of the package, which is not part of the sources). -/
inductive DocoptNodeType where
  | Root | Prologue | Prologue_node | Usage_section | Usage | Usage_line
  | Prog_name | Usage_Expr | Usage_command | Usage_argument
  | Usage_short_option | Usage_long_option | Usage_optional_group
  | Usage_required_group | Options_section | Section_name | Options_node
  | Option_line | Option_short | Option_long | Option_argument
  | Option_alternative_group | Option_description | Description_node
  | Free_section | Section_node | NONE_node
  deriving DecidableEq, Repr

/-- Name of a node kind, as printed by `%s`. -/
def DocoptNodeType.String : DocoptNodeType → String
  | .Root => "Root" | .Prologue => "Prologue" | .Prologue_node => "Prologue_node"
  | .Usage_section => "Usage_section" | .Usage => "Usage" | .Usage_line => "Usage_line"
  | .Prog_name => "Prog_name" | .Usage_Expr => "Usage_Expr"
  | .Usage_command => "Usage_command" | .Usage_argument => "Usage_argument"
  | .Usage_short_option => "Usage_short_option"
  | .Usage_long_option => "Usage_long_option"
  | .Usage_optional_group => "Usage_optional_group"
  | .Usage_required_group => "Usage_required_group"
  | .Options_section => "Options_section" | .Section_name => "Section_name"
  | .Options_node => "Options_node" | .Option_line => "Option_line"
  | .Option_short => "Option_short" | .Option_long => "Option_long"
  | .Option_argument => "Option_argument"
  | .Option_alternative_group => "Option_alternative_group"
  | .Option_description => "Option_description"
  | .Description_node => "Description_node"
  | .Free_section => "Free_section" | .Section_node => "Section_node"
  | .NONE_node => "NONE_node"

/-- Modelled from the spec: the tree node `DocoptAst` (kind tag, optional
token, parent, ordered children, repeat flag).  `Parent` and `Children` hold
node references. -/
structure DocoptAst where
  Typ : DocoptNodeType
  Token : Option Token
  Parent : Option Nat
  Children : List Nat
  Repeat : Bool
  deriving DecidableEq, Repr

/-- The node store: a reference `i` denotes the `i`-th node allocated. -/
abbrev Heap := List DocoptAst

/-- Faults of an execution: a Go run-time panic, or fuel exhausted. -/
inductive Fault where
  | panic
  | fuel
  deriving DecidableEq, Repr

/-- Dereference a possibly-nil pointer. -/
def deref {α : Type} : Option α → Except Fault α
  | some a => .ok a
  | none => .error .panic

/-- Read the node a reference points to. -/
def node (h : Heap) (i : Nat) : Except Fault DocoptAst :=
  deref h[i]?

/-- Modelled from the spec: `add_child`, the method `AddNode(type, token)` of
`DocoptAst`: allocate a node with the receiver as parent, append it to the
receiver's children and return it. -/
def AddNode (h : Heap) (parent : Nat) (t : DocoptNodeType) (token : Option Token) :
    Except Fault (Nat × Heap) :=
  match h[parent]? with
  | none => .error .panic
  | some nd =>
    .ok (h.length,
      h.set parent { nd with Children := nd.Children ++ [h.length] } ++
        [{ Typ := t, Token := token, Parent := some parent, Children := [], Repeat := false }])

/-- Modelled from the spec: `replace_children_with_group`, the method
`Replace_children_with_group(type)` of `DocoptAst`: the children of the
receiver become the children of a new group node, which becomes the only child
of the receiver; the group is returned. -/
def Replace_children_with_group (h : Heap) (n : Nat) (t : DocoptNodeType) :
    Except Fault (Nat × Heap) :=
  match h[n]? with
  | none => .error .panic
  | some nd =>
    let g := h.length
    let h1 := nd.Children.foldl
      (fun acc c => match acc[c]? with
        | some cn => acc.set c { cn with Parent := some g }
        | none => acc) h
    .ok (g, h1.set n { nd with Children := [g] } ++
      [{ Typ := t, Token := none, Parent := some n, Children := nd.Children, Repeat := false }])

/-! ## Parser state -/

/-- Reason for a consumer to leave. -/
structure Reason where
  Value : Int
  Leaving : Bool
  deriving DecidableEq, Repr

def Reason_Error : Int := -1
def Reason_TWO_NEWLINE : Int := 1 + 1
def Reason_PROG_NAME_sequence : Int := 1 + 2
def Reason_EOF_reached : Int := 1 + 3
def Reason_Continue : Int := 1 + 4
def Reason_EOG_reached : Int := 1 + 5

def Error : Reason := ⟨Reason_Error, true⟩
def TWO_NEWLINE : Reason := ⟨Reason_TWO_NEWLINE, true⟩
def PROG_NAME_sequence : Reason := ⟨Reason_EOF_reached, true⟩
def EOF_reached : Reason := ⟨Reason_PROG_NAME_sequence, true⟩
def Continue : Reason := ⟨Reason_Continue, false⟩
def END_OF_Group : Reason := ⟨Reason_EOG_reached, true⟩

/-- The zero value of `Reason`, the value of an unassigned `var reason Reason`. -/
def Reason.zero : Reason := ⟨0, false⟩

/-- The parser `DocoptParser`.  `heap` is the node store the pointers `ast`,
`current_node`, `options_node` and `usage_node` refer to; `toplevel` records the
run-time field `toplevel` of the entries of `Parse_def`. -/
structure DocoptParser where
  s : StateLexer
  Prog_name : String
  current_token : Option Token
  next_token : Option Token
  tokens : List (Option Token)
  Error_count : Nat
  max_error : Nat
  Errors : List String
  heap : Heap
  ast : Option Nat
  current_node : Option Nat
  options_node : Option Nat
  usage_node : Option Nat
  lexer_state_changed : Bool
  run : Bool
  toplevel : List (DocoptNodeType × Nat)
  deriving DecidableEq, Repr

/-- The parser built by `ParserInit` over a source. -/
def ParserInit (source : List LexItem) : DocoptParser :=
  { s := { items := source, pos := 0, Current_state := "state_Prologue" }
    Prog_name := ""
    current_token := none
    next_token := none
    tokens := []
    Error_count := 0
    max_error := 10
    Errors := []
    heap := []
    ast := none
    current_node := none
    options_node := none
    usage_node := none
    lexer_state_changed := false
    run := true
    toplevel := [] }

/-- Rendering of a token by `%v` in error messages (the formatting method of
`lexer.Token` is not part of the sources; the literal is shown). -/
def fmtToken : Option Token → String
  | none => "<nil>"
  | some t => t.Value

/-- Which token variable `try_get_NextToken` stores into. -/
inductive Slot where
  | current
  | next
  deriving DecidableEq, Repr

def DocoptParser.store (p : DocoptParser) (slot : Slot) (t : Token) : DocoptParser :=
  match slot with
  | .current => { p with current_token := some t }
  | .next => { p with next_token := some t }

def AddError (p : DocoptParser) (e : String) : DocoptParser :=
  { p with Errors := p.Errors ++ [e], Error_count := p.Error_count + 1 }

def FatalError (p : DocoptParser) (_msg : String) : DocoptParser :=
  { p with run := false }

/-- The recursion of `try_get_NextToken`; every recursive call follows an
`AddError`, so `max_error - Error_count` bounds its depth. -/
def try_get_NextToken_rec : Nat → DocoptParser → Slot → Except Fault (Option String × DocoptParser)
  | fuel, p, slot =>
    if p.Error_count ≥ p.max_error then
      .ok (some "try_get_NextToken: already too many errors", p)
    else
      match p.s.Next with
      | (.ok t, s1) => .ok (none, ({ p with s := s1 }).store slot t)
      | (.error e, s1) =>
        let p1 := AddError { p with s := s1 } e
        if p1.Error_count ≥ p1.max_error then
          .ok (some "try_get_NextToken: too many errors", p1)
        else
          match fuel with
          | 0 => .error .fuel
          | n + 1 => try_get_NextToken_rec n { p1 with s := p1.s.Discard 1 } slot

def try_get_NextToken (p : DocoptParser) (slot : Slot) :
    Except Fault (Option String × DocoptParser) :=
  try_get_NextToken_rec (p.max_error - p.Error_count) p slot

/-- The method `tokens.Remove(tokens.Back())`; `Back()` of an empty list is
nil and `Remove(nil)` panics. -/
def removeBack (l : List (Option Token)) : Except Fault (List (Option Token)) :=
  match l with
  | [] => .error .panic
  | _ :: _ => .ok l.dropLast

/-- The first statement of `NextToken`: after a change of the lexer state the
lookahead is rejected, so that it is read again under the new state. -/
def NextToken_reject (p : DocoptParser) : Except Fault DocoptParser :=
  match p.next_token with
  | some nt =>
    if p.lexer_state_changed then do
      let toks ← removeBack p.tokens
      pure { p with s := p.s.Reject nt, lexer_state_changed := false,
                    next_token := none, tokens := toks }
    else pure p
  | none => pure p

/-- The second statement of `NextToken`: the lookahead, or else a token read
from the lexer, becomes the current token. -/
def NextToken_current (p : DocoptParser) : Except Fault DocoptParser :=
  match p.next_token with
  | some nt => pure { p with current_token := some nt }
  | none => do
    let (_, p1) ← try_get_NextToken p .current
    pure p1

/-- The end of `NextToken`: the check of the error budget and
`p.tokens.PushBack(p.current_token)`. -/
def NextToken_finish (p : DocoptParser) : DocoptParser :=
  let p := if p.Error_count ≥ p.max_error then FatalError p "too many error leaving" else p
  { p with tokens := p.tokens ++ [p.current_token] }

def NextToken (p : DocoptParser) : Except Fault DocoptParser := do
  let p ← NextToken_reject p
  let p ← NextToken_current p
  let (_, p) ← try_get_NextToken p .next
  pure (NextToken_finish p)

def reject_current_token (p : DocoptParser) : Except Fault DocoptParser := do
  let t ← deref p.current_token
  let toks ← removeBack p.tokens
  pure { p with s := p.s.Reject t, next_token := none, current_token := none, tokens := toks }

def Change_lexer_state (p : DocoptParser) (new_state : String) : DocoptParser :=
  { p with lexer_state_changed := true, s := p.s.ChangeState new_state }

def CreateNode (p : DocoptParser) (node_type : DocoptNodeType) (token : Option Token) :
    Except Fault DocoptParser := do
  let p ←
    match p.current_node with
    | none =>
      pure { p with
        heap := p.heap ++ [{ Typ := node_type, Token := token, Parent := none,
                             Children := [], Repeat := false }]
        current_node := some p.heap.length }
    | some c => do
      let (n, h) ← AddNode p.heap c node_type token
      pure { p with heap := h, current_node := some n }
  pure (if p.ast.isNone then { p with ast := p.current_node } else p)

/-- The call `p.current_node.AddNode(t, token)` with the result discarded. -/
def addToCurrent (p : DocoptParser) (t : DocoptNodeType) (token : Option Token) :
    Except Fault DocoptParser := do
  let c ← deref p.current_node
  let (_, h) ← AddNode p.heap c t token
  pure { p with heap := h }

/-- The kind of the current token, `p.current_token.Type`. -/
def curType (p : DocoptParser) : Except Fault TokenKind := do
  let t ← deref p.current_token
  pure t.Typ

/-- The kind of the lookahead token, `p.next_token.Type`. -/
def nextType (p : DocoptParser) : Except Fault TokenKind := do
  let t ← deref p.next_token
  pure t.Typ

/-- The kind of the current node, `p.current_node.Type`. -/
def curNodeType (p : DocoptParser) : Except Fault DocoptNodeType := do
  let c ← deref p.current_node
  let nd ← node p.heap c
  pure nd.Typ


/-! ## The consume loop and the usage section -/

/-- Result of a consume function: `(Reason, error)` and the parser after it. -/
abbrev ConsumeResult := Except Fault (Reason × Option String × DocoptParser)

/-- Result of a method returning `error`, and the parser after it. -/
abbrev StepResult := Except Fault (Option String × DocoptParser)

structure Consumer_Definition where
  create_self_node : Bool
  create_node : Bool
  toplevel_node : DocoptNodeType
  save_current_node : Bool
  reject_first_token : Bool
  consume_func : DocoptParser → ConsumeResult

/-- Rendering of an `error` by `%s`. -/
def fmtErr : Option String → String
  | none => "%!s(<nil>)"
  | some e => e

def ensure_node (p : DocoptParser) (node_type : DocoptNodeType) : Except Fault DocoptParser := do
  let c ← deref p.current_node
  let nd ← node p.heap c
  if nd.Typ ≠ node_type then do
    let (n, h) ← AddNode p.heap c node_type none
    pure { p with heap := h, current_node := some n }
  else pure p

def has_reach_EOF (p : DocoptParser) (reason : Reason) : Except Fault (Bool × Reason) := do
  let t ← curType p
  if t = .EOF then pure (true, EOF_reached) else pure (false, reason)

def has_reach_two_NEWLINE (p : DocoptParser) (reason : Reason) (consume_newline : Bool) :
    Except Fault (Bool × Reason × DocoptParser) := do
  let t ← curType p
  if t = .NEWLINE then do
    let n ← nextType p
    if n = .NEWLINE then do
      let p ← if consume_newline then NextToken p else pure p
      pure (true, TWO_NEWLINE, p)
    else pure (false, reason, p)
  else pure (false, reason, p)

/-- The element `k` steps before the back of the token history. -/
def fromBack (l : List (Option Token)) (k : Nat) : Except Fault Token := do
  let e ← deref l.reverse[k]?
  deref e

def has_reach_PROG_NAME (p : DocoptParser) (reason : Reason) : Except Fault (Bool × Reason) :=
  match p.current_token with
  | none => pure (false, reason)
  | some t =>
    if t.Typ = .PROG_NAME ∧ t.Value = p.Prog_name then
      if p.tokens.length > 3 then do
        let t2 ← fromBack p.tokens 2
        if t2.Typ = .NEWLINE then do
          let t1 ← fromBack p.tokens 1
          if t1.Typ = .LONG_BLANK then pure (true, PROG_NAME_sequence)
          else pure (false, reason)
        else pure (false, reason)
      else pure (false, reason)
    else pure (false, reason)

def Consume_ellipsis (p : DocoptParser) : StepResult := do
  let c ← deref p.current_node
  let nd ← node p.heap c
  match nd.Children.getLast? with
  | some l => do
    let ln ← node p.heap l
    pure (none, { p with heap := p.heap.set l { ln with Repeat := true } })
  | none =>
    pure (some (nd.Typ.String ++
      ": elipsis not expected on such node without Children, invalid Token: " ++
      fmtToken p.current_token), p)

def Consume_assign (p : DocoptParser) (argument : Option Token) : StepResult := do
  let arg ← deref argument
  if arg.Typ ≠ .ARGUMENT then do
    let t ← curNodeType p
    pure (some (t.String ++ ": Consume_assign must be followed by ARGUMENT, invalid token: " ++
      fmtToken argument), p)
  else do
    let c ← deref p.current_node
    let nd ← node p.heap c
    match nd.Children.getLast? with
    | none =>
      pure (some ("Consume_assign: current_node must have an option child, invalid Token: " ++
        fmtToken p.current_token), p)
    | some prev_child => do
      let pn ← node p.heap prev_child
      let attach := fun (node_type : DocoptNodeType) => do
        let (_, h) ← AddNode p.heap prev_child node_type argument
        pure (none, { p with heap := h })
      match pn.Typ with
      | .Usage_long_option => attach .Usage_argument
      | .Option_long => attach .Option_argument
      | .Option_short => attach .Option_argument
      | _ =>
        pure (some ("Consume_assign: node " ++ pn.Typ.String ++
          " cannot have assignment '=', invalid Token: " ++ fmtToken p.current_token), p)

/-- The loop `for p.run { p.NextToken(); reason, err = c.consume_func(p); ... }`
of `Consume_loop`. -/
def Consume_loop_iter (consume_func : DocoptParser → ConsumeResult) :
    Nat → Reason → Option String → DocoptParser → ConsumeResult
  | fuel, reason, err, p =>
    if p.run then
      match fuel with
      | 0 => .error .fuel
      | n + 1 => do
        let p ← NextToken p
        let (reason, err, p) ← consume_func p
        if err.isSome ∨ reason.Leaving then pure (reason, err, p)
        else Consume_loop_iter consume_func n reason err p
    else pure (reason, err, p)

/-- The statements of `Consume_loop(t)` before its loop, for the definition
`c = p.Parse_def[t]`: the self node, the top-level node and the push-back of
the current token. -/
def Consume_loop_enter (c : Consumer_Definition) (t : DocoptNodeType) (p : DocoptParser) :
    Except Fault DocoptParser := do
  let p ←
    if c.create_self_node then do
      let cur ← deref p.current_node
      let (n, h) ← AddNode p.heap cur t none
      pure { p with heap := h, toplevel := (t, n) :: p.toplevel, current_node := some n }
    else pure p
  let p ←
    if c.create_node then do
      let cur ← deref p.current_node
      let (n, h) ← AddNode p.heap cur c.toplevel_node none
      let top := if (p.toplevel.lookup t).isNone then (t, n) :: p.toplevel else p.toplevel
      pure { p with heap := h, toplevel := top, current_node := some n }
    else pure p
  if c.reject_first_token then reject_current_token p else pure p

/-- The statements of `Consume_loop(t)` after its loop: the current node saved
on entry is restored, or the stop of the parser is reported. -/
def Consume_loop_exit (c : Consumer_Definition) (t : DocoptNodeType)
    (saved_current_node : Option Nat) (res : Reason × Option String × DocoptParser) :
    ConsumeResult :=
  if res.2.2.run then
    pure (res.1, res.2.1,
      if c.save_current_node then { res.2.2 with current_node := saved_current_node }
      else res.2.2)
  else do
    let nt ← curNodeType res.2.2
    pure (Error, some (nt.String ++ ": Consume_loop(" ++ t.String ++ ") parser stoped: " ++
      fmtErr res.2.1), res.2.2)

/-- The body of `Consume_loop(t)` for the definition `c = p.Parse_def[t]`. -/
def Consume_loop_with (c : Consumer_Definition) (t : DocoptNodeType) (fuel : Nat)
    (p : DocoptParser) : ConsumeResult := do
  let saved_current_node := if c.save_current_node then p.current_node else none
  let p0 ← Consume_loop_enter c t p
  let res ← Consume_loop_iter c.consume_func fuel Reason.zero none p0
  Consume_loop_exit c t saved_current_node res

/-- The definition `Parse_def[Usage_optional_group]`, which
`Parse_def[Usage_required_group]` copies, over the consume function. -/
def group_def (consume_func : DocoptParser → ConsumeResult) : Consumer_Definition :=
  { create_self_node := true
    create_node := true
    toplevel_node := .Usage_Expr
    save_current_node := true
    reject_first_token := false
    consume_func := consume_func }

/-- The consume function of the groups.  `fuel` bounds the nesting of the groups
and the iterations of the loops inside. -/
def Consume_group : Nat → DocoptParser → ConsumeResult
  | 0, _ => .error .fuel
  | fuel + 1, p => do
    let tok ← deref p.current_token
    let terminal := fun (n : DocoptNodeType) => do
      let p ← addToCurrent p n p.current_token
      pure (Continue, none, p)
    match tok.Typ with
    | .EOF | .PROG_NAME => do
      let nt ← curNodeType p
      pure (Error, some (nt.String ++ ": " ++ tok.Typ.name ++
        " unexpected, missing closing bracket ']'"), p)
    | .USAGE => do
      let nt ← curNodeType p
      pure (Error, some (nt.String ++ ": USAGE invalid Token: " ++ fmtToken p.current_token), p)
    | .IDENT => terminal .Usage_command
    | .NEWLINE => do
      let n ← nextType p
      if n = .NEWLINE then do
        let nt ← curNodeType p
        pure (Error, some (nt.String ++ ": 2 consecutive NEWLINE invalid Token: " ++
          fmtToken p.current_token), p)
      else pure (Continue, none, p)
    | .SHORT => terminal .Usage_short_option
    | .LONG => terminal .Usage_long_option
    | .ARGUMENT => terminal .Usage_argument
    | .PUNCT =>
      if tok.Value = "[" then do
        let (_, err, p) ←
          Consume_loop_with (group_def (Consume_group fuel)) .Usage_optional_group fuel p
        if err.isSome then pure (Error, err, p) else pure (Continue, none, p)
      else if tok.Value = "(" then do
        let (_, err, p) ←
          Consume_loop_with (group_def (Consume_group fuel)) .Usage_required_group fuel p
        if err.isSome then pure (Error, err, p) else pure (Continue, none, p)
      else if tok.Value = "|" then do
        let c ← deref p.current_node
        let nd ← node p.heap c
        let par ← deref nd.Parent
        let pn ← node p.heap par
        if pn.Typ = .Usage_optional_group ∨ pn.Typ = .Usage_required_group then do
          let (n, h) ← AddNode p.heap par .Usage_Expr none
          pure (Continue, none, { p with heap := h, current_node := some n })
        else
          pure (Error, some (nd.Typ.String ++ ": unexpected parent node: " ++ pn.Typ.String ++
            " " ++ fmtToken p.current_token), p)
      else if tok.Value = "]" then do
        let c ← deref p.current_node
        let nd ← node p.heap c
        let par ← deref nd.Parent
        let pn ← node p.heap par
        if pn.Typ ≠ .Usage_optional_group then
          pure (Error, some (nd.Typ.String ++
            ": closing bracket unexpected, invalid Token: " ++ fmtToken p.current_token), p)
        else pure (END_OF_Group, none, p)
      else if tok.Value = ")" then do
        let c ← deref p.current_node
        let nd ← node p.heap c
        let par ← deref nd.Parent
        let pn ← node p.heap par
        if pn.Typ ≠ .Usage_required_group then
          pure (Error, some (nd.Typ.String ++
            ": closing parenthese unexpected, invalid Token: " ++ fmtToken p.current_token), p)
        else pure (END_OF_Group, none, p)
      else if tok.Value = "=" then do
        let (err, p) ← Consume_assign p p.next_token
        if err.isSome then pure (Error, err, p)
        else do
          let p ← NextToken p
          pure (Continue, none, p)
      else if tok.Value = "..." then do
        let (err, p) ← Consume_ellipsis p
        if err.isSome then pure (Error, err, p) else pure (Continue, none, p)
      else do
        let nt ← curNodeType p
        pure (Error, some (nt.String ++ ": unmatched PUNCT, invalid Token: " ++
          fmtToken p.current_token), p)
    | _ => do
      let nt ← curNodeType p
      pure (Error, some (nt.String ++ ": unmatched node, invalid Token: " ++
        fmtToken p.current_token), p)

/-- The re-parenting loop `for _, c := range group_node.Children { c.Parent = group_node }`. -/
def set_parents (h : Heap) (children : List Nat) (group_node : Nat) : Except Fault Heap :=
  children.foldlM
    (fun acc c => do
      let cn ← node acc c
      pure (acc.set c { cn with Parent := some group_node })) h

/-- The branch `parent.Type == Usage_line` of the case `"|"` of
`Consume_Usage_Expr`: the alternative-group surgery on the usage line
`parent`. -/
def pipe_surgery (p : DocoptParser) (parent : Nat) : Except Fault DocoptParser := do
  let expr_parent_group := p.heap.length
  let h := p.heap ++ [{ Typ := .Usage_Expr, Token := none, Parent := some parent,
                        Children := [], Repeat := false }]
  let (group_node, h) ← AddNode h expr_parent_group .Usage_required_group none
  let pn ← node h parent
  match pn.Children with
  | [] => .error .panic
  | first :: rest => do
    let gn ← node h group_node
    let h := h.set group_node { gn with Children := rest }
    let h ← set_parents h rest group_node
    let pn ← node h parent
    let h := h.set parent { pn with Children := [first, expr_parent_group] }
    pure { p with heap := h, current_node := some group_node }

def Consume_Usage_Expr (fuel : Nat) (p : DocoptParser) : ConsumeResult := do
  let reason := Reason.zero
  let (b, reason) ← has_reach_EOF p reason
  if b then pure (reason, none, p)
  else do
  let (b, reason, p) ← has_reach_two_NEWLINE p reason true
  if b then pure (reason, none, p)
  else do
  let (b, reason) ← has_reach_PROG_NAME p reason
  if b then pure (reason, none, p)
  else do
  let tok ← deref p.current_token
  let terminal := fun (n : DocoptNodeType) => do
    let p ← ensure_node p .Usage_Expr
    let p ← addToCurrent p n p.current_token
    pure (reason, none, p)
  let group := fun (n : DocoptNodeType) => do
    let p ← ensure_node p .Usage_Expr
    let (_, err, p) ← Consume_loop_with (group_def (Consume_group fuel)) n fuel p
    if err.isSome then pure (Error, err, p)
    else do
      let nt ← curNodeType p
      let p := if nt ≠ .Usage_Expr then
          FatalError p ("Consume_loop(" ++ n.String ++ ") did not restore current_node: " ++
            nt.String)
        else p
      pure (Continue, none, p)
  match tok.Typ with
  | .NEWLINE | .LONG_BLANK => pure (Continue, none, p)
  | .SHORT => terminal .Usage_short_option
  | .LONG => terminal .Usage_long_option
  | .ARGUMENT => terminal .Usage_argument
  | .PUNCT =>
    if tok.Value = "[" then group .Usage_optional_group
    else if tok.Value = "(" then group .Usage_required_group
    else if tok.Value = "..." then do
      let p ← ensure_node p .Usage_Expr
      let (err, p) ← Consume_ellipsis p
      if err.isSome then pure (Error, err, p) else pure (Continue, none, p)
    else if tok.Value = "=" then do
      let p ← ensure_node p .Usage_Expr
      let (err, p) ← Consume_assign p p.next_token
      if err.isSome then pure (Error, err, p)
      else do
        let p ← NextToken p
        pure (Continue, none, p)
    else if tok.Value = "|" then do
      let c ← deref p.current_node
      let nd ← node p.heap c
      if nd.Typ ≠ .Usage_Expr then
        pure (Error, some (nd.Typ.String ++ ": current node error: " ++
          fmtToken p.current_token), p)
      else do
        let parent ← deref nd.Parent
        let pn ← node p.heap parent
        if pn.Typ = .Usage_line then do
          let p ← pipe_surgery p parent
          pure (Continue, none, p)
        else if pn.Typ = .Usage_required_group then do
          let (n, h) ← AddNode p.heap parent .Usage_Expr none
          pure (Continue, none, { p with heap := h, current_node := some n })
        else
          pure (Error, some (nd.Typ.String ++ ": current node error, unexpected parent node: " ++
            pn.Typ.String ++ " " ++ fmtToken p.current_token), p)
    else
      pure (Error, some ("unmatched PUNC: " ++ fmtToken p.current_token), p)
  | .IDENT => terminal .Usage_command
  | _ =>
    let e := "Consume_Usage_Expr: Unmatched token: " ++ fmtToken p.current_token
    pure (Error, some e, AddError p e)

/-- The table `Parse_def` filled in by `ParserInit`. -/
def Parse_def (fuel : Nat) : DocoptNodeType → Option Consumer_Definition
  | .Usage_Expr =>
    some { create_self_node := false
           create_node := false
           toplevel_node := .NONE_node
           save_current_node := true
           reject_first_token := true
           consume_func := Consume_Usage_Expr fuel }
  | .Usage_optional_group => some (group_def (Consume_group fuel))
  | .Usage_required_group => some (group_def (Consume_group fuel))
  | _ => none

def Consume_loop (fuel : Nat) (t : DocoptNodeType) (p : DocoptParser) : ConsumeResult := do
  let c ← deref (Parse_def fuel t)
  Consume_loop_with c t fuel p

/-- Modelled from the spec: `strings.EqualFold` on the section keywords, a
comparison under case folding limited to ASCII. -/
def EqualFold (a b : String) : Bool :=
  a.data.map Char.toLower = b.data.map Char.toLower

/-- The error `"%s: parser stoped"` returned after a loop the run flag ended. -/
def parser_stoped (p : DocoptParser) : StepResult := do
  let nt ← curNodeType p
  pure (some (nt.String ++ ": parser stoped"), p)

def Consume_Prologue_loop : Nat → DocoptParser → StepResult
  | fuel, p =>
    if p.run then
      match fuel with
      | 0 => .error .fuel
      | n + 1 => do
        let p ← NextToken p
        let t ← curType p
        if t = .USAGE then do
          let root ← deref p.ast
          let (usage_node, h) ← AddNode p.heap root .Usage_section none
          let (_, h) ← AddNode h usage_node .Usage p.current_token
          pure (none, { p with heap := h, usage_node := some usage_node,
                               current_node := some usage_node })
        else do
          let p ← addToCurrent p .Prologue_node p.current_token
          if t = .EOF then
            pure (some "EOF encountered will parsing Prologue, without 'Usage:' found", p)
          else Consume_Prologue_loop n p
    else parser_stoped p

def Consume_Prologue (fuel : Nat) (p : DocoptParser) : StepResult := do
  let p ← CreateNode p .Prologue none
  Consume_Prologue_loop fuel p

def Consume_First_Program_Usage_loop : Nat → DocoptParser → StepResult
  | fuel, p =>
    if p.run then
      match fuel with
      | 0 => .error .fuel
      | n + 1 => do
        let p ← NextToken p
        let tok ← deref p.current_token
        if tok.Typ = .PROG_NAME then do
          let p := { p with Prog_name := tok.Value }
          let p := { p with s := p.s.DynamicRuleUpdate "PROG_NAME" p.Prog_name }
          let c ← deref p.current_node
          let (usage_line, h) ← AddNode p.heap c .Usage_line none
          let (_, h) ← AddNode h usage_line .Prog_name p.current_token
          pure (none, { p with heap := h, current_node := some usage_line })
        else if tok.Typ = .BLANK then Consume_First_Program_Usage_loop n p
        else if tok.Typ = .NEWLINE then do
          let nx ← nextType p
          if nx = .NEWLINE then
            if p.Prog_name = "" then
              pure (some ("Consume_First_Program_Usage: PROG_NAME not defined while leaving " ++
                "on 2 consecutive NEWLINE: " ++ fmtToken p.current_token), p)
            else do
              let p ← NextToken p
              pure (none, p)
          else Consume_First_Program_Usage_loop n p
        else
          pure (some ("Consume_First_Program_Usage: expecting PROG_NAME, got: " ++
            tok.Typ.name), p)
    else parser_stoped p

def Consume_First_Program_Usage (fuel : Nat) (p : DocoptParser) : StepResult :=
  Consume_First_Program_Usage_loop fuel (Change_lexer_state p "state_First_Program_Usage")

def Consume_Usage_line_loop (usage_section : Nat) : Nat → DocoptParser → StepResult
  | fuel, p =>
    if p.run then
      match fuel with
      | 0 => .error .fuel
      | n + 1 => do
        let p ← NextToken p
        let (b, _) ← has_reach_EOF p Reason.zero
        if b then pure (none, p)
        else do
        let tok ← deref p.current_token
        if tok.Typ = .PROG_NAME then
          if p.Prog_name ≠ tok.Value then
            pure (some ("Consume_Usage_line:(" ++ p.s.Current_state ++
              ") PROG_NAME encountered with a distinct value:" ++ p.Prog_name ++
              ", invalid Token: '" ++ fmtToken p.current_token ++ "' extracted with: " ++
              p.s.Current_state), p)
          else Consume_Usage_line_loop usage_section n p
        else if tok.Typ = .USAGE then
          pure (some ("Consume_Usage_line: USAGE invalid Token: " ++ fmtToken p.current_token), p)
        else do
        let (reason, err, p) ← Consume_loop n .Usage_Expr p
        if err.isSome then pure (err, p)
        else if reason = TWO_NEWLINE ∨ reason = EOF_reached then pure (none, p)
        else if reason = PROG_NAME_sequence then do
          let (usage_line, h) ← AddNode p.heap usage_section .Usage_line none
          let (_, h) ← AddNode h usage_line .Prog_name p.current_token
          let (e, h) ← AddNode h usage_line .Usage_Expr none
          Consume_Usage_line_loop usage_section n { p with heap := h, current_node := some e }
        else
          Consume_Usage_line_loop usage_section n
            (FatalError p "switch default not supposed to be reached")
    else parser_stoped p

def Consume_Usage_line (fuel : Nat) (p : DocoptParser) : StepResult := do
  let p := Change_lexer_state p "state_Usage_Line"
  let c ← deref p.current_node
  let nd ← node p.heap c
  let usage_section ← deref nd.Parent
  let un ← node p.heap usage_section
  if un.Typ ≠ .Usage_section then
    pure (some ("wrong node Type: '" ++ un.Typ.String ++ "' expected Usage_section"), p)
  else Consume_Usage_line_loop usage_section fuel p

def Consume_Usage (fuel : Nat) (p : DocoptParser) : StepResult := do
  let (err, p) ← Consume_First_Program_Usage fuel p
  if err.isSome then pure (err, p)
  else do
    let (err, p) ← Consume_Usage_line fuel p
    if err.isSome then pure (err, p) else pure (none, p)

/-! ## Free sections -/

/-- The statements of `Consume_Free_section` before its loop. -/
def Free_section_enter (p : DocoptParser) : Except Fault DocoptParser := do
  let p := if p.s.Current_state ≠ "state_Free" then Change_lexer_state p "state_Free" else p
  let root ← deref p.ast
  let (n, h) ← AddNode p.heap root .Free_section none
  let p := { p with heap := h, current_node := some n }
  let t ← curType p
  if t = .SECTION then addToCurrent p .Section_name p.current_token else pure p

/-- The loop of `Consume_Free_section`; the call `return p.Consume_Free_section()`
in it is a tail call, so it re-enters and goes on with the loop of the new
section. -/
def Consume_Free_section_loop : Nat → DocoptParser → StepResult
  | fuel, p =>
    if p.run then
      match fuel with
      | 0 => .error .fuel
      | n + 1 => do
        let p ← NextToken p
        let tok ← deref p.current_token
        if tok.Typ = .EOF then pure (none, p)
        else if tok.Typ = .SECTION then
          if EqualFold tok.Value "options:" then pure (none, p)
          else if EqualFold tok.Value "usage:" then do
            let nt ← curNodeType p
            pure (some (nt.String ++ ": Usage: token found outside Usage_section: " ++
              fmtToken p.current_token), p)
          else do
            let c ← deref p.current_node
            let nd ← node p.heap c
            if nd.Children.length = 0 then do
              let p ← addToCurrent p .Section_name p.current_token
              Consume_Free_section_loop n p
            else do
              let p ← Free_section_enter p
              Consume_Free_section_loop n p
        else do
          let p ← addToCurrent p .Section_node p.current_token
          Consume_Free_section_loop n p
    else parser_stoped p

def Consume_Free_section (fuel : Nat) (p : DocoptParser) : StepResult := do
  let p ← Free_section_enter p
  Consume_Free_section_loop fuel p

/-! ## The options section -/

def Consume_option_default (p : DocoptParser) : StepResult :=
  pure (none, p)

def Consume_option_description_loop (description : Nat) :
    Nat → Nat → DocoptParser → StepResult
  | fuel, current_line, p =>
    if p.run then
      match fuel with
      | 0 => .error .fuel
      | n + 1 => do
        let p ← NextToken p
        let tok ← deref p.current_token
        let collect := fun (current_line : Nat) => do
          let (_, h) ← AddNode p.heap description .Description_node p.current_token
          Consume_option_description_loop description n current_line { p with heap := h }
        match tok.Typ with
        | .NEWLINE => do
          let current_line := current_line + 1
          let nx ← nextType p
          if nx = .NEWLINE then do
            let (_, h) ← AddNode p.heap description .Description_node p.current_token
            let p ← NextToken { p with heap := h }
            pure (none, p)
          else collect current_line
        | .EOF => pure (none, p)
        | .LONG_BLANK => do
          let nx ← if current_line > 0 then nextType p else pure .OTHER
          if current_line > 0 ∧ (nx = .SHORT ∨ nx = .LONG) then do
            let p ← reject_current_token p
            pure (none, p)
          else collect current_line
        | .DEFAULT => Consume_option_default p
        | _ => collect current_line
    else parser_stoped p

def Consume_option_description (fuel : Nat) (p : DocoptParser) : StepResult := do
  let c ← deref p.current_node
  let (description, h) ← AddNode p.heap c .Option_description none
  Consume_option_description_loop description fuel 0 { p with heap := h }

/-- The loop `forLoopOptionLine` of `Consume_option_line`; the result holds the
function's variable `err` at the `break`. -/
def Consume_option_line_loop : Nat → Option String → DocoptParser → StepResult
  | fuel, err, p =>
    if p.run then
      match fuel with
      | 0 => .error .fuel
      | n + 1 => do
        let p ← NextToken p
        let tok ← deref p.current_token
        match tok.Typ with
        | .EOF | .NEWLINE => do
          let c ← deref p.current_node
          let nd ← node p.heap c
          if nd.Children.length = 0 then
            pure (some (nd.Typ.String ++ ": " ++ tok.Typ.name ++
              " unexpected empty option, invalid Token: " ++ fmtToken p.current_token), p)
          else pure (err, p)
        | .LONG_BLANK => Consume_option_description n p
        | .SHORT => do
          let p ← addToCurrent p .Option_short p.current_token
          Consume_option_line_loop n err p
        | .LONG => do
          let p ← addToCurrent p .Option_long p.current_token
          Consume_option_line_loop n err p
        | .ARGUMENT => do
          let (err, p) ← Consume_assign p p.current_token
          if err.isSome then pure (err, p) else Consume_option_line_loop n err p
        | .PUNCT =>
          if tok.Value = "," then Consume_option_line_loop n err p
          else if tok.Value = "=" then do
            -- `if err := p.Consume_assign(p.next_token); err != nil` declares a new
            -- variable `err` in the scope of the `if`
            let (err1, p) ← Consume_assign p p.next_token
            if err1.isSome then pure (err, p)
            else do
              let p ← NextToken p
              Consume_option_line_loop n err p
          else do
            let nt ← curNodeType p
            pure (some (nt.String ++ ": unexpected PUNC, invalid Token: " ++
              fmtToken p.current_token), p)
        | _ => do
          let nt ← curNodeType p
          pure (some (nt.String ++ ": Consume_option_line invalid Token: " ++
            fmtToken p.current_token), p)
    else pure (err, p)

def Consume_option_line (fuel : Nat) (p : DocoptParser) : StepResult := do
  let saved_node := p.current_node
  let c ← deref p.current_node
  let (option_line, h) ← AddNode p.heap c .Option_line none
  let p := { p with heap := h, current_node := some option_line }
  let (err, p) ← Consume_option_line_loop fuel none p
  if p.run then pure (err, { p with current_node := saved_node })
  else parser_stoped p

def Consume_option_alternative_loop : Nat → DocoptParser → StepResult
  | fuel, p =>
    if p.run then
      match fuel with
      | 0 => .error .fuel
      | n + 1 => do
        let p ← NextToken p
        let tok ← deref p.current_token
        match tok.Typ with
        | .EOF | .LONG_BLANK | .NEWLINE => do
          let c ← deref p.current_node
          let nd ← node p.heap c
          if nd.Children.length ≤ 1 then
            pure (some (nd.Typ.String ++ ": " ++ tok.Typ.name ++
              " unexpected without matchin alternative option name, invalid Token: " ++
              fmtToken p.current_token), p)
          else pure (none, p)
        | .SHORT => do
          let p ← addToCurrent p .Option_short p.current_token
          Consume_option_alternative_loop n p
        | .LONG => do
          let p ← addToCurrent p .Option_long p.current_token
          Consume_option_alternative_loop n p
        | .PUNCT =>
          if tok.Value = "," then Consume_option_alternative_loop n p
          else if tok.Value = "=" then do
            let (err, p) ← Consume_assign p p.next_token
            if err.isSome then pure (err, p)
            else do
              let p ← NextToken p
              Consume_option_alternative_loop n p
          else do
            let nt ← curNodeType p
            pure (some (nt.String ++ ": unexpected PUNC, invalid Token: " ++
              fmtToken p.current_token), p)
        | _ => do
          let nt ← curNodeType p
          pure (some (nt.String ++ ": unexpected Token, invalid Token: " ++
            fmtToken p.current_token), p)
    else parser_stoped p

def Consume_option_alternative (fuel : Nat) (p : DocoptParser) : StepResult := do
  let c ← deref p.current_node
  let nd ← node p.heap c
  if nd.Typ ≠ .Option_alternative_group then
    if nd.Children.length = 0 then
      pure (some (nd.Typ.String ++
        ": comma unexpected without alternative option name, invalid Token: " ++
        fmtToken p.current_token), p)
    else do
      let (g, h) ← Replace_children_with_group p.heap c .Option_alternative_group
      Consume_option_alternative_loop fuel { p with heap := h, current_node := some g }
  else Consume_option_alternative_loop fuel p

def Consume_Options_loop : Nat → Option String → DocoptParser → StepResult
  | fuel, err, p =>
    if p.run then
      match fuel with
      | 0 => .error .fuel
      | n + 1 => do
        let p ← NextToken p
        let tok ← deref p.current_token
        if tok.Typ = .EOF then pure (none, p)
        else do
        let nx ← if tok.Typ = .NEWLINE then nextType p else pure .OTHER
        if tok.Typ = .NEWLINE ∧ nx = .NEWLINE then do
          let p ← NextToken p
          pure (none, p)
        else
        match tok.Typ with
        | .SECTION => pure (none, p)
        | .LONG_BLANK => do
          let nx ← nextType p
          if nx = .SHORT ∨ nx = .LONG then do
            let (err, p) ← Consume_option_line n p
            if err.isSome then pure (err, p) else Consume_Options_loop n err p
          else Consume_Options_loop n err p
        | .NEWLINE => Consume_Options_loop n err p
        | _ => do
          let p ← addToCurrent p .Options_node p.current_token
          Consume_Options_loop n err p
    else do
      let nt ← curNodeType p
      pure (some (nt.String ++ ": parser stoped: " ++ fmtErr err), p)

def Consume_Options (fuel : Nat) (p : DocoptParser) : StepResult := do
  let root ← deref p.ast
  let (section_node, h) ← AddNode p.heap root .Options_section none
  let p := { p with heap := h, options_node := some section_node }
  let tok ← deref p.current_token
  if tok.Typ ≠ .SECTION ∨ ¬ EqualFold tok.Value "options:" then pure (none, p)
  else do
    let p := Change_lexer_state p "state_Options"
    let (_, h) ← AddNode p.heap section_node .Section_name p.current_token
    Consume_Options_loop fuel none { p with heap := h, current_node := some section_node }

/-! ## The driver -/

/-- One round of the loop `for _, step := range parse` of `Parse`. -/
def Parse_step (step : DocoptParser → StepResult) (p : DocoptParser) :
    Except Fault DocoptParser := do
  let (err, p) ← step p
  if err.isSome then pure { p with Error_count := p.Error_count + 1 } else pure p

/-- The method `Parse`; the result is the parser after it, whose `ast` is the
value returned. -/
def Parse (fuel : Nat) (p : DocoptParser) : Except Fault DocoptParser := do
  let p ← CreateNode p .Root none
  let p ← Parse_step (Consume_Prologue fuel) p
  let p ← Parse_step (Consume_Usage fuel) p
  let p ← Parse_step (Consume_Free_section fuel) p
  let p ← Parse_step (Consume_Options fuel) p
  let p ← Parse_step (Consume_Free_section fuel) p
  pure p

/-! ## The options map -/

structure OptionRule where
  Long : Option String
  Short : Option String
  Arg_count : Int
  Default_value : Option String
  Argument_name : Option String
  deriving DecidableEq, Repr

/-- The value `&OptionRule{}`. -/
def OptionRule.empty : OptionRule :=
  { Long := none, Short := none, Arg_count := 0, Default_value := none, Argument_name := none }

/-- The map `OptionsMap` from literals to rule pointers, and the store of the
rules allocated: the pointer `r` denotes the `r`-th rule allocated. -/
structure OptionsMap where
  entries : List (String × Nat)
  rules : List OptionRule
  deriving DecidableEq, Repr

/-- The lookup `options[key]`. -/
def OptionsMap.get (m : OptionsMap) (key : String) : Option Nat :=
  m.entries.lookup key

/-- The statements run when `len(s.Children) == 1 && s.Children[0].Type ==
Option_argument`. -/
def rule_argument (h : Heap) (s : DocoptAst) (r : OptionRule) : Except Fault OptionRule :=
  match s.Children with
  | [a] => do
    let an ← node h a
    if an.Typ = .Option_argument then do
      let t ← deref an.Token
      pure { r with Arg_count := 1, Argument_name := some t.Value }
    else pure r
  | _ => pure r

/-- The body of the loop `for _, s := range o.Children` on the child `s`: the
rule `r` and the entries of the map after it; `options[*r.Long] = r` puts the
pointer `rid` of the rule under the literal. -/
def rule_step (h : Heap) (rid : Nat) (acc : OptionRule × List (String × Nat)) (s : Nat) :
    Except Fault (OptionRule × List (String × Nat)) := do
  let sn ← node h s
  let (r, entries) := acc
  let (r, entries) ←
    if sn.Typ = .Option_long then do
      let t ← deref sn.Token
      let r := { r with Long := some t.Value }
      let r ← rule_argument h sn r
      pure (r, (t.Value, rid) :: entries)
    else pure (r, entries)
  if sn.Typ = .Option_short then do
    let t ← deref sn.Token
    let r := { r with Short := some t.Value }
    let r ← rule_argument h sn r
    pure (r, (t.Value, rid) :: entries)
  else pure (r, entries)

/-- The body of the loop `for _, o := range p.options_node.Children` on the
child `o`: for an `Option_line`, `r := &OptionRule{}` allocates the next rule
pointer and the rule it points to is stored once the children are done. -/
def line_step (h : Heap) (m : OptionsMap) (o : Nat) : Except Fault OptionsMap := do
  let ln ← node h o
  if ln.Typ ≠ .Option_line then pure m
  else do
    let rid := m.rules.length
    let (r, entries) ← ln.Children.foldlM (rule_step h rid) (OptionRule.empty, m.entries)
    pure { entries := entries, rules := m.rules ++ [r] }

/-- The method `transform_Options_section_to_map`: the map (nil, here
`none`, when `options_node` is nil) and the error. -/
def transform_Options_section_to_map (p : DocoptParser) :
    Except Fault (Option OptionsMap × Option String) :=
  match p.options_node with
  | none => pure (none, some "error: options_node is nil")
  | some sec => do
    let nd ← node p.heap sec
    let m ← nd.Children.foldlM (line_step p.heap) { entries := [], rules := [] }
    pure (some m, none)

/-! ## Notions used in the statements -/

/-- The literal under which `transform_Options_section_to_map` registers the
child `s` of an option line: the token value of an `Option_long` or
`Option_short` node. -/
def option_key (h : Heap) (s : Nat) : Option String :=
  match h[s]? with
  | some sn =>
    if sn.Typ = .Option_long ∨ sn.Typ = .Option_short then sn.Token.map (·.Value) else none
  | none => none

/-- The literals registered for the child `o` of the options section: those of
the option children of an `Option_line`, in order; none for another node. -/
def line_keys (h : Heap) (o : Nat) : List String :=
  match h[o]? with
  | some ln => if ln.Typ = .Option_line then ln.Children.filterMap (option_key h) else []
  | none => []

/-- The child `s` of an option line carries an argument: it is an `Option_long`
or `Option_short` node with exactly one child, and that child is an
`Option_argument`. -/
def carries_argument (h : Heap) (s : Nat) : Bool :=
  match h[s]? with
  | some sn =>
    (sn.Typ = .Option_long ∨ sn.Typ = .Option_short) &&
      match sn.Children with
      | [a] =>
        match h[a]? with
        | some an => an.Typ = .Option_argument
        | none => false
      | _ => false
  | none => false

/-- The token value of the only child of the node `s`. -/
def argument_literal (h : Heap) (s : Nat) : Option String :=
  match h[s]? with
  | some sn =>
    match sn.Children with
    | [a] =>
      match h[a]? with
      | some an => an.Token.map (·.Value)
      | none => none
    | _ => none
  | none => none

/-- An options section with the line `-s, --separator=<str>`, the two options
direct children of the `Option_line`. -/
def options_heap : Heap :=
  [ { Typ := .Options_section, Token := none, Parent := none, Children := [1], Repeat := false },
    { Typ := .Option_line, Token := none, Parent := some 0, Children := [2, 3], Repeat := false },
    { Typ := .Option_short, Token := some ⟨.SHORT, "-s", 0⟩, Parent := some 1, Children := [],
      Repeat := false },
    { Typ := .Option_long, Token := some ⟨.LONG, "--separator", 1⟩, Parent := some 1,
      Children := [4], Repeat := false },
    { Typ := .Option_argument, Token := some ⟨.ARGUMENT, "<str>", 2⟩, Parent := some 3,
      Children := [], Repeat := false } ]

/-- A parser whose options section is `options_heap`. -/
def options_state : DocoptParser :=
  { ParserInit [] with heap := options_heap, ast := some 0, options_node := some 0 }

/-- The map `transform_Options_section_to_map` builds from `options_heap`. -/
def options_map : OptionsMap :=
  { entries := [("--separator", 0), ("-s", 0)]
    rules := [{ Long := some "--separator", Short := some "-s", Arg_count := 1,
                Default_value := none, Argument_name := some "<str>" }] }

/-- The children of the node `i`. -/
def children_of (h : Heap) (i : Nat) : List Nat :=
  match h[i]? with
  | some nd => nd.Children
  | none => []

/-- The `k`-th child of the node `i`. -/
def nth_child (h : Heap) (i k : Nat) : Option Nat :=
  (children_of h i)[k]?

/-- The node reached from `i` by taking, in turn, the children with the given
indices. -/
def descend (h : Heap) (i : Nat) (path : List Nat) : Option Nat :=
  path.foldlM (nth_child h) i

/-- Kind and token literal of the node `i`. -/
def label (h : Heap) (i : Nat) : Option (DocoptNodeType × Option String) :=
  h[i]?.map fun nd => (nd.Typ, nd.Token.map (·.Value))

/-- Kind and token literal of the children of the node reached by `path` from
the root of the tree (node 0); `none` when the path leaves the tree. -/
def labels_at (h : Heap) (path : List Nat) : Option (List (Option (DocoptNodeType × Option String))) :=
  (descend h 0 path).map fun i => (children_of h i).map (label h)

/-- The kinds of all the nodes allocated. -/
def kinds (h : Heap) : List DocoptNodeType :=
  h.map (·.Typ)

/-- An options section whose line holds `-s` and `--separator <str>` inside
an `Option_alternative_group`, followed by a description of two nodes. -/
def grouped_options_heap : Heap :=
  [ { Typ := .Options_section, Token := none, Parent := none, Children := [1], Repeat := false },
    { Typ := .Option_line, Token := none, Parent := some 0, Children := [2, 6], Repeat := false },
    { Typ := .Option_alternative_group, Token := none, Parent := some 1, Children := [3, 4],
      Repeat := false },
    { Typ := .Option_short, Token := some ⟨.SHORT, "-s", 0⟩, Parent := some 2, Children := [],
      Repeat := false },
    { Typ := .Option_long, Token := some ⟨.LONG, "--separator", 1⟩, Parent := some 2,
      Children := [5], Repeat := false },
    { Typ := .Option_argument, Token := some ⟨.ARGUMENT, "<str>", 2⟩, Parent := some 4,
      Children := [], Repeat := false },
    { Typ := .Option_description, Token := none, Parent := some 1, Children := [7, 8],
      Repeat := false },
    { Typ := .Description_node, Token := some ⟨.IDENT, "Field", 3⟩, Parent := some 6,
      Children := [], Repeat := false },
    { Typ := .Description_node, Token := some ⟨.IDENT, "separator.", 4⟩, Parent := some 6,
      Children := [], Repeat := false } ]

/-- A parser whose options section is `grouped_options_heap`. -/
def grouped_options_state : DocoptParser :=
  { ParserInit [] with heap := grouped_options_heap, ast := some 0, options_node := some 0 }

/-- The tokens of the document
`Usage: p [options]`, blank line, `Options:`,
`  -s, --separator=<str>  Field separator.`, `      Continued description.` -/
def options_source : List LexItem :=
  [ .tok .USAGE "Usage:", .tok .PROG_NAME "p", .tok .PUNCT "[", .tok .IDENT "options",
    .tok .PUNCT "]", .tok .NEWLINE "\n", .tok .NEWLINE "\n", .tok .SECTION "Options:",
    .tok .NEWLINE "\n", .tok .LONG_BLANK "  ", .tok .SHORT "-s", .tok .PUNCT ",",
    .tok .LONG "--separator", .tok .PUNCT "=", .tok .ARGUMENT "<str>", .tok .LONG_BLANK "  ",
    .tok .IDENT "Field", .tok .IDENT "separator.", .tok .NEWLINE "\n",
    .tok .LONG_BLANK "      ", .tok .IDENT "Continued", .tok .IDENT "description.",
    .tok .NEWLINE "\n" ]

/-- What the options map holds for a literal: the rule pointer and the
`Arg_count` and `Argument_name` of the rule it points to. -/
def rule_of (m : OptionsMap) (key : String) : Option (Nat × Int × Option String) :=
  (m.get key).bind fun r => m.rules[r]?.map fun rule => (r, rule.Arg_count, rule.Argument_name)

/-- Run `Parse` on the parser `ParserInit` builds over a source and observe the
parser afterwards; `none` when the run faults. -/
def after_Parse {α : Type} (fuel : Nat) (source : List LexItem) (f : DocoptParser → α) :
    Option α :=
  (Parse fuel (ParserInit source)).toOption.map f

/-- The options map of a parser, when `transform_Options_section_to_map` returns
one with a nil error. -/
def options_of (p : DocoptParser) : Option OptionsMap :=
  match transform_Options_section_to_map p with
  | .ok (some m, none) => some m
  | _ => none

/-- The parser `p1` has the tree, the node pointers, the program name and the
error budget of `p`: only the token state, the lexer, the error list and the
run flag may differ. -/
def SameTree (p p1 : DocoptParser) : Prop :=
  p1.heap = p.heap ∧ p1.current_node = p.current_node ∧ p1.ast = p.ast ∧
    p1.options_node = p.options_node ∧ p1.usage_node = p.usage_node ∧
    p1.Prog_name = p.Prog_name ∧ p1.max_error = p.max_error ∧ p1.toplevel = p.toplevel

/-- A parser at the start of the body of an options section: the tree is
`Root[Options_section]`, the current node is the section, and the first token
of `source` has just been read (the second is the lookahead). -/
def options_entry (source : List LexItem) : Except Fault DocoptParser :=
  NextToken
    { ParserInit source with
      s := { items := source, pos := 0, Current_state := "state_Options" }
      heap := [ { Typ := .Root, Token := none, Parent := none, Children := [1],
                  Repeat := false },
                { Typ := .Options_section, Token := none, Parent := some 0, Children := [],
                  Repeat := false } ]
      ast := some 0
      current_node := some 1
      options_node := some 1 }

/-- Run a step from `options_entry` and observe its result; `none` when the run
faults. -/
def after_options_entry {α β : Type} (source : List LexItem)
    (step : DocoptParser → Except Fault β) (f : β → α) : Option α :=
  (options_entry source >>= step).toOption.map f

/-- The result of an execution that does not fault, else `d`. -/
def result_or {α : Type} (x : Except Fault α) (d : α) : α :=
  match x with
  | .ok a => a
  | .error _ => d

/-- A parser inside an option line, `-s` read and `,` the lookahead. -/
def comma_state : DocoptParser :=
  result_or
    (options_entry [.tok .SHORT "-s", .tok .PUNCT ",", .tok .LONG "--separator",
      .tok .NEWLINE "\n"])
    (ParserInit [])

/-- The kind of the terminal node `Consume_Usage_Expr` and `Consume_group`
create for a token of kind `SHORT`, `LONG`, `ARGUMENT` or `IDENT`. -/
def usage_terminal : TokenKind → Option DocoptNodeType
  | .SHORT => some .Usage_short_option
  | .LONG => some .Usage_long_option
  | .ARGUMENT => some .Usage_argument
  | .IDENT => some .Usage_command
  | _ => none

/-- The parser of `Usage: p a | b` at the moment `Consume_Usage_Expr` receives
the `|`: the steps of `Parse`, `Consume_Usage_line` and `Consume_loop(Usage_Expr)`
up to there. -/
def pipe_state : DocoptParser :=
  result_or
    (do
      let p ← CreateNode
        (ParserInit [.tok .USAGE "Usage:", .tok .PROG_NAME "p", .tok .IDENT "a",
          .tok .PUNCT "|", .tok .IDENT "b", .tok .NEWLINE "\n"]) .Root none
      let (_, p) ← Consume_Prologue 20 p
      let (_, p) ← Consume_First_Program_Usage 20 p
      let p ← NextToken (Change_lexer_state p "state_Usage_Line")
      let p ← reject_current_token p
      let p ← NextToken p
      let (_, _, p) ← Consume_Usage_Expr 20 p
      NextToken p)
    (ParserInit [])

/-- Parent/child consistency of the tree: every node with a parent occurs
exactly once among the children of that parent, and every node listed among the
children of a node has that node as its parent (so no node is the child of two
nodes). -/
def Consistent (h : Heap) : Prop :=
  (∀ (i : Nat) (nd : DocoptAst) (par : Nat), h[i]? = some nd → nd.Parent = some par →
      ∃ pn, h[par]? = some pn ∧ pn.Children.count i = 1) ∧
    ∀ (m : Nat) (mn : DocoptAst) (c : Nat), h[m]? = some mn → c ∈ mn.Children →
      ∃ cn, h[c]? = some cn ∧ cn.Parent = some m

/-- The check of `Consistent`, node by node. -/
def consistent_check (h : Heap) : Bool :=
  (List.range h.length).all fun i =>
    match h[i]? with
    | none => true
    | some nd =>
      (match nd.Parent with
        | none => true
        | some par =>
          match h[par]? with
          | none => false
          | some pn => pn.Children.count i == 1) &&
      nd.Children.all fun c =>
        match h[c]? with
        | none => false
        | some cn => cn.Parent == some i

/-- The tokens of `Usage: p [-c COLOR] FILE`. -/
def color_source : List LexItem :=
  [ .tok .USAGE "Usage:", .tok .PROG_NAME "p", .tok .PUNCT "[", .tok .SHORT "-c",
    .tok .ARGUMENT "COLOR", .tok .PUNCT "]", .tok .ARGUMENT "FILE", .tok .NEWLINE "\n" ]

/-- A parser whose program name is `p`, whose current token is `PROG_NAME "p"`
and whose token history holds the tokens `before` followed by `NEWLINE`,
`LONG_BLANK` and that `PROG_NAME`. -/
def line_start_state (before : List (Option Token)) : DocoptParser :=
  { ParserInit [] with
    Prog_name := "p"
    current_token := some ⟨.PROG_NAME, "p", before.length + 2⟩
    tokens := before ++ [some ⟨.NEWLINE, "\n", before.length⟩,
      some ⟨.LONG_BLANK, "   ", before.length + 1⟩,
      some ⟨.PROG_NAME, "p", before.length + 2⟩] }

/-- The tokens of the two usage lines `Usage: p` and `   p two`. -/
def bare_first_line_source : List LexItem :=
  [ .tok .USAGE "Usage:", .tok .PROG_NAME "p", .tok .NEWLINE "\n", .tok .LONG_BLANK "   ",
    .tok .PROG_NAME "p", .tok .IDENT "two", .tok .NEWLINE "\n" ]

/-- The tokens of the two usage lines `Usage: p one` and `   p two`. -/
def two_lines_source : List LexItem :=
  [ .tok .USAGE "Usage:", .tok .PROG_NAME "p", .tok .IDENT "one", .tok .NEWLINE "\n",
    .tok .LONG_BLANK "   ", .tok .PROG_NAME "p", .tok .IDENT "two", .tok .NEWLINE "\n" ]

/-- The tokens of the option line `  -a=` (no argument after the `=`). -/
def dangling_assign_source : List LexItem :=
  [ .tok .LONG_BLANK "  ", .tok .SHORT "-a", .tok .PUNCT "=", .tok .NEWLINE "\n" ]

/-- The parser of `dangling_assign_source` inside `Consume_option_line`, at the
iteration whose current token is the `=`. -/
def dangling_assign_state : DocoptParser :=
  result_or
    (do
      let p ← options_entry dangling_assign_source
      let c ← deref p.current_node
      let (option_line, h) ← AddNode p.heap c .Option_line none
      let p ← NextToken { p with heap := h, current_node := some option_line }
      let p ← addToCurrent p .Option_short p.current_token
      NextToken p)
    (ParserInit [])

/-- The tokens of an option line `-s` whose description is `a`, NEWLINE, `b`,
LONG_BLANK, `-x`: the LONG_BLANK stands in the middle of the second line. -/
def midline_blank_source : List LexItem :=
  [ .tok .LONG_BLANK "  ", .tok .SHORT "-s", .tok .LONG_BLANK "  ", .tok .IDENT "a",
    .tok .NEWLINE "\n", .tok .IDENT "b", .tok .LONG_BLANK "  ", .tok .SHORT "-x",
    .tok .NEWLINE "\n" ]

/-- The parser of `bare_first_line_source` at the moment `Consume_Usage_Expr`
receives the second `PROG_NAME`: the steps of `Parse`, `Consume_Usage_line` and
`Consume_loop(Usage_Expr)` up to there. -/
def second_line_state : DocoptParser :=
  result_or
    (do
      let p ← CreateNode (ParserInit bare_first_line_source) .Root none
      let (_, p) ← Consume_Prologue 20 p
      let (_, p) ← Consume_First_Program_Usage 20 p
      let p ← NextToken (Change_lexer_state p "state_Usage_Line")
      let p ← reject_current_token p
      let p ← NextToken p
      let (_, _, p) ← Consume_Usage_Expr 20 p
      let p ← NextToken p
      let (_, _, p) ← Consume_Usage_Expr 20 p
      NextToken p)
    (ParserInit [])

/-- Run `Parse` up to and including `Consume_Usage` on the parser `ParserInit`
builds over a source (the `Root`, `Consume_Prologue`, `Consume_Usage`) and
observe the error `Consume_Usage` returns and the parser after it; `none` when
the run faults or the prologue fails. -/
def after_Usage {α : Type} (fuel : Nat) (source : List LexItem)
    (f : Option String × DocoptParser → α) : Option α :=
  (do
    let p ← CreateNode (ParserInit source) .Root none
    let (err, p) ← Consume_Prologue fuel p
    if err.isSome then .error .panic else Consume_Usage fuel p).toOption.map f

/-- The node reached by `path` from the root of the tree (node 0). -/
def node_at (h : Heap) (path : List Nat) : Option DocoptAst :=
  (descend h 0 path).bind fun i => h[i]?

/-- The tokens of `Usage: p FILE...`. -/
def repeat_source : List LexItem :=
  [ .tok .USAGE "Usage:", .tok .PROG_NAME "p", .tok .ARGUMENT "FILE", .tok .PUNCT "...",
    .tok .NEWLINE "\n" ]

/-- The tokens of `Usage: p ...`. -/
def leading_ellipsis_source : List LexItem :=
  [ .tok .USAGE "Usage:", .tok .PROG_NAME "p", .tok .PUNCT "...", .tok .NEWLINE "\n" ]

/-- The tokens of `Usage: myprog go`. -/
def myprog_source : List LexItem :=
  [ .tok .USAGE "Usage:", .tok .PROG_NAME "myprog", .tok .IDENT "go", .tok .NEWLINE "\n" ]

/-- The tokens of `Usage: p ( a`, the input ending inside the parenthesis. -/
def open_paren_source : List LexItem :=
  [ .tok .USAGE "Usage:", .tok .PROG_NAME "p", .tok .PUNCT "(", .tok .IDENT "a" ]

/-- The tokens of `Usage: p [ a`, the input ending inside the bracket. -/
def open_bracket_source : List LexItem :=
  [ .tok .USAGE "Usage:", .tok .PROG_NAME "p", .tok .PUNCT "[", .tok .IDENT "a" ]

/-- The tokens of `Usage: p [a  b]`, two blanks between `a` and `b`. -/
def group_blank_source : List LexItem :=
  [ .tok .USAGE "Usage:", .tok .PROG_NAME "p", .tok .PUNCT "[", .tok .IDENT "a",
    .tok .LONG_BLANK "  ", .tok .IDENT "b", .tok .PUNCT "]", .tok .NEWLINE "\n" ]

/-- The tokens of `Usage: p a  b`, two blanks between `a` and `b`. -/
def expr_blank_source : List LexItem :=
  [ .tok .USAGE "Usage:", .tok .PROG_NAME "p", .tok .IDENT "a", .tok .LONG_BLANK "  ",
    .tok .IDENT "b", .tok .NEWLINE "\n" ]

/-- The tokens of `Usage: p [a`, a line break, `b]`. -/
def group_newline_source : List LexItem :=
  [ .tok .USAGE "Usage:", .tok .PROG_NAME "p", .tok .PUNCT "[", .tok .IDENT "a",
    .tok .NEWLINE "\n", .tok .IDENT "b", .tok .PUNCT "]", .tok .NEWLINE "\n" ]

/-- The parser of `Usage: p [ a` at the moment `Consume_group` receives the
`EOF`: the steps of `Parse`, `Consume_Usage_line`, `Consume_loop(Usage_Expr)`,
`Consume_Usage_Expr` and `Consume_loop(Usage_optional_group)` up to there. -/
def open_bracket_state : DocoptParser :=
  result_or
    (do
      let p ← CreateNode (ParserInit open_bracket_source) .Root none
      let (_, p) ← Consume_Prologue 20 p
      let (_, p) ← Consume_First_Program_Usage 20 p
      let p ← NextToken (Change_lexer_state p "state_Usage_Line")
      let p ← reject_current_token p
      let p ← NextToken p
      let p ← ensure_node p .Usage_Expr
      let p ← Consume_loop_enter (group_def (Consume_group 5)) .Usage_optional_group p
      let p ← NextToken p
      let (_, _, p) ← Consume_group 5 p
      NextToken p)
    (ParserInit [])

/-- The parser of `Usage: p FILE...` at the moment `Consume_Usage_Expr` has
received the `...` and made sure the current node is a `Usage_Expr`. -/
def ellipsis_state : DocoptParser :=
  result_or
    (do
      let p ← CreateNode (ParserInit repeat_source) .Root none
      let (_, p) ← Consume_Prologue 20 p
      let (_, p) ← Consume_First_Program_Usage 20 p
      let p ← NextToken (Change_lexer_state p "state_Usage_Line")
      let p ← reject_current_token p
      let p ← NextToken p
      let (_, _, p) ← Consume_Usage_Expr 5 p
      let p ← NextToken p
      ensure_node p .Usage_Expr)
    (ParserInit [])

/-- The parser of `Usage: myprog go` at the moment `Consume_Usage_Expr` receives
`go`, the current node being the `Usage_line`. -/
def go_state : DocoptParser :=
  result_or
    (do
      let p ← CreateNode (ParserInit myprog_source) .Root none
      let (_, p) ← Consume_Prologue 20 p
      let (_, p) ← Consume_First_Program_Usage 20 p
      let p ← NextToken (Change_lexer_state p "state_Usage_Line")
      let p ← reject_current_token p
      NextToken p)
    (ParserInit [])

/-- The consume function `consume_me` of `Test_Consume_loop`: it adds a
`NONE_node` under the current node and returns the leaving reason of value 33
with a nil error. -/
def consume_me (p : DocoptParser) : ConsumeResult := do
  let p ← addToCurrent p .NONE_node none
  pure (⟨33, true⟩, none, p)

/-- The definition `our_def` of `Test_Consume_loop` (the fields it leaves out
are false). -/
def test_def : Consumer_Definition :=
  { create_self_node := true
    create_node := true
    toplevel_node := .Usage_Expr
    save_current_node := false
    reject_first_token := false
    consume_func := consume_me }

/-- The parser of `Test_Consume_loop` before its call of `Consume_loop`: the
source is `Usage: pipo molo` in the first lexer state, here one token of kind
`USAGE` and further tokens, and the `Root` is created. -/
def test_state : DocoptParser :=
  result_or
    (CreateNode
      (ParserInit [.tok .USAGE "Usage:", .tok .OTHER "pipo", .tok .OTHER "molo"]) .Root none)
    (ParserInit [])

/-- The node kind the test definition is registered under: the test uses
`Last_node_type + 1`, a value outside the node kinds; `Free_section`, which has
no definition in `Parse_def` either, stands for it. -/
def test_kind : DocoptNodeType := .Free_section

/-- The consume function `f`, called after `NextToken` with the run flag set,
returns a non-leaving reason with a nil error on its first `k` calls from the
parser `p` and then, on call `k + 1`, the result `res`, whose reason is leaving
or whose error is not nil. -/
inductive Iterates (f : DocoptParser → ConsumeResult) :
    Nat → DocoptParser → Reason × Option String × DocoptParser → Prop where
  | last (p p1 : DocoptParser) (r : Reason) (e : Option String) (q : DocoptParser) :
      p.run = true → NextToken p = .ok p1 → f p1 = .ok (r, e, q) →
      (e.isSome = true ∨ r.Leaving = true) → Iterates f 0 p (r, e, q)
  | step (k : Nat) (p p1 : DocoptParser) (r : Reason) (q : DocoptParser)
      (res : Reason × Option String × DocoptParser) :
      p.run = true → NextToken p = .ok p1 → f p1 = .ok (r, none, q) → r.Leaving = false →
      Iterates f k q res → Iterates f (k + 1) p res

/-- The test parser after the entry statements of `Consume_loop`. -/
def test_entered : DocoptParser :=
  result_or (Consume_loop_enter test_def test_kind test_state) test_state

/-- The test parser at the first call of the consume function. -/
def test_first : DocoptParser :=
  result_or (NextToken test_entered) test_state

/-- The test parser after the first call of the consume function. -/
def test_called : DocoptParser :=
  (result_or (consume_me test_first) (Error, none, test_state)).2.2

/-- The tree `h1` grows out of the tree `h`: every node of `h` is a node of `h1`
with the same kind, the same token and the same first child, and no node of
`h1` beyond those of `h` is a `Usage_line` or a `Prog_name`. -/
def Grow (h h1 : Heap) : Prop :=
  h.length ≤ h1.length ∧
    (∀ (i : Nat) (nd : DocoptAst), h[i]? = some nd →
      ∃ nd1, h1[i]? = some nd1 ∧ nd1.Typ = nd.Typ ∧ nd1.Token = nd.Token ∧
        ∀ x, nd.Children.head? = some x → nd1.Children.head? = some x) ∧
    ∀ (i : Nat) (nd1 : DocoptAst), h.length ≤ i → h1[i]? = some nd1 →
      nd1.Typ ≠ .Usage_line ∧ nd1.Typ ≠ .Prog_name

/-- The nodes of `h` have in `h1` the parent they have in `h`. -/
def KeepParents (h h1 : Heap) : Prop :=
  ∀ (i : Nat) (nd nd1 : DocoptAst), h[i]? = some nd → h1[i]? = some nd1 →
    nd1.Parent = nd.Parent

/-- The step from the parser `p` to `p1` grows the tree, keeps the parents and
keeps the program name. -/
def PGrow (p p1 : DocoptParser) : Prop :=
  Grow p.heap p1.heap ∧ KeepParents p.heap p1.heap ∧ p1.Prog_name = p.Prog_name

/-- The current node of `p1` has the parent the current node of `p` has. -/
def SameParent (p p1 : DocoptParser) : Prop :=
  ∀ (c : Nat) (nd : DocoptAst), p.current_node = some c → p.heap[c]? = some nd →
    ∃ c1 nd1, p1.current_node = some c1 ∧ p1.heap[c1]? = some nd1 ∧ nd1.Parent = nd.Parent

/-- The current token closes the group the current node lies in: it is `]` and
the parent of the current node is a `Usage_optional_group`, or it is `)` and the
parent is a `Usage_required_group`. -/
def Closes (p : DocoptParser) : Prop :=
  ∃ (tok : Token) (c : Nat) (nd : DocoptAst) (par : Nat) (pn : DocoptAst),
    p.current_token = some tok ∧ tok.Typ = .PUNCT ∧ p.current_node = some c ∧
    p.heap[c]? = some nd ∧ nd.Parent = some par ∧ p.heap[par]? = some pn ∧
    ((tok.Value = "]" ∧ pn.Typ = .Usage_optional_group) ∨
      (tok.Value = ")" ∧ pn.Typ = .Usage_required_group))

/-- What a call of `Consume_group` on `p` with the result `res` does: the tree
grows; with a nil error and a non-leaving reason the current node keeps its
parent; with a nil error and a leaving reason nothing changed and the current
token closes the group. -/
def GroupStep (p : DocoptParser) (res : Reason × Option String × DocoptParser) : Prop :=
  PGrow p res.2.2 ∧
    (res.2.1 = none → res.1.Leaving = false → SameParent p res.2.2) ∧
    (res.2.1 = none → res.1.Leaving = true → res.2.2 = p ∧ Closes p)

/-- The current token is the closer of a group of kind `t`. -/
def closer_of (t : DocoptNodeType) (p : DocoptParser) : Prop :=
  ∃ tok, p.current_token = some tok ∧ tok.Typ = .PUNCT ∧
    ((tok.Value = "]" ∧ t = .Usage_optional_group) ∨
      (tok.Value = ")" ∧ t = .Usage_required_group))

/-- What `Consume_loop(t)` on `p` with the result `res` does for a group: the
tree grows, and with a nil error the current node is restored, the run flag is
set and the current token is the closer of the group. -/
def GroupLoop (t : DocoptNodeType) (p : DocoptParser)
    (res : Reason × Option String × DocoptParser) : Prop :=
  PGrow p res.2.2 ∧
    (res.2.1 = none →
      res.2.2.current_node = p.current_node ∧ res.2.2.run = true ∧ closer_of t res.2.2)

/-- The current node of `p` is a child of the node `g`, a node of kind `t`. -/
def InGroup (g : Nat) (t : DocoptNodeType) (p : DocoptParser) : Prop :=
  ∃ (c : Nat) (nd gn : DocoptAst), p.current_node = some c ∧ p.heap[c]? = some nd ∧
    nd.Parent = some g ∧ p.heap[g]? = some gn ∧ gn.Typ = t

/-- The tokens of `Usage: p [a]`. -/
def closed_bracket_source : List LexItem :=
  [ .tok .USAGE "Usage:", .tok .PROG_NAME "p", .tok .PUNCT "[", .tok .IDENT "a",
    .tok .PUNCT "]", .tok .NEWLINE "\n" ]

/-- The parser of `Usage: p [a]` at the moment `Consume_Usage_Expr` receives the
`[`, the current node being the `Usage_line`. -/
def bracket_token_state : DocoptParser :=
  result_or
    (do
      let p ← CreateNode (ParserInit closed_bracket_source) .Root none
      let (_, p) ← Consume_Prologue 20 p
      let (_, p) ← Consume_First_Program_Usage 20 p
      let p ← NextToken (Change_lexer_state p "state_Usage_Line")
      let p ← reject_current_token p
      NextToken p)
    (ParserInit [])

/-- The parser of `Usage: p [a]` when `Consume_Usage_Expr` has received the `[`
and made sure the current node is a `Usage_Expr`: the parser
`Consume_loop(Usage_optional_group)` is called on. -/
def bracket_state : DocoptParser :=
  result_or (ensure_node bracket_token_state .Usage_Expr) (ParserInit [])

/-- The parser of `Usage: p [a]` at the moment `Consume_group` receives the `]`. -/
def closing_bracket_state : DocoptParser :=
  result_or
    (do
      let p ← Consume_loop_enter (group_def (Consume_group 5)) .Usage_optional_group
        bracket_state
      let p ← NextToken p
      let (_, _, p) ← Consume_group 5 p
      NextToken p)
    (ParserInit [])

/-- The value standing for the result of a run that faults. -/
def no_result : Reason × Option String × DocoptParser :=
  (Error, some "", ParserInit [])


/-- The step from the parser `p` to `p1` grows the tree and keeps the program
name (the parents may change, as in the alternative-group surgery). -/
def LGrow (p p1 : DocoptParser) : Prop :=
  Grow p.heap p1.heap ∧ p1.Prog_name = p.Prog_name

/-- The store holds no `Usage_line` and no `Prog_name` node. -/
def NoLines (h : Heap) : Prop :=
  ∀ nd ∈ h, nd.Typ ≠ .Usage_line ∧ nd.Typ ≠ .Prog_name

/-- Every `Usage_line` node of the store has a `Prog_name` node as its first
child, and the token of every `Prog_name` node has the value `name`. -/
def LineInv (h : Heap) (name : String) : Prop :=
  ∀ (i : Nat) (nd : DocoptAst), h[i]? = some nd →
    (nd.Typ = .Usage_line →
      ∃ f fn, nd.Children.head? = some f ∧ h[f]? = some fn ∧ fn.Typ = .Prog_name) ∧
    (nd.Typ = .Prog_name → ∃ tok, nd.Token = some tok ∧ tok.Value = name)

/-- What a call of `Consume_Usage_Expr` on `p` with the result `res` does: the
tree grows and the program name stays; when the reason is `PROG_NAME_sequence`
and the error nil, the current token carries the program name. -/
def UStep (p : DocoptParser) (res : Reason × Option String × DocoptParser) : Prop :=
  LGrow p res.2.2 ∧
    (res.1 = PROG_NAME_sequence → res.2.1 = none →
      ∃ tok, res.2.2.current_token = some tok ∧ tok.Value = res.2.2.Prog_name)

instance (h : Heap) : Decidable (NoLines h) := by
  unfold NoLines
  infer_instance

/-- The tokens of the usage lines `Usage: p a | b` and `   p c`. -/
def pipe_lines_source : List LexItem :=
  [ .tok .USAGE "Usage:", .tok .PROG_NAME "p", .tok .IDENT "a", .tok .PUNCT "|",
    .tok .IDENT "b", .tok .NEWLINE "\n", .tok .LONG_BLANK "   ", .tok .PROG_NAME "p",
    .tok .IDENT "c", .tok .NEWLINE "\n" ]

/-- The parser of `pipe_lines_source` when `Parse` calls `Consume_Usage`: the
`Root` is created and the prologue is consumed. -/
def usage_entry_state : DocoptParser :=
  result_or
    (do
      let p ← CreateNode (ParserInit pipe_lines_source) .Root none
      let (_, p) ← Consume_Prologue 20 p
      pure p)
    (ParserInit [])

/-- The value standing for the result of a step that faults. -/
def no_step : Option String × DocoptParser :=
  (some "", ParserInit [])

/-- The tokens of `Usage: p [a | b]`. -/
def group_pipe_source : List LexItem :=
  [ .tok .USAGE "Usage:", .tok .PROG_NAME "p", .tok .PUNCT "[", .tok .IDENT "a",
    .tok .PUNCT "|", .tok .IDENT "b", .tok .PUNCT "]", .tok .NEWLINE "\n" ]

/-- The parser of `Usage: p [a | b]` at the moment `Consume_group` receives the
`|`: the current node is the `Usage_Expr` of the optional group. -/
def group_pipe_state : DocoptParser :=
  result_or
    (do
      let p ← CreateNode (ParserInit group_pipe_source) .Root none
      let (_, p) ← Consume_Prologue 20 p
      let (_, p) ← Consume_First_Program_Usage 20 p
      let p ← NextToken (Change_lexer_state p "state_Usage_Line")
      let p ← reject_current_token p
      let p ← NextToken p
      let p ← ensure_node p .Usage_Expr
      let p ← Consume_loop_enter (group_def (Consume_group 5)) .Usage_optional_group p
      let p ← NextToken p
      let (_, _, p) ← Consume_group 5 p
      NextToken p)
    (ParserInit [])

/-- The tokens of the option line `  -a  text [default: x] more`. -/
def default_source : List LexItem :=
  [ .tok .LONG_BLANK "  ", .tok .SHORT "-a", .tok .LONG_BLANK "  ", .tok .IDENT "text",
    .tok .DEFAULT "[default: x]", .tok .IDENT "more", .tok .NEWLINE "\n" ]

/-- The parser of `default_source` inside `Consume_option_description`, after
`text` is collected and before the `DEFAULT` token is read: the steps of
`Consume_option_line` and of `Consume_option_description` up to there. -/
def default_state : DocoptParser :=
  result_or
    (do
      let p ← options_entry default_source
      let c ← deref p.current_node
      let (option_line, h) ← AddNode p.heap c .Option_line none
      let p ← NextToken { p with heap := h, current_node := some option_line }
      let p ← addToCurrent p .Option_short p.current_token
      let p ← NextToken p
      let c ← deref p.current_node
      let (description, h) ← AddNode p.heap c .Option_description none
      let p ← NextToken { p with heap := h }
      let (_, h) ← AddNode p.heap description .Description_node p.current_token
      pure { p with heap := h })
    (ParserInit [])

/-- The step from `p` to `p1` only adds errors: the error count grows by the
number of errors appended to `Errors`, it does not pass `max_error` when it was
within it, and `max_error` and the run flag stay. -/
def Counts (p p1 : DocoptParser) : Prop :=
  p.Error_count ≤ p1.Error_count ∧
    p1.Errors.length + p.Error_count = p.Errors.length + p1.Error_count ∧
    (p.Error_count ≤ p.max_error → p1.Error_count ≤ p.max_error) ∧
    p1.max_error = p.max_error ∧ p1.run = p.run

/-- A source of `n` bytes no rule of the lexer matches, followed by the tokens
of `Usage: p`. -/
def unmatched_source (n : Nat) : List LexItem :=
  List.replicate n (.bad "no match") ++ [.tok .USAGE "Usage:", .tok .PROG_NAME "p"]

/-- The tokens of `Usage: p one` and the continuation line `   q two`, whose
first word `q` is an `IDENT`. -/
def continuation_source : List LexItem :=
  [ .tok .USAGE "Usage:", .tok .PROG_NAME "p", .tok .IDENT "one", .tok .NEWLINE "\n",
    .tok .LONG_BLANK "   ", .tok .IDENT "q", .tok .IDENT "two", .tok .NEWLINE "\n" ]

/-- The tokens of `Usage: p one` and the line `   q two`, whose first word is a
`PROG_NAME` token of value `q`. -/
def other_name_source : List LexItem :=
  [ .tok .USAGE "Usage:", .tok .PROG_NAME "p", .tok .IDENT "one", .tok .NEWLINE "\n",
    .tok .LONG_BLANK "   ", .tok .PROG_NAME "q", .tok .IDENT "two", .tok .NEWLINE "\n" ]

/-- The parser of `other_name_source` at the moment `Consume_Usage_Expr`
receives the `PROG_NAME` token `q`: the steps of `Parse`, `Consume_Usage_line`
and `Consume_loop(Usage_Expr)` up to there. -/
def other_name_state : DocoptParser :=
  result_or
    (do
      let p ← CreateNode (ParserInit other_name_source) .Root none
      let (_, p) ← Consume_Prologue 20 p
      let (_, p) ← Consume_First_Program_Usage 20 p
      let p ← NextToken (Change_lexer_state p "state_Usage_Line")
      let p ← reject_current_token p
      let p ← NextToken p
      let (_, _, p) ← Consume_Usage_Expr 5 p
      let p ← NextToken p
      let (_, _, p) ← Consume_Usage_Expr 5 p
      let p ← NextToken p
      let (_, _, p) ← Consume_Usage_Expr 5 p
      NextToken p)
    (ParserInit [])

/-- The node kinds the consumers of the free sections and of the options section
create below the section nodes. -/
def section_content : DocoptNodeType → Bool
  | .Free_section | .Section_name | .Section_node | .Options_node | .Option_line
  | .Option_short | .Option_long | .Option_argument | .Usage_argument
  | .Option_description | .Description_node => true
  | _ => false

/-- The store `h1` extends `h` by section content: every node of `h` keeps its
kind, token and parent and its children are only extended, and the nodes added
are of the kinds `section_content`. -/
def HExt (h h1 : Heap) : Prop :=
  h.length ≤ h1.length ∧
    (∀ (i : Nat) (nd : DocoptAst), h[i]? = some nd →
      ∃ nd1, h1[i]? = some nd1 ∧ nd1.Typ = nd.Typ ∧ nd1.Token = nd.Token ∧
        nd1.Parent = nd.Parent ∧ ∃ ext, nd1.Children = nd.Children ++ ext) ∧
    ∀ (i : Nat) (nd1 : DocoptAst), h.length ≤ i → h1[i]? = some nd1 →
      section_content nd1.Typ = true

/-- The step from `p` to `p1` extends the tree by section content and keeps the
program name and the pointers `ast`, `options_node` and `usage_node`. -/
def SecStep (p p1 : DocoptParser) : Prop :=
  HExt p.heap p1.heap ∧ p1.Prog_name = p.Prog_name ∧ p1.options_node = p.options_node ∧
    p1.ast = p.ast ∧ p1.usage_node = p.usage_node

/-- The tokens of a document with the usage `Usage: p`, a blank line and the
options section `Options:` holding the line `  -a  text`. -/
def options_doc_source : List LexItem :=
  [ .tok .USAGE "Usage:", .tok .PROG_NAME "p", .tok .NEWLINE "\n", .tok .NEWLINE "\n",
    .tok .SECTION "Options:", .tok .NEWLINE "\n", .tok .LONG_BLANK "  ", .tok .SHORT "-a",
    .tok .LONG_BLANK "  ", .tok .IDENT "text", .tok .NEWLINE "\n" ]

/-- The parser of `options_doc_source` when `Parse` calls `Consume_Options`: the
first three steps of `Parse` are done. -/
def options_ready_state : DocoptParser :=
  result_or
    (do
      let p ← CreateNode (ParserInit options_doc_source) .Root none
      let p ← Parse_step (Consume_Prologue 40) p
      let p ← Parse_step (Consume_Usage 40) p
      Parse_step (Consume_Free_section 40) p)
    (ParserInit [])

/-- The tokens of a document with the usage `Usage: p`, a blank line, a free
section `Notes:` holding `text`, a second free section `More:` holding `x`, and
the section `Options:`. -/
def free_doc_source : List LexItem :=
  [ .tok .USAGE "Usage:", .tok .PROG_NAME "p", .tok .NEWLINE "\n", .tok .NEWLINE "\n",
    .tok .SECTION "Notes:", .tok .OTHER "text", .tok .NEWLINE "\n", .tok .SECTION "More:",
    .tok .OTHER "x", .tok .NEWLINE "\n", .tok .SECTION "Options:", .tok .NEWLINE "\n" ]

/-- The parser of `free_doc_source` inside `Consume_Free_section`, when the
section `Notes:` holds its name, `text` and the line end, before the token
`More:` is read. -/
def free_state : DocoptParser :=
  result_or
    (do
      let p ← CreateNode (ParserInit free_doc_source) .Root none
      let p ← Parse_step (Consume_Prologue 40) p
      let p ← Parse_step (Consume_Usage 40) p
      let p ← Free_section_enter p
      let p ← NextToken p
      let p ← addToCurrent p .Section_name p.current_token
      let p ← NextToken p
      let p ← addToCurrent p .Section_node p.current_token
      let p ← NextToken p
      addToCurrent p .Section_node p.current_token)
    (ParserInit [])

/-- The parser `free_state` after the `NextToken` that reads `More:`. -/
def free_next_state : DocoptParser :=
  result_or (NextToken free_state) (ParserInit [])

/-- The tokens of `Usage:` followed by an empty line: no program name. -/
def no_name_source : List LexItem :=
  [ .tok .USAGE "Usage:", .tok .NEWLINE "\n", .tok .NEWLINE "\n", .tok .OTHER "text" ]

/-- The tokens of `Usage:`, a line end, blanks and then `p a`: the program name
comes after a single `NEWLINE` and a `BLANK`. -/
def late_name_source : List LexItem :=
  [ .tok .USAGE "Usage:", .tok .NEWLINE "\n", .tok .BLANK "  ", .tok .PROG_NAME "p",
    .tok .IDENT "a", .tok .NEWLINE "\n" ]

/-- The parser of `pipe_lines_source` at the start of the loop of
`Consume_First_Program_Usage`: the lexer state is changed. -/
def first_usage_state : DocoptParser :=
  Change_lexer_state usage_entry_state "state_First_Program_Usage"

/-- The parser `first_usage_state` after the `NextToken` that reads the program
name. -/
def first_usage_next : DocoptParser :=
  result_or (NextToken first_usage_state) (ParserInit [])

/-- The token the lexer yields at position `i` of an error-free source: the item
at `i`, and `EOF` at the end of the source. -/
def token_at (items : List LexItem) (i : Nat) : Token :=
  match items[i]? with
  | some (.tok k v) => ⟨k, v, i⟩
  | _ => ⟨.EOF, "", items.length⟩

/-- The lexer of `p` is error-free, the error budget is not used up, and the
next token `NextToken` delivers is the one at position `i` of the source:
either nothing is looked ahead and the cursor is at `i`, or the lookahead is
the token at `i` and the cursor is behind it. -/
def Ready (p : DocoptParser) (i : Nat) : Prop :=
  (∀ it ∈ p.s.items, ∃ k v, it = LexItem.tok k v) ∧ p.Error_count < p.max_error ∧
    i ≤ p.s.items.length ∧
    ((p.next_token = none ∧ p.s.pos = i) ∨
      (p.next_token = some (token_at p.s.items i) ∧ p.s.pos = min (i + 1) p.s.items.length ∧
        (p.lexer_state_changed = true → p.tokens ≠ [])))

/-- The `Prologue_node` terminals of the tokens `pre`, the first of which is at
position `pos` of the source, under the node `par`. -/
def prologue_nodes (par : Nat) : Nat → List (TokenKind × String) → List DocoptAst
  | _, [] => []
  | pos, x :: xs =>
    { Typ := .Prologue_node, Token := some ⟨x.1, x.2, pos⟩, Parent := some par, Children := [],
      Repeat := false } :: prologue_nodes par (pos + 1) xs

/-- The tokens of a text of two words and a newline before `Usage: p`. -/
def prologue_source : List LexItem :=
  [ .tok .OTHER "my", .tok .OTHER "tool", .tok .NEWLINE "\n", .tok .USAGE "Usage:",
    .tok .PROG_NAME "p" ]

/-- The tokens of a text without `Usage:`. -/
def prologue_only_source : List LexItem :=
  [ .tok .OTHER "my", .tok .OTHER "tool" ]

/-- The parser of a source when `Parse` calls `Consume_Prologue`: the `Root` is
created and is the current node. -/
def prologue_entry (source : List LexItem) : DocoptParser :=
  result_or (CreateNode (ParserInit source) .Root none) (ParserInit [])

/-- The number of calls of `p.s.Next()` made by `try_get_NextToken`: the case
analysis is the one of `try_get_NextToken_rec`, counting one for each call. -/
def try_get_NextToken_calls : Nat → DocoptParser → Nat
  | fuel, p =>
    if p.Error_count ≥ p.max_error then 0
    else
      match p.s.Next with
      | (.ok _, _) => 1
      | (.error e, s1) =>
        let p1 := AddError { p with s := s1 } e
        if p1.Error_count ≥ p1.max_error then 1
        else
          match fuel with
          | 0 => 1
          | n + 1 => 1 + try_get_NextToken_calls n { p1 with s := p1.s.Discard 1 }

/-- The token variable `slot` of `p` holds `t`. -/
def stored (p : DocoptParser) (slot : Slot) (t : Token) : Prop :=
  match slot with
  | .current => p.current_token = some t
  | .next => p.next_token = some t

/-- The parser of `Usage: myprog go` at the moment `Consume_Usage_Expr` receives
the `IDENT` token `go`. -/
def ident_state : DocoptParser :=
  result_or
    (do
      let p ← CreateNode (ParserInit myprog_source) .Root none
      let (_, p) ← Consume_Prologue 20 p
      let (_, p) ← Consume_First_Program_Usage 20 p
      NextToken (Change_lexer_state p "state_Usage_Line"))
    (ParserInit [])

/-- The loop of `Consume_option_line` with the test for an empty option left
out: at `EOF` and `NEWLINE` the loop is left with the error `err` whatever the
children of the current node. -/
def Consume_option_line_loop_no_empty : Nat → Option String → DocoptParser → StepResult
  | fuel, err, p =>
    if p.run then
      match fuel with
      | 0 => .error .fuel
      | n + 1 => do
        let p ← NextToken p
        let tok ← deref p.current_token
        match tok.Typ with
        | .EOF | .NEWLINE => pure (err, p)
        | .LONG_BLANK => Consume_option_description n p
        | .SHORT => do
          let p ← addToCurrent p .Option_short p.current_token
          Consume_option_line_loop_no_empty n err p
        | .LONG => do
          let p ← addToCurrent p .Option_long p.current_token
          Consume_option_line_loop_no_empty n err p
        | .ARGUMENT => do
          let (err, p) ← Consume_assign p p.current_token
          if err.isSome then pure (err, p) else Consume_option_line_loop_no_empty n err p
        | .PUNCT =>
          if tok.Value = "," then Consume_option_line_loop_no_empty n err p
          else if tok.Value = "=" then do
            let (err1, p) ← Consume_assign p p.next_token
            if err1.isSome then pure (err, p)
            else do
              let p ← NextToken p
              Consume_option_line_loop_no_empty n err p
          else do
            let nt ← curNodeType p
            pure (some (nt.String ++ ": unexpected PUNC, invalid Token: " ++
              fmtToken p.current_token), p)
        | _ => do
          let nt ← curNodeType p
          pure (some (nt.String ++ ": Consume_option_line invalid Token: " ++
            fmtToken p.current_token), p)
    else pure (err, p)

/-- The function `Consume_option_line` over `Consume_option_line_loop_no_empty`. -/
def Consume_option_line_no_empty (fuel : Nat) (p : DocoptParser) : StepResult := do
  let saved_node := p.current_node
  let c ← deref p.current_node
  let (option_line, h) ← AddNode p.heap c .Option_line none
  let p := { p with heap := h, current_node := some option_line }
  let (err, p) ← Consume_option_line_loop_no_empty fuel none p
  if p.run then pure (err, { p with current_node := saved_node })
  else parser_stoped p

/-- The node `l` of the store is an `Option_line` whose children are `old`, all of
them `Option_short` or `Option_long` nodes. -/
def Opts (h : Heap) (l : Nat) (old : List Nat) : Prop :=
  ∃ ln, h[l]? = some ln ∧ ln.Typ = .Option_line ∧ ln.Children = old ∧
    ∀ x ∈ old, ∃ cn, h[x]? = some cn ∧ (cn.Typ = .Option_short ∨ cn.Typ = .Option_long)

/-- The store `h1` differs from `h` below the node `d` only: every other node of
`h` is unchanged, the node `d` keeps its kind, and no node is removed. -/
def Only (d : Nat) (h h1 : Heap) : Prop :=
  h.length ≤ h1.length ∧ (∀ i, i ≠ d → i < h.length → h1[i]? = h[i]?) ∧
    ∀ dn, h[d]? = some dn → ∃ dn1, h1[d]? = some dn1 ∧ dn1.Typ = dn.Typ

/-- The node `l` of the store is an `Option_line` whose children are the nodes
`opts`, all of them `Option_short` or `Option_long` nodes and the first ones the
children `old`, followed by nothing else or by one `Option_description`. -/
def LineShape (h : Heap) (l : Nat) (old : List Nat) : Prop :=
  ∃ ln, h[l]? = some ln ∧ ln.Typ = .Option_line ∧
    ∃ ext desc, ln.Children = (old ++ ext) ++ desc ∧
      (∀ x ∈ old ++ ext, ∃ cn, h[x]? = some cn ∧
        (cn.Typ = .Option_short ∨ cn.Typ = .Option_long)) ∧
      (desc = [] ∨ ∃ d dn, desc = [d] ∧ h[d]? = some dn ∧ dn.Typ = .Option_description)

/-- The tokens of the option line `  -a, --all=<x>  text`. -/
def option_line_source : List LexItem :=
  [ .tok .LONG_BLANK "  ", .tok .SHORT "-a", .tok .PUNCT ",", .tok .LONG "--all",
    .tok .PUNCT "=", .tok .ARGUMENT "<x>", .tok .LONG_BLANK "  ", .tok .IDENT "text",
    .tok .NEWLINE "\n" ]

/-- The parser of `option_line_source` when `Consume_Options` calls
`Consume_option_line`: the `LONG_BLANK` is the current token and the `SHORT` the
lookahead. -/
def option_line_state : DocoptParser :=
  result_or (options_entry option_line_source) (ParserInit [])

/-- The kinds of the groups of a usage line. -/
def is_usage_group : DocoptNodeType → Bool
  | .Usage_optional_group | .Usage_required_group => true
  | _ => false

/-- The kinds of the terminals of a usage expression. -/
def is_usage_terminal : DocoptNodeType → Bool
  | .Usage_short_option | .Usage_long_option | .Usage_argument | .Usage_command => true
  | _ => false

/-- The kind of the node `x` of the store. -/
def kind_at (h : Heap) (x : Nat) : Option DocoptNodeType :=
  h[x]?.map (·.Typ)

/-- The shape of the usage trees: every group has a child and all its children
are `Usage_Expr` nodes, and a terminal or a group is listed as a child only by a
`Usage_Expr`, a `Usage_argument` also by a `Usage_long_option`. -/
def UsageTree (h : Heap) : Prop :=
  ∀ (i : Nat) (nd : DocoptAst), h[i]? = some nd →
    (is_usage_group nd.Typ = true →
      nd.Children ≠ [] ∧ ∀ x ∈ nd.Children, kind_at h x = some .Usage_Expr) ∧
    (∀ x ∈ nd.Children, ∀ k, kind_at h x = some k →
      is_usage_terminal k = true ∨ is_usage_group k = true →
      nd.Typ = .Usage_Expr ∨ (k = .Usage_argument ∧ nd.Typ = .Usage_long_option))

/-- The invariant of the usage parsing, with at most one node `o` that has just
been allocated and has no child yet: the shape `UsageTree`; every `Usage_line`
starts with a `Prog_name` followed by `Usage_Expr` nodes; a `Usage_Expr` whose
parent is a `Usage_line` is listed among the children of that line; and the
children listed are nodes of the store. -/
def UInv (o : Option Nat) (h : Heap) : Prop :=
  ∀ (i : Nat) (nd : DocoptAst), h[i]? = some nd →
    (some i = o → nd.Children = []) ∧
    (some i ≠ o → is_usage_group nd.Typ = true →
      nd.Children ≠ [] ∧ ∀ x ∈ nd.Children, kind_at h x = some .Usage_Expr) ∧
    (∀ x ∈ nd.Children, ∀ k, kind_at h x = some k →
      is_usage_terminal k = true ∨ is_usage_group k = true →
      nd.Typ = .Usage_Expr ∨ (k = .Usage_argument ∧ nd.Typ = .Usage_long_option)) ∧
    (some i ≠ o → nd.Typ = .Usage_line →
      ∃ f rest, nd.Children = f :: rest ∧ kind_at h f = some .Prog_name ∧
        ∀ x ∈ rest, kind_at h x = some .Usage_Expr) ∧
    (nd.Typ = .Usage_Expr → ∀ par, nd.Parent = some par →
      par < h.length ∧ ∀ pn, h[par]? = some pn → pn.Typ = .Usage_line → i ∈ pn.Children) ∧
    ∀ x ∈ nd.Children, x < h.length

/-- The kinds of the nodes the usage parsing creates. -/
def is_usage_node (t : DocoptNodeType) : Bool :=
  is_usage_group t || is_usage_terminal t || t == .Usage_Expr || t == .Usage_line

/-- The store holds no node of the usage lines yet. -/
def NoUsageNodes (h : Heap) : Prop :=
  ∀ nd ∈ h, is_usage_node nd.Typ = false

instance (h : Heap) : Decidable (NoUsageNodes h) := by
  unfold NoUsageNodes
  infer_instance

/-- The children listed by the nodes of the store are nodes of the store. -/
def ChildrenInRange (h : Heap) : Prop :=
  ∀ nd ∈ h, ∀ x ∈ nd.Children, x < h.length

instance (h : Heap) : Decidable (ChildrenInRange h) := by
  unfold ChildrenInRange
  infer_instance

/-- The current node of `p` is a `Usage_Expr`. -/
def CurExpr (p : DocoptParser) : Prop :=
  ∃ c nd, p.current_node = some c ∧ p.heap[c]? = some nd ∧ nd.Typ = .Usage_Expr

/-- The tokens of `Usage: p --opt=<arg>`. -/
def assign_source : List LexItem :=
  [ .tok .USAGE "Usage:", .tok .PROG_NAME "p", .tok .LONG "--opt", .tok .PUNCT "=",
    .tok .ARGUMENT "<arg>", .tok .NEWLINE "\n" ]

/-- What a call of `Consume_group` keeps. -/
def GroupKeeps (res : Reason × Option String × DocoptParser) : Prop :=
  UInv none res.2.2.heap ∧
    (res.2.1 = none → res.1.Leaving = false → UInv none res.2.2.heap ∧ CurExpr res.2.2)


/-- The current node, when it is in the store, is neither a group nor a usage
line. -/
def PlainCurrent (p : DocoptParser) : Prop :=
  ∀ (c : Nat) (nd : DocoptAst), p.current_node = some c → p.heap[c]? = some nd →
    is_usage_group nd.Typ = false ∧ nd.Typ ≠ .Usage_line

/-- The store the usage parsing leaves for `source`, and the empty store when
it faults or the prologue reports an error. -/
def usage_heap (fuel : Nat) (source : List LexItem) : Heap :=
  (after_Usage fuel source (fun x => x.2.heap)).getD []

/-- The shape of the usage trees with no exception: every group has a child and
all its children are `Usage_Expr` nodes, and a terminal or a group is listed as
a child only by a `Usage_Expr`. -/
def UsageTreeStrict (h : Heap) : Prop :=
  ∀ (i : Nat) (nd : DocoptAst), h[i]? = some nd →
    (is_usage_group nd.Typ = true →
      nd.Children ≠ [] ∧ ∀ x ∈ nd.Children, kind_at h x = some .Usage_Expr) ∧
    (∀ x ∈ nd.Children, ∀ k, kind_at h x = some k →
      is_usage_terminal k = true ∨ is_usage_group k = true → nd.Typ = .Usage_Expr)

/-- The tokens of `Usage: p [-a | b] --opt=<arg> | (c)...`. -/
def tree_source : List LexItem :=
  [ .tok .USAGE "Usage:", .tok .PROG_NAME "p", .tok .PUNCT "[", .tok .SHORT "-a",
    .tok .PUNCT "|", .tok .IDENT "b", .tok .PUNCT "]", .tok .LONG "--opt", .tok .PUNCT "=",
    .tok .ARGUMENT "<arg>", .tok .PUNCT "|", .tok .PUNCT "(", .tok .IDENT "c",
    .tok .PUNCT ")", .tok .PUNCT "...", .tok .NEWLINE "\n" ]

/-- The parser `Parse` hands to `Consume_Usage` for `tree_source`. -/
def tree_entry_state : DocoptParser :=
  result_or
    (do
      let p ← CreateNode (ParserInit tree_source) .Root none
      let (_, p) ← Consume_Prologue 20 p
      pure p)
    (ParserInit [])

/-- A parser at work in the options section of an error-free source, about to
be delivered the token at position `i`: it runs, the children listed in the
store are nodes of the store and the current node is a node of the store. -/
def OptState (p : DocoptParser) (i : Nat) : Prop :=
  Ready p i ∧ p.run = true ∧ ChildrenInRange p.heap ∧
    ∃ c, p.current_node = some c ∧ c < p.heap.length

/-- The parser `p1` is reached from `q` by reading the source up to a position
not before `lo`: the current node and the source are the ones of `q` and the
store has not shrunk. -/
def OptStep (q p1 : DocoptParser) (lo : Nat) : Prop :=
  ∃ j, lo ≤ j ∧ OptState p1 j ∧ p1.current_node = q.current_node ∧
    p1.s.items = q.s.items ∧ q.heap.length ≤ p1.heap.length

/-! ## Reasoning about executions -/

theorem bind_eq_ok {ε α β : Type} (x : Except ε α) (f : α → Except ε β) (b : β) :
    (x >>= f) = .ok b ↔ ∃ a, x = .ok a ∧ f a = .ok b := by
  cases x <;> simp [bind, Except.bind]

theorem pure_eq_ok {ε α : Type} (a b : α) : (pure a : Except ε α) = .ok b ↔ a = b := by
  simp [pure, Except.pure]

theorem deref_eq_ok {α : Type} (o : Option α) (a : α) : deref o = .ok a ↔ o = some a := by
  unfold deref
  cases o <;> simp

theorem node_eq_ok (h : Heap) (i : Nat) (nd : DocoptAst) : node h i = .ok nd ↔ h[i]? = some nd := by
  unfold node
  exact deref_eq_ok _ _

theorem rule_step_entries (h : Heap) (rid : Nat) (r r1 : OptionRule)
    (e e1 : List (String × Nat)) (s : Nat)
    (hs : rule_step h rid (r, e) s = .ok (r1, e1)) :
    e1 = ((option_key h s).toList.map fun k => (k, rid)) ++ e := by
  unfold rule_step at hs
  simp only [bind_eq_ok, node_eq_ok] at hs
  obtain ⟨sn, hsn, hs⟩ := hs
  unfold option_key
  rw [hsn]
  by_cases hl : sn.Typ = .Option_long
  · simp [-bind_pure_comp, hl, bind_eq_ok, deref_eq_ok, pure_eq_ok] at hs ⊢
    obtain ⟨t, ht, r2, _, _, h4⟩ := hs
    simp [ht, h4]
  · by_cases hsh : sn.Typ = .Option_short
    · simp [-bind_pure_comp, hl, hsh, bind_eq_ok, deref_eq_ok, pure_eq_ok] at hs ⊢
      obtain ⟨t, ht, r2, _, _, h4⟩ := hs
      simp [ht, h4]
    · simp [-bind_pure_comp, hl, hsh, bind_eq_ok, deref_eq_ok, pure_eq_ok] at hs ⊢
      exact hs.2.symm

theorem rule_fold_entries (h : Heap) (rid : Nat) (cs : List Nat) :
    ∀ (r r1 : OptionRule) (e e1 : List (String × Nat)),
      cs.foldlM (rule_step h rid) (r, e) = .ok (r1, e1) →
      e1 = ((cs.filterMap (option_key h)).reverse.map fun k => (k, rid)) ++ e := by
  induction cs with
  | nil =>
    intro r r1 e e1 hf
    simp [pure_eq_ok] at hf
    simp [hf.2]
  | cons s rest ih =>
    intro r r1 e e1 hf
    rw [List.foldlM_cons, bind_eq_ok] at hf
    obtain ⟨⟨r2, e2⟩, hstep, hrest⟩ := hf
    have h1 := rule_step_entries h rid r r2 e e2 s hstep
    have h2 := ih r2 r1 e2 e1 hrest
    rw [h2, h1]
    cases hk : option_key h s <;> simp [List.filterMap_cons, hk]

theorem line_step_entries (h : Heap) (m m1 : OptionsMap) (o : Nat)
    (hs : line_step h m o = .ok m1) :
    m1.entries = ((line_keys h o).reverse.map fun k => (k, m.rules.length)) ++ m.entries ∧
      m.rules.length ≤ m1.rules.length ∧
      (line_keys h o ≠ [] → m.rules.length < m1.rules.length) := by
  unfold line_step at hs
  simp only [bind_eq_ok, node_eq_ok] at hs
  obtain ⟨ln, hln, hs⟩ := hs
  unfold line_keys
  rw [hln]
  by_cases hty : ln.Typ = .Option_line
  · simp [-bind_pure_comp, hty, bind_eq_ok, pure_eq_ok] at hs ⊢
    obtain ⟨r, e, hf, hm⟩ := hs
    have := rule_fold_entries h m.rules.length ln.Children _ r m.entries e hf
    subst hm
    simp [this]
  · simp [hty, pure_eq_ok] at hs ⊢
    subst hs
    simp

theorem lookup_append_of_mem (new e : List (String × Nat)) (rid : Nat) (k : String)
    (hv : ∀ x ∈ new, x.2 = rid) (hk : ∃ x ∈ new, x.1 = k) :
    (new ++ e).lookup k = some rid := by
  induction new with
  | nil => simp at hk
  | cons x rest ih =>
    obtain ⟨k1, v1⟩ := x
    simp only [List.cons_append, List.lookup_cons]
    by_cases hkk : k = k1
    · have : v1 = rid := hv (k1, v1) (by simp)
      simp [hkk, this]
    · have hb : (k == k1) = false := by simpa using hkk
      rw [hb]
      apply ih
      · intro y hy
        exact hv y (by simp [hy])
      · obtain ⟨y, hy, hyk⟩ := hk
        simp only [List.mem_cons] at hy
        rcases hy with rfl | hy
        · exact absurd hyk.symm hkk
        · exact ⟨y, hy, hyk⟩

theorem lookup_append_of_not_mem (new e : List (String × Nat)) (k : String)
    (hk : ∀ x ∈ new, x.1 ≠ k) :
    (new ++ e).lookup k = e.lookup k := by
  induction new with
  | nil => simp
  | cons x rest ih =>
    obtain ⟨k1, v1⟩ := x
    have hkk : k ≠ k1 := fun hh => hk (k1, v1) (by simp) hh.symm
    have hb : (k == k1) = false := by simpa using hkk
    simp only [List.cons_append, List.lookup_cons, hb]
    apply ih
    intro y hy
    exact hk y (by simp [hy])

theorem line_step_get_of_mem (h : Heap) (m m1 : OptionsMap) (o : Nat) (k : String)
    (hs : line_step h m o = .ok m1) (hk : k ∈ line_keys h o) :
    m1.get k = some m.rules.length ∧ m.rules.length < m1.rules.length := by
  obtain ⟨he, _, hlt⟩ := line_step_entries h m m1 o hs
  refine ⟨?_, hlt (List.ne_nil_of_mem hk)⟩
  unfold OptionsMap.get
  rw [he]
  apply lookup_append_of_mem
  · intro x hx
    simp only [List.mem_map] at hx
    obtain ⟨_, _, rfl⟩ := hx
    rfl
  · exact ⟨(k, m.rules.length), by simp [hk], rfl⟩

theorem line_step_get_of_not_mem (h : Heap) (m m1 : OptionsMap) (o : Nat) (k : String)
    (hs : line_step h m o = .ok m1) (hk : k ∉ line_keys h o) :
    m1.get k = m.get k := by
  obtain ⟨he, _, _⟩ := line_step_entries h m m1 o hs
  unfold OptionsMap.get
  rw [he]
  apply lookup_append_of_not_mem
  intro x hx
  simp only [List.mem_map, List.mem_reverse] at hx
  obtain ⟨k1, hk1, rfl⟩ := hx
  intro heq
  exact hk (heq ▸ hk1)

theorem line_fold_get (h : Heap) (post : List Nat) (k : String) :
    ∀ (m m1 : OptionsMap), post.foldlM (line_step h) m = .ok m1 →
      (∀ o ∈ post, k ∉ line_keys h o) →
      m1.get k = m.get k ∧ m.rules.length ≤ m1.rules.length := by
  induction post with
  | nil =>
    intro m m1 hf _
    simp [pure_eq_ok] at hf
    simp [hf]
  | cons o rest ih =>
    intro m m1 hf hk
    rw [List.foldlM_cons, bind_eq_ok] at hf
    obtain ⟨m2, hstep, hrest⟩ := hf
    have h1 := line_step_get_of_not_mem h m m2 o k hstep (hk o (by simp))
    have h2 := ih m2 m1 hrest (fun o1 ho1 => hk o1 (by simp [ho1]))
    have h3 := (line_step_entries h m m2 o hstep).2.1
    exact ⟨h2.1.trans h1, le_trans h3 h2.2⟩

theorem rule_argument_effect (h : Heap) (s : Nat) (sn : DocoptAst) (r r1 : OptionRule)
    (hsn : h[s]? = some sn) (hty : sn.Typ = .Option_long ∨ sn.Typ = .Option_short)
    (hr : rule_argument h sn r = .ok r1) :
    r1.Long = r.Long ∧ r1.Short = r.Short ∧
    if carries_argument h s then
      r1.Arg_count = 1 ∧ r1.Argument_name = argument_literal h s ∧
        (argument_literal h s).isSome
    else r1.Arg_count = r.Arg_count ∧ r1.Argument_name = r.Argument_name := by
  unfold rule_argument at hr
  unfold carries_argument argument_literal
  rw [hsn]
  split at hr
  · rename_i a hc
    simp only [bind_eq_ok, node_eq_ok] at hr
    obtain ⟨an, han, hr⟩ := hr
    simp only [hc, han, hty]
    by_cases hat : an.Typ = .Option_argument
    · simp [-bind_pure_comp, hat, bind_eq_ok, deref_eq_ok, pure_eq_ok] at hr ⊢
      obtain ⟨t, ht, hr⟩ := hr
      subst hr
      simp [ht]
    · simp [hat, pure_eq_ok] at hr ⊢
      subst hr
      simp
  · rename_i hc
    simp only [pure_eq_ok] at hr
    subst hr
    have : (match sn.Children with
        | [a] => match h[a]? with
          | some an => decide (an.Typ = DocoptNodeType.Option_argument)
          | none => false
        | _ => false) = false := by
      split
      · rename_i a hca
        exact absurd hca (hc a)
      · rfl
    simp [this]

theorem rule_step_argument (h : Heap) (rid : Nat) (r r1 : OptionRule)
    (e e1 : List (String × Nat)) (s : Nat)
    (hs : rule_step h rid (r, e) s = .ok (r1, e1)) :
    if carries_argument h s then
      r1.Arg_count = 1 ∧ r1.Argument_name = argument_literal h s ∧
        (argument_literal h s).isSome
    else r1.Arg_count = r.Arg_count ∧ r1.Argument_name = r.Argument_name := by
  unfold rule_step at hs
  simp only [bind_eq_ok, node_eq_ok] at hs
  obtain ⟨sn, hsn, hs⟩ := hs
  by_cases hl : sn.Typ = .Option_long
  · simp [-bind_pure_comp, hl, bind_eq_ok, deref_eq_ok, pure_eq_ok] at hs
    obtain ⟨t, _, r2, hr, h3, _⟩ := hs
    subst h3
    have := (rule_argument_effect h s sn _ r2 hsn (Or.inl hl) hr).2.2
    simpa using this
  · by_cases hsh : sn.Typ = .Option_short
    · simp [-bind_pure_comp, hl, hsh, bind_eq_ok, deref_eq_ok, pure_eq_ok] at hs
      obtain ⟨t, _, r2, hr, h3, _⟩ := hs
      subst h3
      have := (rule_argument_effect h s sn _ r2 hsn (Or.inr hsh) hr).2.2
      simpa using this
    · simp [hl, hsh, pure_eq_ok] at hs
      have hc : carries_argument h s = false := by
        unfold carries_argument
        rw [hsn]
        simp [hl, hsh]
      rw [hc]
      simp [hs.1]

theorem rule_fold_argument (h : Heap) (rid : Nat) (r0 : OptionRule) (e0 : List (String × Nat))
    (cs : List Nat) :
    ∀ (r : OptionRule) (e : List (String × Nat)),
      cs.foldlM (rule_step h rid) (r0, e0) = .ok (r, e) →
      r.Arg_count = (if cs.any (carries_argument h) then 1 else r0.Arg_count) ∧
      (∀ s, (cs.filter (carries_argument h)).getLast? = some s →
        r.Argument_name = argument_literal h s ∧ (argument_literal h s).isSome) ∧
      (cs.any (carries_argument h) = false → r.Argument_name = r0.Argument_name) := by
  induction cs using List.reverseRecOn with
  | nil =>
    intro r e hf
    simp [pure_eq_ok] at hf
    simp [← hf.1]
  | append_singleton l s ih =>
    intro r e hf
    rw [List.foldlM_append, bind_eq_ok] at hf
    obtain ⟨⟨r1, e1⟩, hl, hstep⟩ := hf
    simp only [List.foldlM_cons, List.foldlM_nil, bind_eq_ok, pure_eq_ok] at hstep
    obtain ⟨⟨r2, e2⟩, hstep, heq⟩ := hstep
    simp only [Prod.mk.injEq] at heq
    obtain ⟨rfl, rfl⟩ := heq
    have h1 := ih r1 e1 hl
    have h2 := rule_step_argument h rid r1 r2 e1 e2 s hstep
    by_cases hc : carries_argument h s = true
    · simp only [hc, if_true] at h2
      simp [List.filter_append, List.any_append, hc, h2]
    · have hc1 : carries_argument h s = false := by simpa using hc
      simp only [hc1] at h2
      simp only [Bool.false_eq_true, if_false] at h2
      simp only [List.filter_append, List.any_append, List.filter_cons, hc1, List.filter_nil,
        Bool.false_eq_true, if_false, List.append_nil, List.any_cons, List.any_nil,
        Bool.or_false, h2.1, h2.2]
      exact h1


theorem try_get_NextToken_rec_frame (fuel : Nat) :
    ∀ (p p1 : DocoptParser) (slot : Slot) (e : Option String),
      try_get_NextToken_rec fuel p slot = .ok (e, p1) →
      SameTree p p1 ∧ p1.run = p.run := by
  unfold SameTree
  induction fuel with
  | zero =>
    intro p p1 slot e h
    unfold try_get_NextToken_rec at h
    by_cases h1 : p.Error_count ≥ p.max_error
    · simp only [h1, if_true, Except.ok.injEq, Prod.mk.injEq] at h
      obtain ⟨_, rfl⟩ := h
      simp
    · simp only [h1, if_false] at h
      rcases hN : p.s.Next with ⟨res, s1⟩
      rw [hN] at h
      cases res with
      | ok t =>
        simp only [Except.ok.injEq, Prod.mk.injEq] at h
        obtain ⟨_, rfl⟩ := h
        cases slot <;> simp [DocoptParser.store]
      | error x =>
        simp only at h
        by_cases h2 : (AddError { p with s := s1 } x).Error_count ≥
            (AddError { p with s := s1 } x).max_error
        · simp only [h2, if_true, Except.ok.injEq, Prod.mk.injEq] at h
          obtain ⟨_, rfl⟩ := h
          simp [AddError]
        · simp [h2] at h
  | succ n ih =>
    intro p p1 slot e h
    unfold try_get_NextToken_rec at h
    by_cases h1 : p.Error_count ≥ p.max_error
    · simp only [h1, if_true, Except.ok.injEq, Prod.mk.injEq] at h
      obtain ⟨_, rfl⟩ := h
      simp
    · simp only [h1, if_false] at h
      rcases hN : p.s.Next with ⟨res, s1⟩
      rw [hN] at h
      cases res with
      | ok t =>
        simp only [Except.ok.injEq, Prod.mk.injEq] at h
        obtain ⟨_, rfl⟩ := h
        cases slot <;> simp [DocoptParser.store]
      | error x =>
        simp only at h
        by_cases h2 : (AddError { p with s := s1 } x).Error_count ≥
            (AddError { p with s := s1 } x).max_error
        · simp only [h2, if_true, Except.ok.injEq, Prod.mk.injEq] at h
          obtain ⟨_, rfl⟩ := h
          simp [AddError]
        · simp only [h2, if_false] at h
          have := ih _ _ _ _ h
          simpa [AddError] using this

theorem SameTree.refl (p : DocoptParser) : SameTree p p := by
  simp [SameTree]

theorem SameTree.trans {p p1 p2 : DocoptParser} (h1 : SameTree p p1) (h2 : SameTree p1 p2) :
    SameTree p p2 := by
  unfold SameTree at *
  obtain ⟨a1, a2, a3, a4, a5, a6, a7, a8⟩ := h1
  obtain ⟨b1, b2, b3, b4, b5, b6, b7, b8⟩ := h2
  exact ⟨b1.trans a1, b2.trans a2, b3.trans a3, b4.trans a4, b5.trans a5, b6.trans a6,
    b7.trans a7, b8.trans a8⟩

theorem try_get_NextToken_frame (p p1 : DocoptParser) (slot : Slot) (e : Option String)
    (h : try_get_NextToken p slot = .ok (e, p1)) : SameTree p p1 ∧ p1.run = p.run :=
  try_get_NextToken_rec_frame _ p p1 slot e h

theorem NextToken_reject_frame (p p1 : DocoptParser) (h : NextToken_reject p = .ok p1) :
    SameTree p p1 ∧ p1.run = p.run := by
  unfold NextToken_reject at h
  split at h
  · split at h
    · simp only [bind_eq_ok, pure_eq_ok] at h
      obtain ⟨_, _, rfl⟩ := h
      simp [SameTree]
    · simp only [pure_eq_ok] at h
      subst h; simp [SameTree]
  · simp only [pure_eq_ok] at h
    subst h; simp [SameTree]

theorem NextToken_current_frame (p p1 : DocoptParser) (h : NextToken_current p = .ok p1) :
    SameTree p p1 ∧ p1.run = p.run := by
  unfold NextToken_current at h
  split at h
  · simp only [pure_eq_ok] at h
    subst h; simp [SameTree]
  · simp only [bind_eq_ok, pure_eq_ok] at h
    obtain ⟨⟨e1, p2⟩, h2, rfl⟩ := h
    exact try_get_NextToken_frame _ _ _ _ h2

theorem NextToken_finish_frame (p : DocoptParser) : SameTree p (NextToken_finish p) := by
  unfold NextToken_finish SameTree
  by_cases hcnt : p.Error_count ≥ p.max_error
  · simp only [hcnt, if_true, FatalError]
    simp
  · simp only [hcnt, if_false]
    simp

/-- `NextToken` touches neither the tree nor the node pointers nor the program
name. -/
theorem NextToken_frame (p p1 : DocoptParser) (h : NextToken p = .ok p1) : SameTree p p1 := by
  unfold NextToken at h
  simp only [bind_eq_ok, pure_eq_ok] at h
  obtain ⟨pa, ha, pb, hb, ⟨ec, pc⟩, hc, hd⟩ := h
  subst hd
  exact ((NextToken_reject_frame _ _ ha).1.trans (NextToken_current_frame _ _ hb).1).trans
    ((try_get_NextToken_frame _ _ _ _ hc).1.trans (NextToken_finish_frame pc))

theorem set_parents_spec (g : Nat) (cs : List Nat) :
    ∀ (h : Heap), (∀ c ∈ cs, c < h.length) →
      ∃ h1, set_parents h cs g = .ok h1 ∧ h1.length = h.length ∧
        ∀ i, h1[i]? = h[i]?.map fun nd =>
          if i ∈ cs then { nd with Parent := some g } else nd := by
  induction cs with
  | nil =>
    intro h _
    refine ⟨h, by simp [set_parents, pure, Except.pure], rfl, ?_⟩
    intro i
    cases h[i]? <;> simp
  | cons c rest ih =>
    intro h hv
    have hc : c < h.length := hv c (by simp)
    have hget : h[c]? = some h[c] := List.getElem?_eq_getElem hc
    obtain ⟨h1, hs, hlen, hspec⟩ := ih (h.set c { h[c] with Parent := some g })
      (by intro x hx; rw [List.length_set]; exact hv x (by simp [hx]))
    refine ⟨h1, ?_, by rw [hlen, List.length_set], ?_⟩
    · unfold set_parents at hs ⊢
      rw [List.foldlM_cons]
      simp only [node, hget, deref, bind, Except.bind, pure, Except.pure]
      exact hs
    · intro i
      rw [hspec i, List.getElem?_set]
      by_cases hci : c = i
      · subst hci
        simp [hc, hget]
      · have hic : ¬ i = c := fun hh => hci hh.symm
        simp [hci, hic]

/-- The alternative-group surgery, in terms of the node store: it allocates the
new `Usage_Expr` and the new `Usage_required_group` as the next two nodes, makes
the group the parent of the moved children and leaves the usage line with its
first child and the new `Usage_Expr`. -/
theorem pipe_surgery_spec (p : DocoptParser) (parent first : Nat) (rest : List Nat)
    (ln : DocoptAst) (hp : p.heap[parent]? = some ln) (hch : ln.Children = first :: rest)
    (hvalid : ∀ c ∈ rest, c < p.heap.length) :
    ∃ h1, pipe_surgery p parent =
        .ok { p with heap := h1, current_node := some (p.heap.length + 1) } ∧
      h1.length = p.heap.length + 2 ∧
      h1[p.heap.length]? = some
        { Typ := .Usage_Expr, Token := none, Parent := some parent,
          Children := [p.heap.length + 1], Repeat := false } ∧
      h1[p.heap.length + 1]? = some
        { Typ := .Usage_required_group, Token := none, Parent := some p.heap.length,
          Children := rest, Repeat := false } ∧
      ∀ (i : Nat) (nd : DocoptAst), p.heap[i]? = some nd →
        h1[i]? = some
          ({ nd with
             Parent := if i ∈ rest then some (p.heap.length + 1) else nd.Parent,
             Children := if i = parent then [first, p.heap.length] else nd.Children } :
            DocoptAst) := by
  have hpl : parent < p.heap.length := by
    rcases Nat.lt_or_ge parent p.heap.length with h | h
    · exact h
    · rw [List.getElem?_eq_none h] at hp; simp at hp
  have hpE : parent ≠ p.heap.length := Nat.ne_of_lt hpl
  -- the store after the two allocations
  obtain ⟨hB, hBdef⟩ : ∃ hB : Heap, hB =
      (p.heap ++ [({ Typ := .Usage_Expr, Token := none, Parent := some parent, Children := [],
                     Repeat := false } : DocoptAst)]).set p.heap.length
        { Typ := .Usage_Expr, Token := none, Parent := some parent,
          Children := [] ++ [p.heap.length + 1], Repeat := false } ++
      [{ Typ := .Usage_required_group, Token := none, Parent := some p.heap.length,
         Children := [], Repeat := false }] := ⟨_, rfl⟩
  have hBlen : hB.length = p.heap.length + 2 := by
    rw [hBdef]; simp
  have hBold : ∀ i, i < p.heap.length → hB[i]? = p.heap[i]? := by
    intro i hi
    rw [hBdef, List.getElem?_append_left (by simp; omega), List.getElem?_set]
    have : ¬ p.heap.length = i := by omega
    simp only [this, if_false]
    exact List.getElem?_append_left hi
  have hBE : hB[p.heap.length]? = some
      { Typ := .Usage_Expr, Token := none, Parent := some parent,
        Children := [p.heap.length + 1], Repeat := false } := by
    rw [hBdef, List.getElem?_append_left (by simp), List.getElem?_set]
    simp
  have hBG : hB[p.heap.length + 1]? = some
      { Typ := .Usage_required_group, Token := none, Parent := some p.heap.length,
        Children := [], Repeat := false } := by
    rw [hBdef, List.getElem?_append_right (by simp)]
    simp
  obtain ⟨hD, hDok, hDlen, hDspec⟩ := set_parents_spec (p.heap.length + 1) rest
    (hB.set (p.heap.length + 1)
      { Typ := .Usage_required_group, Token := none, Parent := some p.heap.length,
        Children := rest, Repeat := false })
    (by intro c hc; rw [List.length_set, hBlen]; have := hvalid c hc; omega)
  have hnotin : ∀ i, p.heap.length ≤ i → i ∉ rest := by
    intro i hi hmem
    have := hvalid i hmem
    omega
  have hDold : ∀ (i : Nat) (nd : DocoptAst), p.heap[i]? = some nd → hD[i]? = some
      (if i ∈ rest then { nd with Parent := some (p.heap.length + 1) } else nd) := by
    intro i nd hnd
    have hi : i < p.heap.length := by
      rcases Nat.lt_or_ge i p.heap.length with h | h
      · exact h
      · rw [List.getElem?_eq_none h] at hnd; simp at hnd
    rw [hDspec i, List.getElem?_set]
    have : ¬ p.heap.length + 1 = i := by omega
    simp only [this, if_false]
    rw [hBold i hi, hnd]
    rfl
  refine ⟨hD.set parent
      { (if parent ∈ rest then { ln with Parent := some (p.heap.length + 1) } else ln) with
        Children := [first, p.heap.length] }, ?_, ?_, ?_, ?_, ?_⟩
  · unfold pipe_surgery
    simp only [AddNode, node, bind, Except.bind, pure, Except.pure,
      List.getElem?_concat_length, deref, List.length_append, List.length_singleton,
      List.length_set]
    rw [← hBdef]
    simp only [hBold parent hpl, hp, hch, hBG, hDok, hDold parent ln hp]
  · rw [List.length_set, hDlen, List.length_set, hBlen]
  · rw [List.getElem?_set]
    simp only [hpE, if_false]
    rw [hDspec, List.getElem?_set]
    have : ¬ p.heap.length + 1 = p.heap.length := by omega
    simp only [this, if_false, hBE, Option.map_some', hnotin p.heap.length (le_refl _)]
  · rw [List.getElem?_set]
    have : ¬ parent = p.heap.length + 1 := by omega
    simp only [this, if_false]
    rw [hDspec, List.getElem?_set]
    simp [hBlen, hnotin (p.heap.length + 1) (by omega)]
  · intro i nd hnd
    rw [List.getElem?_set]
    by_cases hip : parent = i
    · subst hip
      have hnl : nd = ln := by rw [hp] at hnd; exact (Option.some.inj hnd).symm
      subst hnl
      simp only [if_true, hDlen, List.length_set, hBlen]
      have : parent < p.heap.length + 2 := by omega
      simp only [this, if_true]
      by_cases hm : parent ∈ rest <;> simp [hm]
    · have hip2 : ¬ i = parent := fun hh => hip hh.symm
      simp only [hip, if_false, hip2]
      rw [hDold i nd hnd]
      by_cases hm : i ∈ rest <;> simp [hm]

theorem Consume_Usage_Expr_pipe (fuel : Nat) (p : DocoptParser) (tok : Token)
    (cur L : Nat) (nd ln : DocoptAst)
    (htok : p.current_token = some tok) (hty : tok.Typ = .PUNCT) (hv : tok.Value = "|")
    (hcur : p.current_node = some cur) (hnd : p.heap[cur]? = some nd)
    (hndt : nd.Typ = .Usage_Expr) (hpar : nd.Parent = some L)
    (hln : p.heap[L]? = some ln) (hlt : ln.Typ = .Usage_line) :
    Consume_Usage_Expr fuel p =
      (pipe_surgery p L >>= fun p1 => pure (Continue, none, p1)) := by
  unfold Consume_Usage_Expr
  simp [has_reach_EOF, has_reach_two_NEWLINE, has_reach_PROG_NAME, curType, htok, deref, hty, hv,
    hcur, node, hnd, hndt, hpar, hln, hlt, bind, Except.bind, pure, Except.pure]

theorem AddNode_ok (h : Heap) (parent : Nat) (pn : DocoptAst) (t : DocoptNodeType)
    (token : Option Token) (hp : h[parent]? = some pn) :
    AddNode h parent t token = .ok (h.length,
      h.set parent { pn with Children := pn.Children ++ [h.length] } ++
        [{ Typ := t, Token := token, Parent := some parent, Children := [], Repeat := false }]) := by
  unfold AddNode
  rw [hp]

theorem lt_of_getElem?_eq_some {α : Type} (l : List α) (i : Nat) (a : α) (h : l[i]? = some a) :
    i < l.length := by
  rcases Nat.lt_or_ge i l.length with h1 | h1
  · exact h1
  · rw [List.getElem?_eq_none h1] at h; simp at h

/-- A terminal token met while the current node is not a `Usage_Expr`: a fresh
`Usage_Expr` is appended to the current node and the terminal is its only
child. -/
theorem Consume_Usage_Expr_terminal_fresh (fuel : Nat) (q : DocoptParser) (tok : Token)
    (g : Nat) (gn : DocoptAst) (t : DocoptNodeType)
    (htok : q.current_token = some tok) (hterm : usage_terminal tok.Typ = some t)
    (hcur : q.current_node = some g) (hg : q.heap[g]? = some gn) (hgt : gn.Typ ≠ .Usage_Expr) :
    ∃ q1, Consume_Usage_Expr fuel q = .ok (Reason.zero, none, q1) ∧
      q1.current_node = some q.heap.length ∧
      q1.heap[g]? = some { gn with Children := gn.Children ++ [q.heap.length] } ∧
      q1.heap[q.heap.length]? = some
        { Typ := .Usage_Expr, Token := none, Parent := some g,
          Children := [q.heap.length + 1], Repeat := false } ∧
      q1.heap[q.heap.length + 1]? = some
        { Typ := t, Token := some tok, Parent := some q.heap.length, Children := [],
          Repeat := false } := by
  have hgl : g < q.heap.length := lt_of_getElem?_eq_some _ _ _ hg
  have hgne : ¬ q.heap.length = g := by omega
  have hnew : (q.heap.set g { gn with Children := gn.Children ++ [q.heap.length] } ++
      [({ Typ := .Usage_Expr, Token := none, Parent := some g, Children := [],
          Repeat := false } : DocoptAst)])[q.heap.length]? = some
      { Typ := .Usage_Expr, Token := none, Parent := some g, Children := [],
        Repeat := false } := by
    rw [List.getElem?_append_right (by simp)]
    simp
  have key : ∀ n : DocoptNodeType, ∃ q1,
      (ensure_node q .Usage_Expr >>= fun p1 =>
        addToCurrent p1 n p1.current_token >>= fun p2 =>
          (pure (Reason.zero, (none : Option String), p2) : ConsumeResult)) =
        .ok (Reason.zero, none, q1) ∧
      q1.current_node = some q.heap.length ∧
      q1.heap[g]? = some { gn with Children := gn.Children ++ [q.heap.length] } ∧
      q1.heap[q.heap.length]? = some
        { Typ := .Usage_Expr, Token := none, Parent := some g,
          Children := [q.heap.length + 1], Repeat := false } ∧
      q1.heap[q.heap.length + 1]? = some
        { Typ := n, Token := some tok, Parent := some q.heap.length, Children := [],
          Repeat := false } := by
    intro n
    refine ⟨{ q with
        heap := (q.heap.set g { gn with Children := gn.Children ++ [q.heap.length] } ++
          [({ Typ := .Usage_Expr, Token := none, Parent := some g, Children := [],
              Repeat := false } : DocoptAst)]).set q.heap.length
            { Typ := .Usage_Expr, Token := none, Parent := some g,
              Children := [] ++ [(q.heap.set g
                { gn with Children := gn.Children ++ [q.heap.length] } ++
                [({ Typ := .Usage_Expr, Token := none, Parent := some g, Children := [],
                    Repeat := false } : DocoptAst)]).length], Repeat := false } ++
          [{ Typ := n, Token := q.current_token, Parent := some q.heap.length, Children := [],
             Repeat := false }],
        current_node := some q.heap.length }, ?_, ?_⟩
    · unfold ensure_node addToCurrent
      simp only [hcur, deref, node, hg, bind, Except.bind, pure, Except.pure, hgt, ne_eq,
        not_false_eq_true, if_true, AddNode_ok q.heap g gn _ _ hg]
      rw [AddNode_ok _ _ _ _ _ hnew]
    · refine ⟨rfl, ?_, ?_, ?_⟩
      · simp only [List.length_append, List.length_set, List.length_singleton]
        rw [List.getElem?_append_left (by simp; omega), List.getElem?_set]
        simp only [hgne, if_false]
        rw [List.getElem?_append_left (by simp; omega), List.getElem?_set]
        simp [hgl]
      · simp only [List.length_append, List.length_set, List.length_singleton]
        rw [List.getElem?_append_left (by simp), List.getElem?_set]
        simp
      · simp only [List.length_append, List.length_set, List.length_singleton]
        rw [List.getElem?_append_right (by simp)]
        simp [htok]
  have hT : tok.Typ = .SHORT ∨ tok.Typ = .LONG ∨ tok.Typ = .ARGUMENT ∨ tok.Typ = .IDENT := by
    cases hk : tok.Typ <;> simp [usage_terminal, hk] at hterm ⊢
  obtain ⟨q1, h1, h2⟩ := key t
  refine ⟨q1, ?_, h2⟩
  rw [← h1]
  unfold Consume_Usage_Expr
  rcases hT with hk | hk | hk | hk <;>
    · rw [hk] at hterm
      simp only [usage_terminal, Option.some.injEq] at hterm
      subst hterm
      simp [has_reach_EOF, has_reach_two_NEWLINE, has_reach_PROG_NAME, curType, htok, deref, hk,
        bind, Except.bind, pure, Except.pure]

theorem consistent_of_check (h : Heap) (hc : consistent_check h = true) : Consistent h := by
  unfold consistent_check at hc
  rw [List.all_eq_true] at hc
  constructor
  · intro i nd par hi hp
    have hil := lt_of_getElem?_eq_some _ _ _ hi
    have := hc i (List.mem_range.mpr hil)
    rw [hi] at this
    simp only [hp, Bool.and_eq_true] at this
    have h1 := this.1
    cases hpar : h[par]? with
    | none => rw [hpar] at h1; simp at h1
    | some pn =>
      rw [hpar] at h1
      exact ⟨pn, rfl, by simpa using h1⟩
  · intro m mn c hm hcm
    have hml := lt_of_getElem?_eq_some _ _ _ hm
    have := hc m (List.mem_range.mpr hml)
    rw [hm] at this
    simp only [Bool.and_eq_true] at this
    have h2 := this.2
    rw [List.all_eq_true] at h2
    have h3 := h2 c hcm
    cases hcc : h[c]? with
    | none => rw [hcc] at h3; simp at h3
    | some cn =>
      rw [hcc] at h3
      exact ⟨cn, rfl, by simpa using h3⟩

theorem surgery_consistent (h h1 : Heap) (L P : Nat) (cs : List Nat) (ln : DocoptAst)
    (hln : h[L]? = some ln) (hch : ln.Children = P :: cs)
    (hlen : h1.length = h.length + 2)
    (hE : h1[h.length]? = some
      { Typ := .Usage_Expr, Token := none, Parent := some L, Children := [h.length + 1],
        Repeat := false })
    (hG : h1[h.length + 1]? = some
      { Typ := .Usage_required_group, Token := none, Parent := some h.length, Children := cs,
        Repeat := false })
    (hold : ∀ (i : Nat) (nd : DocoptAst), h[i]? = some nd →
      h1[i]? = some
        ({ nd with
           Parent := if i ∈ cs then some (h.length + 1) else nd.Parent,
           Children := if i = L then [P, h.length] else nd.Children } : DocoptAst))
    (hc : Consistent h) : Consistent h1 := by
  obtain ⟨H1, H2⟩ := hc
  have hLl : L < h.length := lt_of_getElem?_eq_some _ _ _ hln
  -- the moved children and the first child are nodes of the old tree, children of `L`
  have hcs : ∀ c ∈ cs, ∃ cn, h[c]? = some cn ∧ cn.Parent = some L := by
    intro c hcm
    exact H2 L ln c hln (by rw [hch]; simp [hcm])
  have hP : ∃ pn, h[P]? = some pn ∧ pn.Parent = some L := H2 L ln P hln (by rw [hch]; simp)
  have hcount : ∀ i nd, h[i]? = some nd → nd.Parent = some L → (P :: cs).count i = 1 := by
    intro i nd hi hp
    obtain ⟨pn, hpn, hcnt⟩ := H1 i nd L hi hp
    rw [hln] at hpn
    have : pn = ln := (Option.some.inj hpn).symm
    rw [this, hch] at hcnt
    exact hcnt
  have hPcs : P ∉ cs := by
    obtain ⟨pn, hpn, hpp⟩ := hP
    have := hcount P pn hpn hpp
    intro hmem
    have h2 : 0 < cs.count P := List.count_pos_iff.mpr hmem
    simp [List.count_cons] at this
    omega
  have hPl : P < h.length := by
    obtain ⟨pn, hpn, _⟩ := hP
    exact lt_of_getElem?_eq_some _ _ _ hpn
  -- every node of the new tree is an old node, or one of the two new ones
  have hcases : ∀ i x, h1[i]? = some x →
      (∃ nd, h[i]? = some nd ∧ x =
        ({ nd with
           Parent := if i ∈ cs then some (h.length + 1) else nd.Parent,
           Children := if i = L then [P, h.length] else nd.Children } : DocoptAst)) ∨
      (i = h.length ∧ x =
        { Typ := .Usage_Expr, Token := none, Parent := some L, Children := [h.length + 1],
          Repeat := false }) ∨
      (i = h.length + 1 ∧ x =
        { Typ := .Usage_required_group, Token := none, Parent := some h.length, Children := cs,
          Repeat := false }) := by
    intro i x hi
    have hil := lt_of_getElem?_eq_some _ _ _ hi
    rw [hlen] at hil
    rcases Nat.lt_or_ge i h.length with hlt | hge
    · left
      refine ⟨h[i], List.getElem?_eq_getElem hlt, ?_⟩
      have := hold i h[i] (List.getElem?_eq_getElem hlt)
      rw [hi] at this
      exact Option.some.inj this
    · rcases Nat.eq_or_lt_of_le hge with heq | hgt
      · right; left
        subst heq
        rw [hE] at hi
        exact ⟨rfl, (Option.some.inj hi).symm⟩
      · right; right
        have : i = h.length + 1 := by omega
        subst this
        rw [hG] at hi
        exact ⟨rfl, (Option.some.inj hi).symm⟩
  constructor
  · intro i x par hi hp
    rcases hcases i x hi with ⟨nd, hnd, rfl⟩ | ⟨rfl, rfl⟩ | ⟨rfl, rfl⟩
    · by_cases him : i ∈ cs
      · simp only [him, if_true, Option.some.injEq] at hp
        subst hp
        refine ⟨_, hG, ?_⟩
        obtain ⟨cn, hcn, hcp⟩ := hcs i him
        have := hcount i cn hcn hcp
        simp only [List.count_cons] at this
        have h2 : 0 < cs.count i := List.count_pos_iff.mpr him
        simp only []
        split at this <;> omega
      · simp only [him, if_false] at hp
        obtain ⟨pn, hpn, hcnt⟩ := H1 i nd par hnd hp
        refine ⟨_, hold par pn hpn, ?_⟩
        by_cases hpl : par = L
        · subst hpl
          simp only [if_true]
          have := hcount i nd hnd hp
          simp only [List.count_cons, List.count_eq_zero_of_not_mem him, Nat.zero_add] at this
          have hiP : P = i := by
            by_contra hne
            have hb : (P == i) = false := by simpa using hne
            simp [hb] at this
          subst hiP
          have : ¬ h.length = P := by omega
          simp [List.count_cons, this]
        · simp only [hpl, if_false]
          exact hcnt
    · simp only [Option.some.injEq] at hp
      subst hp
      refine ⟨_, hold L ln hln, ?_⟩
      have : ¬ P = h.length := by omega
      simp [List.count_cons, this]
    · simp only [Option.some.injEq] at hp
      subst hp
      exact ⟨_, hE, by simp⟩
  · intro m x c hm hcm
    rcases hcases m x hm with ⟨nd, hnd, rfl⟩ | ⟨rfl, rfl⟩ | ⟨rfl, rfl⟩
    · by_cases hmL : m = L
      · subst hmL
        simp only [if_true, List.mem_cons, List.mem_singleton, List.not_mem_nil, or_false] at hcm
        rcases hcm with rfl | rfl
        · obtain ⟨pn, hpn, hpp⟩ := hP
          refine ⟨_, hold c pn hpn, ?_⟩
          simp [hPcs, hpp]
        · exact ⟨_, hE, rfl⟩
      · simp only [hmL, if_false] at hcm
        obtain ⟨cn, hcn, hcp⟩ := H2 m nd c hnd hcm
        refine ⟨_, hold c cn hcn, ?_⟩
        have : c ∉ cs := by
          intro hmem
          obtain ⟨cn2, hcn2, hcp2⟩ := hcs c hmem
          rw [hcn] at hcn2
          have : cn = cn2 := Option.some.inj hcn2
          subst this
          rw [hcp] at hcp2
          exact hmL (Option.some.inj hcp2)
        simp [this, hcp]
    · simp only [List.mem_singleton] at hcm
      subst hcm
      exact ⟨_, hG, rfl⟩
    · obtain ⟨cn, hcn, _⟩ := hcs c hcm
      refine ⟨_, hold c cn hcn, ?_⟩
      simp [hcm]

/-- `has_reach_PROG_NAME` returns true exactly when the current token is a
`PROG_NAME` carrying the program name, the token history holds more than three
tokens, and the tokens two and one places before its back are a `NEWLINE` and a
`LONG_BLANK`; the reason is then `PROG_NAME_sequence`. -/
theorem has_reach_PROG_NAME_true_iff (p : DocoptParser) (r r1 : Reason) :
    has_reach_PROG_NAME p r = .ok (true, r1) ↔
      r1 = PROG_NAME_sequence ∧
      ∃ tok a b, p.current_token = some tok ∧ tok.Typ = .PROG_NAME ∧
        tok.Value = p.Prog_name ∧ 3 < p.tokens.length ∧
        p.tokens.reverse[2]? = some (some a) ∧ a.Typ = .NEWLINE ∧
        p.tokens.reverse[1]? = some (some b) ∧ b.Typ = .LONG_BLANK := by
  unfold has_reach_PROG_NAME
  cases hc : p.current_token with
  | none => simp [pure, Except.pure]
  | some tok =>
    simp only []
    by_cases h1 : tok.Typ = .PROG_NAME ∧ tok.Value = p.Prog_name
    · by_cases h2 : p.tokens.length > 3
      · simp only [h1, and_self, if_true, h2, fromBack, bind_eq_ok, deref_eq_ok]
        constructor
        · rintro ⟨a, ⟨ea, hea, ha⟩, hrest⟩
          by_cases h3 : a.Typ = .NEWLINE
          · simp only [h3, if_true, bind_eq_ok, deref_eq_ok] at hrest
            obtain ⟨b, ⟨eb, heb, hb⟩, hrest⟩ := hrest
            by_cases h4 : b.Typ = .LONG_BLANK
            · simp only [h4, if_true, pure_eq_ok, Prod.mk.injEq, true_and] at hrest
              subst ha hb
              exact ⟨hrest.symm, tok, a, b, rfl, h1.1, h1.2, trivial, hea, h3, heb, h4⟩
            · simp [h4, pure_eq_ok] at hrest
          · simp [h3, pure_eq_ok] at hrest
        · rintro ⟨rfl, tok1, a, b, htk, _, _, _, ha, hat, hb, hbt⟩
          refine ⟨a, ⟨some a, ha, rfl⟩, ?_⟩
          simp only [hat, if_true, bind_eq_ok, deref_eq_ok]
          refine ⟨b, ⟨some b, hb, rfl⟩, ?_⟩
          simp [hbt, pure_eq_ok]
      · simp only [h1, and_self, if_true, h2, if_false, pure_eq_ok, Prod.mk.injEq]
        constructor
        · rintro ⟨hh, _⟩
          exact absurd hh (by decide)
        · rintro ⟨_, _, _, _, _, _, _, hlen, _⟩
          exact hlen.elim
    · simp only [h1, if_false, pure_eq_ok, Prod.mk.injEq]
      constructor
      · rintro ⟨hh, _⟩
        exact absurd hh (by decide)
      · rintro ⟨_, tok1, _, _, htk, ht, hv, _⟩
        have : tok1 = tok := (Option.some.inj htk).symm
        subst this
        exact absurd ⟨ht, hv⟩ h1

theorem Consume_assign_not_argument (p : DocoptParser) (arg : Token) (c : Nat) (nd : DocoptAst)
    (hcur : p.current_node = some c) (hnd : p.heap[c]? = some nd) (ha : arg.Typ ≠ .ARGUMENT) :
    Consume_assign p (some arg) = .ok (some (nd.Typ.String ++
      ": Consume_assign must be followed by ARGUMENT, invalid token: " ++ fmtToken (some arg)),
      p) := by
  unfold Consume_assign
  simp only [deref, ha, ne_eq, not_false_eq_true, if_true, curNodeType, hcur, node, hnd,
    bind, Except.bind, pure, Except.pure]

theorem Consume_assign_no_child (p : DocoptParser) (arg : Token) (c : Nat) (nd : DocoptAst)
    (hcur : p.current_node = some c) (hnd : p.heap[c]? = some nd) (ha : arg.Typ = .ARGUMENT)
    (hl : nd.Children.getLast? = none) :
    Consume_assign p (some arg) = .ok (some
      ("Consume_assign: current_node must have an option child, invalid Token: " ++
        fmtToken p.current_token), p) := by
  unfold Consume_assign
  simp only [deref, ha, ne_eq, not_true_eq_false, if_false, hcur, node, hnd, hl, bind,
    Except.bind, pure, Except.pure]

theorem Consume_assign_attach (p : DocoptParser) (arg : Token) (c l : Nat) (nd ln : DocoptAst)
    (hcur : p.current_node = some c) (hnd : p.heap[c]? = some nd) (ha : arg.Typ = .ARGUMENT)
    (hl : nd.Children.getLast? = some l) (hln : p.heap[l]? = some ln)
    (hT : ln.Typ = .Usage_long_option ∨ ln.Typ = .Option_long ∨ ln.Typ = .Option_short) :
    Consume_assign p (some arg) = .ok (none,
      { p with
        heap := p.heap.set l { ln with Children := ln.Children ++ [p.heap.length] } ++
          [{ Typ := if ln.Typ = .Usage_long_option then .Usage_argument else .Option_argument,
             Token := some arg, Parent := some l, Children := [], Repeat := false }] }) := by
  unfold Consume_assign
  rcases hT with h | h | h <;>
    simp only [deref, ha, ne_eq, not_true_eq_false, if_false, hcur, node, hnd, hl, hln, h,
      bind, Except.bind, pure, Except.pure, AddNode_ok p.heap l ln _ _ hln, if_true,
      reduceCtorEq]

theorem Consume_assign_bad_child (p : DocoptParser) (arg : Token) (c l : Nat)
    (nd ln : DocoptAst)
    (hcur : p.current_node = some c) (hnd : p.heap[c]? = some nd) (ha : arg.Typ = .ARGUMENT)
    (hl : nd.Children.getLast? = some l) (hln : p.heap[l]? = some ln)
    (h1 : ln.Typ ≠ .Usage_long_option) (h2 : ln.Typ ≠ .Option_long)
    (h3 : ln.Typ ≠ .Option_short) :
    Consume_assign p (some arg) = .ok (some ("Consume_assign: node " ++ ln.Typ.String ++
      " cannot have assignment '=', invalid Token: " ++ fmtToken p.current_token), p) := by
  unfold Consume_assign
  simp only [deref, ha, ne_eq, not_true_eq_false, if_false, hcur, node, hnd, hl, hln, bind,
    Except.bind, pure, Except.pure]

theorem Consume_loop_iter_of_Iterates (f : DocoptParser → ConsumeResult) (k : Nat)
    (p : DocoptParser) (res : Reason × Option String × DocoptParser)
    (h : Iterates f k p res) :
    ∀ (fuel : Nat) (r0 : Reason) (e0 : Option String), k < fuel →
      Consume_loop_iter f fuel r0 e0 p = .ok res := by
  induction h with
  | last p p1 r e q hrun hnext hf hleave =>
    intro fuel r0 e0 hk
    obtain ⟨n, rfl⟩ : ∃ n, fuel = n + 1 := ⟨fuel - 1, by omega⟩
    rw [Consume_loop_iter]
    simp only [hrun, if_true, hnext, hf, bind, Except.bind]
    rcases hleave with he | hl
    · simp [he, pure, Except.pure]
    · simp [hl, pure, Except.pure]
  | step k p p1 r q res hrun hnext hf hleave _ ih =>
    intro fuel r0 e0 hk
    obtain ⟨n, rfl⟩ : ∃ n, fuel = n + 1 := ⟨fuel - 1, by omega⟩
    rw [Consume_loop_iter]
    simp only [hrun, if_true, hnext, hf, bind, Except.bind]
    simp only [Option.isSome_none, Bool.false_eq_true, hleave, or_self, if_false]
    exact ih n r none (by omega)

theorem reject_current_token_frame (p p1 : DocoptParser) (h : reject_current_token p = .ok p1) :
    SameTree p p1 ∧ p1.run = p.run := by
  unfold reject_current_token at h
  simp only [bind_eq_ok, deref_eq_ok, pure_eq_ok] at h
  obtain ⟨_, _, _, _, rfl⟩ := h
  simp [SameTree]

theorem Grow.grow_refl (h : Heap) : Grow h h := by
  refine ⟨le_refl _, ?_, ?_⟩
  · intro i nd hi
    exact ⟨nd, hi, rfl, rfl, fun _ hx => hx⟩
  · intro i nd1 hle hi
    have := lt_of_getElem?_eq_some _ _ _ hi
    omega

theorem Grow.grow_trans {h h1 h2 : Heap} (a : Grow h h1) (b : Grow h1 h2) : Grow h h2 := by
  obtain ⟨a1, a2, a3⟩ := a
  obtain ⟨b1, b2, b3⟩ := b
  refine ⟨le_trans a1 b1, ?_, ?_⟩
  · intro i nd hi
    obtain ⟨nd1, h1i, t1, k1, c1⟩ := a2 i nd hi
    obtain ⟨nd2, h2i, t2, k2, c2⟩ := b2 i nd1 h1i
    exact ⟨nd2, h2i, t2.trans t1, k2.trans k1, fun x hx => c2 x (c1 x hx)⟩
  · intro i nd2 hle hi
    rcases Nat.lt_or_ge i h1.length with hlt | hge
    · obtain ⟨nd2', h2i, t2, _, _⟩ := b2 i h1[i] (List.getElem?_eq_getElem hlt)
      rw [hi] at h2i
      have : nd2 = nd2' := Option.some.inj h2i
      subst this
      rw [t2]
      exact a3 i h1[i] hle (List.getElem?_eq_getElem hlt)
    · exact b3 i nd2 hge hi

theorem KeepParents.keep_refl (h : Heap) : KeepParents h h := by
  intro i nd nd1 hi h1i
  rw [hi] at h1i
  rw [Option.some.inj h1i]

theorem PGrow.pgrow_refl (p : DocoptParser) : PGrow p p :=
  ⟨Grow.grow_refl _, KeepParents.keep_refl _, rfl⟩

theorem PGrow.pgrow_trans {p p1 p2 : DocoptParser} (a : PGrow p p1) (b : PGrow p1 p2) :
    PGrow p p2 := by
  obtain ⟨a1, a2, a3⟩ := a
  obtain ⟨b1, b2, b3⟩ := b
  refine ⟨a1.grow_trans b1, ?_, b3.trans a3⟩
  intro i nd nd2 hi h2i
  obtain ⟨nd1, h1i, _⟩ := a1.2.1 i nd hi
  exact (b2 i nd1 nd2 h1i h2i).trans (a2 i nd nd1 hi h1i)

theorem PGrow.of_heap_eq {p p1 : DocoptParser} (hh : p1.heap = p.heap)
    (hn : p1.Prog_name = p.Prog_name) : PGrow p p1 := by
  unfold PGrow
  rw [hh]
  exact ⟨Grow.grow_refl _, KeepParents.keep_refl _, hn⟩

theorem PGrow.pgrow_of_SameTree {p p1 : DocoptParser} (h : SameTree p p1) : PGrow p p1 :=
  PGrow.of_heap_eq h.1 h.2.2.2.2.2.1

theorem head?_append_singleton {α : Type} (l : List α) (a x : α)
    (h : l.head? = some x) : (l ++ [a]).head? = some x := by
  cases l with
  | nil => simp at h
  | cons b t => simpa using h

/-- The store after `AddNode`. -/
theorem AddNode_grow (h h1 : Heap) (par n : Nat) (t : DocoptNodeType) (tok : Option Token)
    (ha : AddNode h par t tok = .ok (n, h1)) (h1t : t ≠ .Usage_line) (h2t : t ≠ .Prog_name) :
    Grow h h1 ∧ KeepParents h h1 ∧ n = h.length ∧
      h1[n]? = some { Typ := t, Token := tok, Parent := some par, Children := [],
                      Repeat := false } ∧
      ∃ pn, h[par]? = some pn ∧
        h1[par]? = some { pn with Children := pn.Children ++ [h.length] } := by
  unfold AddNode at ha
  cases hp : h[par]? with
  | none => simp [hp] at ha
  | some pn =>
    simp only [hp, Except.ok.injEq, Prod.mk.injEq] at ha
    obtain ⟨rfl, rfl⟩ := ha
    have hpl : par < h.length := lt_of_getElem?_eq_some _ _ _ hp
    have hold : ∀ i, i < h.length →
        (h.set par { pn with Children := pn.Children ++ [h.length] } ++
          [({ Typ := t, Token := tok, Parent := some par, Children := [],
              Repeat := false } : DocoptAst)])[i]? =
        if par = i then some { pn with Children := pn.Children ++ [h.length] } else h[i]? := by
      intro i hi
      rw [List.getElem?_append_left (by simp; exact hi), List.getElem?_set]
      by_cases hpi : par = i
      · simp [hpi, hi]
      · simp [hpi]
    refine ⟨⟨by simp, ?_, ?_⟩, ?_, rfl, ?_, pn, rfl, ?_⟩
    · intro i nd hi
      have hil := lt_of_getElem?_eq_some _ _ _ hi
      rw [hold i hil]
      by_cases hpi : par = i
      · subst hpi
        rw [hp] at hi
        have : pn = nd := Option.some.inj hi
        subst this
        exact ⟨{ pn with Children := pn.Children ++ [h.length] }, by simp, rfl, rfl,
          fun x hx => head?_append_singleton _ _ _ hx⟩
      · simp only [hpi, if_false]
        exact ⟨nd, hi, rfl, rfl, fun _ hx => hx⟩
    · intro i nd1 hle hi
      have hil := lt_of_getElem?_eq_some _ _ _ hi
      simp only [List.length_append, List.length_set, List.length_singleton] at hil
      have : i = h.length := by omega
      subst this
      rw [List.getElem?_append_right (by simp)] at hi
      simp at hi
      subst hi
      exact ⟨h1t, h2t⟩
    · intro i nd nd1 hi h1i
      have hil := lt_of_getElem?_eq_some _ _ _ hi
      rw [hold i hil] at h1i
      by_cases hpi : par = i
      · subst hpi
        rw [hp] at hi
        have : pn = nd := Option.some.inj hi
        subst this
        simp at h1i
        subst h1i
        rfl
      · simp only [hpi, if_false] at h1i
        rw [hi] at h1i
        rw [Option.some.inj h1i]
    · rw [List.getElem?_append_right (by simp)]
      simp
    · rw [hold par hpl]
      simp

/-- Setting the `Repeat` flag of a node. -/
theorem set_repeat_grow (h : Heap) (l : Nat) (ln : DocoptAst) (hl : h[l]? = some ln) :
    Grow h (h.set l { ln with Repeat := true }) ∧
      KeepParents h (h.set l { ln with Repeat := true }) := by
  have hold : ∀ i, (h.set l { ln with Repeat := true })[i]? =
      if l = i then some { ln with Repeat := true } else h[i]? := by
    intro i
    rw [List.getElem?_set]
    by_cases hli : l = i
    · subst hli
      simp [lt_of_getElem?_eq_some _ _ _ hl]
    · simp [hli]
  refine ⟨⟨by simp, ?_, ?_⟩, ?_⟩
  · intro i nd hi
    rw [hold i]
    by_cases hli : l = i
    · subst hli
      rw [hl] at hi
      have : ln = nd := Option.some.inj hi
      subst this
      exact ⟨{ ln with Repeat := true }, by simp, rfl, rfl, fun _ hx => hx⟩
    · simp only [hli, if_false]
      exact ⟨nd, hi, rfl, rfl, fun _ hx => hx⟩
  · intro i nd1 hle hi
    have hil := lt_of_getElem?_eq_some _ _ _ hi
    simp only [List.length_set] at hil
    omega
  · intro i nd nd1 hi h1i
    rw [hold i] at h1i
    by_cases hli : l = i
    · subst hli
      rw [hl] at hi
      have : ln = nd := Option.some.inj hi
      subst this
      simp at h1i
      subst h1i
      rfl
    · simp only [hli, if_false] at h1i
      rw [hi] at h1i
      rw [Option.some.inj h1i]

theorem addToCurrent_pgrow (p p1 : DocoptParser) (t : DocoptNodeType) (tok : Option Token)
    (h : addToCurrent p t tok = .ok p1) (h1t : t ≠ .Usage_line) (h2t : t ≠ .Prog_name) :
    PGrow p p1 ∧ p1.current_node = p.current_node ∧ p1.current_token = p.current_token ∧
      p1.run = p.run := by
  unfold addToCurrent at h
  simp only [bind_eq_ok, deref_eq_ok, pure_eq_ok] at h
  obtain ⟨c, _, ⟨n, h1⟩, ha, rfl⟩ := h
  obtain ⟨g, k, _⟩ := AddNode_grow _ _ _ _ _ _ ha h1t h2t
  exact ⟨⟨g, k, rfl⟩, rfl, rfl, rfl⟩

theorem ensure_node_pgrow (p p1 : DocoptParser) (h : ensure_node p .Usage_Expr = .ok p1) :
    PGrow p p1 ∧ p1.current_token = p.current_token ∧ p1.next_token = p.next_token ∧
      p1.run = p.run ∧
      ∃ c nd, p1.current_node = some c ∧ p1.heap[c]? = some nd ∧ nd.Typ = .Usage_Expr := by
  unfold ensure_node at h
  simp only [bind_eq_ok, deref_eq_ok, node_eq_ok] at h
  obtain ⟨c, hc, nd, hnd, h⟩ := h
  by_cases hT : nd.Typ = .Usage_Expr
  · simp only [hT, ne_eq, not_true_eq_false, if_false, pure_eq_ok] at h
    subst h
    exact ⟨PGrow.pgrow_refl _, rfl, rfl, rfl, c, nd, hc, hnd, hT⟩
  · simp only [hT, ne_eq, not_false_eq_true, if_true, bind_eq_ok, pure_eq_ok] at h
    obtain ⟨⟨n, h1⟩, ha, rfl⟩ := h
    obtain ⟨g, k, _, hn, _⟩ := AddNode_grow _ _ _ _ _ _ ha (by decide) (by decide)
    exact ⟨⟨g, k, rfl⟩, rfl, rfl, rfl, n, _, rfl, hn, rfl⟩

theorem Consume_ellipsis_pgrow (p p1 : DocoptParser) (e : Option String)
    (h : Consume_ellipsis p = .ok (e, p1)) :
    PGrow p p1 ∧ p1.current_node = p.current_node := by
  unfold Consume_ellipsis at h
  simp only [bind_eq_ok, deref_eq_ok, node_eq_ok] at h
  obtain ⟨c, _, nd, _, h⟩ := h
  cases hl : nd.Children.getLast? with
  | none =>
    simp only [hl, pure_eq_ok, Prod.mk.injEq] at h
    obtain ⟨_, rfl⟩ := h
    exact ⟨PGrow.pgrow_refl _, rfl⟩
  | some l =>
    simp only [hl, bind_eq_ok, node_eq_ok, pure_eq_ok, Prod.mk.injEq] at h
    obtain ⟨ln, hln, _, rfl⟩ := h
    obtain ⟨g, k⟩ := set_repeat_grow p.heap l ln hln
    exact ⟨⟨g, k, rfl⟩, rfl⟩

theorem Consume_assign_pgrow (p p1 : DocoptParser) (arg e : Option _)
    (h : Consume_assign p arg = .ok (e, p1)) :
    PGrow p p1 ∧ p1.current_node = p.current_node := by
  unfold Consume_assign at h
  simp only [bind_eq_ok, deref_eq_ok] at h
  obtain ⟨a, _, h⟩ := h
  by_cases ha : a.Typ = .ARGUMENT
  · simp only [ha, ne_eq, not_true_eq_false, if_false, bind_eq_ok, deref_eq_ok,
      node_eq_ok] at h
    obtain ⟨c, _, nd, _, h⟩ := h
    cases hl : nd.Children.getLast? with
    | none =>
      simp only [hl, pure_eq_ok, Prod.mk.injEq] at h
      obtain ⟨_, rfl⟩ := h
      exact ⟨PGrow.pgrow_refl _, rfl⟩
    | some l =>
      simp only [hl, bind_eq_ok, node_eq_ok] at h
      obtain ⟨ln, hln, h⟩ := h
      have key : ∀ t : DocoptNodeType, t ≠ .Usage_line → t ≠ .Prog_name →
          (do
            let (_, h) ← AddNode p.heap l t arg
            (pure (none, { p with heap := h }) : StepResult)) = .ok (e, p1) →
          PGrow p p1 ∧ p1.current_node = p.current_node := by
        intro t h1t h2t hh
        simp only [bind_eq_ok, pure_eq_ok, Prod.mk.injEq] at hh
        obtain ⟨⟨n, h1⟩, hadd, _, rfl⟩ := hh
        obtain ⟨g, k, _⟩ := AddNode_grow _ _ _ _ _ _ hadd h1t h2t
        exact ⟨⟨g, k, rfl⟩, rfl⟩
      cases hT : ln.Typ <;> simp only [hT] at h <;>
        first
          | exact key _ (by decide) (by decide) h
          | (simp only [pure_eq_ok, Prod.mk.injEq] at h
             obtain ⟨_, rfl⟩ := h
             exact ⟨PGrow.pgrow_refl _, rfl⟩)
  · simp only [ha, ne_eq, not_false_eq_true, if_true, bind_eq_ok, pure_eq_ok,
      Prod.mk.injEq] at h
    obtain ⟨_, _, _, rfl⟩ := h
    exact ⟨PGrow.pgrow_refl _, rfl⟩

theorem InGroup.in_group_of_SameTree {g : Nat} {t : DocoptNodeType} {p p1 : DocoptParser}
    (h : InGroup g t p) (hs : SameTree p p1) : InGroup g t p1 := by
  obtain ⟨c, nd, gn, h1, h2, h3, h4, h5⟩ := h
  refine ⟨c, nd, gn, ?_, ?_, h3, ?_, h5⟩
  · rw [hs.2.1, h1]
  · rw [hs.1, h2]
  · rw [hs.1, h4]

theorem InGroup.step {g : Nat} {t : DocoptNodeType} {p p1 : DocoptParser}
    (h : InGroup g t p) (hg : PGrow p p1) (hs : SameParent p p1) : InGroup g t p1 := by
  obtain ⟨c, nd, gn, h1, h2, h3, h4, h5⟩ := h
  obtain ⟨c1, nd1, a1, a2, a3⟩ := hs c nd h1 h2
  obtain ⟨gn1, b1, b2, _⟩ := hg.1.2.1 g gn h4
  exact ⟨c1, nd1, gn1, a1, a2, a3.trans h3, b1, b2.trans h5⟩

/-- The entry statements of `Consume_loop(t)` for a group. -/
theorem group_enter_spec (f : DocoptParser → ConsumeResult) (t : DocoptNodeType)
    (p p0 : DocoptParser) (h : Consume_loop_enter (group_def f) t p = .ok p0)
    (h1t : t ≠ .Usage_line) (h2t : t ≠ .Prog_name) :
    PGrow p p0 ∧ InGroup p.heap.length t p0 := by
  unfold Consume_loop_enter group_def at h
  simp only [if_true, bind_eq_ok, deref_eq_ok, pure_eq_ok, Bool.false_eq_true, if_false] at h
  obtain ⟨c, _, ⟨n, ha⟩, hadd, pa, hpa, c2, hc2, ⟨n2, hb⟩, hadd2, pb, hpb, rfl⟩ := h
  obtain ⟨g1, k1, hn, hnew, _⟩ := AddNode_grow _ _ _ _ _ _ hadd h1t h2t
  have hpah : pa.heap = ha := by rw [← hpa]
  have hpac : pa.current_node = some n := by rw [← hpa]
  have hpan : pa.Prog_name = p.Prog_name := by rw [← hpa]
  rw [hpac] at hc2
  have hcn : c2 = n := (Option.some.inj hc2).symm
  subst hcn
  rw [hpah] at hadd2
  obtain ⟨g2, k2, hn2, hnew2, pn, hpn, hpar⟩ :=
    AddNode_grow _ _ _ _ _ _ hadd2 (by decide) (by decide)
  have hpbh : pb.heap = hb := by rw [← hpb]
  have hpbc : pb.current_node = some n2 := by rw [← hpb]
  have hpbn : pb.Prog_name = pa.Prog_name := by rw [← hpb]
  have hA : PGrow p pa := by
    unfold PGrow
    rw [hpah]
    exact ⟨g1, k1, hpan⟩
  have hB : PGrow pa pb := by
    unfold PGrow
    rw [hpah, hpbh]
    exact ⟨g2, k2, hpbn⟩
  refine ⟨hA.pgrow_trans hB, n2,
    ({ Typ := .Usage_Expr, Token := none, Parent := some c2, Children := [],
       Repeat := false } : DocoptAst),
    ({ pn with Children := pn.Children ++ [List.length ha] } : DocoptAst),
    hpbc, ?_, ?_, ?_, ?_⟩
  · rw [hpbh]
    exact hnew2
  · rw [hn]
  · rw [hpbh, ← hn]
    exact hpar
  · rw [hnew] at hpn
    rw [← Option.some.inj hpn]

/-- The loop of `Consume_loop` for a group: while the calls of the consume
function are `GroupStep`s, the tree grows, and a run that ends with the run flag
set and a nil error ends on the closer of the group. -/
theorem group_iter (f : DocoptParser → ConsumeResult)
    (hf : ∀ p res, f p = .ok res → GroupStep p res) (g : Nat) (t : DocoptNodeType) :
    ∀ (fuel : Nat) (r0 : Reason) (e0 : Option String) (p : DocoptParser)
      (res : Reason × Option String × DocoptParser),
      Consume_loop_iter f fuel r0 e0 p = .ok res → InGroup g t p →
      PGrow p res.2.2 ∧ (res.2.2.run = true → res.2.1 = none → closer_of t res.2.2) := by
  intro fuel
  induction fuel with
  | zero =>
    intro r0 e0 p res h _
    rw [Consume_loop_iter] at h
    by_cases hrun : p.run = true
    · simp [hrun] at h
    · simp only [hrun, Bool.false_eq_true, if_false, pure_eq_ok] at h
      subst h
      exact ⟨PGrow.pgrow_refl _, fun hr => absurd hr hrun⟩
  | succ n ih =>
    intro r0 e0 p res h hin
    rw [Consume_loop_iter] at h
    by_cases hrun : p.run = true
    · simp only [hrun, if_true, bind_eq_ok] at h
      obtain ⟨p1, hnext, ⟨r, e, q⟩, hcall, h⟩ := h
      have hst := NextToken_frame p p1 hnext
      have hin1 := hin.in_group_of_SameTree hst
      obtain ⟨hg, hsame, hclose⟩ := hf p1 (r, e, q) hcall
      simp only [] at hg hsame hclose h
      by_cases hl : e.isSome = true ∨ r.Leaving = true
      · simp only [hl, if_true, pure_eq_ok] at h
        subst h
        refine ⟨(PGrow.pgrow_of_SameTree hst).pgrow_trans hg, ?_⟩
        intro _ he
        simp only [] at he
        subst he
        have hlv : r.Leaving = true := by
          rcases hl with h1 | h1
          · simp at h1
          · exact h1
        obtain ⟨hq, tok, c, nd, par, pn, c1, c2, c3, c4, c5, c6, c7⟩ := hclose rfl hlv
        subst hq
        obtain ⟨c', nd', gn, d1, d2, d3, d4, d5⟩ := hin1
        rw [c3] at d1
        have : c = c' := Option.some.inj d1
        subst this
        rw [c4] at d2
        have : nd = nd' := Option.some.inj d2
        subst this
        rw [c5] at d3
        have : par = g := Option.some.inj d3
        subst this
        rw [c6] at d4
        have : pn = gn := Option.some.inj d4
        subst this
        rw [d5] at c7
        exact ⟨tok, c1, c2, c7⟩
      · simp only [hl, if_false] at h
        have hne : e = none := by
          cases e with
          | none => rfl
          | some x => exact absurd (Or.inl rfl) hl
        have hnl : r.Leaving = false := by
          cases hb : r.Leaving with
          | false => rfl
          | true => exact absurd (Or.inr hb) hl
        have hin2 := hin1.step hg (hsame hne hnl)
        obtain ⟨hg2, hc2⟩ := ih r e q res h hin2
        exact ⟨((PGrow.pgrow_of_SameTree hst).pgrow_trans hg).pgrow_trans hg2, hc2⟩
    · simp only [hrun, Bool.false_eq_true, if_false, pure_eq_ok] at h
      subst h
      exact ⟨PGrow.pgrow_refl _, fun hr => absurd hr hrun⟩

/-- `Consume_loop(t)` for a group whose consume function makes `GroupStep`s. -/
theorem group_loop (f : DocoptParser → ConsumeResult)
    (hf : ∀ p res, f p = .ok res → GroupStep p res) (t : DocoptNodeType) (fuel : Nat)
    (p : DocoptParser) (res : Reason × Option String × DocoptParser)
    (h : Consume_loop_with (group_def f) t fuel p = .ok res)
    (h1t : t ≠ .Usage_line) (h2t : t ≠ .Prog_name) : GroupLoop t p res := by
  unfold Consume_loop_with at h
  simp only [bind_eq_ok] at h
  obtain ⟨p0, henter, ⟨r, e, q⟩, hiter, hexit⟩ := h
  obtain ⟨hg0, hin⟩ := group_enter_spec f t p p0 henter h1t h2t
  obtain ⟨hg1, hclose⟩ := group_iter f hf p.heap.length t fuel _ _ p0 (r, e, q) hiter hin
  simp only [] at hg1 hclose
  unfold Consume_loop_exit at hexit
  by_cases hrun : q.run = true
  · simp only [hrun, if_true, group_def, pure_eq_ok] at hexit
    subst hexit
    refine ⟨?_, ?_⟩
    · exact (hg0.pgrow_trans hg1).pgrow_trans (PGrow.of_heap_eq rfl rfl)
    · intro he
      simp only [] at he
      refine ⟨rfl, rfl, ?_⟩
      obtain ⟨tok, a1, a2, a3⟩ := hclose hrun he
      exact ⟨tok, a1, a2, a3⟩
  · simp only [hrun, Bool.false_eq_true, if_false, bind_eq_ok, pure_eq_ok] at hexit
    obtain ⟨_, _, rfl⟩ := hexit
    exact ⟨hg0.pgrow_trans hg1, fun he => by simp at he⟩

theorem GroupStep.error (p : DocoptParser) (r : Reason) (m : String) :
    GroupStep p (r, some m, p) :=
  ⟨PGrow.pgrow_refl _, fun h => by simp at h, fun h => by simp at h⟩

theorem GroupStep.of_isSome {p p1 : DocoptParser} (r : Reason) (e : Option String)
    (hg : PGrow p p1) (he : e.isSome = true) : GroupStep p (r, e, p1) := by
  cases e with
  | none => simp at he
  | some m => exact ⟨hg, fun h => by simp at h, fun h => by simp at h⟩

theorem SameParent.of_pgrow {p p1 : DocoptParser} (hg : PGrow p p1)
    (hc : p1.current_node = p.current_node) : SameParent p p1 := by
  intro c nd h1 h2
  obtain ⟨nd1, a1, _⟩ := hg.1.2.1 c nd h2
  exact ⟨c, nd1, by rw [hc, h1], a1, hg.2.1 c nd nd1 h2 a1⟩

theorem GroupStep.of_same {p p1 : DocoptParser} (e : Option String) (hg : PGrow p p1)
    (hc : p1.current_node = p.current_node) : GroupStep p (Continue, e, p1) :=
  ⟨hg, fun _ _ => SameParent.of_pgrow hg hc, fun _ h => by simp [Continue] at h⟩

theorem Consume_group_terminal (p : DocoptParser) (n : DocoptNodeType)
    (res : Reason × Option String × DocoptParser)
    (h : (do let p ← addToCurrent p n p.current_token
             pure (Continue, none, p) : ConsumeResult) = .ok res)
    (h1t : n ≠ .Usage_line) (h2t : n ≠ .Prog_name) : GroupStep p res := by
  simp only [bind_eq_ok, pure_eq_ok] at h
  obtain ⟨p1, ha, rfl⟩ := h
  obtain ⟨hg, hc, _⟩ := addToCurrent_pgrow p p1 n _ ha h1t h2t
  exact GroupStep.of_same none hg hc

theorem Consume_group_nested (f : DocoptParser → ConsumeResult)
    (hf : ∀ p res, f p = .ok res → GroupStep p res) (t : DocoptNodeType) (fuel : Nat)
    (p : DocoptParser) (res : Reason × Option String × DocoptParser)
    (h : (do let (_, err, p) ← Consume_loop_with (group_def f) t fuel p
             if err.isSome then pure (Error, err, p) else pure (Continue, none, p) :
             ConsumeResult) = .ok res)
    (h1t : t ≠ .Usage_line) (h2t : t ≠ .Prog_name) : GroupStep p res := by
  simp only [bind_eq_ok] at h
  obtain ⟨⟨r, e, q⟩, hl, h⟩ := h
  obtain ⟨hg, hrest⟩ := group_loop f hf t fuel p (r, e, q) hl h1t h2t
  simp only [] at hg hrest h
  by_cases he : e.isSome = true
  · simp only [he, if_true, pure_eq_ok] at h
    subst h
    exact GroupStep.of_isSome _ _ hg he
  · simp only [he, Bool.false_eq_true, if_false, pure_eq_ok] at h
    subst h
    have hne : e = none := by
      cases e with
      | none => rfl
      | some x => simp at he
    exact GroupStep.of_same none hg (hrest hne).1

/-- Every call of `Consume_group` that returns is a `GroupStep`. -/
theorem Consume_group_step :
    ∀ (fuel : Nat) (p : DocoptParser) (res : Reason × Option String × DocoptParser),
      Consume_group fuel p = .ok res → GroupStep p res := by
  intro fuel
  induction fuel with
  | zero =>
    intro p res h
    simp [Consume_group] at h
  | succ n ih =>
    intro p res h
    rw [Consume_group] at h
    simp only [bind_eq_ok, deref_eq_ok] at h
    obtain ⟨tok, htok, h⟩ := h
    cases hT : tok.Typ <;> simp only [hT] at h
    case EOF =>
      simp only [bind_eq_ok, pure_eq_ok] at h
      obtain ⟨_, _, rfl⟩ := h
      exact GroupStep.error _ _ _
    case PROG_NAME =>
      simp only [bind_eq_ok, pure_eq_ok] at h
      obtain ⟨_, _, rfl⟩ := h
      exact GroupStep.error _ _ _
    case USAGE =>
      simp only [bind_eq_ok, pure_eq_ok] at h
      obtain ⟨_, _, rfl⟩ := h
      exact GroupStep.error _ _ _
    case IDENT => exact Consume_group_terminal p _ res h (by decide) (by decide)
    case SHORT => exact Consume_group_terminal p _ res h (by decide) (by decide)
    case LONG => exact Consume_group_terminal p _ res h (by decide) (by decide)
    case ARGUMENT => exact Consume_group_terminal p _ res h (by decide) (by decide)
    case NEWLINE =>
      simp only [bind_eq_ok] at h
      obtain ⟨k, _, h⟩ := h
      by_cases hk : k = .NEWLINE
      · simp only [hk, if_true, bind_eq_ok, pure_eq_ok] at h
        obtain ⟨_, _, rfl⟩ := h
        exact GroupStep.error _ _ _
      · simp only [hk, if_false, pure_eq_ok] at h
        subst h
        exact GroupStep.of_same none (PGrow.pgrow_refl _) rfl
    case PUNCT =>
      by_cases v1 : tok.Value = "["
      · simp only [v1, if_true] at h
        exact Consume_group_nested _ ih _ _ p res h (by decide) (by decide)
      simp only [v1, if_false] at h
      by_cases v2 : tok.Value = "("
      · simp only [v2, if_true] at h
        exact Consume_group_nested _ ih _ _ p res h (by decide) (by decide)
      simp only [v2, if_false] at h
      by_cases v3 : tok.Value = "|"
      · simp only [v3, if_true, bind_eq_ok, deref_eq_ok, node_eq_ok] at h
        obtain ⟨c, hc, nd, hnd, par, hpar, pn, hpn, h⟩ := h
        by_cases hty : pn.Typ = .Usage_optional_group ∨ pn.Typ = .Usage_required_group
        · simp only [hty, if_true, bind_eq_ok, pure_eq_ok] at h
          obtain ⟨⟨k, hh⟩, hadd, rfl⟩ := h
          obtain ⟨g1, k1, hn, hnew, _⟩ := AddNode_grow _ _ _ _ _ _ hadd (by decide) (by decide)
          refine ⟨⟨g1, k1, rfl⟩, ?_, fun _ hl => by simp [Continue] at hl⟩
          intro _ _ c' nd' hc' hnd'
          rw [hc] at hc'
          have : c = c' := Option.some.inj hc'
          subst this
          rw [hnd] at hnd'
          have : nd = nd' := Option.some.inj hnd'
          subst this
          exact ⟨k, _, rfl, hnew, hpar.symm⟩
        · simp only [hty, if_false, pure_eq_ok] at h
          subst h
          exact GroupStep.error _ _ _
      simp only [v3, if_false] at h
      by_cases v4 : tok.Value = "]"
      · simp only [v4, if_true, bind_eq_ok, deref_eq_ok, node_eq_ok] at h
        obtain ⟨c, hc, nd, hnd, par, hpar, pn, hpn, h⟩ := h
        by_cases hty : pn.Typ = .Usage_optional_group
        · simp only [hty, ne_eq, not_true_eq_false, if_false, pure_eq_ok] at h
          subst h
          refine ⟨PGrow.pgrow_refl _, fun _ hl => by simp [END_OF_Group] at hl, fun _ _ => ⟨rfl, ?_⟩⟩
          exact ⟨tok, c, nd, par, pn, htok, hT, hc, hnd, hpar, hpn, Or.inl ⟨v4, hty⟩⟩
        · simp only [hty, ne_eq, not_false_eq_true, if_true, pure_eq_ok] at h
          subst h
          exact GroupStep.error _ _ _
      simp only [v4, if_false] at h
      by_cases v5 : tok.Value = ")"
      · simp only [v5, if_true, bind_eq_ok, deref_eq_ok, node_eq_ok] at h
        obtain ⟨c, hc, nd, hnd, par, hpar, pn, hpn, h⟩ := h
        by_cases hty : pn.Typ = .Usage_required_group
        · simp only [hty, ne_eq, not_true_eq_false, if_false, pure_eq_ok] at h
          subst h
          refine ⟨PGrow.pgrow_refl _, fun _ hl => by simp [END_OF_Group] at hl, fun _ _ => ⟨rfl, ?_⟩⟩
          exact ⟨tok, c, nd, par, pn, htok, hT, hc, hnd, hpar, hpn, Or.inr ⟨v5, hty⟩⟩
        · simp only [hty, ne_eq, not_false_eq_true, if_true, pure_eq_ok] at h
          subst h
          exact GroupStep.error _ _ _
      simp only [v5, if_false] at h
      by_cases v6 : tok.Value = "="
      · simp only [v6, if_true, bind_eq_ok] at h
        obtain ⟨⟨e, q⟩, hasg, h⟩ := h
        obtain ⟨hg, hcn⟩ := Consume_assign_pgrow _ _ _ _ hasg
        simp only [] at h
        by_cases he : e.isSome = true
        · simp only [he, if_true, pure_eq_ok] at h
          subst h
          exact GroupStep.of_isSome _ _ hg he
        · simp only [he, Bool.false_eq_true, if_false, bind_eq_ok, pure_eq_ok] at h
          obtain ⟨q1, hnx, rfl⟩ := h
          have hst := NextToken_frame q q1 hnx
          exact GroupStep.of_same none (hg.pgrow_trans (PGrow.pgrow_of_SameTree hst))
            (hst.2.1.trans hcn)
      simp only [v6, if_false] at h
      by_cases v7 : tok.Value = "..."
      · simp only [v7, if_true, bind_eq_ok] at h
        obtain ⟨⟨e, q⟩, hell, h⟩ := h
        obtain ⟨hg, hcn⟩ := Consume_ellipsis_pgrow _ _ _ hell
        simp only [] at h
        by_cases he : e.isSome = true
        · simp only [he, if_true, pure_eq_ok] at h
          subst h
          exact GroupStep.of_isSome _ _ hg he
        · simp only [he, Bool.false_eq_true, if_false, pure_eq_ok] at h
          subst h
          exact GroupStep.of_same none hg hcn
      simp only [v7, if_false, bind_eq_ok, pure_eq_ok] at h
      obtain ⟨_, _, rfl⟩ := h
      exact GroupStep.error _ _ _
    all_goals
      simp only [bind_eq_ok, pure_eq_ok] at h
      obtain ⟨_, _, rfl⟩ := h
      exact GroupStep.error _ _ _

theorem eq_ok_result_or {α β γ : Type} (x : Except Fault (α × Option β × γ))
    (d : α × Option β × γ) (h : x.toOption.isSome = true)
    (e : (result_or x d).2.1 = none) :
    x = .ok ((result_or x d).1, none, (result_or x d).2.2) := by
  cases x with
  | ok a =>
    obtain ⟨a1, a2, a3⟩ := a
    simp only [result_or] at e
    subst e
    rfl
  | error e => simp [Except.toOption] at h

/-- The case `"]"` of `Consume_group`. -/
theorem Consume_group_bracket (fuel : Nat) (p : DocoptParser) (tok : Token) (c par : Nat)
    (nd pn : DocoptAst) (htok : p.current_token = some tok) (hT : tok.Typ = .PUNCT)
    (hc : p.current_node = some c) (hnd : p.heap[c]? = some nd)
    (hpar : nd.Parent = some par) (hpn : p.heap[par]? = some pn) (hv : tok.Value = "]") :
    Consume_group (fuel + 1) p =
      if pn.Typ ≠ .Usage_optional_group then
        .ok (Error, some (nd.Typ.String ++
          ": closing bracket unexpected, invalid Token: " ++ fmtToken p.current_token), p)
      else .ok (END_OF_Group, none, p) := by
  rw [Consume_group]
  by_cases hty : pn.Typ = .Usage_optional_group
  · simp [htok, deref, hT, hv, hc, node, hnd, hpar, hpn, hty, bind, Except.bind, pure,
      Except.pure]
  · simp [htok, deref, hT, hv, hc, node, hnd, hpar, hpn, hty, bind, Except.bind, pure,
      Except.pure]

/-- The case `")"` of `Consume_group`. -/
theorem Consume_group_parenthese (fuel : Nat) (p : DocoptParser) (tok : Token) (c par : Nat)
    (nd pn : DocoptAst) (htok : p.current_token = some tok) (hT : tok.Typ = .PUNCT)
    (hc : p.current_node = some c) (hnd : p.heap[c]? = some nd)
    (hpar : nd.Parent = some par) (hpn : p.heap[par]? = some pn) (hv : tok.Value = ")") :
    Consume_group (fuel + 1) p =
      if pn.Typ ≠ .Usage_required_group then
        .ok (Error, some (nd.Typ.String ++
          ": closing parenthese unexpected, invalid Token: " ++ fmtToken p.current_token), p)
      else .ok (END_OF_Group, none, p) := by
  rw [Consume_group]
  by_cases hty : pn.Typ = .Usage_required_group
  · simp [htok, deref, hT, hv, hc, node, hnd, hpar, hpn, hty, bind, Except.bind, pure,
      Except.pure]
  · simp [htok, deref, hT, hv, hc, node, hnd, hpar, hpn, hty, bind, Except.bind, pure,
      Except.pure]

/-- `Consume_loop` on a group kind is `Consume_loop_with` on the group
definition; a nil error at its return means the current token is the closer. -/
theorem Consume_loop_group_closer (fuel : Nat) (t : DocoptNodeType) (q q1 : DocoptParser)
    (r : Reason) (ht : t = .Usage_optional_group ∨ t = .Usage_required_group)
    (h : Consume_loop fuel t q = .ok (r, none, q1)) :
    q1.current_node = q.current_node ∧ q1.run = true ∧ closer_of t q1 := by
  unfold Consume_loop at h
  have hdef : Parse_def fuel t = some (group_def (Consume_group fuel)) := by
    rcases ht with ht | ht <;> subst ht <;> rfl
  simp only [hdef, deref, bind, Except.bind, pure, Except.pure] at h
  have h1t : t ≠ .Usage_line := by rcases ht with ht | ht <;> subst ht <;> decide
  have h2t : t ≠ .Prog_name := by rcases ht with ht | ht <;> subst ht <;> decide
  exact (group_loop _ (Consume_group_step fuel) t fuel q (r, none, q1) h h1t h2t).2 rfl

theorem eq_ok_result_or_state (x : Except Fault DocoptParser) (d : DocoptParser)
    (h : x.toOption.isSome = true) : x = .ok (result_or x d) := by
  cases x with
  | ok a => rfl
  | error e => simp [Except.toOption] at h

/-- The statements of `Consume_loop` after its loop restore the saved node. -/
theorem Consume_loop_with_restores (c : Consumer_Definition) (t : DocoptNodeType)
    (fuel : Nat) (p p1 : DocoptParser) (r : Reason) (e : Option String)
    (hs : c.save_current_node = true)
    (h : Consume_loop_with c t fuel p = .ok (r, e, p1)) (hrun : p1.run = true) :
    p1.current_node = p.current_node := by
  unfold Consume_loop_with at h
  simp only [bind_eq_ok] at h
  obtain ⟨p0, _, ⟨r0, e0, q⟩, _, hexit⟩ := h
  unfold Consume_loop_exit at hexit
  by_cases hq : q.run = true
  · simp only [hq, if_true, hs, pure_eq_ok, Prod.mk.injEq] at hexit
    obtain ⟨_, _, rfl⟩ := hexit
    rfl
  · simp only [hq, Bool.false_eq_true, if_false, bind_eq_ok, pure_eq_ok, Prod.mk.injEq] at hexit
    obtain ⟨_, _, _, _, rfl⟩ := hexit
    exact absurd hrun hq

/-- Replacing a node by one of the same kind and token, with the same first
child. -/
theorem set_grow (h : Heap) (i : Nat) (nd nd1 : DocoptAst) (hi : h[i]? = some nd)
    (ht : nd1.Typ = nd.Typ) (hk : nd1.Token = nd.Token)
    (hc : ∀ x, nd.Children.head? = some x → nd1.Children.head? = some x) :
    Grow h (h.set i nd1) := by
  have hold : ∀ j, (h.set i nd1)[j]? = if i = j then some nd1 else h[j]? := by
    intro j
    rw [List.getElem?_set]
    by_cases hij : i = j
    · subst hij
      simp [lt_of_getElem?_eq_some _ _ _ hi]
    · simp [hij]
  refine ⟨by simp, ?_, ?_⟩
  · intro j n hj
    rw [hold j]
    by_cases hij : i = j
    · subst hij
      rw [hi] at hj
      have : nd = n := Option.some.inj hj
      subst this
      exact ⟨nd1, by simp, ht, hk, hc⟩
    · simp only [hij, if_false]
      exact ⟨n, hj, rfl, rfl, fun _ hx => hx⟩
  · intro j n hle hj
    have := lt_of_getElem?_eq_some _ _ _ hj
    simp only [List.length_set] at this
    omega

/-- Allocating a node that is no `Usage_line` and no `Prog_name`. -/
theorem append_grow (h : Heap) (nd : DocoptAst) (h1t : nd.Typ ≠ .Usage_line)
    (h2t : nd.Typ ≠ .Prog_name) : Grow h (h ++ [nd]) := by
  refine ⟨by simp, ?_, ?_⟩
  · intro i n hi
    have hil := lt_of_getElem?_eq_some _ _ _ hi
    exact ⟨n, by rw [List.getElem?_append_left hil]; exact hi, rfl, rfl, fun _ hx => hx⟩
  · intro i n hle hi
    have hil := lt_of_getElem?_eq_some _ _ _ hi
    simp only [List.length_append, List.length_singleton] at hil
    have : i = h.length := by omega
    subst this
    rw [List.getElem?_append_right (le_refl _)] at hi
    simp at hi
    subst hi
    exact ⟨h1t, h2t⟩

/-- The re-parenting loop grows the store. -/
theorem set_parents_grow (g : Nat) (cs : List Nat) :
    ∀ (h h1 : Heap), set_parents h cs g = .ok h1 → Grow h h1 := by
  induction cs with
  | nil =>
    intro h h1 hs
    simp [set_parents, pure, Except.pure] at hs
    subst hs
    exact Grow.grow_refl _
  | cons c rest ih =>
    intro h h1 hs
    unfold set_parents at hs
    rw [List.foldlM_cons] at hs
    simp only [bind_eq_ok, node_eq_ok, pure_eq_ok] at hs
    obtain ⟨h2, ⟨cn, hcn, rfl⟩, hs⟩ := hs
    exact (set_grow h c cn ({ cn with Parent := some g } : DocoptAst) hcn rfl rfl
      (fun _ hx => hx)).grow_trans (ih _ h1 (by unfold set_parents; exact hs))

/-- The alternative-group surgery grows the store: the kinds, the tokens and the
first children stay, and the two nodes it allocates are a `Usage_Expr` and a
`Usage_required_group`. -/
theorem pipe_surgery_grow (p p1 : DocoptParser) (parent : Nat)
    (h : pipe_surgery p parent = .ok p1) : LGrow p p1 := by
  unfold pipe_surgery at h
  simp only [bind_eq_ok, node_eq_ok] at h
  obtain ⟨⟨g, hA⟩, hadd, pn, hpn, h⟩ := h
  have g0 := append_grow p.heap
    ({ Typ := .Usage_Expr, Token := none, Parent := some parent, Children := [],
       Repeat := false } : DocoptAst) (by simp) (by simp)
  obtain ⟨g1, _, hg, hnew, _⟩ := AddNode_grow _ _ _ _ _ _ hadd (by decide) (by decide)
  simp only [] at h hpn
  cases hch : pn.Children with
  | nil => simp [hch] at h
  | cons first rest =>
    simp only [hch, bind_eq_ok, node_eq_ok, pure_eq_ok] at h
    obtain ⟨gn, hgn, hC, hsp, pn3, hpn3, rfl⟩ := h
    have hgc : gn.Children = [] := by
      rw [hnew] at hgn
      rw [← Option.some.inj hgn]
    have g2 := set_grow hA g gn ({ gn with Children := rest } : DocoptAst) hgn rfl rfl
      (fun x hx => by rw [hgc] at hx; simp at hx)
    have g3 := set_parents_grow _ _ _ _ hsp
    have g013 := ((g0.grow_trans g1).grow_trans g2).grow_trans g3
    have g13 := (g1.grow_trans g2).grow_trans g3
    obtain ⟨pn3', hpn3', _, _, hhead⟩ := (g2.grow_trans g3).2.1 parent pn hpn
    rw [hpn3] at hpn3'
    have hfirst : pn3.Children.head? = some first := by
      rw [Option.some.inj hpn3']
      exact hhead first (by rw [hch]; rfl)
    have g4 := set_grow hC parent pn3
      ({ pn3 with Children := [first, p.heap.length] } : DocoptAst) hpn3 rfl rfl
      (fun x hx => by
        rw [hfirst] at hx
        rw [← Option.some.inj hx]
        rfl)
    exact ⟨g013.grow_trans g4, rfl⟩

theorem LGrow.lgrow_refl (p : DocoptParser) : LGrow p p := ⟨Grow.grow_refl _, rfl⟩

theorem LGrow.lgrow_trans {p p1 p2 : DocoptParser} (a : LGrow p p1) (b : LGrow p1 p2) :
    LGrow p p2 := ⟨a.1.grow_trans b.1, b.2.trans a.2⟩

theorem LGrow.lgrow_of_pgrow {p p1 : DocoptParser} (h : PGrow p p1) : LGrow p p1 := ⟨h.1, h.2.2⟩

theorem LGrow.lgrow_of_SameTree {p p1 : DocoptParser} (h : SameTree p p1) : LGrow p p1 :=
  LGrow.lgrow_of_pgrow (PGrow.pgrow_of_SameTree h)

theorem UStep.ustep_of_lgrow {p p1 : DocoptParser} (r : Reason) (e : Option String)
    (hg : LGrow p p1) (hr : r ≠ PROG_NAME_sequence) : UStep p (r, e, p1) :=
  ⟨hg, fun h => absurd h hr⟩

theorem has_reach_EOF_spec (p : DocoptParser) (r r1 : Reason) (b : Bool)
    (h : has_reach_EOF p r = .ok (b, r1)) :
    (b = true ∧ r1 = EOF_reached) ∨ (b = false ∧ r1 = r) := by
  unfold has_reach_EOF at h
  simp only [bind_eq_ok] at h
  obtain ⟨t, _, h⟩ := h
  by_cases ht : t = .EOF
  · simp only [ht, if_true, pure_eq_ok, Prod.mk.injEq] at h
    exact Or.inl ⟨h.1.symm, h.2.symm⟩
  · simp only [ht, if_false, pure_eq_ok, Prod.mk.injEq] at h
    exact Or.inr ⟨h.1.symm, h.2.symm⟩

theorem has_reach_two_NEWLINE_spec (p p1 : DocoptParser) (r r1 : Reason) (c b : Bool)
    (h : has_reach_two_NEWLINE p r c = .ok (b, r1, p1)) :
    (b = true ∧ r1 = TWO_NEWLINE ∧ SameTree p p1) ∨ (b = false ∧ r1 = r ∧ p1 = p) := by
  unfold has_reach_two_NEWLINE at h
  simp only [bind_eq_ok] at h
  obtain ⟨t, _, h⟩ := h
  by_cases ht : t = .NEWLINE
  · simp only [ht, if_true, bind_eq_ok] at h
    obtain ⟨n, _, h⟩ := h
    by_cases hn : n = .NEWLINE
    · cases c with
      | true =>
        simp only [hn, if_true, bind_eq_ok, pure_eq_ok, Prod.mk.injEq] at h
        obtain ⟨q, hq, h1, h2, h3⟩ := h
        subst h3
        exact Or.inl ⟨h1.symm, h2.symm, NextToken_frame _ _ hq⟩
      | false =>
        simp only [hn, if_true, Bool.false_eq_true, if_false, bind_eq_ok, pure_eq_ok,
          Prod.mk.injEq] at h
        obtain ⟨q, hq, h1, h2, h3⟩ := h
        subst h3
        subst hq
        exact Or.inl ⟨h1.symm, h2.symm, SameTree.refl _⟩
    · simp only [hn, if_false, pure_eq_ok, Prod.mk.injEq] at h
      exact Or.inr ⟨h.1.symm, h.2.1.symm, h.2.2.symm⟩
  · simp only [ht, if_false, pure_eq_ok, Prod.mk.injEq] at h
    exact Or.inr ⟨h.1.symm, h.2.1.symm, h.2.2.symm⟩

theorem has_reach_PROG_NAME_spec (p : DocoptParser) (r r1 : Reason) (b : Bool)
    (h : has_reach_PROG_NAME p r = .ok (b, r1)) :
    (b = true ∧ r1 = PROG_NAME_sequence ∧
        ∃ tok, p.current_token = some tok ∧ tok.Value = p.Prog_name) ∨
      (b = false ∧ r1 = r) := by
  cases b with
  | true =>
    obtain ⟨h1, tok, _, _, h2, _, h3, _⟩ := (has_reach_PROG_NAME_true_iff p r r1).mp h
    exact Or.inl ⟨rfl, h1, tok, h2, h3⟩
  | false =>
    refine Or.inr ⟨rfl, ?_⟩
    unfold has_reach_PROG_NAME at h
    cases hc : p.current_token with
    | none =>
      simp only [hc, pure_eq_ok, Prod.mk.injEq] at h
      exact h.2.symm
    | some tok =>
      simp only [hc] at h
      by_cases h1 : tok.Typ = .PROG_NAME ∧ tok.Value = p.Prog_name
      · simp only [h1, and_self, if_true] at h
        by_cases h2 : p.tokens.length > 3
        · simp only [h2, if_true, bind_eq_ok] at h
          obtain ⟨t2, _, h⟩ := h
          by_cases h3 : t2.Typ = .NEWLINE
          · simp only [h3, if_true, bind_eq_ok] at h
            obtain ⟨t1, _, h⟩ := h
            by_cases h4 : t1.Typ = .LONG_BLANK
            · simp [h4, pure, Except.pure] at h
            · simp only [h4, if_false, pure_eq_ok, Prod.mk.injEq] at h
              exact h.2.symm
          · simp only [h3, if_false, pure_eq_ok, Prod.mk.injEq] at h
            exact h.2.symm
        · simp only [h2, if_false, pure_eq_ok, Prod.mk.injEq] at h
          exact h.2.symm
      · simp only [h1, if_false, pure_eq_ok, Prod.mk.injEq] at h
        exact h.2.symm

theorem Usage_Expr_terminal_ustep (p : DocoptParser) (n : DocoptNodeType) (r : Reason)
    (res : Reason × Option String × DocoptParser)
    (h : (do let p ← ensure_node p .Usage_Expr
             let p ← addToCurrent p n p.current_token
             pure (r, none, p) : ConsumeResult) = .ok res)
    (hr : r ≠ PROG_NAME_sequence) (h1t : n ≠ .Usage_line) (h2t : n ≠ .Prog_name) :
    UStep p res := by
  simp only [bind_eq_ok, pure_eq_ok] at h
  obtain ⟨pa, hen, pb, hadd, rfl⟩ := h
  obtain ⟨g1, _⟩ := ensure_node_pgrow p pa hen
  obtain ⟨g2, _⟩ := addToCurrent_pgrow pa pb n _ hadd h1t h2t
  exact UStep.ustep_of_lgrow _ _ (LGrow.lgrow_of_pgrow (g1.pgrow_trans g2)) hr

theorem Usage_Expr_group_ustep (fuel : Nat) (p : DocoptParser) (n : DocoptNodeType)
    (res : Reason × Option String × DocoptParser)
    (h : (do let p ← ensure_node p .Usage_Expr
             let (_, err, p) ← Consume_loop_with (group_def (Consume_group fuel)) n fuel p
             if err.isSome then pure (Error, err, p)
             else do
               let nt ← curNodeType p
               let p := if nt ≠ .Usage_Expr then
                   FatalError p ("Consume_loop(" ++ n.String ++
                     ") did not restore current_node: " ++ nt.String)
                 else p
               pure (Continue, none, p) : ConsumeResult) = .ok res)
    (h1t : n ≠ .Usage_line) (h2t : n ≠ .Prog_name) : UStep p res := by
  simp only [bind_eq_ok] at h
  obtain ⟨pa, hen, ⟨r, e, q⟩, hl, h⟩ := h
  obtain ⟨g1, _⟩ := ensure_node_pgrow p pa hen
  obtain ⟨g2, _⟩ := group_loop _ (Consume_group_step fuel) n fuel pa (r, e, q) hl h1t h2t
  simp only [] at g2 h
  by_cases he : e.isSome = true
  · simp only [he, if_true, pure_eq_ok] at h
    subst h
    exact UStep.ustep_of_lgrow _ _ (LGrow.lgrow_of_pgrow (g1.pgrow_trans g2)) (by decide)
  · simp only [he, Bool.false_eq_true, if_false, bind_eq_ok, pure_eq_ok] at h
    obtain ⟨nt, _, rfl⟩ := h
    refine UStep.ustep_of_lgrow _ _ ((LGrow.lgrow_of_pgrow (g1.pgrow_trans g2)).lgrow_trans ?_) (by decide)
    by_cases hnt : nt = .Usage_Expr
    · simp only [hnt, ne_eq, not_true_eq_false, if_false]
      exact LGrow.lgrow_refl _
    · simp only [hnt, ne_eq, not_false_eq_true, if_true]
      exact ⟨Grow.grow_refl _, rfl⟩

/-- Every call of `Consume_Usage_Expr` that returns is a `UStep`. -/
theorem Consume_Usage_Expr_ustep (fuel : Nat) (p : DocoptParser)
    (res : Reason × Option String × DocoptParser)
    (h : Consume_Usage_Expr fuel p = .ok res) : UStep p res := by
  unfold Consume_Usage_Expr at h
  simp only [bind_eq_ok] at h
  obtain ⟨⟨b1, r1⟩, h1, h⟩ := h
  simp only [] at h
  rcases has_reach_EOF_spec _ _ _ _ h1 with ⟨hb, hr⟩ | ⟨hb, hr⟩
  · subst hb
    subst hr
    simp only [if_true, pure_eq_ok] at h
    subst h
    exact UStep.ustep_of_lgrow _ _ (LGrow.lgrow_refl _) (by decide)
  subst hb
  subst hr
  simp only [Bool.false_eq_true, if_false, bind_eq_ok] at h
  obtain ⟨⟨b2, r2, p2⟩, h2, h⟩ := h
  simp only [] at h
  rcases has_reach_two_NEWLINE_spec _ _ _ _ _ _ h2 with ⟨hb, hr, hst⟩ | ⟨hb, hr, hp⟩
  · subst hb
    subst hr
    simp only [if_true, pure_eq_ok] at h
    subst h
    exact UStep.ustep_of_lgrow _ _ (LGrow.lgrow_of_SameTree hst) (by decide)
  subst hb
  subst hr
  have hp2 := hp.symm
  subst hp2
  simp only [Bool.false_eq_true, if_false, bind_eq_ok] at h
  obtain ⟨⟨b3, r3⟩, h3, h⟩ := h
  simp only [] at h
  rcases has_reach_PROG_NAME_spec _ _ _ _ h3 with ⟨hb, hr, htok⟩ | ⟨hb, hr⟩
  · subst hb
    subst hr
    simp only [if_true, pure_eq_ok] at h
    subst h
    exact ⟨LGrow.lgrow_refl _, fun _ _ => htok⟩
  subst hb
  subst hr
  simp only [Bool.false_eq_true, if_false, bind_eq_ok, deref_eq_ok] at h
  obtain ⟨tok, htok, h⟩ := h
  cases hT : tok.Typ <;> simp only [hT] at h
  case NEWLINE =>
    simp only [pure_eq_ok] at h
    subst h
    exact UStep.ustep_of_lgrow _ _ (LGrow.lgrow_refl _) (by decide)
  case LONG_BLANK =>
    simp only [pure_eq_ok] at h
    subst h
    exact UStep.ustep_of_lgrow _ _ (LGrow.lgrow_refl _) (by decide)
  case SHORT =>
    exact Usage_Expr_terminal_ustep p _ _ res h (by decide) (by decide) (by decide)
  case LONG =>
    exact Usage_Expr_terminal_ustep p _ _ res h (by decide) (by decide) (by decide)
  case ARGUMENT =>
    exact Usage_Expr_terminal_ustep p _ _ res h (by decide) (by decide) (by decide)
  case IDENT =>
    exact Usage_Expr_terminal_ustep p _ _ res h (by decide) (by decide) (by decide)
  case PUNCT =>
    by_cases v1 : tok.Value = "["
    · simp only [v1, if_true] at h
      exact Usage_Expr_group_ustep fuel p _ res h (by decide) (by decide)
    simp only [v1, if_false] at h
    by_cases v2 : tok.Value = "("
    · simp only [v2, if_true] at h
      exact Usage_Expr_group_ustep fuel p _ res h (by decide) (by decide)
    simp only [v2, if_false] at h
    by_cases v3 : tok.Value = "..."
    · simp only [v3, if_true, bind_eq_ok] at h
      obtain ⟨pa, hen, ⟨e, q⟩, hell, h⟩ := h
      obtain ⟨g1, _⟩ := ensure_node_pgrow p pa hen
      obtain ⟨g2, _⟩ := Consume_ellipsis_pgrow _ _ _ hell
      simp only [] at h
      by_cases he : e.isSome = true
      · simp only [he, if_true, pure_eq_ok] at h
        subst h
        exact UStep.ustep_of_lgrow _ _ (LGrow.lgrow_of_pgrow (g1.pgrow_trans g2)) (by decide)
      · simp only [he, Bool.false_eq_true, if_false, pure_eq_ok] at h
        subst h
        exact UStep.ustep_of_lgrow _ _ (LGrow.lgrow_of_pgrow (g1.pgrow_trans g2)) (by decide)
    simp only [v3, if_false] at h
    by_cases v4 : tok.Value = "="
    · simp only [v4, if_true, bind_eq_ok] at h
      obtain ⟨pa, hen, ⟨e, q⟩, hasg, h⟩ := h
      obtain ⟨g1, _⟩ := ensure_node_pgrow p pa hen
      obtain ⟨g2, _⟩ := Consume_assign_pgrow _ _ _ _ hasg
      simp only [] at h
      by_cases he : e.isSome = true
      · simp only [he, if_true, pure_eq_ok] at h
        subst h
        exact UStep.ustep_of_lgrow _ _ (LGrow.lgrow_of_pgrow (g1.pgrow_trans g2)) (by decide)
      · simp only [he, Bool.false_eq_true, if_false, bind_eq_ok, pure_eq_ok] at h
        obtain ⟨q1, hnx, rfl⟩ := h
        exact UStep.ustep_of_lgrow _ _
          (LGrow.lgrow_of_pgrow ((g1.pgrow_trans g2).pgrow_trans (PGrow.pgrow_of_SameTree (NextToken_frame q q1 hnx))))
          (by decide)
    simp only [v4, if_false] at h
    by_cases v5 : tok.Value = "|"
    · simp only [v5, if_true, bind_eq_ok, deref_eq_ok, node_eq_ok] at h
      obtain ⟨c, hc, nd, hnd, h⟩ := h
      by_cases hty : nd.Typ = .Usage_Expr
      · simp only [hty, ne_eq, not_true_eq_false, if_false, bind_eq_ok, deref_eq_ok,
          node_eq_ok] at h
        obtain ⟨par, hpar, pn, hpn, h⟩ := h
        by_cases hl : pn.Typ = .Usage_line
        · simp only [hl, if_true, bind_eq_ok, pure_eq_ok] at h
          obtain ⟨q, hsur, rfl⟩ := h
          exact UStep.ustep_of_lgrow _ _ (pipe_surgery_grow p q par hsur) (by decide)
        · simp only [hl, if_false] at h
          by_cases hrq : pn.Typ = .Usage_required_group
          · simp only [hrq, if_true, bind_eq_ok, pure_eq_ok] at h
            obtain ⟨⟨k, hh⟩, hadd, rfl⟩ := h
            obtain ⟨g1, _⟩ := AddNode_grow _ _ _ _ _ _ hadd (by decide) (by decide)
            exact UStep.ustep_of_lgrow _ _ ⟨g1, rfl⟩ (by decide)
          · simp only [hrq, if_false, pure_eq_ok] at h
            subst h
            exact UStep.ustep_of_lgrow _ _ (LGrow.lgrow_refl _) (by decide)
      · simp only [hty, ne_eq, not_false_eq_true, if_true, pure_eq_ok] at h
        subst h
        exact UStep.ustep_of_lgrow _ _ (LGrow.lgrow_refl _) (by decide)
    simp only [v5, if_false, pure_eq_ok] at h
    subst h
    exact UStep.ustep_of_lgrow _ _ (LGrow.lgrow_refl _) (by decide)
  all_goals
    simp only [pure_eq_ok] at h
    subst h
    exact UStep.ustep_of_lgrow _ _ ⟨Grow.grow_refl _, rfl⟩ (by decide)

/-- The loop of `Consume_loop` over a consume function that makes `UStep`s. -/
theorem ustep_iter (f : DocoptParser → ConsumeResult)
    (hf : ∀ p res, f p = .ok res → UStep p res) :
    ∀ (fuel : Nat) (r0 : Reason) (e0 : Option String) (p : DocoptParser)
      (res : Reason × Option String × DocoptParser),
      Consume_loop_iter f fuel r0 e0 p = .ok res → r0 ≠ PROG_NAME_sequence → UStep p res := by
  intro fuel
  induction fuel with
  | zero =>
    intro r0 e0 p res h hr0
    rw [Consume_loop_iter] at h
    by_cases hrun : p.run = true
    · simp [hrun] at h
    · simp only [hrun, Bool.false_eq_true, if_false, pure_eq_ok] at h
      subst h
      exact UStep.ustep_of_lgrow _ _ (LGrow.lgrow_refl _) hr0
  | succ n ih =>
    intro r0 e0 p res h hr0
    rw [Consume_loop_iter] at h
    by_cases hrun : p.run = true
    · simp only [hrun, if_true, bind_eq_ok] at h
      obtain ⟨p1, hnext, ⟨r, e, q⟩, hcall, h⟩ := h
      have hst := LGrow.lgrow_of_SameTree (NextToken_frame p p1 hnext)
      obtain ⟨hg, hclause⟩ := hf p1 (r, e, q) hcall
      simp only [] at hg hclause h
      by_cases hl : e.isSome = true ∨ r.Leaving = true
      · simp only [hl, if_true, pure_eq_ok] at h
        subst h
        exact ⟨hst.lgrow_trans hg, hclause⟩
      · simp only [hl, if_false] at h
        have hnl : r ≠ PROG_NAME_sequence := by
          intro hr
          apply hl
          right
          rw [hr]
          rfl
        obtain ⟨hg2, hc2⟩ := ih r e q res h hnl
        exact ⟨(hst.lgrow_trans hg).lgrow_trans hg2, hc2⟩
    · simp only [hrun, Bool.false_eq_true, if_false, pure_eq_ok] at h
      subst h
      exact UStep.ustep_of_lgrow _ _ (LGrow.lgrow_refl _) hr0

/-- The call `Consume_loop(Usage_Expr)` is a `UStep`. -/
theorem Consume_loop_Usage_Expr_ustep (fuel : Nat) (p : DocoptParser)
    (res : Reason × Option String × DocoptParser)
    (h : Consume_loop fuel .Usage_Expr p = .ok res) : UStep p res := by
  unfold Consume_loop at h
  simp only [Parse_def, deref, bind, Except.bind] at h
  unfold Consume_loop_with at h
  simp only [bind_eq_ok] at h
  obtain ⟨p0, henter, ⟨r, e, q⟩, hiter, hexit⟩ := h
  unfold Consume_loop_enter at henter
  simp only [Bool.false_eq_true, if_false, if_true, bind_eq_ok, pure_eq_ok] at henter
  obtain ⟨pa, rfl, pb, rfl, henter⟩ := henter
  have g0 := LGrow.lgrow_of_SameTree (reject_current_token_frame _ _ henter).1
  obtain ⟨g1, hclause⟩ := ustep_iter _ (Consume_Usage_Expr_ustep fuel) fuel _ _ p0 (r, e, q)
    hiter (by decide)
  simp only [] at g1 hclause
  unfold Consume_loop_exit at hexit
  by_cases hrun : q.run = true
  · simp only [hrun, if_true, pure_eq_ok] at hexit
    subst hexit
    exact ⟨g0.lgrow_trans g1, hclause⟩
  · simp only [hrun, Bool.false_eq_true, if_false, bind_eq_ok, pure_eq_ok] at hexit
    obtain ⟨_, _, rfl⟩ := hexit
    exact UStep.ustep_of_lgrow _ _ (g0.lgrow_trans g1) (by decide)

/-- The store after `AddNode`, for any kind of node. -/
theorem AddNode_spec (h h1 : Heap) (par n : Nat) (t : DocoptNodeType) (tok : Option Token)
    (ha : AddNode h par t tok = .ok (n, h1)) :
    n = h.length ∧ h1.length = h.length + 1 ∧
      h1[h.length]? = some { Typ := t, Token := tok, Parent := some par, Children := [],
                             Repeat := false } ∧
      ∀ (i : Nat) (nd : DocoptAst), h[i]? = some nd →
        ∃ nd1, h1[i]? = some nd1 ∧ nd1.Typ = nd.Typ ∧ nd1.Token = nd.Token ∧
          (∀ x, nd.Children.head? = some x → nd1.Children.head? = some x) ∧
          (i = par → nd1.Children = nd.Children ++ [h.length]) := by
  unfold AddNode at ha
  cases hp : h[par]? with
  | none => simp [hp] at ha
  | some pn =>
    simp only [hp, Except.ok.injEq, Prod.mk.injEq] at ha
    obtain ⟨rfl, rfl⟩ := ha
    refine ⟨rfl, by simp, ?_, ?_⟩
    · rw [List.getElem?_append_right (by simp)]
      simp
    · intro i nd hi
      have hil := lt_of_getElem?_eq_some _ _ _ hi
      rw [List.getElem?_append_left (by simp; exact hil), List.getElem?_set]
      by_cases hpi : par = i
      · subst hpi
        rw [hp] at hi
        have : pn = nd := Option.some.inj hi
        subst this
        exact ⟨{ pn with Children := pn.Children ++ [h.length] }, by simp [hil], rfl, rfl,
          fun x hx => head?_append_singleton _ _ _ hx, fun _ => rfl⟩
      · simp only [hpi, if_false]
        exact ⟨nd, hi, rfl, rfl, fun _ hx => hx, fun hh => absurd hh.symm hpi⟩

/-- The invariant of the usage lines passes to a store that keeps the kinds, the
tokens and the first children of the nodes, when the nodes added satisfy it. -/
theorem LineInv.extend {h h2 : Heap} {name : String} (hinv : LineInv h name)
    (hk : ∀ (i : Nat) (nd : DocoptAst), h[i]? = some nd →
      ∃ nd2, h2[i]? = some nd2 ∧ nd2.Typ = nd.Typ ∧ nd2.Token = nd.Token ∧
        ∀ x, nd.Children.head? = some x → nd2.Children.head? = some x)
    (hnew : ∀ (i : Nat) (nd : DocoptAst), h.length ≤ i → h2[i]? = some nd →
      (nd.Typ = .Usage_line →
        ∃ f fn, nd.Children.head? = some f ∧ h2[f]? = some fn ∧ fn.Typ = .Prog_name) ∧
      (nd.Typ = .Prog_name → ∃ tok, nd.Token = some tok ∧ tok.Value = name)) :
    LineInv h2 name := by
  intro i nd hi
  rcases Nat.lt_or_ge i h.length with hlt | hge
  · have h0 : h[i]? = some h[i] := List.getElem?_eq_getElem hlt
    obtain ⟨nd2, a1, a2, a3, a4⟩ := hk i _ h0
    rw [hi] at a1
    have hnd : nd = nd2 := Option.some.inj a1
    subst hnd
    obtain ⟨b1, b2⟩ := hinv i _ h0
    refine ⟨?_, ?_⟩
    · intro hty
      obtain ⟨f, fn, c1, c2, c3⟩ := b1 (a2.symm.trans hty)
      obtain ⟨fn2, d1, d2, _⟩ := hk f fn c2
      exact ⟨f, fn2, a4 f c1, d1, d2.trans c3⟩
    · intro hty
      obtain ⟨tok, c1, c2⟩ := b2 (a2.symm.trans hty)
      exact ⟨tok, a3.trans c1, c2⟩
  · exact hnew i nd hge hi

theorem LineInv.of_grow {h h1 : Heap} {name : String} (hinv : LineInv h name)
    (hg : Grow h h1) : LineInv h1 name := by
  refine hinv.extend hg.2.1 ?_
  intro i nd hle hi
  obtain ⟨n1, n2⟩ := hg.2.2 i nd hle hi
  exact ⟨fun hh => absurd hh n1, fun hh => absurd hh n2⟩

theorem LineInv.of_no_lines {h : Heap} (name : String) (hno : NoLines h) : LineInv h name := by
  intro i nd hi
  have hil := lt_of_getElem?_eq_some _ _ _ hi
  have hmem : nd ∈ h := by
    rw [List.getElem?_eq_getElem hil] at hi
    rw [← Option.some.inj hi]
    exact List.getElem_mem hil
  obtain ⟨n1, n2⟩ := hno nd hmem
  exact ⟨fun hh => absurd hh n1, fun hh => absurd hh n2⟩

/-- A new `Usage_line` with its `Prog_name` child keeps the invariant of the
usage lines when the token of the child carries the program name. -/
theorem LineInv.new_line {h h1 h2 : Heap} {name : String} (par l x : Nat) (tok : Token)
    (hinv : LineInv h name)
    (ha : AddNode h par .Usage_line none = .ok (l, h1))
    (hb : AddNode h1 l .Prog_name (some tok) = .ok (x, h2))
    (hv : tok.Value = name) : LineInv h2 name := by
  obtain ⟨hl, hlen1, hline, k1⟩ := AddNode_spec _ _ _ _ _ _ ha
  obtain ⟨hx, hlen2, hprog, k2⟩ := AddNode_spec _ _ _ _ _ _ hb
  subst hl
  rw [hlen1] at hprog hlen2
  obtain ⟨ln2, e1, e2, _, _, e5⟩ := k2 _ _ hline
  have e5' := e5 rfl
  refine hinv.extend ?_ ?_
  · intro i nd hi
    obtain ⟨nd1, a1, a2, a3, a4, _⟩ := k1 i nd hi
    obtain ⟨nd2, b1, b2, b3, b4, _⟩ := k2 i nd1 a1
    exact ⟨nd2, b1, b2.trans a2, b3.trans a3, fun y hy => b4 y (a4 y hy)⟩
  · intro i nd hle hi
    have hil := lt_of_getElem?_eq_some _ _ _ hi
    rw [hlen2] at hil
    have hcases : i = h.length ∨ i = h.length + 1 := by omega
    rcases hcases with hc | hc
    · subst hc
      rw [e1] at hi
      have hnd : ln2 = nd := Option.some.inj hi
      subst hnd
      refine ⟨fun _ => ⟨h.length + 1, _, ?_, hprog, rfl⟩, ?_⟩
      · rw [e5', hlen1]
        rfl
      · intro hh
        rw [e2] at hh
        simp at hh
    · subst hc
      rw [hprog] at hi
      have hnd := Option.some.inj hi
      subst hnd
      exact ⟨fun hh => by simp at hh, fun _ => ⟨tok, rfl, hv⟩⟩

theorem eq_ok_result_or_step (x : StepResult) (d : Option String × DocoptParser)
    (h : x.toOption.isSome = true) : x = .ok ((result_or x d).1, (result_or x d).2) := by
  cases x with
  | ok a => rfl
  | error e => simp [Except.toOption] at h

theorem LineInv.line_inv_of_lgrow {p p1 : DocoptParser} (hinv : LineInv p.heap p.Prog_name)
    (hg : LGrow p p1) : LineInv p1.heap p1.Prog_name := by
  rw [hg.2]
  exact hinv.of_grow hg.1

theorem NoLines.no_lines_of_SameTree {p p1 : DocoptParser} (hno : NoLines p.heap) (hs : SameTree p p1) :
    NoLines p1.heap := by
  rw [hs.1]
  exact hno

/-- The loop of `Consume_First_Program_Usage`, started on a tree without usage
lines, ends on a tree whose usage lines start with the program name. -/
theorem Consume_First_Program_Usage_loop_inv :
    ∀ (fuel : Nat) (p p1 : DocoptParser) (e : Option String), NoLines p.heap →
      Consume_First_Program_Usage_loop fuel p = .ok (e, p1) →
      LineInv p1.heap p1.Prog_name := by
  intro fuel
  induction fuel with
  | zero =>
    intro p p1 e hno h
    rw [Consume_First_Program_Usage_loop] at h
    by_cases hrun : p.run = true
    · simp [hrun] at h
    · simp only [hrun, Bool.false_eq_true, if_false, parser_stoped, bind_eq_ok, pure_eq_ok,
        Prod.mk.injEq] at h
      obtain ⟨_, _, _, rfl⟩ := h
      exact LineInv.of_no_lines _ hno
  | succ n ih =>
    intro p p1 e hno h
    rw [Consume_First_Program_Usage_loop] at h
    by_cases hrun : p.run = true
    · simp only [hrun, if_true, bind_eq_ok, deref_eq_ok] at h
      obtain ⟨pa, hnext, tok, htok, h⟩ := h
      have hst := NextToken_frame p pa hnext
      have hnoa : NoLines pa.heap := hno.no_lines_of_SameTree hst
      by_cases h1 : tok.Typ = .PROG_NAME
      · simp only [h1, if_true, bind_eq_ok, deref_eq_ok, pure_eq_ok, Prod.mk.injEq] at h
        obtain ⟨c, _, ⟨l, ha⟩, hadd1, ⟨x, hb⟩, hadd2, _, rfl⟩ := h
        simp only [htok] at hadd2
        exact LineInv.new_line c l x tok (LineInv.of_no_lines tok.Value hnoa) hadd1 hadd2 rfl
      simp only [h1, if_false] at h
      by_cases h2 : tok.Typ = .BLANK
      · simp only [h2, if_true] at h
        exact ih pa p1 e hnoa h
      simp only [h2, if_false] at h
      by_cases h3 : tok.Typ = .NEWLINE
      · simp only [h3, if_true, bind_eq_ok] at h
        obtain ⟨nx, _, h⟩ := h
        by_cases h4 : nx = .NEWLINE
        · simp only [h4, if_true] at h
          by_cases h5 : pa.Prog_name = ""
          · simp only [h5, if_true, pure_eq_ok, Prod.mk.injEq] at h
            obtain ⟨_, rfl⟩ := h
            exact LineInv.of_no_lines _ hnoa
          · simp only [h5, if_false, bind_eq_ok, pure_eq_ok, Prod.mk.injEq] at h
            obtain ⟨pb, hnx, _, rfl⟩ := h
            exact LineInv.of_no_lines _ (hnoa.no_lines_of_SameTree (NextToken_frame pa pb hnx))
        · simp only [h4, if_false] at h
          exact ih pa p1 e hnoa h
      simp only [h3, if_false, pure_eq_ok, Prod.mk.injEq] at h
      obtain ⟨_, rfl⟩ := h
      exact LineInv.of_no_lines _ hnoa
    · simp only [hrun, Bool.false_eq_true, if_false, parser_stoped, bind_eq_ok, pure_eq_ok,
        Prod.mk.injEq] at h
      obtain ⟨_, _, _, rfl⟩ := h
      exact LineInv.of_no_lines _ hno

/-- The loop of `Consume_Usage_line` keeps the invariant of the usage lines. -/
theorem Consume_Usage_line_loop_inv (us : Nat) :
    ∀ (fuel : Nat) (p p1 : DocoptParser) (e : Option String),
      LineInv p.heap p.Prog_name → Consume_Usage_line_loop us fuel p = .ok (e, p1) →
      LineInv p1.heap p1.Prog_name := by
  intro fuel
  induction fuel with
  | zero =>
    intro p p1 e hinv h
    rw [Consume_Usage_line_loop] at h
    by_cases hrun : p.run = true
    · simp [hrun] at h
    · simp only [hrun, Bool.false_eq_true, if_false, parser_stoped, bind_eq_ok, pure_eq_ok,
        Prod.mk.injEq] at h
      obtain ⟨_, _, _, rfl⟩ := h
      exact hinv
  | succ n ih =>
    intro p p1 e hinv h
    rw [Consume_Usage_line_loop] at h
    by_cases hrun : p.run = true
    · simp only [hrun, if_true, bind_eq_ok] at h
      obtain ⟨pa, hnext, ⟨b, r⟩, _, h⟩ := h
      have hinva : LineInv pa.heap pa.Prog_name :=
        hinv.line_inv_of_lgrow (LGrow.lgrow_of_SameTree (NextToken_frame p pa hnext))
      simp only [] at h
      by_cases hb : b = true
      · simp only [hb, if_true, pure_eq_ok, Prod.mk.injEq] at h
        obtain ⟨_, rfl⟩ := h
        exact hinva
      simp only [hb, Bool.false_eq_true, if_false, bind_eq_ok, deref_eq_ok] at h
      obtain ⟨tok, htok, h⟩ := h
      by_cases h1 : tok.Typ = .PROG_NAME
      · simp only [h1, if_true] at h
        by_cases h2 : pa.Prog_name = tok.Value
        · simp only [h2, ne_eq, not_true_eq_false, if_false] at h
          exact ih pa p1 e hinva h
        · simp only [h2, ne_eq, not_false_eq_true, if_true, pure_eq_ok, Prod.mk.injEq] at h
          obtain ⟨_, rfl⟩ := h
          exact hinva
      simp only [h1, if_false] at h
      by_cases h2 : tok.Typ = .USAGE
      · simp only [h2, if_true, pure_eq_ok, Prod.mk.injEq] at h
        obtain ⟨_, rfl⟩ := h
        exact hinva
      simp only [h2, if_false, bind_eq_ok] at h
      obtain ⟨⟨reason, err, q⟩, hloop, h⟩ := h
      obtain ⟨hg, hclause⟩ := Consume_loop_Usage_Expr_ustep n pa (reason, err, q) hloop
      simp only [] at hg hclause h
      have hinvq : LineInv q.heap q.Prog_name := hinva.line_inv_of_lgrow hg
      by_cases he : err.isSome = true
      · simp only [he, if_true, pure_eq_ok, Prod.mk.injEq] at h
        obtain ⟨_, rfl⟩ := h
        exact hinvq
      simp only [he, Bool.false_eq_true, if_false] at h
      have hen : err = none := by
        cases err with
        | none => rfl
        | some x => simp at he
      by_cases h3 : reason = TWO_NEWLINE ∨ reason = EOF_reached
      · simp only [h3, if_true, pure_eq_ok, Prod.mk.injEq] at h
        obtain ⟨_, rfl⟩ := h
        exact hinvq
      simp only [h3, if_false] at h
      by_cases h4 : reason = PROG_NAME_sequence
      · simp only [h4, if_true, bind_eq_ok] at h
        obtain ⟨⟨l, ha⟩, hadd1, ⟨x, hb2⟩, hadd2, ⟨k, hc⟩, hadd3, h⟩ := h
        obtain ⟨tk, htk, hval⟩ := hclause h4 hen
        simp only [htk] at hadd2
        have hinv2 := LineInv.new_line us l x tk hinvq hadd1 hadd2 hval
        obtain ⟨g3, _⟩ := AddNode_grow _ _ _ _ _ _ hadd3 (by decide) (by decide)
        exact ih { q with heap := hc, current_node := some k } p1 e (hinv2.of_grow g3) h
      · simp only [h4, if_false] at h
        exact ih (FatalError q "switch default not supposed to be reached") p1 e hinvq h
    · simp only [hrun, Bool.false_eq_true, if_false, parser_stoped, bind_eq_ok, pure_eq_ok,
        Prod.mk.injEq] at h
      obtain ⟨_, _, _, rfl⟩ := h
      exact hinv

theorem Counts.counts_refl (p : DocoptParser) : Counts p p :=
  ⟨le_refl _, rfl, fun h => h, rfl, rfl⟩

theorem Counts.counts_trans {p p1 p2 : DocoptParser} (a : Counts p p1) (b : Counts p1 p2) :
    Counts p p2 := by
  obtain ⟨a1, a2, a3, a4, a5⟩ := a
  obtain ⟨b1, b2, b3, b4, b5⟩ := b
  refine ⟨le_trans a1 b1, by omega, ?_, b4.trans a4, b5.trans a5⟩
  intro h
  have h1 := a3 h
  rw [a4] at b3
  exact b3 h1

theorem try_get_NextToken_rec_counts (fuel : Nat) :
    ∀ (p p1 : DocoptParser) (slot : Slot) (e : Option String),
      try_get_NextToken_rec fuel p slot = .ok (e, p1) → Counts p p1 := by
  unfold Counts
  induction fuel with
  | zero =>
    intro p p1 slot e h
    unfold try_get_NextToken_rec at h
    by_cases h1 : p.Error_count ≥ p.max_error
    · simp only [h1, if_true, Except.ok.injEq, Prod.mk.injEq] at h
      obtain ⟨_, rfl⟩ := h
      simp
    · simp only [h1, if_false] at h
      rcases hN : p.s.Next with ⟨res, s1⟩
      rw [hN] at h
      cases res with
      | ok t =>
        simp only [Except.ok.injEq, Prod.mk.injEq] at h
        obtain ⟨_, rfl⟩ := h
        cases slot <;> simp [DocoptParser.store]
      | error x =>
        simp only at h
        by_cases h2 : (AddError { p with s := s1 } x).Error_count ≥
            (AddError { p with s := s1 } x).max_error
        · simp only [h2, if_true, Except.ok.injEq, Prod.mk.injEq] at h
          obtain ⟨_, rfl⟩ := h
          simp only [AddError, List.length_append, List.length_singleton] at h2 ⊢
          exact ⟨by omega, by omega, fun _ => by omega, by simp⟩
        · simp [h2] at h
  | succ n ih =>
    intro p p1 slot e h
    unfold try_get_NextToken_rec at h
    by_cases h1 : p.Error_count ≥ p.max_error
    · simp only [h1, if_true, Except.ok.injEq, Prod.mk.injEq] at h
      obtain ⟨_, rfl⟩ := h
      simp
    · simp only [h1, if_false] at h
      rcases hN : p.s.Next with ⟨res, s1⟩
      rw [hN] at h
      cases res with
      | ok t =>
        simp only [Except.ok.injEq, Prod.mk.injEq] at h
        obtain ⟨_, rfl⟩ := h
        cases slot <;> simp [DocoptParser.store]
      | error x =>
        simp only at h
        by_cases h2 : (AddError { p with s := s1 } x).Error_count ≥
            (AddError { p with s := s1 } x).max_error
        · simp only [h2, if_true, Except.ok.injEq, Prod.mk.injEq] at h
          obtain ⟨_, rfl⟩ := h
          simp only [AddError, List.length_append, List.length_singleton] at h2 ⊢
          exact ⟨by omega, by omega, fun _ => by omega, by simp⟩
        · simp only [h2, if_false] at h
          obtain ⟨c1, c2, c3, c4, c5⟩ := ih _ _ _ _ h
          simp only [AddError, List.length_append, List.length_singleton] at c1 c2 c3 c4 c5 h2
          refine ⟨by omega, by omega, ?_, c4, c5⟩
          intro _
          exact c3 (by omega)

theorem NextToken_reject_counts (p p1 : DocoptParser) (h : NextToken_reject p = .ok p1) :
    Counts p p1 := by
  unfold NextToken_reject at h
  split at h
  · split at h
    · simp only [bind_eq_ok, pure_eq_ok] at h
      obtain ⟨_, _, rfl⟩ := h
      exact ⟨le_refl _, rfl, fun h => h, rfl, rfl⟩
    · simp only [pure_eq_ok] at h
      subst h
      exact Counts.counts_refl _
  · simp only [pure_eq_ok] at h
    subst h
    exact Counts.counts_refl _

theorem NextToken_current_counts (p p1 : DocoptParser) (h : NextToken_current p = .ok p1) :
    Counts p p1 := by
  unfold NextToken_current at h
  split at h
  · simp only [pure_eq_ok] at h
    subst h
    exact ⟨le_refl _, rfl, fun h => h, rfl, rfl⟩
  · simp only [bind_eq_ok, pure_eq_ok] at h
    obtain ⟨⟨e1, p2⟩, h2, rfl⟩ := h
    exact try_get_NextToken_rec_counts _ _ _ _ _ h2

/-- The errors `NextToken` collects, and what it does to the run flag. -/
theorem NextToken_counts (p p1 : DocoptParser) (h : NextToken p = .ok p1) :
    p.Error_count ≤ p1.Error_count ∧
      p1.Errors.length + p.Error_count = p.Errors.length + p1.Error_count ∧
      (p.Error_count ≤ p.max_error → p1.Error_count ≤ p.max_error) ∧
      p1.max_error = p.max_error ∧
      (p1.run = true ↔ p.run = true ∧ p1.Error_count < p1.max_error) := by
  unfold NextToken at h
  simp only [bind_eq_ok, pure_eq_ok] at h
  obtain ⟨pa, ha, pb, hb, ⟨ec, pc⟩, hc, hd⟩ := h
  have hcnt := ((NextToken_reject_counts _ _ ha).counts_trans
    (NextToken_current_counts _ _ hb)).counts_trans (try_get_NextToken_rec_counts _ _ _ _ _ hc)
  obtain ⟨c1, c2, c3, c4, c5⟩ := hcnt
  subst hd
  unfold NextToken_finish
  by_cases hge : pc.Error_count ≥ pc.max_error
  · simp only [hge, if_true, FatalError]
    refine ⟨c1, c2, c3, c4, ?_⟩
    simp
    intro _
    exact hge
  · simp only [hge, if_false]
    refine ⟨c1, c2, c3, c4, ?_⟩
    rw [c5]
    constructor
    · intro hr
      exact ⟨hr, by omega⟩
    · intro hr
      exact hr.1

theorem HExt.hext_refl (h : Heap) : HExt h h := by
  refine ⟨le_refl _, ?_, ?_⟩
  · intro i nd hi
    exact ⟨nd, hi, rfl, rfl, rfl, [], by simp⟩
  · intro i nd1 hle hi
    have := lt_of_getElem?_eq_some _ _ _ hi
    omega

theorem HExt.hext_trans {h h1 h2 : Heap} (a : HExt h h1) (b : HExt h1 h2) : HExt h h2 := by
  obtain ⟨a1, a2, a3⟩ := a
  obtain ⟨b1, b2, b3⟩ := b
  refine ⟨le_trans a1 b1, ?_, ?_⟩
  · intro i nd hi
    obtain ⟨nd1, h1i, t1, k1, q1, e1, c1⟩ := a2 i nd hi
    obtain ⟨nd2, h2i, t2, k2, q2, e2, c2⟩ := b2 i nd1 h1i
    exact ⟨nd2, h2i, t2.trans t1, k2.trans k1, q2.trans q1, e1 ++ e2, by
      rw [c2, c1, List.append_assoc]⟩
  · intro i nd2 hle hi
    rcases Nat.lt_or_ge i h1.length with hlt | hge
    · have h1i : h1[i]? = some h1[i] := List.getElem?_eq_getElem hlt
      obtain ⟨nd2', h2i, t2, _⟩ := b2 i _ h1i
      rw [hi] at h2i
      rw [Option.some.inj h2i, t2]
      exact a3 i _ hle h1i
    · exact b3 i nd2 hge hi

/-- The store after `AddNode` of a node of section content. -/
theorem AddNode_hext (h h1 : Heap) (par n : Nat) (t : DocoptNodeType) (tok : Option Token)
    (ha : AddNode h par t tok = .ok (n, h1)) (ht : section_content t = true) : HExt h h1 := by
  unfold AddNode at ha
  cases hp : h[par]? with
  | none => simp [hp] at ha
  | some pn =>
    simp only [hp, Except.ok.injEq, Prod.mk.injEq] at ha
    obtain ⟨rfl, rfl⟩ := ha
    refine ⟨by simp, ?_, ?_⟩
    · intro i nd hi
      have hil := lt_of_getElem?_eq_some _ _ _ hi
      rw [List.getElem?_append_left (by simp; exact hil), List.getElem?_set]
      by_cases hpi : par = i
      · subst hpi
        rw [hp] at hi
        have : pn = nd := Option.some.inj hi
        subst this
        exact ⟨{ pn with Children := pn.Children ++ [h.length] }, by simp [hil], rfl, rfl,
          rfl, [h.length], rfl⟩
      · simp only [hpi, if_false]
        exact ⟨nd, hi, rfl, rfl, rfl, [], by simp⟩
    · intro i nd1 hle hi
      have hil := lt_of_getElem?_eq_some _ _ _ hi
      simp only [List.length_append, List.length_set, List.length_singleton] at hil
      have : i = h.length := by omega
      subst this
      rw [List.getElem?_append_right (by simp)] at hi
      simp at hi
      subst hi
      exact ht

theorem SecStep.sec_refl (p : DocoptParser) : SecStep p p :=
  ⟨HExt.hext_refl _, rfl, rfl, rfl, rfl⟩

theorem SecStep.sec_trans {p p1 p2 : DocoptParser} (a : SecStep p p1) (b : SecStep p1 p2) :
    SecStep p p2 :=
  ⟨a.1.hext_trans b.1, b.2.1.trans a.2.1, b.2.2.1.trans a.2.2.1, b.2.2.2.1.trans a.2.2.2.1,
    b.2.2.2.2.trans a.2.2.2.2⟩

theorem SecStep.sec_of_SameTree {p p1 : DocoptParser} (h : SameTree p p1) : SecStep p p1 := by
  obtain ⟨h1, _, h3, h4, h5, h6, _, _⟩ := h
  unfold SecStep
  rw [h1]
  exact ⟨HExt.hext_refl _, h6, h4, h3, h5⟩

theorem addToCurrent_sec (p p1 : DocoptParser) (t : DocoptNodeType) (tok : Option Token)
    (h : addToCurrent p t tok = .ok p1) (ht : section_content t = true) :
    SecStep p p1 ∧ p1.current_node = p.current_node ∧ p1.run = p.run := by
  unfold addToCurrent at h
  simp only [bind_eq_ok, deref_eq_ok, pure_eq_ok] at h
  obtain ⟨c, _, ⟨n, h1⟩, ha, rfl⟩ := h
  exact ⟨⟨AddNode_hext _ _ _ _ _ _ ha ht, rfl, rfl, rfl, rfl⟩, rfl, rfl⟩

theorem Consume_assign_sec (p p1 : DocoptParser) (arg e : Option _)
    (h : Consume_assign p arg = .ok (e, p1)) :
    SecStep p p1 ∧ p1.current_node = p.current_node := by
  unfold Consume_assign at h
  simp only [bind_eq_ok, deref_eq_ok] at h
  obtain ⟨a, _, h⟩ := h
  by_cases ha : a.Typ = .ARGUMENT
  · simp only [ha, ne_eq, not_true_eq_false, if_false, bind_eq_ok, deref_eq_ok,
      node_eq_ok] at h
    obtain ⟨c, _, nd, _, h⟩ := h
    cases hl : nd.Children.getLast? with
    | none =>
      simp only [hl, pure_eq_ok, Prod.mk.injEq] at h
      obtain ⟨_, rfl⟩ := h
      exact ⟨SecStep.sec_refl _, rfl⟩
    | some l =>
      simp only [hl, bind_eq_ok, node_eq_ok] at h
      obtain ⟨ln, hln, h⟩ := h
      have key : ∀ t : DocoptNodeType, section_content t = true →
          (do
            let (_, h) ← AddNode p.heap l t arg
            (pure (none, { p with heap := h }) : StepResult)) = .ok (e, p1) →
          SecStep p p1 ∧ p1.current_node = p.current_node := by
        intro t ht hh
        simp only [bind_eq_ok, pure_eq_ok, Prod.mk.injEq] at hh
        obtain ⟨⟨n, h1⟩, hadd, _, rfl⟩ := hh
        exact ⟨⟨AddNode_hext _ _ _ _ _ _ hadd ht, rfl, rfl, rfl, rfl⟩, rfl⟩
      cases hT : ln.Typ <;> simp only [hT] at h <;>
        first
          | exact key _ (by decide) h
          | (simp only [pure_eq_ok, Prod.mk.injEq] at h
             obtain ⟨_, rfl⟩ := h
             exact ⟨SecStep.sec_refl _, rfl⟩)
  · simp only [ha, ne_eq, not_false_eq_true, if_true, bind_eq_ok, pure_eq_ok,
      Prod.mk.injEq] at h
    obtain ⟨_, _, _, rfl⟩ := h
    exact ⟨SecStep.sec_refl _, rfl⟩

theorem parser_stoped_eq (p p1 : DocoptParser) (e : Option String)
    (h : parser_stoped p = .ok (e, p1)) : p1 = p ∧ e.isSome = true := by
  simp only [parser_stoped, bind_eq_ok, pure_eq_ok, Prod.mk.injEq] at h
  obtain ⟨_, _, he, rfl⟩ := h
  exact ⟨rfl, by rw [← he]; rfl⟩

/-- The loop of `Consume_option_description` extends the tree by section
content. -/
theorem Consume_option_description_loop_sec (d : Nat) :
    ∀ (fuel cl : Nat) (p p1 : DocoptParser) (e : Option String),
      Consume_option_description_loop d fuel cl p = .ok (e, p1) → SecStep p p1 := by
  intro fuel
  induction fuel with
  | zero =>
    intro cl p p1 e h
    rw [Consume_option_description_loop] at h
    by_cases hrun : p.run = true
    · simp [hrun] at h
    · simp only [hrun, Bool.false_eq_true, if_false] at h
      rw [(parser_stoped_eq _ _ _ h).1]
      exact SecStep.sec_refl _
  | succ n ih =>
    intro cl p p1 e h
    rw [Consume_option_description_loop] at h
    by_cases hrun : p.run = true
    · simp only [hrun, if_true, bind_eq_ok, deref_eq_ok] at h
      obtain ⟨pa, hnext, tok, htok, h⟩ := h
      have hst := SecStep.sec_of_SameTree (NextToken_frame p pa hnext)
      have hadd_sec : ∀ (k : Nat) (h1 : Heap),
          AddNode pa.heap d .Description_node pa.current_token = .ok (k, h1) →
          SecStep pa { pa with heap := h1 } := by
        intro k h1 hadd
        exact ⟨AddNode_hext _ _ _ _ _ _ hadd (by decide), rfl, rfl, rfl, rfl⟩
      have collect : ∀ cl1 : Nat,
          (∃ a, AddNode pa.heap d .Description_node pa.current_token = .ok a ∧
            Consume_option_description_loop d n cl1 { pa with heap := a.2 } = .ok (e, p1)) →
          SecStep p p1 := by
        intro cl1 hh
        obtain ⟨⟨k, h1⟩, hadd, hh⟩ := hh
        have hz := ih cl1 _ p1 e hh
        exact hst.sec_trans ((hadd_sec k h1 hadd).sec_trans hz)
      cases hT : tok.Typ with
      | NEWLINE =>
        simp only [hT, bind_eq_ok] at h
        obtain ⟨nx, _, h⟩ := h
        by_cases hnx : nx = .NEWLINE
        · simp only [hnx, if_true, bind_eq_ok, pure_eq_ok, Prod.mk.injEq] at h
          obtain ⟨⟨k, h1⟩, hadd, pb, hnb, _, rfl⟩ := h
          exact hst.sec_trans ((hadd_sec k h1 hadd).sec_trans
            (SecStep.sec_of_SameTree (NextToken_frame _ _ hnb)))
        · simp only [hnx, if_false, bind_eq_ok] at h
          exact collect _ h
      | EOF =>
        simp only [hT, pure_eq_ok, Prod.mk.injEq] at h
        obtain ⟨_, rfl⟩ := h
        exact hst
      | LONG_BLANK =>
        simp only [hT] at h
        by_cases hcl : cl > 0
        · simp only [hcl, if_true, true_and, bind_eq_ok] at h
          obtain ⟨nx, _, h⟩ := h
          by_cases hnx : nx = .SHORT ∨ nx = .LONG
          · simp only [hnx, if_true, bind_eq_ok, pure_eq_ok, Prod.mk.injEq] at h
            obtain ⟨pb, hrej, _, rfl⟩ := h
            exact hst.sec_trans (SecStep.sec_of_SameTree (reject_current_token_frame _ _ hrej).1)
          · simp only [hnx, if_false, bind_eq_ok] at h
            exact collect _ h
        · simp only [hcl, if_false, false_and, bind_eq_ok, pure_eq_ok] at h
          obtain ⟨nx, _, h⟩ := h
          exact collect _ h
      | DEFAULT =>
        simp only [hT, Consume_option_default, pure_eq_ok, Prod.mk.injEq] at h
        obtain ⟨_, rfl⟩ := h
        exact hst
      | _ =>
        simp only [hT, bind_eq_ok] at h
        exact collect _ h
    · simp only [hrun, Bool.false_eq_true, if_false] at h
      rw [(parser_stoped_eq _ _ _ h).1]
      exact SecStep.sec_refl _

theorem Consume_option_description_sec (fuel : Nat) (p p1 : DocoptParser) (e : Option String)
    (h : Consume_option_description fuel p = .ok (e, p1)) : SecStep p p1 := by
  unfold Consume_option_description at h
  simp only [bind_eq_ok, deref_eq_ok] at h
  obtain ⟨c, _, ⟨d, h1⟩, hadd, h⟩ := h
  have hs : SecStep p { p with heap := h1 } :=
    ⟨AddNode_hext _ _ _ _ _ _ hadd (by decide), rfl, rfl, rfl, rfl⟩
  exact hs.sec_trans (Consume_option_description_loop_sec d fuel 0 _ p1 e h)

/-- The loop of `Consume_option_line` extends the tree by section content. -/
theorem Consume_option_line_loop_sec :
    ∀ (fuel : Nat) (err : Option String) (p p1 : DocoptParser) (e : Option String),
      Consume_option_line_loop fuel err p = .ok (e, p1) → SecStep p p1 := by
  intro fuel
  induction fuel with
  | zero =>
    intro err p p1 e h
    rw [Consume_option_line_loop] at h
    by_cases hrun : p.run = true
    · simp [hrun] at h
    · simp only [hrun, Bool.false_eq_true, if_false, pure_eq_ok, Prod.mk.injEq] at h
      obtain ⟨_, rfl⟩ := h
      exact SecStep.sec_refl _
  | succ n ih =>
    intro err p p1 e h
    rw [Consume_option_line_loop] at h
    by_cases hrun : p.run = true
    · simp only [hrun, if_true, bind_eq_ok, deref_eq_ok] at h
      obtain ⟨pa, hnext, tok, htok, h⟩ := h
      have hst := SecStep.sec_of_SameTree (NextToken_frame p pa hnext)
      have ends : ∀ k : TokenKind,
          (∃ c, pa.current_node = some c ∧ ∃ nd, pa.heap[c]? = some nd ∧
            (if nd.Children.length = 0 then
              (pure (some (nd.Typ.String ++ ": " ++ k.name ++
                " unexpected empty option, invalid Token: " ++ fmtToken pa.current_token), pa) :
                StepResult)
            else pure (err, pa)) = .ok (e, p1)) → SecStep p p1 := by
        intro k hh
        obtain ⟨c, _, nd, _, hh⟩ := hh
        by_cases hz : nd.Children.length = 0
        · simp only [hz, if_true, pure_eq_ok, Prod.mk.injEq] at hh
          obtain ⟨_, rfl⟩ := hh
          exact hst
        · simp only [hz, if_false, pure_eq_ok, Prod.mk.injEq] at hh
          obtain ⟨_, rfl⟩ := hh
          exact hst
      cases hT : tok.Typ with
      | EOF =>
        simp only [hT, bind_eq_ok, deref_eq_ok, node_eq_ok] at h
        exact ends _ h
      | NEWLINE =>
        simp only [hT, bind_eq_ok, deref_eq_ok, node_eq_ok] at h
        exact ends _ h
      | LONG_BLANK =>
        simp only [hT] at h
        exact hst.sec_trans (Consume_option_description_sec n pa p1 e h)
      | SHORT =>
        simp only [hT, bind_eq_ok] at h
        obtain ⟨pb, hadd, h⟩ := h
        exact hst.sec_trans ((addToCurrent_sec _ _ _ _ hadd (by decide)).1.sec_trans
          (ih err pb p1 e h))
      | LONG =>
        simp only [hT, bind_eq_ok] at h
        obtain ⟨pb, hadd, h⟩ := h
        exact hst.sec_trans ((addToCurrent_sec _ _ _ _ hadd (by decide)).1.sec_trans
          (ih err pb p1 e h))
      | ARGUMENT =>
        simp only [hT, bind_eq_ok] at h
        obtain ⟨⟨e1, pb⟩, hasg, h⟩ := h
        have hs := (Consume_assign_sec _ _ _ _ hasg).1
        simp only [] at h
        by_cases he : e1.isSome = true
        · simp only [he, if_true, pure_eq_ok, Prod.mk.injEq] at h
          obtain ⟨_, rfl⟩ := h
          exact hst.sec_trans hs
        · simp only [he, Bool.false_eq_true, if_false] at h
          exact hst.sec_trans (hs.sec_trans (ih e1 pb p1 e h))
      | PUNCT =>
        simp only [hT] at h
        by_cases v1 : tok.Value = ","
        · simp only [v1, if_true] at h
          exact hst.sec_trans (ih err pa p1 e h)
        simp only [v1, if_false] at h
        by_cases v2 : tok.Value = "="
        · simp only [v2, if_true, bind_eq_ok] at h
          obtain ⟨⟨e1, pb⟩, hasg, h⟩ := h
          have hs := (Consume_assign_sec _ _ _ _ hasg).1
          simp only [] at h
          by_cases he : e1.isSome = true
          · simp only [he, if_true, pure_eq_ok, Prod.mk.injEq] at h
            obtain ⟨_, rfl⟩ := h
            exact hst.sec_trans hs
          · simp only [he, Bool.false_eq_true, if_false, bind_eq_ok] at h
            obtain ⟨pc, hnx, h⟩ := h
            exact hst.sec_trans (hs.sec_trans
              ((SecStep.sec_of_SameTree (NextToken_frame _ _ hnx)).sec_trans (ih err pc p1 e h)))
        simp only [v2, if_false, bind_eq_ok, pure_eq_ok, Prod.mk.injEq] at h
        obtain ⟨_, _, _, rfl⟩ := h
        exact hst
      | _ =>
        simp only [hT, bind_eq_ok, pure_eq_ok, Prod.mk.injEq] at h
        obtain ⟨_, _, _, rfl⟩ := h
        exact hst
    · simp only [hrun, Bool.false_eq_true, if_false, pure_eq_ok, Prod.mk.injEq] at h
      obtain ⟨_, rfl⟩ := h
      exact SecStep.sec_refl _

theorem Consume_option_line_sec (fuel : Nat) (p p1 : DocoptParser) (e : Option String)
    (h : Consume_option_line fuel p = .ok (e, p1)) : SecStep p p1 := by
  unfold Consume_option_line at h
  simp only [bind_eq_ok, deref_eq_ok] at h
  obtain ⟨c, _, ⟨ol, h1⟩, hadd, ⟨e1, q⟩, hloop, h⟩ := h
  have hs : SecStep p { p with heap := h1, current_node := some ol } :=
    ⟨AddNode_hext _ _ _ _ _ _ hadd (by decide), rfl, rfl, rfl, rfl⟩
  have hl := Consume_option_line_loop_sec fuel none _ q e1 hloop
  simp only [] at h
  by_cases hrun : q.run = true
  · simp only [hrun, if_true, pure_eq_ok, Prod.mk.injEq] at h
    obtain ⟨_, rfl⟩ := h
    exact hs.sec_trans (hl.sec_trans ⟨HExt.hext_refl _, rfl, rfl, rfl, rfl⟩)
  · simp only [hrun, Bool.false_eq_true, if_false] at h
    rw [(parser_stoped_eq _ _ _ h).1]
    exact hs.sec_trans hl

/-- The loop of `Consume_Options` extends the tree by section content. -/
theorem Consume_Options_loop_sec :
    ∀ (fuel : Nat) (err : Option String) (p p1 : DocoptParser) (e : Option String),
      Consume_Options_loop fuel err p = .ok (e, p1) → SecStep p p1 := by
  intro fuel
  induction fuel with
  | zero =>
    intro err p p1 e h
    rw [Consume_Options_loop] at h
    by_cases hrun : p.run = true
    · simp [hrun] at h
    · simp only [hrun, Bool.false_eq_true, if_false, bind_eq_ok, pure_eq_ok, Prod.mk.injEq] at h
      obtain ⟨_, _, _, rfl⟩ := h
      exact SecStep.sec_refl _
  | succ n ih =>
    intro err p p1 e h
    rw [Consume_Options_loop] at h
    by_cases hrun : p.run = true
    · simp only [hrun, if_true, bind_eq_ok, deref_eq_ok] at h
      obtain ⟨pa, hnext, tok, htok, h⟩ := h
      have hst := SecStep.sec_of_SameTree (NextToken_frame p pa hnext)
      by_cases hE : tok.Typ = .EOF
      · simp only [hE, if_true, pure_eq_ok, Prod.mk.injEq] at h
        obtain ⟨_, rfl⟩ := h
        exact hst
      simp only [hE, if_false] at h
      have rest : (match tok.Typ with
          | .SECTION => (pure (none, pa) : StepResult)
          | .LONG_BLANK => do
            let nx ← nextType pa
            if nx = TokenKind.SHORT ∨ nx = TokenKind.LONG then do
              let (err, p) ← Consume_option_line n pa
              if err.isSome then pure (err, p) else Consume_Options_loop n err p
            else Consume_Options_loop n err pa
          | .NEWLINE => Consume_Options_loop n err pa
          | _ => do
            let p ← addToCurrent pa .Options_node pa.current_token
            Consume_Options_loop n err p) = .ok (e, p1) → SecStep p p1 := by
        intro hh
        cases hT : tok.Typ with
        | SECTION =>
          simp only [hT, pure_eq_ok, Prod.mk.injEq] at hh
          obtain ⟨_, rfl⟩ := hh
          exact hst
        | LONG_BLANK =>
          simp only [hT, bind_eq_ok] at hh
          obtain ⟨nx, _, hh⟩ := hh
          by_cases hnx : nx = .SHORT ∨ nx = .LONG
          · simp only [hnx, if_true, bind_eq_ok] at hh
            obtain ⟨⟨e1, pb⟩, hline, hh⟩ := hh
            have hs := Consume_option_line_sec n pa pb e1 hline
            simp only [] at hh
            by_cases he : e1.isSome = true
            · simp only [he, if_true, pure_eq_ok, Prod.mk.injEq] at hh
              obtain ⟨_, rfl⟩ := hh
              exact hst.sec_trans hs
            · simp only [he, Bool.false_eq_true, if_false] at hh
              exact hst.sec_trans (hs.sec_trans (ih e1 pb p1 e hh))
          · simp only [hnx, if_false] at hh
            exact hst.sec_trans (ih err pa p1 e hh)
        | NEWLINE =>
          simp only [hT] at hh
          exact hst.sec_trans (ih err pa p1 e hh)
        | _ =>
          simp only [hT, bind_eq_ok] at hh
          obtain ⟨pb, hadd, hh⟩ := hh
          exact hst.sec_trans ((addToCurrent_sec _ _ _ _ hadd (by decide)).1.sec_trans
            (ih err pb p1 e hh))
      by_cases hN : tok.Typ = .NEWLINE
      · simp only [hN, if_true, true_and, bind_eq_ok] at h
        obtain ⟨nx, _, h⟩ := h
        by_cases hnx : nx = .NEWLINE
        · simp only [hnx, if_true, bind_eq_ok, pure_eq_ok, Prod.mk.injEq] at h
          obtain ⟨pb, hnb, _, rfl⟩ := h
          exact hst.sec_trans (SecStep.sec_of_SameTree (NextToken_frame _ _ hnb))
        · simp only [hnx, if_false] at h
          exact hst.sec_trans (ih err pa p1 e h)
      · simp only [hN, if_false, false_and, bind_eq_ok, pure_eq_ok] at h
        obtain ⟨nx, _, h⟩ := h
        exact rest h
    · simp only [hrun, Bool.false_eq_true, if_false, bind_eq_ok, pure_eq_ok, Prod.mk.injEq] at h
      obtain ⟨_, _, _, rfl⟩ := h
      exact SecStep.sec_refl _

theorem Free_section_enter_sec (p p1 : DocoptParser) (h : Free_section_enter p = .ok p1) :
    SecStep p p1 ∧ p1.run = p.run := by
  unfold Free_section_enter at h
  simp only [bind_eq_ok, deref_eq_ok] at h
  obtain ⟨root, _, ⟨k, h1⟩, hadd, t, _, h⟩ := h
  have hs : SecStep p
      { (if p.s.Current_state ≠ "state_Free" then Change_lexer_state p "state_Free" else p) with
        heap := h1, current_node := some k } := by
    by_cases hc : p.s.Current_state = "state_Free"
    · simp only [hc, ne_eq, not_true_eq_false, if_false] at hadd ⊢
      exact ⟨AddNode_hext _ _ _ _ _ _ hadd (by decide), rfl, rfl, rfl, rfl⟩
    · simp only [hc, ne_eq, not_false_eq_true, if_true] at hadd ⊢
      exact ⟨AddNode_hext _ _ _ _ _ _ hadd (by decide), rfl, rfl, rfl, rfl⟩
  have hr : ({ (if p.s.Current_state ≠ "state_Free" then Change_lexer_state p "state_Free"
        else p) with heap := h1, current_node := some k } : DocoptParser).run = p.run := by
    by_cases hc : p.s.Current_state = "state_Free"
    · simp [hc]
    · simp [hc, Change_lexer_state]
  by_cases ht : t = .SECTION
  · simp only [ht, if_true] at h
    obtain ⟨a, _, c⟩ := addToCurrent_sec _ _ _ _ h (by decide)
    exact ⟨hs.sec_trans a, c.trans hr⟩
  · simp only [ht, if_false, pure_eq_ok] at h
    subst h
    exact ⟨hs, hr⟩

/-- The loop of `Consume_Free_section` extends the tree by section content. -/
theorem Consume_Free_section_loop_sec :
    ∀ (fuel : Nat) (p p1 : DocoptParser) (e : Option String),
      Consume_Free_section_loop fuel p = .ok (e, p1) → SecStep p p1 := by
  intro fuel
  induction fuel with
  | zero =>
    intro p p1 e h
    rw [Consume_Free_section_loop] at h
    by_cases hrun : p.run = true
    · simp [hrun] at h
    · simp only [hrun, Bool.false_eq_true, if_false] at h
      rw [(parser_stoped_eq _ _ _ h).1]
      exact SecStep.sec_refl _
  | succ n ih =>
    intro p p1 e h
    rw [Consume_Free_section_loop] at h
    by_cases hrun : p.run = true
    · simp only [hrun, if_true, bind_eq_ok, deref_eq_ok] at h
      obtain ⟨pa, hnext, tok, htok, h⟩ := h
      have hst := SecStep.sec_of_SameTree (NextToken_frame p pa hnext)
      by_cases hE : tok.Typ = .EOF
      · simp only [hE, if_true, pure_eq_ok, Prod.mk.injEq] at h
        obtain ⟨_, rfl⟩ := h
        exact hst
      simp only [hE, if_false] at h
      by_cases hS : tok.Typ = .SECTION
      · simp only [hS, if_true] at h
        by_cases ho : EqualFold tok.Value "options:" = true
        · simp only [ho, if_true, pure_eq_ok, Prod.mk.injEq] at h
          obtain ⟨_, rfl⟩ := h
          exact hst
        simp only [ho, Bool.false_eq_true, if_false] at h
        by_cases hu : EqualFold tok.Value "usage:" = true
        · simp only [hu, if_true, bind_eq_ok, pure_eq_ok, Prod.mk.injEq] at h
          obtain ⟨_, _, _, rfl⟩ := h
          exact hst
        simp only [hu, Bool.false_eq_true, if_false, bind_eq_ok, deref_eq_ok, node_eq_ok] at h
        obtain ⟨c, _, nd, _, h⟩ := h
        by_cases hz : nd.Children.length = 0
        · simp only [hz, if_true, bind_eq_ok] at h
          obtain ⟨pb, hadd, h⟩ := h
          exact hst.sec_trans ((addToCurrent_sec _ _ _ _ hadd (by decide)).1.sec_trans
            (ih pb p1 e h))
        · simp only [hz, if_false, bind_eq_ok] at h
          obtain ⟨pb, hent, h⟩ := h
          exact hst.sec_trans ((Free_section_enter_sec _ _ hent).1.sec_trans (ih pb p1 e h))
      · simp only [hS, if_false, bind_eq_ok] at h
        obtain ⟨pb, hadd, h⟩ := h
        exact hst.sec_trans ((addToCurrent_sec _ _ _ _ hadd (by decide)).1.sec_trans
          (ih pb p1 e h))
    · simp only [hrun, Bool.false_eq_true, if_false] at h
      rw [(parser_stoped_eq _ _ _ h).1]
      exact SecStep.sec_refl _

theorem Consume_Free_section_sec (fuel : Nat) (p p1 : DocoptParser) (e : Option String)
    (h : Consume_Free_section fuel p = .ok (e, p1)) : SecStep p p1 := by
  unfold Consume_Free_section at h
  simp only [bind_eq_ok] at h
  obtain ⟨pa, hent, h⟩ := h
  exact (Free_section_enter_sec _ _ hent).1.sec_trans (Consume_Free_section_loop_sec fuel pa p1 e h)

/-- What `Consume_Options` does to the tree, whatever it returns: the new
`Options_section` is the next node of the store, `options_node` points to it,
and everything after it is section content. -/
theorem Consume_Options_result (fuel : Nat) (p p1 : DocoptParser) (e : Option String)
    (h : Consume_Options fuel p = .ok (e, p1)) :
    ∃ root h0, p.ast = some root ∧
      AddNode p.heap root .Options_section none = .ok (p.heap.length, h0) ∧
      HExt h0 p1.heap ∧ p1.options_node = some p.heap.length ∧
      p1.Prog_name = p.Prog_name ∧ p1.ast = p.ast := by
  unfold Consume_Options at h
  simp only [bind_eq_ok, deref_eq_ok] at h
  obtain ⟨root, hast, ⟨k, h0⟩, hadd, tok, htok, h⟩ := h
  have hk : k = p.heap.length := (AddNode_spec _ _ _ _ _ _ hadd).1
  subst hk
  refine ⟨root, h0, hast, hadd, ?_⟩
  simp only [] at h htok
  by_cases hc : tok.Typ ≠ .SECTION ∨ ¬ EqualFold tok.Value "options:" = true
  · simp only [hc, if_true, pure_eq_ok, Prod.mk.injEq] at h
    obtain ⟨_, rfl⟩ := h
    exact ⟨HExt.hext_refl _, rfl, rfl, rfl⟩
  · simp only [hc, if_false, bind_eq_ok] at h
    obtain ⟨⟨k2, h2⟩, hadd2, h⟩ := h
    obtain ⟨s1, s2, s3, s4, _⟩ := Consume_Options_loop_sec fuel none _ p1 e h
    simp only [Change_lexer_state] at hadd2
    exact ⟨(AddNode_hext _ _ _ _ _ _ hadd2 (by decide)).hext_trans s1, s3, s2, s4⟩

/-- A nil error of the loop of `Consume_Free_section` is returned at `EOF` or at
a `SECTION` equal to `options:` ignoring case. -/
theorem Consume_Free_section_loop_nil :
    ∀ (fuel : Nat) (p p1 : DocoptParser),
      Consume_Free_section_loop fuel p = .ok (none, p1) →
      ∃ t, p1.current_token = some t ∧
        (t.Typ = .EOF ∨ (t.Typ = .SECTION ∧ EqualFold t.Value "options:" = true)) := by
  intro fuel
  induction fuel with
  | zero =>
    intro p p1 h
    rw [Consume_Free_section_loop] at h
    by_cases hrun : p.run = true
    · simp [hrun] at h
    · simp only [hrun, Bool.false_eq_true, if_false] at h
      have := (parser_stoped_eq _ _ _ h).2
      simp at this
  | succ n ih =>
    intro p p1 h
    rw [Consume_Free_section_loop] at h
    by_cases hrun : p.run = true
    · simp only [hrun, if_true, bind_eq_ok, deref_eq_ok] at h
      obtain ⟨pa, hnext, tok, htok, h⟩ := h
      by_cases hE : tok.Typ = .EOF
      · simp only [hE, if_true, pure_eq_ok, Prod.mk.injEq] at h
        obtain ⟨_, rfl⟩ := h
        exact ⟨tok, htok, Or.inl hE⟩
      simp only [hE, if_false] at h
      by_cases hS : tok.Typ = .SECTION
      · simp only [hS, if_true] at h
        by_cases ho : EqualFold tok.Value "options:" = true
        · simp only [ho, if_true, pure_eq_ok, Prod.mk.injEq] at h
          obtain ⟨_, rfl⟩ := h
          exact ⟨tok, htok, Or.inr ⟨hS, ho⟩⟩
        simp only [ho, Bool.false_eq_true, if_false] at h
        by_cases hu : EqualFold tok.Value "usage:" = true
        · simp only [hu, if_true, bind_eq_ok, pure_eq_ok, Prod.mk.injEq] at h
          obtain ⟨_, _, hh, _⟩ := h
          simp at hh
        simp only [hu, Bool.false_eq_true, if_false, bind_eq_ok, deref_eq_ok, node_eq_ok] at h
        obtain ⟨c, _, nd, _, h⟩ := h
        by_cases hz : nd.Children.length = 0
        · simp only [hz, if_true, bind_eq_ok] at h
          obtain ⟨pb, _, h⟩ := h
          exact ih pb p1 h
        · simp only [hz, if_false, bind_eq_ok] at h
          obtain ⟨pb, _, h⟩ := h
          exact ih pb p1 h
      · simp only [hS, if_false, bind_eq_ok] at h
        obtain ⟨pb, _, h⟩ := h
        exact ih pb p1 h
    · simp only [hrun, Bool.false_eq_true, if_false] at h
      have := (parser_stoped_eq _ _ _ h).2
      simp at this

/-- The loop of `Consume_Prologue` keeps the program name. -/
theorem Consume_Prologue_loop_name :
    ∀ (fuel : Nat) (p p1 : DocoptParser) (e : Option String),
      Consume_Prologue_loop fuel p = .ok (e, p1) → p1.Prog_name = p.Prog_name := by
  intro fuel
  induction fuel with
  | zero =>
    intro p p1 e h
    rw [Consume_Prologue_loop] at h
    by_cases hrun : p.run = true
    · simp [hrun] at h
    · simp only [hrun, Bool.false_eq_true, if_false] at h
      rw [(parser_stoped_eq _ _ _ h).1]
  | succ n ih =>
    intro p p1 e h
    rw [Consume_Prologue_loop] at h
    by_cases hrun : p.run = true
    · simp only [hrun, if_true, bind_eq_ok] at h
      obtain ⟨pa, hnext, t, _, h⟩ := h
      have hname : pa.Prog_name = p.Prog_name := (NextToken_frame p pa hnext).2.2.2.2.2.1
      by_cases hU : t = .USAGE
      · simp only [hU, if_true, bind_eq_ok, deref_eq_ok, pure_eq_ok, Prod.mk.injEq] at h
        obtain ⟨_, _, _, _, _, _, _, rfl⟩ := h
        exact hname
      · simp only [hU, if_false, bind_eq_ok] at h
        obtain ⟨pb, hadd, h⟩ := h
        have hb : pb.Prog_name = pa.Prog_name := by
          unfold addToCurrent at hadd
          simp only [bind_eq_ok, deref_eq_ok, pure_eq_ok] at hadd
          obtain ⟨_, _, _, _, rfl⟩ := hadd
          rfl
        by_cases hE : t = .EOF
        · simp only [hE, if_true, pure_eq_ok, Prod.mk.injEq] at h
          obtain ⟨_, rfl⟩ := h
          exact hb.trans hname
        · simp only [hE, if_false] at h
          exact (ih pb p1 e h).trans (hb.trans hname)
    · simp only [hrun, Bool.false_eq_true, if_false] at h
      rw [(parser_stoped_eq _ _ _ h).1]

theorem Consume_Prologue_name (fuel : Nat) (p p1 : DocoptParser) (e : Option String)
    (h : Consume_Prologue fuel p = .ok (e, p1)) : p1.Prog_name = p.Prog_name := by
  unfold Consume_Prologue at h
  simp only [bind_eq_ok] at h
  obtain ⟨pa, hc, h⟩ := h
  have ha : pa.Prog_name = p.Prog_name := by
    unfold CreateNode at hc
    cases hcn : p.current_node with
    | none =>
      simp only [hcn, bind_eq_ok, pure_eq_ok] at hc
      obtain ⟨pb, hb, hc⟩ := hc
      rw [← hc, ← hb]
      split <;> rfl
    | some c =>
      simp only [hcn, bind_eq_ok, pure_eq_ok] at hc
      obtain ⟨pb, _, pc, hb, hc⟩ := hc
      rw [← hc, ← hb]
      split <;> rfl
  exact (Consume_Prologue_loop_name fuel pa p1 e h).trans ha

/-- The loop of `Consume_Usage_line` keeps the program name. -/
theorem Consume_Usage_line_loop_name (us : Nat) :
    ∀ (fuel : Nat) (p p1 : DocoptParser) (e : Option String),
      Consume_Usage_line_loop us fuel p = .ok (e, p1) → p1.Prog_name = p.Prog_name := by
  intro fuel
  induction fuel with
  | zero =>
    intro p p1 e h
    rw [Consume_Usage_line_loop] at h
    by_cases hrun : p.run = true
    · simp [hrun] at h
    · simp only [hrun, Bool.false_eq_true, if_false] at h
      rw [(parser_stoped_eq _ _ _ h).1]
  | succ n ih =>
    intro p p1 e h
    rw [Consume_Usage_line_loop] at h
    by_cases hrun : p.run = true
    · simp only [hrun, if_true, bind_eq_ok] at h
      obtain ⟨pa, hnext, ⟨b, r⟩, _, h⟩ := h
      have hname : pa.Prog_name = p.Prog_name := (NextToken_frame p pa hnext).2.2.2.2.2.1
      simp only [] at h
      by_cases hb : b = true
      · simp only [hb, if_true, pure_eq_ok, Prod.mk.injEq] at h
        obtain ⟨_, rfl⟩ := h
        exact hname
      simp only [hb, Bool.false_eq_true, if_false, bind_eq_ok, deref_eq_ok] at h
      obtain ⟨tok, htok, h⟩ := h
      by_cases h1 : tok.Typ = .PROG_NAME
      · simp only [h1, if_true] at h
        by_cases h2 : pa.Prog_name = tok.Value
        · simp only [h2, ne_eq, not_true_eq_false, if_false] at h
          exact (ih pa p1 e h).trans hname
        · simp only [h2, ne_eq, not_false_eq_true, if_true, pure_eq_ok, Prod.mk.injEq] at h
          obtain ⟨_, rfl⟩ := h
          exact hname
      simp only [h1, if_false] at h
      by_cases h2 : tok.Typ = .USAGE
      · simp only [h2, if_true, pure_eq_ok, Prod.mk.injEq] at h
        obtain ⟨_, rfl⟩ := h
        exact hname
      simp only [h2, if_false, bind_eq_ok] at h
      obtain ⟨⟨reason, err, q⟩, hloop, h⟩ := h
      have hq : q.Prog_name = pa.Prog_name :=
        (Consume_loop_Usage_Expr_ustep n pa (reason, err, q) hloop).1.2
      simp only [] at h
      by_cases he : err.isSome = true
      · simp only [he, if_true, pure_eq_ok, Prod.mk.injEq] at h
        obtain ⟨_, rfl⟩ := h
        exact hq.trans hname
      simp only [he, Bool.false_eq_true, if_false] at h
      by_cases h3 : reason = TWO_NEWLINE ∨ reason = EOF_reached
      · simp only [h3, if_true, pure_eq_ok, Prod.mk.injEq] at h
        obtain ⟨_, rfl⟩ := h
        exact hq.trans hname
      simp only [h3, if_false] at h
      by_cases h4 : reason = PROG_NAME_sequence
      · simp only [h4, if_true, bind_eq_ok] at h
        obtain ⟨⟨l, ha⟩, _, ⟨x, hb2⟩, _, ⟨k, hc⟩, _, h⟩ := h
        exact (ih { q with heap := hc, current_node := some k } p1 e h).trans (hq.trans hname)
      · simp only [h4, if_false] at h
        exact (ih (FatalError q "switch default not supposed to be reached") p1 e h).trans
          (hq.trans hname)
    · simp only [hrun, Bool.false_eq_true, if_false] at h
      rw [(parser_stoped_eq _ _ _ h).1]

theorem Consume_Usage_line_name (fuel : Nat) (p p1 : DocoptParser) (e : Option String)
    (h : Consume_Usage_line fuel p = .ok (e, p1)) : p1.Prog_name = p.Prog_name := by
  unfold Consume_Usage_line at h
  simp only [bind_eq_ok, deref_eq_ok, node_eq_ok] at h
  obtain ⟨c, _, nd, _, us, _, un, _, h⟩ := h
  by_cases hty : un.Typ = .Usage_section
  · simp only [hty, ne_eq, not_true_eq_false, if_false] at h
    exact Consume_Usage_line_loop_name us fuel (Change_lexer_state p "state_Usage_Line") p1 e h
  · simp only [hty, ne_eq, not_false_eq_true, if_true, pure_eq_ok, Prod.mk.injEq] at h
    obtain ⟨_, rfl⟩ := h
    rfl

/-- What the loop of `Consume_First_Program_Usage` has done when it returns, for
a parser without a program name: with an error the name, the tree and the
current node are as before; with nil the current token is a `PROG_NAME`, its
value is the program name, and the tree has the new `Usage_line` with its
`Prog_name` child. -/
theorem First_Program_Usage_loop_result :
    ∀ (fuel : Nat) (p p1 : DocoptParser) (e : Option String), p.Prog_name = "" →
      Consume_First_Program_Usage_loop fuel p = .ok (e, p1) →
      (e.isSome = true →
        p1.Prog_name = "" ∧ p1.heap = p.heap ∧ p1.current_node = p.current_node) ∧
      (e = none → ∃ (tok : Token) (c : Nat) (h1 : Heap),
        p1.current_token = some tok ∧ tok.Typ = .PROG_NAME ∧ p1.Prog_name = tok.Value ∧
        p.current_node = some c ∧
        AddNode p.heap c .Usage_line none = .ok (p.heap.length, h1) ∧
        AddNode h1 p.heap.length .Prog_name (some tok) = .ok (p.heap.length + 1, p1.heap) ∧
        p1.current_node = some p.heap.length) := by
  intro fuel
  induction fuel with
  | zero =>
    intro p p1 e hname h
    rw [Consume_First_Program_Usage_loop] at h
    by_cases hrun : p.run = true
    · simp [hrun] at h
    · simp only [hrun, Bool.false_eq_true, if_false] at h
      obtain ⟨rfl, he⟩ := parser_stoped_eq _ _ _ h
      exact ⟨fun _ => ⟨hname, rfl, rfl⟩, fun hn => by simp [hn] at he⟩
  | succ n ih =>
    intro p p1 e hname h
    rw [Consume_First_Program_Usage_loop] at h
    by_cases hrun : p.run = true
    · simp only [hrun, if_true, bind_eq_ok, deref_eq_ok] at h
      obtain ⟨pa, hnext, tok, htok, h⟩ := h
      obtain ⟨hh, hc, _, _, _, hn, _, _⟩ := NextToken_frame p pa hnext
      have hna : pa.Prog_name = "" := hn.trans hname
      by_cases h1 : tok.Typ = .PROG_NAME
      · simp only [h1, if_true, bind_eq_ok, deref_eq_ok, pure_eq_ok, Prod.mk.injEq] at h
        obtain ⟨c, hcur, ⟨l, ha⟩, hadd1, ⟨k, hb⟩, hadd2, rfl, rfl⟩ := h
        simp only [] at hadd1 hadd2 hcur
        have hl : l = pa.heap.length := (AddNode_spec _ _ _ _ _ _ hadd1).1
        have hk : k = ha.length := (AddNode_spec _ _ _ _ _ _ hadd2).1
        have hlen : ha.length = pa.heap.length + 1 := (AddNode_spec _ _ _ _ _ _ hadd1).2.1
        subst hl
        refine ⟨fun he => by simp at he, fun _ => ⟨tok, c, ha, htok, h1, rfl, ?_, ?_, ?_, ?_⟩⟩
        · rw [← hc]
          exact hcur
        · rw [← hh]
          exact hadd1
        · rw [← hh, ← hlen, ← hk]
          rw [htok] at hadd2
          exact hadd2
        · simp only []
          rw [hh]
      simp only [h1, if_false] at h
      by_cases h2 : tok.Typ = .BLANK
      · simp only [h2, if_true] at h
        obtain ⟨r1, r2⟩ := ih pa p1 e hna h
        rw [hh, hc] at r1 r2
        exact ⟨r1, r2⟩
      simp only [h2, if_false] at h
      by_cases h3 : tok.Typ = .NEWLINE
      · simp only [h3, if_true, bind_eq_ok] at h
        obtain ⟨nx, _, h⟩ := h
        by_cases h4 : nx = .NEWLINE
        · simp only [h4, if_true, hna] at h
          simp only [pure_eq_ok, Prod.mk.injEq] at h
          obtain ⟨rfl, rfl⟩ := h
          exact ⟨fun _ => ⟨hna, hh, hc⟩, fun hn => by simp at hn⟩
        · simp only [h4, if_false] at h
          obtain ⟨r1, r2⟩ := ih pa p1 e hna h
          rw [hh, hc] at r1 r2
          exact ⟨r1, r2⟩
      · simp only [h3, if_false, pure_eq_ok, Prod.mk.injEq] at h
        obtain ⟨rfl, rfl⟩ := h
        exact ⟨fun _ => ⟨hna, hh, hc⟩, fun hn => by simp at hn⟩
    · simp only [hrun, Bool.false_eq_true, if_false] at h
      obtain ⟨rfl, he⟩ := parser_stoped_eq _ _ _ h
      exact ⟨fun _ => ⟨hname, rfl, rfl⟩, fun hn => by simp [hn] at he⟩

theorem mem_of_getElem?_eq_some {α : Type} (l : List α) (i : Nat) (a : α)
    (h : l[i]? = some a) : a ∈ l := by
  have hl := lt_of_getElem?_eq_some l i a h
  rw [List.getElem?_eq_getElem hl] at h
  rw [← Option.some.inj h]
  exact List.getElem_mem hl

theorem token_at_lt (items : List LexItem) (i : Nat) (k : TokenKind) (v : String)
    (h : items[i]? = some (.tok k v)) : token_at items i = ⟨k, v, i⟩ := by
  simp [token_at, h]

theorem token_at_end (items : List LexItem) : token_at items items.length = ⟨.EOF, "", items.length⟩ := by
  simp [token_at]

/-- Reading from an error-free lexer within the error budget stores the token
at the cursor and advances, except at the end of the source. -/
theorem try_get_NextToken_clean (p : DocoptParser) (slot : Slot)
    (hclean : ∀ it ∈ p.s.items, ∃ k v, it = LexItem.tok k v)
    (herr : p.Error_count < p.max_error) (hpos : p.s.pos ≤ p.s.items.length) :
    ∃ p1, try_get_NextToken p slot = .ok (none, p1) ∧
      p1.s.items = p.s.items ∧ p1.s.pos = min (p.s.pos + 1) p.s.items.length ∧
      (slot = .current → p1.current_token = some (token_at p.s.items p.s.pos) ∧
        p1.next_token = p.next_token) ∧
      (slot = .next → p1.next_token = some (token_at p.s.items p.s.pos) ∧
        p1.current_token = p.current_token) ∧
      p1.Error_count = p.Error_count ∧ p1.max_error = p.max_error ∧
      p1.lexer_state_changed = p.lexer_state_changed ∧ p1.tokens = p.tokens ∧
      SameTree p p1 ∧ p1.run = p.run := by
  unfold try_get_NextToken
  rw [try_get_NextToken_rec]
  have hn : ¬ p.Error_count ≥ p.max_error := by omega
  simp only [hn, if_false]
  cases hit : p.s.items[p.s.pos]? with
  | none =>
    have hge : p.s.items.length ≤ p.s.pos := List.getElem?_eq_none_iff.mp hit
    have heq : p.s.pos = p.s.items.length := by omega
    have hmin : min (p.s.pos + 1) p.s.items.length = p.s.pos := by omega
    simp only [StateLexer.Next, hit, token_at, hmin]
    refine ⟨_, rfl, ?_⟩
    cases slot <;> simp [DocoptParser.store, SameTree, heq]
  | some it =>
    have hlt : p.s.pos < p.s.items.length := lt_of_getElem?_eq_some _ _ _ hit
    have hmem : it ∈ p.s.items := mem_of_getElem?_eq_some _ _ _ hit
    obtain ⟨k, v, rfl⟩ := hclean it hmem
    have hmin : min (p.s.pos + 1) p.s.items.length = p.s.pos + 1 := by omega
    simp only [StateLexer.Next, hit, token_at, hmin]
    refine ⟨_, rfl, ?_⟩
    cases slot <;> simp [DocoptParser.store, SameTree]

theorem token_at_pos (items : List LexItem) (i : Nat) (hi : i ≤ items.length)
    (hclean : ∀ it ∈ items, ∃ k v, it = LexItem.tok k v) : (token_at items i).Pos = i := by
  unfold token_at
  cases hit : items[i]? with
  | none =>
    have hge : items.length ≤ i := List.getElem?_eq_none_iff.mp hit
    simp only []
    omega
  | some it =>
    obtain ⟨k, v, rfl⟩ := hclean it (mem_of_getElem?_eq_some _ _ _ hit)
    rfl

/-- The last two statements of `NextToken` on a parser whose current token has
been set and whose cursor is behind it. -/
theorem NextToken_ready_tail (q : DocoptParser) (i : Nat) (t : Token)
    (hclean : ∀ it ∈ q.s.items, ∃ k v, it = LexItem.tok k v)
    (herr : q.Error_count < q.max_error) (hi : i ≤ q.s.items.length)
    (hpos : q.s.pos = min (i + 1) q.s.items.length) (hcur : q.current_token = some t) :
    ∃ p1, (do
        let (_, q) ← try_get_NextToken q .next
        pure (NextToken_finish q)) = .ok p1 ∧
      p1.current_token = some t ∧ Ready p1 (min (i + 1) q.s.items.length) ∧ SameTree q p1 ∧
      p1.run = q.run ∧ p1.s.items = q.s.items := by
  obtain ⟨p2, h2, a1, a2, _, a4, a5, a6, a7, a8, a9, a10⟩ :=
    try_get_NextToken_clean q .next hclean herr (by rw [hpos]; omega)
  obtain ⟨b1, b2⟩ := a4 rfl
  have hn : ¬ p2.Error_count ≥ p2.max_error := by omega
  refine ⟨NextToken_finish p2, ?_, ?_, ?_, ?_, ?_, ?_⟩
  · rw [h2]
    rfl
  · simp only [NextToken_finish, hn, if_false]
    rw [b2, hcur]
  · simp only [NextToken_finish, hn, if_false, Ready]
    rw [a1, a5, a6, b1, a2, hpos]
    exact ⟨hclean, herr, by omega, Or.inr ⟨rfl, rfl, fun _ => by simp⟩⟩
  · simp only [NextToken_finish, hn, if_false]
    exact a9
  · simp only [NextToken_finish, hn, if_false]
    exact a10
  · simp only [NextToken_finish, hn, if_false]
    exact a1

/-- The `NextToken` of a parser ready at `i` with nothing looked ahead. -/
theorem NextToken_ready_fresh (q : DocoptParser) (i : Nat)
    (hclean : ∀ it ∈ q.s.items, ∃ k v, it = LexItem.tok k v)
    (herr : q.Error_count < q.max_error) (hi : i ≤ q.s.items.length)
    (hnx : q.next_token = none) (hpos : q.s.pos = i) :
    ∃ p1, (do
        let q ← NextToken_current q
        let (_, q) ← try_get_NextToken q .next
        pure (NextToken_finish q)) = .ok p1 ∧
      p1.current_token = some (token_at q.s.items i) ∧
      Ready p1 (min (i + 1) q.s.items.length) ∧ SameTree q p1 ∧ p1.run = q.run ∧
      p1.s.items = q.s.items := by
  obtain ⟨p2, h2, a1, a2, a3, _, a5, a6, a7, a8, a9, a10⟩ :=
    try_get_NextToken_clean q .current hclean herr (by rw [hpos]; exact hi)
  obtain ⟨b1, b2⟩ := a3 rfl
  rw [hpos] at a2 b1
  obtain ⟨p1, h1, c1, c2, c3, c4, c5⟩ := NextToken_ready_tail p2 i (token_at q.s.items i)
    (by rw [a1]; exact hclean) (by omega) (by rw [a1]; exact hi) (by rw [a1]; exact a2) b1
  rw [a1] at c2
  refine ⟨p1, ?_, c1, c2, ?_, c4.trans a10, c5.trans a1⟩
  · unfold NextToken_current
    simp only [hnx, h2, bind, Except.bind, pure, Except.pure]
    exact h1
  · obtain ⟨x1, x2, x3, x4, x5, x6, x7, x8⟩ := a9
    obtain ⟨y1, y2, y3, y4, y5, y6, y7, y8⟩ := c3
    exact ⟨y1.trans x1, y2.trans x2, y3.trans x3, y4.trans x4, y5.trans x5, y6.trans x6,
      y7.trans x7, y8.trans x8⟩

/-- The `NextToken` of a ready parser makes the token at `i` current and leaves a
parser ready for the next position. -/
theorem NextToken_ready (p : DocoptParser) (i : Nat) (h : Ready p i) :
    ∃ p1, NextToken p = .ok p1 ∧ p1.current_token = some (token_at p.s.items i) ∧
      Ready p1 (min (i + 1) p.s.items.length) ∧ SameTree p p1 ∧ p1.run = p.run ∧
      p1.s.items = p.s.items := by
  obtain ⟨hclean, herr, hi, hcase⟩ := h
  have hpos_tok : (token_at p.s.items i).Pos = i := token_at_pos _ _ hi hclean
  rcases hcase with ⟨hnx, hpos⟩ | ⟨hnx, hpos, htoks⟩
  · obtain ⟨p1, h1, h2, h3, h4, h5, h6⟩ := NextToken_ready_fresh p i hclean herr hi hnx hpos
    refine ⟨p1, ?_, h2, h3, h4, h5, h6⟩
    unfold NextToken NextToken_reject
    simp only [hnx]
    exact h1
  · by_cases hch : p.lexer_state_changed = true
    · obtain ⟨a, l, hl⟩ := List.exists_cons_of_ne_nil (htoks hch)
      obtain ⟨p1, h1, h2, h3, h4, h5, h6⟩ := NextToken_ready_fresh
        { p with s := p.s.Reject (token_at p.s.items i), lexer_state_changed := false,
                 next_token := none, tokens := (a :: l).dropLast }
        i hclean herr hi rfl (by simp [StateLexer.Reject, hpos_tok])
      refine ⟨p1, ?_, h2, h3, ?_, h5, h6⟩
      · unfold NextToken NextToken_reject
        simp only [hnx, hch, if_true, hl, removeBack, bind, Except.bind, pure, Except.pure]
        exact h1
      · obtain ⟨a1, a2, a3, a4, a5, a6, a7, a8⟩ := h4
        exact ⟨a1, a2, a3, a4, a5, a6, a7, a8⟩
    · obtain ⟨p1, h1, h2, h3, h4, h5, h6⟩ := NextToken_ready_tail
        { p with current_token := some (token_at p.s.items i),
                 next_token := some (token_at p.s.items i), lexer_state_changed := false }
        i (token_at p.s.items i) hclean herr hi hpos rfl
      refine ⟨p1, ?_, h2, h3, ?_, h5, h6⟩
      · unfold NextToken NextToken_reject NextToken_current
        simp only [bind, Except.bind, pure, Except.pure] at h1
        simp only [hnx, hch, Bool.false_eq_true, if_false, bind, Except.bind, pure,
          Except.pure]
        exact h1
      · obtain ⟨a1, a2, a3, a4, a5, a6, a7, a8⟩ := h4
        exact ⟨a1, a2, a3, a4, a5, a6, a7, a8⟩

theorem prologue_nodes_length (par : Nat) (xs : List (TokenKind × String)) :
    ∀ pos, (prologue_nodes par pos xs).length = xs.length := by
  induction xs with
  | nil => intro pos; rfl
  | cons x xs ih =>
    intro pos
    simp [prologue_nodes, ih]

theorem prologue_nodes_append (par : Nat) (xs : List (TokenKind × String))
    (x : TokenKind × String) :
    ∀ pos, prologue_nodes par pos (xs ++ [x]) = prologue_nodes par pos xs ++
      [{ Typ := .Prologue_node, Token := some ⟨x.1, x.2, pos + xs.length⟩, Parent := some par,
         Children := [], Repeat := false }] := by
  induction xs with
  | nil => intro pos; simp [prologue_nodes]
  | cons y ys ih =>
    intro pos
    have e : pos + 1 + ys.length = pos + (ys.length + 1) := by omega
    show _ :: prologue_nodes par (pos + 1) (ys ++ [x]) = _
    rw [ih (pos + 1), e]
    rfl

/-- The node `AddNode` appends under a node of the front part of the store. -/
theorem AddNode_front (H0 T : Heap) (root : Nat) (rn : DocoptAst) (t : DocoptNodeType)
    (tok : Option Token) (hr : H0[root]? = some rn) :
    AddNode (H0 ++ T) root t tok = .ok ((H0 ++ T).length,
      H0.set root { rn with Children := rn.Children ++ [(H0 ++ T).length] } ++ T ++
        [{ Typ := t, Token := tok, Parent := some root, Children := [], Repeat := false }]) := by
  have hlt : root < H0.length := lt_of_getElem?_eq_some _ _ _ hr
  have h1 : (H0 ++ T)[root]? = some rn := by
    rw [List.getElem?_append_left hlt]
    exact hr
  unfold AddNode
  simp only [h1]
  rw [List.set_append_left _ _ hlt]

/-- The node `AddNode` appends under the node that follows the front part. -/
theorem AddNode_mid (H0 M : Heap) (P : DocoptAst) (t : DocoptNodeType) (tok : Option Token) :
    AddNode (H0 ++ [P] ++ M) H0.length t tok = .ok ((H0 ++ [P] ++ M).length,
      H0 ++ [{ P with Children := P.Children ++ [(H0 ++ [P] ++ M).length] }] ++ M ++
        [{ Typ := t, Token := tok, Parent := some H0.length, Children := [],
           Repeat := false }]) := by
  have h1 : (H0 ++ [P] ++ M)[H0.length]? = some P := by
    rw [List.append_assoc, List.getElem?_append_right (le_refl _)]
    simp
  unfold AddNode
  simp only [h1]
  congr 2
  rw [List.append_assoc, List.set_append_right _ _ (le_refl _)]
  simp

/-- The node `AddNode` appends under the last node of the store. -/
theorem AddNode_last (H : Heap) (X : DocoptAst) (t : DocoptNodeType) (tok : Option Token) :
    AddNode (H ++ [X]) H.length t tok = .ok (H.length + 1,
      H ++ [{ X with Children := X.Children ++ [H.length + 1] }] ++
        [{ Typ := t, Token := tok, Parent := some H.length, Children := [],
           Repeat := false }]) := by
  have h := AddNode_mid H [] X t tok
  simpa using h

/-- One `Prologue_node` more under the `Prologue` that follows the front part
`H0` of the store. -/
theorem addToCurrent_prologue (pa : DocoptParser) (H0 : Heap) (par : Option Nat) (i0 : Nat)
    (done : List (TokenKind × String)) (tk : Token) (hcur : pa.current_node = some H0.length)
    (hheap : pa.heap = H0 ++
      [{ Typ := .Prologue, Token := none, Parent := par,
         Children := List.range' (H0.length + 1) done.length, Repeat := false }] ++
      prologue_nodes H0.length i0 done) :
    addToCurrent pa .Prologue_node (some tk) = .ok { pa with
      heap := H0 ++
        [{ Typ := .Prologue, Token := none, Parent := par,
           Children := List.range' (H0.length + 1) (done.length + 1), Repeat := false }] ++
        (prologue_nodes H0.length i0 done ++
          [{ Typ := .Prologue_node, Token := some tk, Parent := some H0.length, Children := [],
             Repeat := false }]) } := by
  unfold addToCurrent
  simp only [hcur, deref, hheap, AddNode_mid, bind, Except.bind, pure, Except.pure]
  congr 2
  simp only [List.length_append, List.length_singleton, prologue_nodes_length,
    List.append_assoc, List.range'_concat, Nat.one_mul]
  rw [Nat.add_assoc]

theorem drop_head_getElem? {α : Type} (l : List α) (i : Nat) (a : α) (r : List α)
    (h : l.drop i = a :: r) : l[i]? = some a ∧ l.drop (i + 1) = r ∧ i < l.length := by
  have h0 : (l.drop i)[0]? = some a := by rw [h]; simp
  rw [List.getElem?_drop] at h0
  have h1 : l[i]? = some a := by simpa using h0
  have hlt : i < l.length := lt_of_getElem?_eq_some _ _ _ h1
  refine ⟨h1, ?_, hlt⟩
  have h2 : l.drop (i + 1) = (l.drop i).tail := by
    rw [List.tail_drop]
  rw [h2, h]
  rfl

/-- The loop of `Consume_Prologue` over an error-free source: `done` are the
tokens already below the `Prologue`, `pre` the tokens before the first `USAGE`
or `EOF`, and `tail` the source from there. -/
theorem Consume_Prologue_loop_stream (tail : List LexItem) (H0 : Heap) (par : Option Nat)
    (i0 : Nat) :
    ∀ (pre done : List (TokenKind × String)) (q : DocoptParser) (fuel : Nat),
      Ready q (i0 + done.length) → q.run = true → q.current_node = some H0.length →
      q.heap = H0 ++
        [{ Typ := .Prologue, Token := none, Parent := par,
           Children := List.range' (H0.length + 1) done.length, Repeat := false }] ++
        prologue_nodes H0.length i0 done →
      q.s.items.drop (i0 + done.length) = pre.map (fun x => LexItem.tok x.1 x.2) ++ tail →
      (∀ x ∈ pre, x.1 ≠ .USAGE ∧ x.1 ≠ .EOF) → pre.length < fuel →
      (∀ (v : String) (rest : List LexItem) (root : Nat) (rn : DocoptAst),
        tail = .tok .USAGE v :: rest → q.ast = some root → H0[root]? = some rn →
        ∃ p1, Consume_Prologue_loop fuel q = .ok (none, p1) ∧
          p1.heap = H0.set root
              { rn with Children := rn.Children ++ [H0.length + (done ++ pre).length + 1] } ++
            [{ Typ := .Prologue, Token := none, Parent := par,
               Children := List.range' (H0.length + 1) (done ++ pre).length,
               Repeat := false }] ++
            prologue_nodes H0.length i0 (done ++ pre) ++
            [{ Typ := .Usage_section, Token := none, Parent := some root,
               Children := [H0.length + (done ++ pre).length + 2], Repeat := false },
             { Typ := .Usage, Token := some ⟨.USAGE, v, i0 + (done ++ pre).length⟩,
               Parent := some (H0.length + (done ++ pre).length + 1), Children := [],
               Repeat := false }] ∧
          p1.current_node = some (H0.length + (done ++ pre).length + 1) ∧
          p1.usage_node = some (H0.length + (done ++ pre).length + 1) ∧
          p1.ast = q.ast ∧ p1.Prog_name = q.Prog_name ∧ p1.options_node = q.options_node ∧
          p1.run = true) ∧
      ((tail = [] ∨ ∃ v rest, tail = .tok .EOF v :: rest) →
        ∃ p1 tk, Consume_Prologue_loop fuel q =
            .ok (some "EOF encountered will parsing Prologue, without 'Usage:' found", p1) ∧
          tk.Typ = .EOF ∧
          p1.heap = H0 ++
            [{ Typ := .Prologue, Token := none, Parent := par,
               Children := List.range' (H0.length + 1) ((done ++ pre).length + 1),
               Repeat := false }] ++
            (prologue_nodes H0.length i0 (done ++ pre) ++
              [{ Typ := .Prologue_node, Token := some tk, Parent := some H0.length,
                 Children := [], Repeat := false }]) ∧
          p1.current_node = q.current_node ∧ p1.usage_node = q.usage_node ∧
          p1.ast = q.ast ∧ p1.Prog_name = q.Prog_name ∧ p1.options_node = q.options_node) := by
  intro pre
  induction pre with
  | nil =>
    intro done q fuel hready hrun hcur hheap hsrc _ hfuel
    obtain ⟨pa, hnext, htok, hready1, hsame, hrun1, hitems⟩ := NextToken_ready q _ hready
    obtain ⟨sh, sc, sa, so, su, sn, _, _⟩ := hsame
    simp only [List.map_nil, List.nil_append] at hsrc
    simp only [List.append_nil]
    cases fuel with
    | zero => omega
    | succ n =>
      constructor
      · intro v rest root rn htail hast hroot
        rw [htail] at hsrc
        obtain ⟨hit, _, _⟩ := drop_head_getElem? _ _ _ _ hsrc
        rw [token_at_lt _ _ _ _ hit] at htok
        have e1 := AddNode_front H0
          ([{ Typ := .Prologue, Token := none, Parent := par,
              Children := List.range' (H0.length + 1) done.length, Repeat := false }] ++
            prologue_nodes H0.length i0 done) root rn .Usage_section none hroot
        rw [← List.append_assoc, ← hheap, ← sh] at e1
        have e2 := AddNode_last
          (H0.set root { rn with Children := rn.Children ++ [pa.heap.length] } ++
            ([{ Typ := .Prologue, Token := none, Parent := par,
                Children := List.range' (H0.length + 1) done.length, Repeat := false }] ++
              prologue_nodes H0.length i0 done))
          ({ Typ := .Usage_section, Token := none, Parent := some root, Children := [],
             Repeat := false } : DocoptAst) .Usage (some ⟨.USAGE, v, i0 + done.length⟩)
        have hlen : pa.heap.length = H0.length + done.length + 1 := by
          rw [sh, hheap]
          simp only [List.length_append, List.length_singleton, prologue_nodes_length]
          omega
        have hlen2 : (H0.set root
              ({ rn with Children := rn.Children ++ [pa.heap.length] } : DocoptAst) ++
            ([({ Typ := .Prologue, Token := none, Parent := par,
                 Children := List.range' (H0.length + 1) done.length,
                 Repeat := false } : DocoptAst)] ++
              prologue_nodes H0.length i0 done)).length = pa.heap.length := by
          rw [sh, hheap]
          simp only [List.length_append, List.length_singleton, prologue_nodes_length,
            List.length_set]
          omega
        rw [hlen2] at e2
        rw [Consume_Prologue_loop]
        simp only [hrun, if_true, hnext, curType, htok, deref, sa, hast, e1, e2, bind,
          Except.bind, pure, Except.pure]
        refine ⟨_, rfl, ?_⟩
        simp only [hlen, List.append_assoc, List.nil_append, List.cons_append,
          List.singleton_append, sa, sn, so, hrun1, hrun, and_true]
      · intro hE
        have hk : ∃ tk : Token, pa.current_token = some tk ∧ tk.Typ = .EOF := by
          rcases hE with hE | ⟨v, rest, hE⟩
          · rw [hE] at hsrc
            have hge : q.s.items.length ≤ i0 + done.length := List.drop_eq_nil_iff.mp hsrc
            have heq : i0 + done.length = q.s.items.length := le_antisymm hready.2.2.1 hge
            rw [heq, token_at_end] at htok
            exact ⟨_, htok, rfl⟩
          · rw [hE] at hsrc
            obtain ⟨hit, _, _⟩ := drop_head_getElem? _ _ _ _ hsrc
            rw [token_at_lt _ _ _ _ hit] at htok
            exact ⟨_, htok, rfl⟩
        obtain ⟨tk, htk, hty⟩ := hk
        have e1 := addToCurrent_prologue pa H0 par i0 done tk (by rw [sc, hcur])
          (by rw [sh, hheap])
        rw [Consume_Prologue_loop]
        simp only [hrun, if_true, hnext, curType, htk, deref, hty, e1, bind,
          Except.bind, pure, Except.pure]
        exact ⟨_, tk, rfl, hty, rfl, sc, su, sa, sn, so⟩
  | cons x xs ih =>
    intro done q fuel hready hrun hcur hheap hsrc hpre hfuel
    obtain ⟨pa, hnext, htok, hready1, hsame, hrun1, hitems⟩ := NextToken_ready q _ hready
    obtain ⟨sh, sc, sa, so, su, sn, _, _⟩ := hsame
    simp only [List.map_cons, List.cons_append] at hsrc
    obtain ⟨hit, hdrop, hlt⟩ := drop_head_getElem? _ _ _ _ hsrc
    rw [token_at_lt _ _ _ _ hit] at htok
    obtain ⟨hx1, hx2⟩ := hpre x (List.mem_cons_self _ _)
    have e1 := addToCurrent_prologue pa H0 par i0 done ⟨x.1, x.2, i0 + done.length⟩
      (by rw [sc, hcur]) (by rw [sh, hheap])
    rw [← prologue_nodes_append] at e1
    have hmin : min (i0 + done.length + 1) q.s.items.length = i0 + (done ++ [x]).length := by
      simp only [List.length_append, List.length_singleton]
      omega
    rw [hmin] at hready1
    cases fuel with
    | zero => omega
    | succ n =>
      have hl : (done ++ [x]).length = done.length + 1 := by simp
      have step := ih (done ++ [x])
        { pa with heap := H0 ++
            [{ Typ := .Prologue, Token := none, Parent := par,
               Children := List.range' (H0.length + 1) (done.length + 1), Repeat := false }] ++
            prologue_nodes H0.length i0 (done ++ [x]) } n
        (by
          obtain ⟨r1, r2, r3, r4⟩ := hready1
          exact ⟨r1, r2, r3, r4⟩)
        (by simp only [hrun1, hrun]) (by simp only [sc, hcur])
        (by simp only [hl])
        (by
          simp only [hitems, hl]
          rw [← Nat.add_assoc]
          exact hdrop)
        (fun y hy => hpre y (List.mem_cons_of_mem _ hy))
        (by simp only [List.length_cons] at hfuel; omega)
      have hloop : Consume_Prologue_loop (n + 1) q = Consume_Prologue_loop n
          { pa with heap := H0 ++
            [{ Typ := .Prologue, Token := none, Parent := par,
               Children := List.range' (H0.length + 1) (done.length + 1), Repeat := false }] ++
            prologue_nodes H0.length i0 (done ++ [x]) } := by
        rw [Consume_Prologue_loop]
        simp only [hrun, if_true, hnext, curType, htok, deref, hx1, hx2, if_false, e1, bind,
          Except.bind, pure, Except.pure]
      rw [hloop]
      have happ : done ++ [x] ++ xs = done ++ x :: xs := by simp
      rw [happ] at step
      rw [← sa, ← sn, ← so, ← sc, ← su]
      exact step

theorem prologue_nodes_typ (par : Nat) (xs : List (TokenKind × String)) :
    ∀ (pos : Nat) (nd : DocoptAst), nd ∈ prologue_nodes par pos xs → nd.Typ = .Prologue_node := by
  induction xs with
  | nil =>
    intro pos nd h
    simp [prologue_nodes] at h
  | cons x xs ih =>
    intro pos nd h
    simp only [prologue_nodes, List.mem_cons] at h
    rcases h with rfl | h
    · rfl
    · exact ih _ _ h

/-- The statement of `Consume_Prologue` before its loop, when the current node
is the root of the tree. -/
theorem CreateNode_Prologue_root (p : DocoptParser) (root : Nat) (rn : DocoptAst)
    (hcur : p.current_node = some root) (hast : p.ast = some root)
    (hroot : p.heap[root]? = some rn) :
    CreateNode p .Prologue none = .ok { p with
      heap := p.heap.set root { rn with Children := rn.Children ++ [p.heap.length] } ++
        [{ Typ := .Prologue, Token := none, Parent := some root, Children := [],
           Repeat := false }],
      current_node := some p.heap.length } := by
  unfold CreateNode
  simp only [hcur, AddNode, hroot, hast, bind, Except.bind, pure, Except.pure]
  simp

theorem store_fields (p : DocoptParser) (slot : Slot) (t : Token) :
    (p.store slot t).Error_count = p.Error_count ∧ (p.store slot t).max_error = p.max_error ∧
      (p.store slot t).Errors = p.Errors ∧ (p.store slot t).s = p.s ∧
      stored (p.store slot t) slot t := by
  cases slot <;> exact ⟨rfl, rfl, rfl, rfl, rfl⟩

/-- The recursion of `try_get_NextToken` with fuel for the whole error budget:
it returns, and the calls of the lexer, the errors appended, the cursor and the
token stored are related as stated. -/
theorem try_get_NextToken_rec_budget (slot : Slot) :
    ∀ (fuel : Nat) (p : DocoptParser), p.max_error - p.Error_count ≤ fuel →
      ∃ e1 p1, try_get_NextToken_rec fuel p slot = .ok (e1, p1) ∧
        try_get_NextToken_calls fuel p ≤ p.max_error - p.Error_count ∧
        (p.max_error ≤ p.Error_count →
          try_get_NextToken_calls fuel p = 0 ∧ p1 = p ∧ e1.isSome = true) ∧
        p.Error_count ≤ p1.Error_count ∧
        p1.Errors.length + p.Error_count = p.Errors.length + p1.Error_count ∧
        p1.max_error = p.max_error ∧
        (p.Error_count ≤ p.max_error → p1.Error_count ≤ p.max_error) ∧
        (e1 = none → ∃ tok, stored p1 slot tok ∧
          tok.Pos + p.Error_count = p.s.pos + p1.Error_count ∧
          try_get_NextToken_calls fuel p + p.Error_count = p1.Error_count + 1) ∧
        (e1.isSome = true → p.Error_count < p.max_error →
          p1.Error_count = p.max_error ∧
          p1.s.pos + 1 + p.Error_count = p.s.pos + p1.Error_count ∧
          try_get_NextToken_calls fuel p + p.Error_count = p1.Error_count ∧
          p1.current_token = p.current_token ∧ p1.next_token = p.next_token) := by
  have stop : ∀ (fuel : Nat) (p : DocoptParser), p.Error_count ≥ p.max_error →
      ∃ e1 p1, try_get_NextToken_rec fuel p slot = .ok (e1, p1) ∧
        try_get_NextToken_calls fuel p = 0 ∧ p1 = p ∧ e1.isSome = true := by
    intro fuel p hge
    rw [try_get_NextToken_rec, try_get_NextToken_calls]
    simp only [hge, if_true]
    exact ⟨_, _, rfl, trivial, rfl, rfl⟩
  have good : ∀ (fuel : Nat) (p : DocoptParser) (t : Token) (s1 : StateLexer),
      ¬ p.Error_count ≥ p.max_error → p.s.Next = (.ok t, s1) →
      try_get_NextToken_rec fuel p slot = .ok (none, ({ p with s := s1 }).store slot t) ∧
        try_get_NextToken_calls fuel p = 1 := by
    intro fuel p t s1 hge hn
    rw [try_get_NextToken_rec, try_get_NextToken_calls]
    simp only [hge, if_false, hn]
    refine ⟨?_, ?_⟩ <;> first | rfl | trivial
  have full : ∀ (fuel : Nat) (p : DocoptParser) (msg : String) (s1 : StateLexer),
      ¬ p.Error_count ≥ p.max_error → p.s.Next = (.error msg, s1) →
      p.Error_count + 1 ≥ p.max_error →
      try_get_NextToken_rec fuel p slot =
          .ok (some "try_get_NextToken: too many errors", AddError { p with s := s1 } msg) ∧
        try_get_NextToken_calls fuel p = 1 := by
    intro fuel p msg s1 hge hn hx
    have hx1 : (AddError { p with s := s1 } msg).Error_count ≥
        (AddError { p with s := s1 } msg).max_error := hx
    rw [try_get_NextToken_rec, try_get_NextToken_calls]
    simp only [hge, if_false, hn, hx1, if_true]
    refine ⟨?_, ?_⟩ <;> first | rfl | trivial
  have again : ∀ (n : Nat) (p : DocoptParser) (msg : String) (s1 : StateLexer),
      ¬ p.Error_count ≥ p.max_error → p.s.Next = (.error msg, s1) →
      ¬ p.Error_count + 1 ≥ p.max_error →
      try_get_NextToken_rec (n + 1) p slot = try_get_NextToken_rec n
          { (AddError { p with s := s1 } msg) with
            s := (AddError { p with s := s1 } msg).s.Discard 1 } slot ∧
        try_get_NextToken_calls (n + 1) p = 1 + try_get_NextToken_calls n
          { (AddError { p with s := s1 } msg) with
            s := (AddError { p with s := s1 } msg).s.Discard 1 } := by
    intro n p msg s1 hge hn hx
    have hx1 : ¬ (AddError { p with s := s1 } msg).Error_count ≥
        (AddError { p with s := s1 } msg).max_error := hx
    rw [try_get_NextToken_rec, try_get_NextToken_calls]
    simp only [hge, if_false, hn, hx1]
    refine ⟨?_, ?_⟩ <;> first | rfl | trivial
  have hnext : ∀ p : DocoptParser,
      (∃ t, p.s.Next = (.ok t, { p.s with pos := p.s.pos + 1 }) ∧ t.Pos = p.s.pos) ∨
      (∃ t, p.s.Next = (.ok t, p.s) ∧ t.Pos = p.s.pos) ∨
      (∃ msg, p.s.Next = (.error msg, p.s)) := by
    intro p
    unfold StateLexer.Next
    cases hit : p.s.items[p.s.pos]? with
    | none => exact Or.inr (Or.inl ⟨_, rfl, rfl⟩)
    | some it =>
      cases it with
      | tok k v => exact Or.inl ⟨_, rfl, rfl⟩
      | bad msg => exact Or.inr (Or.inr ⟨_, rfl⟩)
  have okcase : ∀ (fuel : Nat) (p : DocoptParser) (t : Token) (s1 : StateLexer),
      ¬ p.Error_count ≥ p.max_error → p.s.Next = (.ok t, s1) → t.Pos = p.s.pos →
      ∃ e1 p1, try_get_NextToken_rec fuel p slot = .ok (e1, p1) ∧
        try_get_NextToken_calls fuel p ≤ p.max_error - p.Error_count ∧
        (p.max_error ≤ p.Error_count →
          try_get_NextToken_calls fuel p = 0 ∧ p1 = p ∧ e1.isSome = true) ∧
        p.Error_count ≤ p1.Error_count ∧
        p1.Errors.length + p.Error_count = p.Errors.length + p1.Error_count ∧
        p1.max_error = p.max_error ∧
        (p.Error_count ≤ p.max_error → p1.Error_count ≤ p.max_error) ∧
        (e1 = none → ∃ tok, stored p1 slot tok ∧
          tok.Pos + p.Error_count = p.s.pos + p1.Error_count ∧
          try_get_NextToken_calls fuel p + p.Error_count = p1.Error_count + 1) ∧
        (e1.isSome = true → p.Error_count < p.max_error →
          p1.Error_count = p.max_error ∧
          p1.s.pos + 1 + p.Error_count = p.s.pos + p1.Error_count ∧
          try_get_NextToken_calls fuel p + p.Error_count = p1.Error_count ∧
          p1.current_token = p.current_token ∧ p1.next_token = p.next_token) := by
    intro fuel p t s1 hge hn hpos
    obtain ⟨g1, g2⟩ := good fuel p t s1 hge hn
    obtain ⟨f1, f2, f3, _, f5⟩ := store_fields { p with s := s1 } slot t
    have f1' : (({ p with s := s1 } : DocoptParser).store slot t).Error_count =
        p.Error_count := f1
    have f2' : (({ p with s := s1 } : DocoptParser).store slot t).max_error =
        p.max_error := f2
    have f3' : (({ p with s := s1 } : DocoptParser).store slot t).Errors = p.Errors := f3
    refine ⟨_, _, g1, ?_, ?_, ?_, ?_, ?_, ?_, ?_, ?_⟩
    · rw [g2]
      omega
    · intro h
      exact absurd h (by omega)
    · rw [f1']
    · rw [f1', f3']
    · exact f2'
    · intro h
      rw [f1']
      exact h
    · intro _
      refine ⟨t, f5, ?_, ?_⟩
      · rw [f1', hpos]
      · rw [f1', g2]
        omega
    · intro h
      simp at h
  intro fuel
  induction fuel with
  | zero =>
    intro p hf
    by_cases hge : p.Error_count ≥ p.max_error
    · obtain ⟨e1, p1, h1, h2, h3, h4⟩ := stop 0 p hge
      subst h3
      refine ⟨e1, p1, h1, by omega, fun _ => ⟨h2, rfl, h4⟩, le_refl _, rfl, rfl, fun h => h,
        ?_, ?_⟩
      · intro h
        rw [h] at h4
        simp at h4
      · intro _ h
        exact absurd h (by omega)
    · exact absurd hf (by omega)
  | succ n ih =>
    intro p hf
    by_cases hge : p.Error_count ≥ p.max_error
    · obtain ⟨e1, p1, h1, h2, h3, h4⟩ := stop (n + 1) p hge
      subst h3
      refine ⟨e1, p1, h1, by omega, fun _ => ⟨h2, rfl, h4⟩, le_refl _, rfl, rfl, fun h => h,
        ?_, ?_⟩
      · intro h
        rw [h] at h4
        simp at h4
      · intro _ h
        exact absurd h (by omega)
    · rcases hnext p with ⟨t, hn, hpos⟩ | ⟨t, hn, hpos⟩ | ⟨msg, hn⟩
      · exact okcase (n + 1) p t _ hge hn hpos
      · exact okcase (n + 1) p t _ hge hn hpos
      · by_cases hx : p.Error_count + 1 ≥ p.max_error
        · obtain ⟨g1, g2⟩ := full (n + 1) p msg p.s hge hn hx
          refine ⟨_, _, g1, ?_, ?_, ?_, ?_, rfl, ?_, ?_, ?_⟩
          · rw [g2]
            omega
          · intro h
            exact absurd h (by omega)
          · show p.Error_count ≤ p.Error_count + 1
            omega
          · show (p.Errors ++ [msg]).length + p.Error_count =
              p.Errors.length + (p.Error_count + 1)
            simp only [List.length_append, List.length_singleton]
            omega
          · intro _
            show p.Error_count + 1 ≤ p.max_error
            omega
          · intro h
            simp at h
          · intro _ _
            refine ⟨?_, ?_, ?_, rfl, rfl⟩
            · show p.Error_count + 1 = p.max_error
              omega
            · show p.s.pos + 1 + p.Error_count = p.s.pos + (p.Error_count + 1)
              omega
            · rw [g2]
              show 1 + p.Error_count = p.Error_count + 1
              omega
        · obtain ⟨g1, g2⟩ := again n p msg p.s hge hn hx
          obtain ⟨e1, p1, h1, c1, _, c3, c4, c5, c6, c7, c8⟩ := ih
            { (AddError { p with s := p.s } msg) with
              s := (AddError { p with s := p.s } msg).s.Discard 1 }
            (by
              show p.max_error - (p.Error_count + 1) ≤ n
              omega)
          have c1' : try_get_NextToken_calls n
              { (AddError { p with s := p.s } msg) with
                s := (AddError { p with s := p.s } msg).s.Discard 1 } ≤
              p.max_error - (p.Error_count + 1) := c1
          have c3' : p.Error_count + 1 ≤ p1.Error_count := c3
          have c4' : p1.Errors.length + (p.Error_count + 1) =
              (p.Errors ++ [msg]).length + p1.Error_count := c4
          have c5' : p1.max_error = p.max_error := c5
          have c6' : p.Error_count + 1 ≤ p.max_error → p1.Error_count ≤ p.max_error := c6
          simp only [List.length_append, List.length_singleton] at c4'
          rw [← g1] at h1
          refine ⟨e1, p1, h1, ?_, ?_, ?_, ?_, c5', ?_, ?_, ?_⟩
          · rw [g2]
            omega
          · intro h
            exact absurd h (by omega)
          · omega
          · omega
          · intro _
            exact c6' (by omega)
          · intro hn1
            obtain ⟨tok, s1, s2, s3⟩ := c7 hn1
            have s2' : tok.Pos + (p.Error_count + 1) = p.s.pos + 1 + p1.Error_count := s2
            have s3' : try_get_NextToken_calls n
                { (AddError { p with s := p.s } msg) with
                  s := (AddError { p with s := p.s } msg).s.Discard 1 } +
                (p.Error_count + 1) = p1.Error_count + 1 := s3
            refine ⟨tok, s1, by omega, ?_⟩
            rw [g2]
            omega
          · intro hs _
            obtain ⟨s1, s2, s3, s4, s5⟩ := c8 hs (by
              show p.Error_count + 1 < p.max_error
              omega)
            have s1' : p1.Error_count = p.max_error := s1
            have s2' : p1.s.pos + 1 + (p.Error_count + 1) = p.s.pos + 1 + p1.Error_count := s2
            have s3' : try_get_NextToken_calls n
                { (AddError { p with s := p.s } msg) with
                  s := (AddError { p with s := p.s } msg).s.Discard 1 } +
                (p.Error_count + 1) = p1.Error_count := s3
            refine ⟨s1', by omega, ?_, s4, s5⟩
            rw [g2]
            omega

/-- The reasons `Consume_Usage_Expr` returns: a sentinel other than
`END_OF_Group`, or, after a terminal, the zero value of `Reason` the function
starts with. -/
theorem Consume_Usage_Expr_reason (fuel : Nat) (p p1 : DocoptParser) (r : Reason)
    (e : Option String) (h : Consume_Usage_Expr fuel p = .ok (r, e, p1)) :
    r ∈ [Error, TWO_NEWLINE, PROG_NAME_sequence, EOF_reached, Continue] ∨
      (r = Reason.zero ∧ e = none ∧
        ∃ tok t, p.current_token = some tok ∧ usage_terminal tok.Typ = some t) := by
  have hterm : ∀ (q : DocoptParser) (n : DocoptNodeType) (tok : Token)
      (t : DocoptNodeType), q.current_token = some tok → usage_terminal tok.Typ = some t →
      q = p →
      (do
        let p ← ensure_node q .Usage_Expr
        let p ← addToCurrent p n p.current_token
        (pure (Reason.zero, none, p) : ConsumeResult)) = .ok (r, e, p1) →
      r ∈ [Error, TWO_NEWLINE, PROG_NAME_sequence, EOF_reached, Continue] ∨
        (r = Reason.zero ∧ e = none ∧
          ∃ tok t, p.current_token = some tok ∧ usage_terminal tok.Typ = some t) := by
    intro q n tok t hq ht hqp hh
    simp only [bind_eq_ok, pure_eq_ok, Prod.mk.injEq] at hh
    obtain ⟨_, _, _, _, hr, he, _⟩ := hh
    subst hqp
    exact Or.inr ⟨hr.symm, he.symm, tok, t, hq, ht⟩
  have hgroup : ∀ (q : DocoptParser) (n : DocoptNodeType),
      (do
        let p ← ensure_node q .Usage_Expr
        let (_, err, p) ← Consume_loop_with (group_def (Consume_group fuel)) n fuel p
        if err.isSome then (pure (Error, err, p) : ConsumeResult)
        else do
          let nt ← curNodeType p
          let p := if nt ≠ .Usage_Expr then
              FatalError p ("Consume_loop(" ++ n.String ++ ") did not restore current_node: " ++
                nt.String)
            else p
          pure (Continue, none, p)) = .ok (r, e, p1) →
      r ∈ [Error, TWO_NEWLINE, PROG_NAME_sequence, EOF_reached, Continue] := by
    intro q n hh
    simp only [bind_eq_ok] at hh
    obtain ⟨pa, _, ⟨x, err, pb⟩, _, hh⟩ := hh
    simp only [] at hh
    by_cases he : err.isSome = true
    · simp only [he, if_true, pure_eq_ok, Prod.mk.injEq] at hh
      rw [← hh.1]
      simp
    · simp only [he, Bool.false_eq_true, if_false, bind_eq_ok, pure_eq_ok, Prod.mk.injEq] at hh
      obtain ⟨_, _, hr, _⟩ := hh
      rw [← hr]
      simp
  unfold Consume_Usage_Expr at h
  simp only [bind_eq_ok] at h
  obtain ⟨⟨b1, r1⟩, h1, h⟩ := h
  simp only [] at h
  rcases has_reach_EOF_spec _ _ _ _ h1 with ⟨hb, hr⟩ | ⟨hb, hr⟩
  · subst hb
    subst hr
    simp only [if_true, pure_eq_ok, Prod.mk.injEq] at h
    rw [← h.1]
    simp
  subst hb
  subst hr
  simp only [Bool.false_eq_true, if_false, bind_eq_ok] at h
  obtain ⟨⟨b2, r2, p2⟩, h2, h⟩ := h
  simp only [] at h
  rcases has_reach_two_NEWLINE_spec _ _ _ _ _ _ h2 with ⟨hb, hr, hst⟩ | ⟨hb, hr, hp⟩
  · subst hb
    subst hr
    simp only [if_true, pure_eq_ok, Prod.mk.injEq] at h
    rw [← h.1]
    simp
  subst hb
  subst hr
  have hp2 := hp.symm
  subst hp2
  simp only [Bool.false_eq_true, if_false, bind_eq_ok] at h
  obtain ⟨⟨b3, r3⟩, h3, h⟩ := h
  simp only [] at h
  rcases has_reach_PROG_NAME_spec _ _ _ _ h3 with ⟨hb, hr, htok⟩ | ⟨hb, hr⟩
  · subst hb
    subst hr
    simp only [if_true, pure_eq_ok, Prod.mk.injEq] at h
    rw [← h.1]
    simp
  subst hb
  subst hr
  simp only [Bool.false_eq_true, if_false, bind_eq_ok, deref_eq_ok] at h
  obtain ⟨tok, htok, h⟩ := h
  cases hT : tok.Typ <;> simp only [hT] at h
  case NEWLINE =>
    simp only [pure_eq_ok, Prod.mk.injEq] at h
    rw [← h.1]
    simp
  case LONG_BLANK =>
    simp only [pure_eq_ok, Prod.mk.injEq] at h
    rw [← h.1]
    simp
  case SHORT => exact hterm p _ tok _ htok (by rw [hT]; rfl) rfl h
  case LONG => exact hterm p _ tok _ htok (by rw [hT]; rfl) rfl h
  case ARGUMENT => exact hterm p _ tok _ htok (by rw [hT]; rfl) rfl h
  case IDENT => exact hterm p _ tok _ htok (by rw [hT]; rfl) rfl h
  case PUNCT =>
    left
    by_cases v1 : tok.Value = "["
    · simp only [v1, if_true] at h
      exact hgroup p _ h
    simp only [v1, if_false] at h
    by_cases v2 : tok.Value = "("
    · simp only [v2, if_true] at h
      exact hgroup p _ h
    simp only [v2, if_false] at h
    by_cases v3 : tok.Value = "..."
    · simp only [v3, if_true, bind_eq_ok] at h
      obtain ⟨pa, hen, ⟨e0, q⟩, hell, h⟩ := h
      simp only [] at h
      by_cases he : e0.isSome = true
      · simp only [he, if_true, pure_eq_ok, Prod.mk.injEq] at h
        rw [← h.1]
        simp
      · simp only [he, Bool.false_eq_true, if_false, pure_eq_ok, Prod.mk.injEq] at h
        rw [← h.1]
        simp
    simp only [v3, if_false] at h
    by_cases v4 : tok.Value = "="
    · simp only [v4, if_true, bind_eq_ok] at h
      obtain ⟨pa, hen, ⟨e0, q⟩, hasg, h⟩ := h
      simp only [] at h
      by_cases he : e0.isSome = true
      · simp only [he, if_true, pure_eq_ok, Prod.mk.injEq] at h
        rw [← h.1]
        simp
      · simp only [he, Bool.false_eq_true, if_false, bind_eq_ok, pure_eq_ok,
          Prod.mk.injEq] at h
        obtain ⟨q1, hnx, hr, _⟩ := h
        rw [← hr]
        simp
    simp only [v4, if_false] at h
    by_cases v5 : tok.Value = "|"
    · simp only [v5, if_true, bind_eq_ok, deref_eq_ok, node_eq_ok] at h
      obtain ⟨c, hc, nd, hnd, h⟩ := h
      by_cases hty : nd.Typ = .Usage_Expr
      · simp only [hty, ne_eq, not_true_eq_false, if_false, bind_eq_ok, deref_eq_ok,
          node_eq_ok] at h
        obtain ⟨par, hpar, pn, hpn, h⟩ := h
        by_cases hl : pn.Typ = .Usage_line
        · simp only [hl, if_true, bind_eq_ok, pure_eq_ok, Prod.mk.injEq] at h
          obtain ⟨q, hsur, hr, _⟩ := h
          rw [← hr]
          simp
        · simp only [hl, if_false] at h
          by_cases hrq : pn.Typ = .Usage_required_group
          · simp only [hrq, if_true, bind_eq_ok, pure_eq_ok, Prod.mk.injEq] at h
            obtain ⟨⟨k, hh⟩, hadd, hr, _⟩ := h
            rw [← hr]
            simp
          · simp only [hrq, if_false, pure_eq_ok, Prod.mk.injEq] at h
            rw [← h.1]
            simp
      · simp only [hty, ne_eq, not_false_eq_true, if_true, pure_eq_ok, Prod.mk.injEq] at h
        rw [← h.1]
        simp
    simp only [v5, if_false, pure_eq_ok, Prod.mk.injEq] at h
    rw [← h.1]
    simp
  all_goals
    simp only [pure_eq_ok, Prod.mk.injEq] at h
    rw [← h.1]
    simp

theorem Only.only_refl (d : Nat) (h : Heap) : Only d h h :=
  ⟨le_refl _, fun _ _ _ => rfl, fun dn hd => ⟨dn, hd, rfl⟩⟩

theorem Only.only_trans {d : Nat} {h h1 h2 : Heap} (a : Only d h h1) (b : Only d h1 h2) :
    Only d h h2 := by
  obtain ⟨a1, a2, a3⟩ := a
  obtain ⟨b1, b2, b3⟩ := b
  refine ⟨le_trans a1 b1, ?_, ?_⟩
  · intro i hi hl
    rw [b2 i hi (by omega), a2 i hi hl]
  · intro dn hd
    obtain ⟨dn1, h1, t1⟩ := a3 dn hd
    obtain ⟨dn2, h2, t2⟩ := b3 dn1 h1
    exact ⟨dn2, h2, t2.trans t1⟩

/-- The store after `AddNode` differs below the parent only. -/
theorem AddNode_only (h h1 : Heap) (par n : Nat) (t : DocoptNodeType) (tok : Option Token)
    (ha : AddNode h par t tok = .ok (n, h1)) : Only par h h1 := by
  unfold AddNode at ha
  cases hp : h[par]? with
  | none => simp [hp] at ha
  | some pn =>
    simp only [hp, Except.ok.injEq, Prod.mk.injEq] at ha
    obtain ⟨rfl, rfl⟩ := ha
    refine ⟨by simp, ?_, ?_⟩
    · intro i hi hl
      rw [List.getElem?_append_left (by simp; exact hl), List.getElem?_set]
      simp [Ne.symm hi]
    · intro dn hd
      have hl := lt_of_getElem?_eq_some _ _ _ hd
      rw [hp] at hd
      have e : pn = dn := Option.some.inj hd
      subst e
      refine ⟨{ pn with Children := pn.Children ++ [h.length] }, ?_, rfl⟩
      rw [List.getElem?_append_left (by simp; exact hl), List.getElem?_set]
      simp [hl]

/-- Every node keeps its kind through `AddNode`. -/
theorem AddNode_kinds (h h1 : Heap) (par n : Nat) (t : DocoptNodeType) (tok : Option Token)
    (ha : AddNode h par t tok = .ok (n, h1)) (x : Nat) (cn : DocoptAst)
    (hx : h[x]? = some cn) : ∃ cn1, h1[x]? = some cn1 ∧ cn1.Typ = cn.Typ := by
  obtain ⟨_, a2, a3⟩ := AddNode_only h h1 par n t tok ha
  by_cases hxp : x = par
  · subst hxp
    exact a3 cn hx
  · exact ⟨cn, by rw [a2 x hxp (lt_of_getElem?_eq_some _ _ _ hx)]; exact hx, rfl⟩

/-- Every node keeps its kind when the store changes below one node only. -/
theorem Only.only_kinds {d : Nat} {h h1 : Heap} (a : Only d h h1) (x : Nat) (cn : DocoptAst)
    (hx : h[x]? = some cn) : ∃ cn1, h1[x]? = some cn1 ∧ cn1.Typ = cn.Typ := by
  obtain ⟨_, a2, a3⟩ := a
  by_cases hxp : x = d
  · subst hxp
    exact a3 cn hx
  · exact ⟨cn, by rw [a2 x hxp (lt_of_getElem?_eq_some _ _ _ hx)]; exact hx, rfl⟩

/-- The loop of `Consume_option_description` changes the store below the
description node only. -/
theorem Consume_option_description_loop_only (d : Nat) :
    ∀ (fuel cl : Nat) (p p1 : DocoptParser) (e : Option String),
      Consume_option_description_loop d fuel cl p = .ok (e, p1) → Only d p.heap p1.heap := by
  intro fuel
  induction fuel with
  | zero =>
    intro cl p p1 e h
    rw [Consume_option_description_loop] at h
    by_cases hrun : p.run = true
    · simp [hrun] at h
    · simp only [hrun, Bool.false_eq_true, if_false] at h
      rw [(parser_stoped_eq _ _ _ h).1]
      exact Only.only_refl _ _
  | succ n ih =>
    intro cl p p1 e h
    rw [Consume_option_description_loop] at h
    by_cases hrun : p.run = true
    · simp only [hrun, if_true, bind_eq_ok, deref_eq_ok] at h
      obtain ⟨pa, hnext, tok, htok, h⟩ := h
      have hh : pa.heap = p.heap := (NextToken_frame p pa hnext).1
      have collect : ∀ cl1 : Nat,
          (∃ a, AddNode pa.heap d .Description_node pa.current_token = .ok a ∧
            Consume_option_description_loop d n cl1 { pa with heap := a.2 } = .ok (e, p1)) →
          Only d p.heap p1.heap := by
        intro cl1 hc
        obtain ⟨⟨k, h1⟩, hadd, hc⟩ := hc
        have o1 := AddNode_only _ _ _ _ _ _ hadd
        rw [hh] at o1
        exact o1.only_trans (ih cl1 _ p1 e hc)
      cases hT : tok.Typ with
      | NEWLINE =>
        simp only [hT, bind_eq_ok] at h
        obtain ⟨nx, _, h⟩ := h
        by_cases hn : nx = .NEWLINE
        · simp only [hn, if_true, bind_eq_ok, pure_eq_ok, Prod.mk.injEq] at h
          obtain ⟨⟨k, h1⟩, hadd, q, hq, _, rfl⟩ := h
          have o1 := AddNode_only _ _ _ _ _ _ hadd
          rw [hh] at o1
          have hq1 : q.heap = h1 := (NextToken_frame _ q hq).1
          rw [hq1]
          exact o1
        · simp only [hn, if_false, bind_eq_ok] at h
          exact collect _ h
      | EOF =>
        simp only [hT, pure_eq_ok, Prod.mk.injEq] at h
        obtain ⟨_, rfl⟩ := h
        rw [hh]
        exact Only.only_refl _ _
      | LONG_BLANK =>
        simp only [hT] at h
        by_cases hcl : cl > 0
        · simp only [hcl, if_true, true_and, bind_eq_ok] at h
          obtain ⟨nx, _, h⟩ := h
          by_cases hnx : nx = .SHORT ∨ nx = .LONG
          · simp only [hnx, if_true, bind_eq_ok, pure_eq_ok, Prod.mk.injEq] at h
            obtain ⟨q, hq, _, rfl⟩ := h
            rw [(reject_current_token_frame _ _ hq).1.1, hh]
            exact Only.only_refl _ _
          · simp only [hnx, if_false, bind_eq_ok] at h
            exact collect _ h
        · simp only [hcl, if_false, false_and, bind_eq_ok, pure_eq_ok] at h
          obtain ⟨nx, _, h⟩ := h
          exact collect _ h
      | DEFAULT =>
        simp only [hT, Consume_option_default, pure_eq_ok, Prod.mk.injEq] at h
        obtain ⟨_, rfl⟩ := h
        rw [hh]
        exact Only.only_refl _ _
      | _ =>
        simp only [hT, bind_eq_ok] at h
        exact collect _ h
    · simp only [hrun, Bool.false_eq_true, if_false] at h
      rw [(parser_stoped_eq _ _ _ h).1]
      exact Only.only_refl _ _

theorem LineShape.shape_of_opts {h : Heap} {l : Nat} {old : List Nat} (a : Opts h l old) :
    LineShape h l old := by
  obtain ⟨ln, h1, h2, h3, h4⟩ := a
  exact ⟨ln, h1, h2, [], [], by simp [h3], by simpa using h4, Or.inl rfl⟩

theorem LineShape.shape_longer {h : Heap} {l x : Nat} {old : List Nat}
    (a : LineShape h l (old ++ [x])) : LineShape h l old := by
  obtain ⟨ln, h1, h2, ext, desc, h3, h4, h5⟩ := a
  exact ⟨ln, h1, h2, [x] ++ ext, desc, by rw [h3]; simp, by simpa using h4, h5⟩

/-- An option appended to the current `Option_line`. -/
theorem addToCurrent_opts (q q1 : DocoptParser) (t : DocoptNodeType) (tok : Option Token)
    (l : Nat) (old : List Nat) (h : addToCurrent q t tok = .ok q1)
    (hcur : q.current_node = some l) (hop : Opts q.heap l old)
    (ht : t = .Option_short ∨ t = .Option_long) :
    Opts q1.heap l (old ++ [q.heap.length]) ∧ q1.current_node = some l := by
  obtain ⟨ln, h1, h2, h3, h4⟩ := hop
  have hl : l < q.heap.length := lt_of_getElem?_eq_some _ _ _ h1
  unfold addToCurrent at h
  simp only [hcur, deref, AddNode_ok q.heap l ln t tok h1, bind, Except.bind, pure,
    Except.pure, Except.ok.injEq] at h
  subst h
  refine ⟨⟨{ ln with Children := ln.Children ++ [q.heap.length] }, ?_, h2, by simp [h3], ?_⟩,
    rfl⟩
  · show (q.heap.set l _ ++ _)[l]? = _
    rw [List.getElem?_append_left (by simp; exact hl), List.getElem?_set]
    simp [hl]
  · intro x hx
    simp only [List.mem_append, List.mem_singleton] at hx
    show ∃ cn, (q.heap.set l _ ++ _)[x]? = some cn ∧ _
    rcases hx with hx | hx
    · obtain ⟨cn, c1, c2⟩ := h4 x hx
      have hxl : x < q.heap.length := lt_of_getElem?_eq_some _ _ _ c1
      have hne : l ≠ x := by
        intro hlx
        subst hlx
        rw [h1] at c1
        have : ln = cn := Option.some.inj c1
        subst this
        rw [h2] at c2
        rcases c2 with c2 | c2 <;> exact absurd c2 (by decide)
      refine ⟨cn, ?_, c2⟩
      rw [List.getElem?_append_left (by simp; exact hxl), List.getElem?_set]
      simp [hne, c1]
    · subst hx
      refine ⟨{ Typ := t, Token := tok, Parent := some l, Children := [], Repeat := false },
        ?_, ht⟩
      rw [List.getElem?_append_right (by simp)]
      simp

/-- The call of `Consume_assign` on an `Option_line` leaves its children. -/
theorem Consume_assign_opts (p p1 : DocoptParser) (arg : Option Token) (e : Option String)
    (l : Nat) (old : List Nat) (h : Consume_assign p arg = .ok (e, p1))
    (hcur : p.current_node = some l) (hop : Opts p.heap l old) :
    Opts p1.heap l old ∧ p1.current_node = some l := by
  unfold Consume_assign at h
  simp only [bind_eq_ok, deref_eq_ok] at h
  obtain ⟨a, _, h⟩ := h
  by_cases ha : a.Typ = .ARGUMENT
  · simp only [ha, ne_eq, not_true_eq_false, if_false, bind_eq_ok, deref_eq_ok,
      node_eq_ok] at h
    obtain ⟨c, hc, nd, hnd, h⟩ := h
    cases hl : nd.Children.getLast? with
    | none =>
      simp only [hl, pure_eq_ok, Prod.mk.injEq] at h
      obtain ⟨_, rfl⟩ := h
      exact ⟨hop, hcur⟩
    | some prev =>
      simp only [hl, bind_eq_ok, node_eq_ok] at h
      obtain ⟨pn, hpn, h⟩ := h
      have key : ∀ t : DocoptNodeType, pn.Typ ≠ .Option_line →
          (do
            let (_, h) ← AddNode p.heap prev t arg
            (pure (none, { p with heap := h }) : StepResult)) = .ok (e, p1) →
          Opts p1.heap l old ∧ p1.current_node = some l := by
        intro t hne hh
        simp only [bind_eq_ok, pure_eq_ok, Prod.mk.injEq] at hh
        obtain ⟨⟨n, h1⟩, hadd, _, rfl⟩ := hh
        obtain ⟨ln, g1, g2, g3, g4⟩ := hop
        have hpl : l ≠ prev := by
          intro hlp
          subst hlp
          rw [g1] at hpn
          have : ln = pn := Option.some.inj hpn
          subst this
          exact hne g2
        obtain ⟨_, o2, _⟩ := AddNode_only _ _ _ _ _ _ hadd
        refine ⟨⟨ln, ?_, g2, g3, ?_⟩, hcur⟩
        · show h1[l]? = some ln
          rw [o2 l hpl (lt_of_getElem?_eq_some _ _ _ g1)]
          exact g1
        · intro x hx
          obtain ⟨cn, c1, c2⟩ := g4 x hx
          obtain ⟨cn1, d1, d2⟩ := AddNode_kinds _ _ _ _ _ _ hadd x cn c1
          exact ⟨cn1, d1, by rw [d2]; exact c2⟩
      cases hT : pn.Typ <;> simp only [hT] at h <;>
        first
          | exact key _ (by rw [hT]; decide) h
          | (simp only [pure_eq_ok, Prod.mk.injEq] at h
             obtain ⟨_, rfl⟩ := h
             exact ⟨hop, hcur⟩)
  · simp only [ha, ne_eq, not_false_eq_true, if_true, bind_eq_ok, pure_eq_ok,
      Prod.mk.injEq] at h
    obtain ⟨_, _, _, rfl⟩ := h
    exact ⟨hop, hcur⟩

/-- The call of `Consume_option_description` on an `Option_line`: the
description is appended as the last child. -/
theorem Consume_option_description_shape (fuel : Nat) (p p1 : DocoptParser)
    (e : Option String) (l : Nat) (old : List Nat)
    (h : Consume_option_description fuel p = .ok (e, p1))
    (hcur : p.current_node = some l) (hop : Opts p.heap l old) : LineShape p1.heap l old := by
  obtain ⟨ln, g1, g2, g3, g4⟩ := hop
  have hl : l < p.heap.length := lt_of_getElem?_eq_some _ _ _ g1
  unfold Consume_option_description at h
  simp only [hcur, deref, AddNode_ok p.heap l ln _ _ g1, bind, Except.bind, pure,
    Except.pure] at h
  have ho := Consume_option_description_loop_only _ _ _ _ _ _ h
  obtain ⟨o1, o2, o3⟩ := ho
  simp only [List.length_append, List.length_set, List.length_singleton] at o1 o2
  refine ⟨{ ln with Children := ln.Children ++ [p.heap.length] }, ?_, g2, [],
    [p.heap.length], by simp [g3], ?_, Or.inr ?_⟩
  · rw [o2 l (by omega) (by omega), List.getElem?_append_left (by simp; exact hl),
      List.getElem?_set]
    simp [hl]
  · intro x hx
    simp only [List.append_nil] at hx
    obtain ⟨cn, c1, c2⟩ := g4 x hx
    have hxl : x < p.heap.length := lt_of_getElem?_eq_some _ _ _ c1
    have hne : l ≠ x := by
      intro hlx
      subst hlx
      rw [g1] at c1
      have : ln = cn := Option.some.inj c1
      subst this
      rw [g2] at c2
      rcases c2 with c2 | c2 <;> exact absurd c2 (by decide)
    refine ⟨cn, ?_, c2⟩
    rw [o2 x (by omega) (by omega), List.getElem?_append_left (by simp; exact hxl),
      List.getElem?_set]
    simp [hne, c1]
  · obtain ⟨dn1, d1, d2⟩ := o3
      { Typ := .Option_description, Token := none, Parent := some l, Children := [],
        Repeat := false }
      (by
        rw [List.getElem?_append_right (by simp)]
        simp)
    exact ⟨p.heap.length, dn1, rfl, d1, d2⟩

/-- The loop of `Consume_option_line` on an `Option_line` whose children are
options: when it returns, the children are options followed by at most one
description. -/
theorem Consume_option_line_loop_shape (l : Nat) :
    ∀ (fuel : Nat) (err : Option String) (q q1 : DocoptParser) (e : Option String)
      (old : List Nat),
      Consume_option_line_loop fuel err q = .ok (e, q1) → q.current_node = some l →
      Opts q.heap l old → LineShape q1.heap l old := by
  intro fuel
  induction fuel with
  | zero =>
    intro err q q1 e old h hcur hop
    rw [Consume_option_line_loop] at h
    by_cases hrun : q.run = true
    · simp [hrun] at h
    · simp only [hrun, Bool.false_eq_true, if_false, pure_eq_ok, Prod.mk.injEq] at h
      obtain ⟨_, rfl⟩ := h
      exact LineShape.shape_of_opts hop
  | succ n ih =>
    intro err q q1 e old h hcur hop
    rw [Consume_option_line_loop] at h
    by_cases hrun : q.run = true
    · simp only [hrun, if_true, bind_eq_ok, deref_eq_ok] at h
      obtain ⟨pa, hnext, tok, htok, h⟩ := h
      obtain ⟨sh, sc, _⟩ := NextToken_frame q pa hnext
      have hcura : pa.current_node = some l := sc.trans hcur
      have hopa : Opts pa.heap l old := by rw [sh]; exact hop
      have ends : ∀ k : TokenKind, (do
            let c ← deref pa.current_node
            let nd ← node pa.heap c
            if nd.Children.length = 0 then
              (pure (some (nd.Typ.String ++ ": " ++ k.name ++
                " unexpected empty option, invalid Token: " ++ fmtToken pa.current_token),
                pa) : StepResult)
            else pure (err, pa)) = .ok (e, q1) → LineShape q1.heap l old := by
        intro k hh
        simp only [bind_eq_ok, deref_eq_ok, node_eq_ok] at hh
        obtain ⟨c, _, nd, _, hh⟩ := hh
        by_cases hz : nd.Children.length = 0
        · simp only [hz, if_true, pure_eq_ok, Prod.mk.injEq] at hh
          obtain ⟨_, rfl⟩ := hh
          exact LineShape.shape_of_opts hopa
        · simp only [hz, if_false, pure_eq_ok, Prod.mk.injEq] at hh
          obtain ⟨_, rfl⟩ := hh
          exact LineShape.shape_of_opts hopa
      have leave : ∀ msg : DocoptNodeType → String, (do
            let nt ← curNodeType pa
            (pure (some (msg nt), pa) : StepResult)) = .ok (e, q1) →
          LineShape q1.heap l old := by
        intro msg hh
        simp only [bind_eq_ok, pure_eq_ok, Prod.mk.injEq] at hh
        obtain ⟨_, _, _, rfl⟩ := hh
        exact LineShape.shape_of_opts hopa
      cases hT : tok.Typ with
      | EOF =>
        simp only [hT] at h
        exact ends _ h
      | NEWLINE =>
        simp only [hT] at h
        exact ends _ h
      | LONG_BLANK =>
        simp only [hT] at h
        exact Consume_option_description_shape n pa q1 e l old h hcura hopa
      | SHORT =>
        simp only [hT, bind_eq_ok] at h
        obtain ⟨pb, hadd, h⟩ := h
        obtain ⟨b1, b2⟩ := addToCurrent_opts pa pb _ _ l old hadd hcura hopa (Or.inl rfl)
        exact (ih err pb q1 e _ h b2 b1).shape_longer
      | LONG =>
        simp only [hT, bind_eq_ok] at h
        obtain ⟨pb, hadd, h⟩ := h
        obtain ⟨b1, b2⟩ := addToCurrent_opts pa pb _ _ l old hadd hcura hopa (Or.inr rfl)
        exact (ih err pb q1 e _ h b2 b1).shape_longer
      | ARGUMENT =>
        simp only [hT, bind_eq_ok] at h
        obtain ⟨⟨e1, pb⟩, hasg, h⟩ := h
        obtain ⟨b1, b2⟩ := Consume_assign_opts pa pb _ e1 l old hasg hcura hopa
        simp only [] at h
        by_cases he : e1.isSome = true
        · simp only [he, if_true, pure_eq_ok, Prod.mk.injEq] at h
          obtain ⟨_, rfl⟩ := h
          exact LineShape.shape_of_opts b1
        · simp only [he, Bool.false_eq_true, if_false] at h
          exact ih e1 pb q1 e old h b2 b1
      | PUNCT =>
        simp only [hT] at h
        by_cases v1 : tok.Value = ","
        · simp only [v1, if_true] at h
          exact ih err pa q1 e old h hcura hopa
        simp only [v1, if_false] at h
        by_cases v2 : tok.Value = "="
        · simp only [v2, if_true, bind_eq_ok] at h
          obtain ⟨⟨e1, pb⟩, hasg, h⟩ := h
          obtain ⟨b1, b2⟩ := Consume_assign_opts pa pb _ e1 l old hasg hcura hopa
          simp only [] at h
          by_cases he : e1.isSome = true
          · simp only [he, if_true, pure_eq_ok, Prod.mk.injEq] at h
            obtain ⟨_, rfl⟩ := h
            exact LineShape.shape_of_opts b1
          · simp only [he, Bool.false_eq_true, if_false, bind_eq_ok] at h
            obtain ⟨pc, hnc, h⟩ := h
            obtain ⟨th, tc, _⟩ := NextToken_frame pb pc hnc
            exact ih err pc q1 e old h (tc.trans b2) (by rw [th]; exact b1)
        · simp only [v2, if_false] at h
          exact leave _ h
      | _ =>
        simp only [hT] at h
        exact leave _ h
    · simp only [hrun, Bool.false_eq_true, if_false, pure_eq_ok, Prod.mk.injEq] at h
      obtain ⟨_, rfl⟩ := h
      exact LineShape.shape_of_opts hop

theorem nonempty_of_hext {h h1 : Heap} (a : HExt h h1) (l : Nat) (nd : DocoptAst)
    (hl : h[l]? = some nd) (hne : nd.Children ≠ []) :
    ∃ nd1, h1[l]? = some nd1 ∧ nd1.Children ≠ [] := by
  obtain ⟨nd1, g1, _, _, _, ext, g2⟩ := a.2.1 l nd hl
  refine ⟨nd1, g1, ?_⟩
  rw [g2]
  intro hnil
  exact hne (List.append_eq_nil.mp hnil).1

/-- With a current node that has children, the loop of `Consume_option_line`
never takes the branch of the empty option. -/
theorem Consume_option_line_loop_eq_no_empty :
    ∀ (fuel : Nat) (err : Option String) (q : DocoptParser),
      (∃ l nd, q.current_node = some l ∧ q.heap[l]? = some nd ∧ nd.Children ≠ []) →
      Consume_option_line_loop fuel err q = Consume_option_line_loop_no_empty fuel err q := by
  intro fuel
  induction fuel with
  | zero =>
    intro err q _
    rw [Consume_option_line_loop, Consume_option_line_loop_no_empty]
  | succ n ih =>
    intro err q hinv
    obtain ⟨l, nd, hcur, hnd, hne⟩ := hinv
    rw [Consume_option_line_loop, Consume_option_line_loop_no_empty]
    by_cases hrun : q.run = true
    · simp only [hrun, if_true]
      cases hnx : NextToken q with
      | error f => rfl
      | ok pa =>
        obtain ⟨sh, sc, _⟩ := NextToken_frame q pa hnx
        have hcura : pa.current_node = some l := sc.trans hcur
        have hnda : pa.heap[l]? = some nd := by rw [sh]; exact hnd
        have hlen : ¬ nd.Children.length = 0 := fun hz => hne (List.length_eq_zero.mp hz)
        simp only [bind, Except.bind]
        cases htok : pa.current_token with
        | none => rfl
        | some tok =>
          simp only [deref]
          cases hT : tok.Typ with
          | EOF =>
            simp only [hcura, deref, node, hnda, hlen, if_false, pure, Except.pure]
          | NEWLINE =>
            simp only [hcura, deref, node, hnda, hlen, if_false, pure, Except.pure]
          | SHORT =>
            simp only []
            cases hadd : addToCurrent pa .Option_short (some tok) with
            | error f => rfl
            | ok pb =>
              simp only []
              obtain ⟨b1, b2, _⟩ := addToCurrent_sec pa pb _ _ hadd (by decide)
              obtain ⟨nd1, c1, c2⟩ := nonempty_of_hext b1.1 l nd hnda hne
              exact ih err pb ⟨l, nd1, b2.trans hcura, c1, c2⟩
          | LONG =>
            simp only []
            cases hadd : addToCurrent pa .Option_long (some tok) with
            | error f => rfl
            | ok pb =>
              simp only []
              obtain ⟨b1, b2, _⟩ := addToCurrent_sec pa pb _ _ hadd (by decide)
              obtain ⟨nd1, c1, c2⟩ := nonempty_of_hext b1.1 l nd hnda hne
              exact ih err pb ⟨l, nd1, b2.trans hcura, c1, c2⟩
          | ARGUMENT =>
            simp only []
            cases hasg : Consume_assign pa (some tok) with
            | error f => rfl
            | ok r =>
              obtain ⟨e1, pb⟩ := r
              simp only []
              by_cases he : e1.isSome = true
              · simp only [he, if_true]
              · simp only [he, Bool.false_eq_true, if_false]
                obtain ⟨b1, b2⟩ := Consume_assign_sec pa pb _ e1 hasg
                obtain ⟨nd1, c1, c2⟩ := nonempty_of_hext b1.1 l nd hnda hne
                exact ih e1 pb ⟨l, nd1, b2.trans hcura, c1, c2⟩
          | PUNCT =>
            simp only []
            by_cases v1 : tok.Value = ","
            · simp only [v1, if_true]
              exact ih err pa ⟨l, nd, hcura, hnda, hne⟩
            simp only [v1, if_false]
            by_cases v2 : tok.Value = "="
            · simp only [v2, if_true]
              cases hasg : Consume_assign pa pa.next_token with
              | error f => rfl
              | ok r =>
                obtain ⟨e1, pb⟩ := r
                simp only []
                by_cases he : e1.isSome = true
                · simp only [he, if_true]
                · simp only [he, Bool.false_eq_true, if_false]
                  obtain ⟨b1, b2⟩ := Consume_assign_sec pa pb _ e1 hasg
                  obtain ⟨nd1, c1, c2⟩ := nonempty_of_hext b1.1 l nd hnda hne
                  cases hn2 : NextToken pb with
                  | error f => rfl
                  | ok pc =>
                    simp only []
                    obtain ⟨th, tc, _⟩ := NextToken_frame pb pc hn2
                    exact ih err pc ⟨l, nd1, tc.trans (b2.trans hcura), by rw [th]; exact c1, c2⟩
            · simp only [v2, if_false]
          | _ => rfl
    · simp only [hrun, Bool.false_eq_true, if_false]

/-- A round of the loop of `Consume_option_line` at a `SHORT` or a `LONG`. -/
theorem option_line_round (n : Nat) (err : Option String) (q pa pb : DocoptParser)
    (tok : Token) (hrun : q.run = true) (hnext : NextToken q = .ok pa)
    (htok : pa.current_token = some tok) :
    (tok.Typ = .SHORT → addToCurrent pa .Option_short pa.current_token = .ok pb →
      Consume_option_line_loop (n + 1) err q = Consume_option_line_loop n err pb ∧
      Consume_option_line_loop_no_empty (n + 1) err q =
        Consume_option_line_loop_no_empty n err pb) ∧
    (tok.Typ = .LONG → addToCurrent pa .Option_long pa.current_token = .ok pb →
      Consume_option_line_loop (n + 1) err q = Consume_option_line_loop n err pb ∧
      Consume_option_line_loop_no_empty (n + 1) err q =
        Consume_option_line_loop_no_empty n err pb) := by
  constructor
  · intro hk hadd
    rw [htok] at hadd
    constructor
    · rw [Consume_option_line_loop]
      simp only [hrun, if_true, hnext, htok, deref, hk, hadd, bind, Except.bind]
    · rw [Consume_option_line_loop_no_empty]
      simp only [hrun, if_true, hnext, htok, deref, hk, hadd, bind, Except.bind]
  · intro hk hadd
    rw [htok] at hadd
    constructor
    · rw [Consume_option_line_loop]
      simp only [hrun, if_true, hnext, htok, deref, hk, hadd, bind, Except.bind]
    · rw [Consume_option_line_loop_no_empty]
      simp only [hrun, if_true, hnext, htok, deref, hk, hadd, bind, Except.bind]

/-- The first round of the loop of `Consume_option_line` when the lookahead is a
`SHORT` or a `LONG`: the option becomes the first child of the new
`Option_line`. -/
theorem option_line_first_round (n : Nat) (p : DocoptParser) (i c : Nat) (nd : DocoptAst)
    (hrun : p.run = true) (hready : Ready p i)
    (hlook : (token_at p.s.items i).Typ = .SHORT ∨ (token_at p.s.items i).Typ = .LONG) :
    ∃ pb, Opts pb.heap p.heap.length [p.heap.length + 1] ∧
      pb.current_node = some p.heap.length ∧
      Consume_option_line_loop (n + 1) none
          { p with
            heap := p.heap.set c { nd with Children := nd.Children ++ [p.heap.length] } ++
              [{ Typ := .Option_line, Token := none, Parent := some c, Children := [],
                 Repeat := false }],
            current_node := some p.heap.length } =
        Consume_option_line_loop n none pb ∧
      Consume_option_line_loop_no_empty (n + 1) none
          { p with
            heap := p.heap.set c { nd with Children := nd.Children ++ [p.heap.length] } ++
              [{ Typ := .Option_line, Token := none, Parent := some c, Children := [],
                 Repeat := false }],
            current_node := some p.heap.length } =
        Consume_option_line_loop_no_empty n none pb := by
  have hr0 : Ready
      { p with
        heap := p.heap.set c { nd with Children := nd.Children ++ [p.heap.length] } ++
          [{ Typ := .Option_line, Token := none, Parent := some c, Children := [],
             Repeat := false }],
        current_node := some p.heap.length } i := by
    obtain ⟨r1, r2, r3, r4⟩ := hready
    exact ⟨r1, r2, r3, r4⟩
  obtain ⟨pa, hnext, htok, _, hsame, hruna, _⟩ := NextToken_ready _ i hr0
  obtain ⟨sh, sc, _⟩ := hsame
  simp only [] at sh sc hruna htok
  have hop0 : Opts pa.heap p.heap.length [] := by
    refine ⟨{ Typ := .Option_line, Token := none, Parent := some c, Children := [],
              Repeat := false }, ?_, rfl, rfl, fun x hx => by simp at hx⟩
    rw [sh, List.getElem?_append_right (by simp)]
    simp
  have hlen : pa.heap.length = p.heap.length + 1 := by
    rw [sh]
    simp
  have step : ∀ t : DocoptNodeType, t = .Option_short ∨ t = .Option_long →
      ∃ pb, addToCurrent pa t pa.current_token = .ok pb ∧
        Opts pb.heap p.heap.length [p.heap.length + 1] ∧
        pb.current_node = some p.heap.length := by
    intro t ht
    obtain ⟨ln, g1, _⟩ := id hop0
    have hres : ∃ pb, addToCurrent pa t pa.current_token = .ok pb := by
      unfold addToCurrent
      simp only [sc, deref, AddNode_ok pa.heap p.heap.length ln t _ g1, bind, Except.bind,
        pure, Except.pure]
      exact ⟨_, rfl⟩
    obtain ⟨pb, hv⟩ := hres
    obtain ⟨b1, b2⟩ := addToCurrent_opts pa pb t _ p.heap.length [] hv sc hop0 ht
    rw [hlen] at b1
    exact ⟨pb, hv, b1, b2⟩
  rcases hlook with hk | hk
  · obtain ⟨pb, hadd, b1, b2⟩ := step .Option_short (Or.inl rfl)
    obtain ⟨g1, g2⟩ := (option_line_round n none _ pa pb _ (by exact hrun) hnext htok).1 hk hadd
    exact ⟨pb, b1, b2, g1, g2⟩
  · obtain ⟨pb, hadd, b1, b2⟩ := step .Option_long (Or.inr rfl)
    obtain ⟨g1, g2⟩ := (option_line_round n none _ pa pb _ (by exact hrun) hnext htok).2 hk hadd
    exact ⟨pb, b1, b2, g1, g2⟩

theorem kind_at_some {h : Heap} {x : Nat} {k : DocoptNodeType} (hk : kind_at h x = some k) :
    ∃ nd, h[x]? = some nd ∧ nd.Typ = k ∧ x < h.length := by
  unfold kind_at at hk
  cases hx : h[x]? with
  | none => simp [hx] at hk
  | some nd =>
    simp only [hx, Option.map_some', Option.some.injEq] at hk
    exact ⟨nd, rfl, hk, lt_of_getElem?_eq_some _ _ _ hx⟩

theorem kind_at_of {h : Heap} {x : Nat} {nd : DocoptAst} (hx : h[x]? = some nd) :
    kind_at h x = some nd.Typ := by
  simp [kind_at, hx]

/-- The store after `AddNode`, node by node. -/
theorem AddNode_at (h h1 : Heap) (par n : Nat) (t : DocoptNodeType) (tok : Option Token)
    (ha : AddNode h par t tok = .ok (n, h1)) :
    n = h.length ∧ h1.length = h.length + 1 ∧ par < h.length ∧
      h1[h.length]? = some { Typ := t, Token := tok, Parent := some par, Children := [],
                             Repeat := false } ∧
      (∃ pn, h[par]? = some pn ∧
        h1[par]? = some { pn with Children := pn.Children ++ [h.length] }) ∧
      (∀ i, i ≠ par → i < h.length → h1[i]? = h[i]?) ∧
      (∀ x, x < h.length → kind_at h1 x = kind_at h x) ∧
      kind_at h1 h.length = some t := by
  unfold AddNode at ha
  cases hp : h[par]? with
  | none => simp [hp] at ha
  | some pn =>
    have hpl : par < h.length := lt_of_getElem?_eq_some _ _ _ hp
    simp only [hp, Except.ok.injEq, Prod.mk.injEq] at ha
    obtain ⟨rfl, rfl⟩ := ha
    have hnew : (h.set par { pn with Children := pn.Children ++ [h.length] } ++
        [({ Typ := t, Token := tok, Parent := some par, Children := [],
            Repeat := false } : DocoptAst)])[h.length]? = some
        { Typ := t, Token := tok, Parent := some par, Children := [], Repeat := false } := by
      rw [List.getElem?_append_right (by simp)]
      simp
    have hpar : (h.set par { pn with Children := pn.Children ++ [h.length] } ++
        [({ Typ := t, Token := tok, Parent := some par, Children := [],
            Repeat := false } : DocoptAst)])[par]? = some
        { pn with Children := pn.Children ++ [h.length] } := by
      rw [List.getElem?_append_left (by simp; exact hpl), List.getElem?_set]
      simp [hpl]
    have hoth : ∀ i, i ≠ par → i < h.length →
        (h.set par { pn with Children := pn.Children ++ [h.length] } ++
          [({ Typ := t, Token := tok, Parent := some par, Children := [],
              Repeat := false } : DocoptAst)])[i]? = h[i]? := by
      intro i hi hl
      rw [List.getElem?_append_left (by simp; exact hl), List.getElem?_set]
      simp [Ne.symm hi]
    refine ⟨rfl, by simp, hpl, hnew, ⟨pn, rfl, hpar⟩, hoth, ?_, ?_⟩
    · intro x hx
      by_cases hxp : x = par
      · subst hxp
        simp [kind_at, hpar, hp]
      · simp [kind_at, hoth x hxp hx]
    · simp [kind_at, hnew]

theorem UsageTree.of_uinv {h : Heap} (a : UInv none h) : UsageTree h := by
  intro i nd hi
  obtain ⟨_, a2, a3, _, _, _⟩ := a i nd hi
  exact ⟨a2 (by simp), a3⟩

theorem UInv.of_no_usage {h : Heap} (a : NoUsageNodes h) (w : ChildrenInRange h) :
    UInv none h := by
  have hk : ∀ x k, kind_at h x = some k → is_usage_node k = false := by
    intro x k hx
    obtain ⟨nd, h1, h2, _⟩ := kind_at_some hx
    rw [← h2]
    exact a nd (mem_of_getElem?_eq_some _ _ _ h1)
  intro i nd hi
  have hn : is_usage_node nd.Typ = false := a nd (mem_of_getElem?_eq_some _ _ _ hi)
  refine ⟨fun h0 => by simp at h0, ?_, ?_, ?_, ?_,
    w nd (mem_of_getElem?_eq_some _ _ _ hi)⟩
  · intro _ hg
    simp [is_usage_node, hg] at hn
  · intro x _ k hx hkk
    have := hk x k hx
    rcases hkk with hkk | hkk <;> simp [is_usage_node, hkk] at this
  · intro _ hl
    simp [is_usage_node, hl] at hn
  · intro he
    simp [is_usage_node, he] at hn

/-- The invariant of the usage parsing through `AddNode`: the new node is open
when it is a group or a `Usage_line`, and an open parent is closed by its first
child. -/
theorem AddNode_uinv (o : Option Nat) (h h1 : Heap) (par n : Nat) (t : DocoptNodeType)
    (tok : Option Token) (pn : DocoptAst) (hinv : UInv o h)
    (ha : AddNode h par t tok = .ok (n, h1)) (hp : h[par]? = some pn)
    (ho : o = none ∨ o = some par)
    (s1 : is_usage_terminal t = true ∨ is_usage_group t = true →
      pn.Typ = .Usage_Expr ∨ (t = .Usage_argument ∧ pn.Typ = .Usage_long_option))
    (s2 : is_usage_group pn.Typ = true → t = .Usage_Expr)
    (s3 : pn.Typ = .Usage_line →
      (pn.Children = [] ∧ t = .Prog_name) ∨ (pn.Children ≠ [] ∧ t = .Usage_Expr)) :
    UInv (if is_usage_group t = true ∨ t = .Usage_line then some h.length else none) h1 := by
  obtain ⟨_, hlen, hpl, hnew, ⟨pn', hp', hpar⟩, hoth, hkind, hknew⟩ :=
    AddNode_at h h1 par n t tok ha
  rw [hp] at hp'
  have e : pn' = pn := (Option.some.inj hp').symm
  rw [e] at hpar
  clear hp' e pn'
  have hk_old : ∀ x k, kind_at h x = some k → kind_at h1 x = some k := by
    intro x k hx
    obtain ⟨_, _, _, hl⟩ := kind_at_some hx
    rw [hkind x hl]
    exact hx
  have hk_back : ∀ x k, kind_at h1 x = some k → x < h.length → kind_at h x = some k := by
    intro x k hx hl
    rw [← hkind x hl]
    exact hx
  have hopen : ∀ j : Nat, j < h.length →
      some j ≠ (if is_usage_group t = true ∨ t = .Usage_line then some h.length else none) := by
    intro j hj hc
    by_cases hcond : is_usage_group t = true ∨ t = .Usage_line
    · simp only [hcond, if_true, Option.some.injEq] at hc
      omega
    · simp [hcond] at hc
  intro i nd1 hi
  have hil : i < h.length + 1 := by
    rw [← hlen]
    exact lt_of_getElem?_eq_some _ _ _ hi
  by_cases hiL : i = h.length
  · subst hiL
    rw [hnew] at hi
    have e1 := (Option.some.inj hi).symm
    subst e1
    refine ⟨fun _ => rfl, ?_, ?_, ?_, ?_, ?_⟩
    · intro hne hg
      exact absurd (by simp [show is_usage_group t = true from hg]) hne
    · intro x hx
      simp at hx
    · intro hne hl
      exact absurd (by simp [show t = DocoptNodeType.Usage_line from hl]) hne
    · intro _ par2 hpar2
      have e2 : par2 = par := (Option.some.inj hpar2).symm
      subst e2
      refine ⟨by omega, ?_⟩
      intro pn2 h2 _
      rw [hpar] at h2
      have e3 := (Option.some.inj h2).symm
      subst e3
      simp
    · intro x hx
      simp at hx
  by_cases hip : i = par
  · rw [hip] at hi ⊢
    clear hip hiL hil i
    rw [hpar] at hi
    have e1 := (Option.some.inj hi).symm
    subst e1
    obtain ⟨a1, a2, a3, a4, a5, a6⟩ := hinv par pn hp
    refine ⟨fun hio => absurd hio (hopen par hpl), ?_, ?_, ?_, ?_, ?_⟩
    · intro _ hg
      refine ⟨by simp, ?_⟩
      intro x hx
      simp only [List.mem_append, List.mem_singleton] at hx
      rcases hx with hx | hx
      · rcases ho with ho | ho
        · exact hk_old x _ ((a2 (by rw [ho]; simp) hg).2 x hx)
        · rw [a1 ho.symm] at hx
          simp at hx
      · rw [hx, hknew, s2 hg]
    · intro x hx k hk hkk
      simp only [List.mem_append, List.mem_singleton] at hx
      rcases hx with hx | hx
      · exact a3 x hx k (hk_back x k hk (a6 x hx)) hkk
      · rw [hx, hknew] at hk
        have e2 : t = k := Option.some.inj hk
        subst e2
        exact s1 hkk
    · intro _ hl
      rcases s3 hl with ⟨hc, ht⟩ | ⟨hc, ht⟩
      · refine ⟨h.length, [], by simp [hc], by rw [hknew, ht], fun x hx => by simp at hx⟩
      · have hno : some par ≠ o := by
          intro hio
          exact hc (a1 hio)
        obtain ⟨f, rest, c1, c2, c3⟩ := a4 hno hl
        refine ⟨f, rest ++ [h.length], by simp [c1], hk_old f _ c2, ?_⟩
        intro x hx
        simp only [List.mem_append, List.mem_singleton] at hx
        rcases hx with hx | hx
        · exact hk_old x _ (c3 x hx)
        · rw [hx, hknew, ht]
    · intro he par2 hpar2
      obtain ⟨b1, b2⟩ := a5 he par2 hpar2
      refine ⟨by omega, ?_⟩
      intro pn2 h2 hl2
      by_cases hpp : par2 = par
      · subst hpp
        rw [hpar] at h2
        have e3 := (Option.some.inj h2).symm
        subst e3
        rw [he] at hl2
        exact absurd hl2 (by decide)
      · rw [hoth par2 hpp b1] at h2
        exact b2 pn2 h2 hl2
    · intro x hx
      simp only [List.mem_append, List.mem_singleton] at hx
      rcases hx with hx | hx
      · have := a6 x hx
        omega
      · omega
  · have hl : i < h.length := by omega
    rw [hoth i hip hl] at hi
    obtain ⟨a1, a2, a3, a4, a5, a6⟩ := hinv i nd1 hi
    have hno : some i ≠ o := by
      rcases ho with ho | ho
      · rw [ho]
        simp
      · rw [ho]
        intro hc
        exact hip (Option.some.inj hc)
    refine ⟨fun hio => absurd hio (hopen i hl), ?_, ?_, ?_, ?_, ?_⟩
    · intro _ hg
      obtain ⟨c1, c2⟩ := a2 hno hg
      exact ⟨c1, fun x hx => hk_old x _ (c2 x hx)⟩
    · intro x hx k hk hkk
      exact a3 x hx k (hk_back x k hk (a6 x hx)) hkk
    · intro _ hln
      obtain ⟨f, rest, c1, c2, c3⟩ := a4 hno hln
      exact ⟨f, rest, c1, hk_old f _ c2, fun x hx => hk_old x _ (c3 x hx)⟩
    · intro he par2 hpar2
      obtain ⟨b1, b2⟩ := a5 he par2 hpar2
      refine ⟨by omega, ?_⟩
      intro pn2 h2 hl2
      by_cases hpp : par2 = par
      · subst hpp
        rw [hpar] at h2
        have e3 := (Option.some.inj h2).symm
        subst e3
        have := b2 pn hp hl2
        simp [this]
      · rw [hoth par2 hpp b1] at h2
        exact b2 pn2 h2 hl2
    · intro x hx
      have := a6 x hx
      omega

theorem CurExpr.of_kinds {p p1 : DocoptParser} (a : CurExpr p)
    (hc : p1.current_node = p.current_node)
    (hk : ∀ x k, kind_at p.heap x = some k → kind_at p1.heap x = some k) : CurExpr p1 := by
  obtain ⟨c, nd, h1, h2, h3⟩ := a
  obtain ⟨nd1, g1, g2, _⟩ := kind_at_some (hk c _ (kind_at_of h2))
  exact ⟨c, nd1, hc.trans h1, g1, g2.trans h3⟩

theorem CurExpr.cur_of_grow {p p1 : DocoptParser} (a : CurExpr p)
    (hc : p1.current_node = p.current_node) (hg : Grow p.heap p1.heap) : CurExpr p1 := by
  obtain ⟨c, nd, h1, h2, h3⟩ := a
  obtain ⟨nd1, g1, g2, _⟩ := hg.2.1 c nd h2
  exact ⟨c, nd1, hc.trans h1, g1, g2.trans h3⟩

/-- Setting the `Repeat` flag of a node keeps the invariant. -/
theorem UInv.set_repeat {o : Option Nat} {h : Heap} (a : UInv o h) (l : Nat) (ln : DocoptAst)
    (hl : h[l]? = some ln) : UInv o (h.set l { ln with Repeat := true }) := by
  have hll : l < h.length := lt_of_getElem?_eq_some _ _ _ hl
  have hget : ∀ i, (h.set l { ln with Repeat := true })[i]? =
      if i = l then some { ln with Repeat := true } else h[i]? := by
    intro i
    rw [List.getElem?_set]
    by_cases hi : l = i
    · subst hi
      simp [hll]
    · simp [hi, Ne.symm hi]
  have hk : ∀ x, kind_at (h.set l { ln with Repeat := true }) x = kind_at h x := by
    intro x
    unfold kind_at
    rw [hget x]
    by_cases hx : x = l
    · subst hx
      simp [hl]
    · simp [hx]
  have key : ∀ (i : Nat) (nd1 : DocoptAst),
      (h.set l { ln with Repeat := true })[i]? = some nd1 →
      ∃ nd, h[i]? = some nd ∧ nd1.Typ = nd.Typ ∧ nd1.Children = nd.Children ∧
        nd1.Parent = nd.Parent := by
    intro i nd1 hi
    rw [hget i] at hi
    by_cases hil : i = l
    · subst hil
      simp only [if_true, Option.some.injEq] at hi
      subst hi
      exact ⟨ln, hl, rfl, rfl, rfl⟩
    · simp only [hil, if_false] at hi
      exact ⟨nd1, hi, rfl, rfl, rfl⟩
  intro i nd1 hi
  obtain ⟨nd, g0, g1, g2, g3⟩ := key i nd1 hi
  obtain ⟨a1, a2, a3, a4, a5, a6⟩ := a i nd g0
  rw [g1, g2, g3]
  simp only [hk, List.length_set]
  refine ⟨a1, a2, a3, a4, ?_, a6⟩
  intro he par hpar
  obtain ⟨b1, b2⟩ := a5 he par hpar
  refine ⟨b1, ?_⟩
  intro pn2 h2 hl2
  obtain ⟨pn, q0, q1, q2, _⟩ := key par pn2 h2
  rw [q2]
  exact b2 pn q0 (q1 ▸ hl2)

/-- The invariant through `ensure_node(Usage_Expr)`. -/
theorem ensure_node_uinv (p p1 : DocoptParser) (h : ensure_node p .Usage_Expr = .ok p1)
    (hinv : UInv none p.heap) : UInv none p1.heap ∧ CurExpr p1 := by
  unfold ensure_node at h
  simp only [bind_eq_ok, deref_eq_ok, node_eq_ok] at h
  obtain ⟨c, hc, nd, hnd, h⟩ := h
  by_cases hT : nd.Typ = .Usage_Expr
  · simp only [hT, ne_eq, not_true_eq_false, if_false, pure_eq_ok] at h
    subst h
    exact ⟨hinv, c, nd, hc, hnd, hT⟩
  · simp only [hT, ne_eq, not_false_eq_true, if_true, bind_eq_ok, pure_eq_ok] at h
    obtain ⟨⟨n, h1⟩, ha, rfl⟩ := h
    obtain ⟨hn, _, _, hnew, _⟩ := AddNode_at _ _ _ _ _ _ ha
    have g := AddNode_uinv none p.heap h1 c n .Usage_Expr none nd hinv ha hnd (Or.inl rfl)
      (fun hk => by rcases hk with hk | hk <;> simp [is_usage_terminal, is_usage_group] at hk)
      (fun _ => rfl)
      (fun hl => by
        obtain ⟨f, rest, c1, _⟩ := (hinv c nd hnd).2.2.2.1 (by simp) hl
        exact Or.inr ⟨by rw [c1]; simp, rfl⟩)
    simp only [is_usage_group, Bool.false_eq_true, reduceCtorEq, or_self, if_false] at g
    refine ⟨g, n,
      ({ Typ := .Usage_Expr, Token := none, Parent := some c, Children := [],
         Repeat := false } : DocoptAst), rfl, ?_, rfl⟩
    rw [hn]
    exact hnew

/-- The invariant through the append of a node under a current `Usage_Expr`. -/
theorem addToCurrent_uinv (p p1 : DocoptParser) (t : DocoptNodeType) (tok : Option Token)
    (h : addToCurrent p t tok = .ok p1) (hinv : UInv none p.heap) (hcur : CurExpr p)
    (ht : is_usage_group t = false ∧ t ≠ .Usage_line) : UInv none p1.heap ∧ CurExpr p1 := by
  obtain ⟨c, nd, hc, hnd, hT⟩ := hcur
  unfold addToCurrent at h
  simp only [bind_eq_ok, deref_eq_ok, pure_eq_ok] at h
  obtain ⟨c1, hc1, ⟨n, h1⟩, ha, rfl⟩ := h
  rw [hc] at hc1
  have e : c1 = c := (Option.some.inj hc1).symm
  rw [e] at ha
  obtain ⟨_, _, _, _, _, _, hkind, _⟩ := AddNode_at _ _ _ _ _ _ ha
  have g := AddNode_uinv none p.heap h1 c n t tok nd hinv ha hnd (Or.inl rfl)
    (fun _ => Or.inl hT)
    (fun hg => by rw [hT] at hg; simp [is_usage_group] at hg)
    (fun hl => by rw [hT] at hl; exact absurd hl (by decide))
  simp only [ht.1, Bool.false_eq_true, ht.2, or_self, if_false] at g
  refine ⟨g, CurExpr.of_kinds ⟨c, nd, hc, hnd, hT⟩ rfl ?_⟩
  intro x k hx
  obtain ⟨_, _, _, hl⟩ := kind_at_some hx
  show kind_at h1 x = some k
  rw [hkind x hl]
  exact hx

theorem AddNode_kind_at (h h1 : Heap) (par n : Nat) (t : DocoptNodeType) (tok : Option Token)
    (ha : AddNode h par t tok = .ok (n, h1)) :
    ∀ x k, kind_at h x = some k → kind_at h1 x = some k := by
  obtain ⟨_, _, _, _, _, _, hkind, _⟩ := AddNode_at _ _ _ _ _ _ ha
  intro x k hx
  obtain ⟨_, _, _, hl⟩ := kind_at_some hx
  rw [hkind x hl]
  exact hx

/-- The invariant through `Consume_assign`. -/
theorem Consume_assign_uinv (p p1 : DocoptParser) (arg : Option Token) (e : Option String)
    (h : Consume_assign p arg = .ok (e, p1)) (hinv : UInv none p.heap) :
    UInv none p1.heap ∧ p1.current_node = p.current_node ∧
      ∀ x k, kind_at p.heap x = some k → kind_at p1.heap x = some k := by
  unfold Consume_assign at h
  simp only [bind_eq_ok, deref_eq_ok] at h
  obtain ⟨a, _, h⟩ := h
  by_cases ha : a.Typ = .ARGUMENT
  · simp only [ha, ne_eq, not_true_eq_false, if_false, bind_eq_ok, deref_eq_ok,
      node_eq_ok] at h
    obtain ⟨c, hc, nd, hnd, h⟩ := h
    cases hl : nd.Children.getLast? with
    | none =>
      simp only [hl, pure_eq_ok, Prod.mk.injEq] at h
      obtain ⟨_, rfl⟩ := h
      exact ⟨hinv, rfl, fun _ _ hx => hx⟩
    | some prev =>
      simp only [hl, bind_eq_ok, node_eq_ok] at h
      obtain ⟨pn, hpn, h⟩ := h
      have key : ∀ t : DocoptNodeType,
          (t = .Usage_argument ∧ pn.Typ = .Usage_long_option) ∨
            (t = .Option_argument ∧ is_usage_group pn.Typ = false ∧ pn.Typ ≠ .Usage_line) →
          (do
            let (_, h) ← AddNode p.heap prev t arg
            (pure (none, { p with heap := h }) : StepResult)) = .ok (e, p1) →
          UInv none p1.heap ∧ p1.current_node = p.current_node ∧
            ∀ x k, kind_at p.heap x = some k → kind_at p1.heap x = some k := by
        intro t ht hh
        simp only [bind_eq_ok, pure_eq_ok, Prod.mk.injEq] at hh
        obtain ⟨⟨n, h1⟩, hadd, _, rfl⟩ := hh
        have g := AddNode_uinv none p.heap h1 prev n t arg pn hinv hadd hpn (Or.inl rfl)
          (fun hk => by
            rcases ht with ⟨h1t, h2t⟩ | ⟨h1t, _⟩
            · exact Or.inr ⟨h1t, h2t⟩
            · rw [h1t] at hk
              rcases hk with hk | hk <;> simp [is_usage_terminal, is_usage_group] at hk)
          (fun hg => by
            rcases ht with ⟨_, h2t⟩ | ⟨_, h2t, _⟩
            · rw [h2t] at hg
              simp [is_usage_group] at hg
            · rw [h2t] at hg
              simp at hg)
          (fun hln => by
            rcases ht with ⟨_, h2t⟩ | ⟨_, _, h2t⟩
            · rw [h2t] at hln
              exact absurd hln (by decide)
            · exact absurd hln h2t)
        have ho : (if is_usage_group t = true ∨ t = .Usage_line then some p.heap.length
            else none) = none := by
          rcases ht with ⟨h1t, _⟩ | ⟨h1t, _⟩ <;> rw [h1t] <;> simp [is_usage_group]
        rw [ho] at g
        exact ⟨g, rfl, AddNode_kind_at _ _ _ _ _ _ hadd⟩
      cases hT : pn.Typ <;> simp only [hT] at h <;>
        first
          | exact key _ (Or.inl ⟨rfl, hT⟩) h
          | exact key _ (Or.inr ⟨rfl, by rw [hT]; simp [is_usage_group], by rw [hT]; decide⟩) h
          | (simp only [pure_eq_ok, Prod.mk.injEq] at h
             obtain ⟨_, rfl⟩ := h
             exact ⟨hinv, rfl, fun _ _ hx => hx⟩)
  · simp only [ha, ne_eq, not_false_eq_true, if_true, bind_eq_ok, pure_eq_ok,
      Prod.mk.injEq] at h
    obtain ⟨_, _, _, rfl⟩ := h
    exact ⟨hinv, rfl, fun _ _ hx => hx⟩

/-- The invariant through `Consume_ellipsis`. -/
theorem Consume_ellipsis_uinv (p p1 : DocoptParser) (e : Option String)
    (h : Consume_ellipsis p = .ok (e, p1)) (hinv : UInv none p.heap) :
    UInv none p1.heap ∧ p1.current_node = p.current_node ∧
      ∀ x k, kind_at p.heap x = some k → kind_at p1.heap x = some k := by
  unfold Consume_ellipsis at h
  simp only [bind_eq_ok, deref_eq_ok, node_eq_ok] at h
  obtain ⟨c, _, nd, _, h⟩ := h
  cases hl : nd.Children.getLast? with
  | none =>
    simp only [hl, pure_eq_ok, Prod.mk.injEq] at h
    obtain ⟨_, rfl⟩ := h
    exact ⟨hinv, rfl, fun _ _ hx => hx⟩
  | some l =>
    simp only [hl, bind_eq_ok, node_eq_ok, pure_eq_ok, Prod.mk.injEq] at h
    obtain ⟨ln, hln, _, rfl⟩ := h
    refine ⟨hinv.set_repeat l ln hln, rfl, ?_⟩
    intro x k hx
    show kind_at (p.heap.set l _) x = some k
    have hll : l < p.heap.length := lt_of_getElem?_eq_some _ _ _ hln
    unfold kind_at at hx ⊢
    rw [List.getElem?_set]
    by_cases hxl : l = x
    · subst hxl
      simp only [hll, if_true, Option.map_some']
      rw [hln] at hx
      simpa using hx
    · simp only [hxl, if_false]
      exact hx

/-- The invariant through the statements of `Consume_loop` before its loop, for
a group opened under a current `Usage_Expr`: the group gets its first
`Usage_Expr`, which becomes current. -/
theorem group_enter_uinv (f : DocoptParser → ConsumeResult) (t : DocoptNodeType)
    (p p0 : DocoptParser) (h : Consume_loop_enter (group_def f) t p = .ok p0)
    (ht : is_usage_group t = true) (hinv : UInv none p.heap) (hcur : CurExpr p) :
    UInv none p0.heap ∧ CurExpr p0 ∧
      ∀ x k, kind_at p.heap x = some k → kind_at p0.heap x = some k := by
  obtain ⟨c, nd, hc, hnd, hT⟩ := hcur
  unfold Consume_loop_enter group_def at h
  simp only [if_true, bind_eq_ok, deref_eq_ok, pure_eq_ok, Bool.false_eq_true, if_false] at h
  obtain ⟨c1, hc1, ⟨n, ha⟩, hadd, pa, hpa, c2, hc2, ⟨n2, hb⟩, hadd2, pb, hpb, rfl⟩ := h
  rw [hc] at hc1
  have e1 : c1 = c := (Option.some.inj hc1).symm
  rw [e1] at hadd
  obtain ⟨hn, hlen, _, hnew, _⟩ := AddNode_at _ _ _ _ _ _ hadd
  have g1 := AddNode_uinv none p.heap ha c n t none nd hinv hadd hnd (Or.inl rfl)
    (fun _ => Or.inl hT)
    (fun hg => by rw [hT] at hg; simp [is_usage_group] at hg)
    (fun hl => by rw [hT] at hl; exact absurd hl (by decide))
  simp only [ht, true_or, if_true] at g1
  have hpah : pa.heap = ha := by rw [← hpa]
  have hpac : pa.current_node = some n := by rw [← hpa]
  rw [hpac] at hc2
  have e2 : c2 = n := (Option.some.inj hc2).symm
  rw [e2, hpah, hn] at hadd2
  obtain ⟨hn2, _, _, hnew2, _⟩ := AddNode_at _ _ _ _ _ _ hadd2
  have g2 := AddNode_uinv (some p.heap.length) ha hb p.heap.length n2 .Usage_Expr none _ g1
    hadd2 hnew (Or.inr rfl)
    (fun hk => by rcases hk with hk | hk <;> simp [is_usage_terminal, is_usage_group] at hk)
    (fun _ => rfl)
    (fun hl => by
      simp only [] at hl
      rw [hl] at ht
      simp [is_usage_group] at ht)
  simp only [is_usage_group, Bool.false_eq_true, reduceCtorEq, or_self, if_false] at g2
  have hpbh : pb.heap = hb := by rw [← hpb]
  have hpbc : pb.current_node = some n2 := by rw [← hpb]
  refine ⟨by rw [hpbh]; exact g2, ⟨n2, _, hpbc, by rw [hpbh, hn2]; exact hnew2, rfl⟩, ?_⟩
  intro x k hx
  rw [hpbh]
  exact AddNode_kind_at _ _ _ _ _ _ hadd2 x k (AddNode_kind_at _ _ _ _ _ _ hadd x k hx)

/-- The loop of `Consume_loop` keeps what every call of its consume function
keeps: `I` holds of the parser before each call, and `J` of the store once the
loop has returned. -/
theorem iter_inv (I : DocoptParser → Prop) (J : Heap → Prop)
    (f : DocoptParser → ConsumeResult)
    (hnext : ∀ p p1, NextToken p = .ok p1 → I p → I p1)
    (hJ : ∀ p, I p → J p.heap)
    (hf : ∀ p res, f p = .ok res → I p →
      J res.2.2.heap ∧ (res.2.1 = none → res.1.Leaving = false → I res.2.2)) :
    ∀ (fuel : Nat) (r0 : Reason) (e0 : Option String) (p : DocoptParser)
      (res : Reason × Option String × DocoptParser),
      Consume_loop_iter f fuel r0 e0 p = .ok res → I p → J res.2.2.heap := by
  intro fuel
  induction fuel with
  | zero =>
    intro r0 e0 p res h hi
    rw [Consume_loop_iter] at h
    by_cases hrun : p.run = true
    · simp [hrun] at h
    · simp only [hrun, Bool.false_eq_true, if_false, pure_eq_ok] at h
      subst h
      exact hJ _ hi
  | succ n ih =>
    intro r0 e0 p res h hi
    rw [Consume_loop_iter] at h
    by_cases hrun : p.run = true
    · simp only [hrun, if_true, bind_eq_ok] at h
      obtain ⟨p1, hnx, ⟨r, e, q⟩, hcall, h⟩ := h
      obtain ⟨hj, hcont⟩ := hf p1 (r, e, q) hcall (hnext p p1 hnx hi)
      simp only [] at hj hcont h
      by_cases hl : e.isSome = true ∨ r.Leaving = true
      · simp only [hl, if_true, pure_eq_ok] at h
        subst h
        exact hj
      · simp only [hl, if_false] at h
        have hne : e = none := by
          cases e with
          | none => rfl
          | some x => exact absurd (Or.inl rfl) hl
        have hnl : r.Leaving = false := by
          cases hb : r.Leaving with
          | false => rfl
          | true => exact absurd (Or.inr hb) hl
        exact ih r e q res h (hcont hne hnl)
    · simp only [hrun, Bool.false_eq_true, if_false, pure_eq_ok] at h
      subst h
      exact hJ _ hi

theorem NextToken_uinv_cur (p p1 : DocoptParser) (h : NextToken p = .ok p1)
    (hi : UInv none p.heap ∧ CurExpr p) : UInv none p1.heap ∧ CurExpr p1 := by
  have hst := NextToken_frame p p1 h
  refine ⟨by rw [hst.1]; exact hi.1, ?_⟩
  exact hi.2.of_kinds hst.2.1 (fun x k hx => by rw [hst.1]; exact hx)

/-- The invariant through `Consume_loop(t)` for a group whose consume function
keeps it. -/
theorem group_loop_uinv (f : DocoptParser → ConsumeResult)
    (hf : ∀ p res, f p = .ok res → UInv none p.heap ∧ CurExpr p →
      UInv none res.2.2.heap ∧
        (res.2.1 = none → res.1.Leaving = false → UInv none res.2.2.heap ∧ CurExpr res.2.2))
    (t : DocoptNodeType) (fuel : Nat) (p : DocoptParser)
    (res : Reason × Option String × DocoptParser)
    (h : Consume_loop_with (group_def f) t fuel p = .ok res)
    (ht : is_usage_group t = true) (hinv : UInv none p.heap) (hcur : CurExpr p) :
    UInv none res.2.2.heap := by
  unfold Consume_loop_with at h
  simp only [bind_eq_ok] at h
  obtain ⟨p0, henter, ⟨r, e, q⟩, hiter, hexit⟩ := h
  obtain ⟨h0, hc0, _⟩ := group_enter_uinv f t p p0 henter ht hinv hcur
  have h1 := iter_inv (fun p => UInv none p.heap ∧ CurExpr p) (fun h => UInv none h) f
    NextToken_uinv_cur (fun _ hi => hi.1) hf fuel _ _ p0 (r, e, q) hiter ⟨h0, hc0⟩
  simp only [] at h1
  unfold Consume_loop_exit at hexit
  by_cases hrun : q.run = true
  · simp only [hrun, if_true, group_def, pure_eq_ok] at hexit
    subst hexit
    exact h1
  · simp only [hrun, Bool.false_eq_true, if_false, bind_eq_ok, pure_eq_ok] at hexit
    obtain ⟨_, _, rfl⟩ := hexit
    exact h1

theorem GroupKeeps.keeps_error {p : DocoptParser} (hinv : UInv none p.heap) (r : Reason)
    (m : String) : GroupKeeps (r, some m, p) :=
  ⟨hinv, fun h => by simp at h⟩

theorem GroupKeeps.keeps_isSome {p1 : DocoptParser} (hinv : UInv none p1.heap) (r : Reason)
    (e : Option String) (he : e.isSome = true) : GroupKeeps (r, e, p1) := by
  cases e with
  | none => simp at he
  | some m => exact ⟨hinv, fun h => by simp at h⟩

theorem GroupKeeps.keeps_both {p1 : DocoptParser} (hinv : UInv none p1.heap)
    (hcur : CurExpr p1) (r : Reason) (e : Option String) : GroupKeeps (r, e, p1) :=
  ⟨hinv, fun _ _ => ⟨hinv, hcur⟩⟩

theorem Consume_group_terminal_uinv (p : DocoptParser) (n : DocoptNodeType)
    (res : Reason × Option String × DocoptParser)
    (h : (do let p ← addToCurrent p n p.current_token
             pure (Continue, none, p) : ConsumeResult) = .ok res)
    (hinv : UInv none p.heap) (hcur : CurExpr p)
    (ht : is_usage_group n = false ∧ n ≠ .Usage_line) : GroupKeeps res := by
  simp only [bind_eq_ok, pure_eq_ok] at h
  obtain ⟨p1, ha, rfl⟩ := h
  obtain ⟨h1, h2⟩ := addToCurrent_uinv p p1 n _ ha hinv hcur ht
  exact GroupKeeps.keeps_both h1 h2 _ _

theorem Consume_group_nested_uinv (f : DocoptParser → ConsumeResult)
    (hs : ∀ p res, f p = .ok res → GroupStep p res)
    (hf : ∀ p res, f p = .ok res → UInv none p.heap ∧ CurExpr p → GroupKeeps res)
    (t : DocoptNodeType) (fuel : Nat)
    (p : DocoptParser) (res : Reason × Option String × DocoptParser)
    (h : (do let (_, err, p) ← Consume_loop_with (group_def f) t fuel p
             if err.isSome then pure (Error, err, p) else pure (Continue, none, p) :
             ConsumeResult) = .ok res)
    (ht : is_usage_group t = true) (h1t : t ≠ .Usage_line) (h2t : t ≠ .Prog_name)
    (hinv : UInv none p.heap) (hcur : CurExpr p) : GroupKeeps res := by
  simp only [bind_eq_ok] at h
  obtain ⟨⟨r, e, q⟩, hl, h⟩ := h
  have h1 := group_loop_uinv f hf t fuel p (r, e, q) hl ht hinv hcur
  obtain ⟨hg, hrest⟩ := group_loop f hs t fuel p (r, e, q) hl h1t h2t
  simp only [] at hg hrest h h1
  by_cases he : e.isSome = true
  · simp only [he, if_true, pure_eq_ok] at h
    subst h
    exact GroupKeeps.keeps_isSome h1 _ _ he
  · simp only [he, Bool.false_eq_true, if_false, pure_eq_ok] at h
    subst h
    have hne : e = none := by
      cases e with
      | none => rfl
      | some x => simp at he
    exact GroupKeeps.keeps_both h1 (hcur.cur_of_grow (hrest hne).1 hg.1) _ _

/-- The invariant through every call of `Consume_group` that returns. -/
theorem Consume_group_uinv :
    ∀ (fuel : Nat) (p : DocoptParser) (res : Reason × Option String × DocoptParser),
      Consume_group fuel p = .ok res → UInv none p.heap ∧ CurExpr p → GroupKeeps res := by
  intro fuel
  induction fuel with
  | zero =>
    intro p res h _
    simp [Consume_group] at h
  | succ n ih =>
    intro p res h hi
    obtain ⟨hinv, hcur⟩ := hi
    rw [Consume_group] at h
    simp only [bind_eq_ok, deref_eq_ok] at h
    obtain ⟨tok, htok, h⟩ := h
    cases hT : tok.Typ <;> simp only [hT] at h
    case IDENT =>
      exact Consume_group_terminal_uinv p _ res h hinv hcur ⟨by decide, by decide⟩
    case SHORT =>
      exact Consume_group_terminal_uinv p _ res h hinv hcur ⟨by decide, by decide⟩
    case LONG =>
      exact Consume_group_terminal_uinv p _ res h hinv hcur ⟨by decide, by decide⟩
    case ARGUMENT =>
      exact Consume_group_terminal_uinv p _ res h hinv hcur ⟨by decide, by decide⟩
    case NEWLINE =>
      simp only [bind_eq_ok] at h
      obtain ⟨k, _, h⟩ := h
      by_cases hk : k = .NEWLINE
      · simp only [hk, if_true, bind_eq_ok, pure_eq_ok] at h
        obtain ⟨_, _, rfl⟩ := h
        exact GroupKeeps.keeps_error hinv _ _
      · simp only [hk, if_false, pure_eq_ok] at h
        subst h
        exact GroupKeeps.keeps_both hinv hcur _ _
    case PUNCT =>
      by_cases v1 : tok.Value = "["
      · simp only [v1, if_true] at h
        exact Consume_group_nested_uinv _ (Consume_group_step n) ih _ _ p res h (by decide)
          (by decide) (by decide) hinv hcur
      simp only [v1, if_false] at h
      by_cases v2 : tok.Value = "("
      · simp only [v2, if_true] at h
        exact Consume_group_nested_uinv _ (Consume_group_step n) ih _ _ p res h (by decide)
          (by decide) (by decide) hinv hcur
      simp only [v2, if_false] at h
      by_cases v3 : tok.Value = "|"
      · simp only [v3, if_true, bind_eq_ok, deref_eq_ok, node_eq_ok] at h
        obtain ⟨c, hc, nd, hnd, par, hpar, pn, hpn, h⟩ := h
        by_cases hty : pn.Typ = .Usage_optional_group ∨ pn.Typ = .Usage_required_group
        · simp only [hty, if_true, bind_eq_ok, pure_eq_ok] at h
          obtain ⟨⟨k, hh⟩, hadd, rfl⟩ := h
          obtain ⟨hk, _, _, hnew, _⟩ := AddNode_at _ _ _ _ _ _ hadd
          have g := AddNode_uinv none p.heap hh par k .Usage_Expr none pn hinv hadd hpn
            (Or.inl rfl)
            (fun hx => by
              rcases hx with hx | hx <;> simp [is_usage_terminal, is_usage_group] at hx)
            (fun _ => rfl)
            (fun hl => by rcases hty with h1 | h1 <;> rw [hl] at h1 <;> exact absurd h1 (by decide))
          simp only [is_usage_group, Bool.false_eq_true, false_or, reduceCtorEq, if_false] at g
          refine GroupKeeps.keeps_both g ?_ _ _
          exact ⟨k, _, rfl, by rw [hk]; exact hnew, rfl⟩
        · simp only [hty, if_false, pure_eq_ok] at h
          subst h
          exact GroupKeeps.keeps_error hinv _ _
      simp only [v3, if_false] at h
      by_cases v4 : tok.Value = "]"
      · simp only [v4, if_true, bind_eq_ok, deref_eq_ok, node_eq_ok] at h
        obtain ⟨c, hc, nd, hnd, par, hpar, pn, hpn, h⟩ := h
        by_cases hty : pn.Typ = .Usage_optional_group
        · simp only [hty, ne_eq, not_true_eq_false, if_false, pure_eq_ok] at h
          subst h
          exact GroupKeeps.keeps_both hinv hcur _ _
        · simp only [hty, ne_eq, not_false_eq_true, if_true, pure_eq_ok] at h
          subst h
          exact GroupKeeps.keeps_error hinv _ _
      simp only [v4, if_false] at h
      by_cases v5 : tok.Value = ")"
      · simp only [v5, if_true, bind_eq_ok, deref_eq_ok, node_eq_ok] at h
        obtain ⟨c, hc, nd, hnd, par, hpar, pn, hpn, h⟩ := h
        by_cases hty : pn.Typ = .Usage_required_group
        · simp only [hty, ne_eq, not_true_eq_false, if_false, pure_eq_ok] at h
          subst h
          exact GroupKeeps.keeps_both hinv hcur _ _
        · simp only [hty, ne_eq, not_false_eq_true, if_true, pure_eq_ok] at h
          subst h
          exact GroupKeeps.keeps_error hinv _ _
      simp only [v5, if_false] at h
      by_cases v6 : tok.Value = "="
      · simp only [v6, if_true, bind_eq_ok] at h
        obtain ⟨⟨e, q⟩, hasg, h⟩ := h
        obtain ⟨hq, hcn, hkq⟩ := Consume_assign_uinv _ _ _ _ hasg hinv
        simp only [] at h
        by_cases he : e.isSome = true
        · simp only [he, if_true, pure_eq_ok] at h
          subst h
          exact GroupKeeps.keeps_isSome hq _ _ he
        · simp only [he, Bool.false_eq_true, if_false, bind_eq_ok, pure_eq_ok] at h
          obtain ⟨q1, hnx, rfl⟩ := h
          obtain ⟨a1, a2⟩ := NextToken_uinv_cur q q1 hnx ⟨hq, hcur.of_kinds hcn hkq⟩
          exact GroupKeeps.keeps_both a1 a2 _ _
      simp only [v6, if_false] at h
      by_cases v7 : tok.Value = "..."
      · simp only [v7, if_true, bind_eq_ok] at h
        obtain ⟨⟨e, q⟩, hell, h⟩ := h
        obtain ⟨hq, hcn, hkq⟩ := Consume_ellipsis_uinv _ _ _ hell hinv
        simp only [] at h
        by_cases he : e.isSome = true
        · simp only [he, if_true, pure_eq_ok] at h
          subst h
          exact GroupKeeps.keeps_isSome hq _ _ he
        · simp only [he, Bool.false_eq_true, if_false, pure_eq_ok] at h
          subst h
          exact GroupKeeps.keeps_both hq (hcur.of_kinds hcn hkq) _ _
      simp only [v7, if_false, bind_eq_ok, pure_eq_ok] at h
      obtain ⟨_, _, rfl⟩ := h
      exact GroupKeeps.keeps_error hinv _ _
    all_goals
      simp only [bind_eq_ok, pure_eq_ok] at h
      obtain ⟨_, _, rfl⟩ := h
      exact GroupKeeps.keeps_error hinv _ _

/-- The invariant through the alternative-group surgery, on the store the
surgery leaves. -/
theorem surgery_heap_uinv (h h1 : Heap) (parent first c : Nat) (rest : List Nat)
    (pn nd : DocoptAst) (hinv : UInv none h) (hpn : h[parent]? = some pn)
    (hL : pn.Typ = .Usage_line) (hch : pn.Children = first :: rest)
    (hc : h[c]? = some nd) (hT : nd.Typ = .Usage_Expr) (hpar : nd.Parent = some parent)
    (hlen : h1.length = h.length + 2)
    (hE : h1[h.length]? = some
      { Typ := .Usage_Expr, Token := none, Parent := some parent,
        Children := [h.length + 1], Repeat := false })
    (hG : h1[h.length + 1]? = some
      { Typ := .Usage_required_group, Token := none, Parent := some h.length,
        Children := rest, Repeat := false })
    (hold : ∀ (i : Nat) (nd : DocoptAst), h[i]? = some nd →
      h1[i]? = some
        ({ nd with
           Parent := if i ∈ rest then some (h.length + 1) else nd.Parent,
           Children := if i = parent then [first, h.length] else nd.Children } :
          DocoptAst)) : UInv none h1 := by
  have hpl : parent < h.length := lt_of_getElem?_eq_some _ _ _ hpn
  -- the usage line before the surgery
  obtain ⟨_, _, _, p4, _, p6⟩ := hinv parent pn hpn
  obtain ⟨f, r, hfr, hkf, hkr⟩ := p4 (by simp) hL
  rw [hch] at hfr
  obtain ⟨hf1, hf2⟩ := List.cons.inj hfr
  subst hf1
  subst hf2
  have hrange : ∀ x ∈ first :: rest, x < h.length := by
    intro x hx
    exact p6 x (by rw [hch]; exact hx)
  -- the current node is one of the moved children
  obtain ⟨_, _, _, _, c5, _⟩ := hinv c nd hc
  have hcin : c ∈ first :: rest := by
    have := (c5 hT parent hpar).2 pn hpn hL
    rw [hch] at this
    exact this
  have hcne : c ≠ first := by
    intro e
    rw [e] at hc
    rw [kind_at_of hc, hT] at hkf
    exact absurd hkf (by decide)
  have hcrest : c ∈ rest := by
    rcases List.mem_cons.1 hcin with e | e
    · exact absurd e hcne
    · exact e
  -- the kinds after the surgery
  have hkold : ∀ x, x < h.length → kind_at h1 x = kind_at h x := by
    intro x hx
    obtain ⟨xn, hx1⟩ : ∃ xn, h[x]? = some xn := ⟨_, List.getElem?_eq_getElem hx⟩
    rw [kind_at_of hx1, kind_at_of (hold x xn hx1)]
  have hkE : kind_at h1 h.length = some .Usage_Expr := kind_at_of hE
  have hkG : kind_at h1 (h.length + 1) = some .Usage_required_group := kind_at_of hG
  have hkfirst : kind_at h1 first = some .Prog_name := by
    rw [hkold first (hrange first (List.mem_cons_self _ _))]
    exact hkf
  have hkrest : ∀ x ∈ rest, kind_at h1 x = some .Usage_Expr := by
    intro x hx
    rw [hkold x (hrange x (List.mem_cons_of_mem _ hx))]
    exact hkr x hx
  intro i n1 hi
  have hil : i < h1.length := lt_of_getElem?_eq_some _ _ _ hi
  by_cases hi0 : i < h.length
  · -- a node of the store before the surgery
    obtain ⟨ndo, hx1⟩ : ∃ ndo, h[i]? = some ndo := ⟨_, List.getElem?_eq_getElem hi0⟩
    obtain ⟨_, q2, q3, q4, q5, q6⟩ := hinv i ndo hx1
    have hn1 := hold i ndo hx1
    rw [hi] at hn1
    have en : n1 = _ := Option.some.inj hn1
    by_cases hip : i = parent
    · -- the usage line
      have hnd : ndo = pn := by
        rw [hip] at hx1
        rw [hpn] at hx1
        exact (Option.some.inj hx1).symm
      have hty : n1.Typ = .Usage_line := by rw [en, hnd]; exact hL
      have hcs : n1.Children = [first, h.length] := by rw [en]; simp [hip]
      refine ⟨fun h0 => by simp at h0, ?_, ?_, ?_, ?_, ?_⟩
      · intro _ hg
        rw [hty] at hg
        simp [is_usage_group] at hg
      · intro x hx k hk hkk
        rw [hcs] at hx
        rcases List.mem_cons.1 hx with e | e
        · rw [e, hkfirst] at hk
          rw [← Option.some.inj hk] at hkk
          rcases hkk with hkk | hkk <;> simp [is_usage_terminal, is_usage_group] at hkk
        · rw [List.mem_singleton.1 e, hkE] at hk
          rw [← Option.some.inj hk] at hkk
          rcases hkk with hkk | hkk <;> simp [is_usage_terminal, is_usage_group] at hkk
      · intro _ _
        refine ⟨first, [h.length], hcs, hkfirst, ?_⟩
        intro x hx
        rw [List.mem_singleton.1 hx]
        exact hkE
      · intro he
        rw [hty] at he
        exact absurd he (by decide)
      · intro x hx
        rw [hcs] at hx
        rcases List.mem_cons.1 hx with e | e
        · rw [e, hlen]
          have := hrange first (List.mem_cons_self _ _)
          omega
        · rw [List.mem_singleton.1 e, hlen]
          omega
    · -- another node
      have hty : n1.Typ = ndo.Typ := by rw [en]
      have hcs : n1.Children = ndo.Children := by rw [en]; simp [hip]
      have hcr : ∀ x ∈ ndo.Children, x < h.length := q6
      refine ⟨fun h0 => by simp at h0, ?_, ?_, ?_, ?_, ?_⟩
      · intro _ hg
        rw [hty] at hg
        obtain ⟨g1, g2⟩ := q2 (by simp) hg
        rw [hcs]
        refine ⟨g1, ?_⟩
        intro x hx
        rw [hkold x (hcr x hx)]
        exact g2 x hx
      · intro x hx k hk hkk
        rw [hcs] at hx
        rw [hkold x (hcr x hx)] at hk
        rw [hty]
        exact q3 x hx k hk hkk
      · intro _ hl
        rw [hty] at hl
        obtain ⟨f1, r1, g1, g2, g3⟩ := q4 (by simp) hl
        rw [hcs]
        have hf1 : f1 < h.length := hcr f1 (by rw [g1]; exact List.mem_cons_self _ _)
        refine ⟨f1, r1, g1, by rw [hkold f1 hf1]; exact g2, ?_⟩
        intro x hx
        rw [hkold x (hcr x (by rw [g1]; exact List.mem_cons_of_mem _ hx))]
        exact g3 x hx
      · intro he par hp
        rw [hty] at he
        by_cases hir : i ∈ rest
        · have : n1.Parent = some (h.length + 1) := by rw [en]; simp [hir]
          rw [this] at hp
          have e := Option.some.inj hp
          rw [← e]
          refine ⟨by rw [hlen]; omega, ?_⟩
          intro pn1 hpn1 hl1
          rw [hG] at hpn1
          rw [← Option.some.inj hpn1] at hl1
          simp at hl1
        · have : n1.Parent = ndo.Parent := by rw [en]; simp [hir]
          rw [this] at hp
          obtain ⟨g1, g2⟩ := q5 he par hp
          refine ⟨by rw [hlen]; omega, ?_⟩
          intro pn1 hpn1 hl1
          obtain ⟨pno, hy1⟩ : ∃ pno, h[par]? = some pno := ⟨_, List.getElem?_eq_getElem g1⟩
          have hm := hold par pno hy1
          rw [hpn1] at hm
          have em : pn1 = _ := Option.some.inj hm
          have hl2 : pno.Typ = .Usage_line := by
            rw [em] at hl1
            exact hl1
          have hmem := g2 pno hy1 hl2
          by_cases hpp : par = parent
          · exfalso
            have hnd : pno = pn := by
              rw [hpp] at hy1
              rw [hpn] at hy1
              exact (Option.some.inj hy1).symm
            rw [hnd, hch] at hmem
            rcases List.mem_cons.1 hmem with e | e
            · rw [e] at hx1
              rw [kind_at_of hx1, he] at hkf
              exact absurd hkf (by decide)
            · exact hir e
          · rw [em]
            simp only [hpp, if_false]
            exact hmem
      · intro x hx
        rw [hcs] at hx
        have := hcr x hx
        rw [hlen]
        omega
  · by_cases hiE : i = h.length
    · -- the new `Usage_Expr`
      rw [hiE] at hi
      rw [hE] at hi
      have en := (Option.some.inj hi).symm
      subst en
      refine ⟨fun h0 => by simp at h0, ?_, ?_, ?_, ?_, ?_⟩
      · intro _ hg
        simp [is_usage_group] at hg
      · intro _ _ _ _ _
        exact Or.inl rfl
      · intro _ hl
        simp at hl
      · intro _ par hp
        have e : parent = par := Option.some.inj hp
        rw [← e]
        refine ⟨by rw [hlen]; omega, ?_⟩
        intro pn1 hpn1 _
        have hm := hold parent pn hpn
        rw [hpn1] at hm
        rw [Option.some.inj hm, hiE]
        simp
      · intro x hx
        rw [List.mem_singleton.1 hx, hlen]
        omega
    · -- the new group
      have hiG : i = h.length + 1 := by
        rw [hlen] at hil
        omega
      rw [hiG] at hi
      rw [hG] at hi
      have en := (Option.some.inj hi).symm
      subst en
      refine ⟨fun h0 => by simp at h0, ?_, ?_, ?_, ?_, ?_⟩
      · intro _ _
        refine ⟨List.ne_nil_of_mem hcrest, hkrest⟩
      · intro x hx k hk hkk
        rw [hkrest x hx] at hk
        rw [← Option.some.inj hk] at hkk
        rcases hkk with hkk | hkk <;> simp [is_usage_terminal, is_usage_group] at hkk
      · intro _ hl
        simp at hl
      · intro he
        simp at he
      · intro x hx
        have := hrange x (List.mem_cons_of_mem _ hx)
        rw [hlen]
        omega

/-- The invariant through the alternative-group surgery of a usage line that
holds the current `Usage_Expr`. -/
theorem pipe_surgery_uinv (p p1 : DocoptParser) (c parent : Nat) (nd pn : DocoptAst)
    (h : pipe_surgery p parent = .ok p1) (hinv : UInv none p.heap)
    (hc : p.heap[c]? = some nd) (hT : nd.Typ = .Usage_Expr) (hpar : nd.Parent = some parent)
    (hpn : p.heap[parent]? = some pn) (hL : pn.Typ = .Usage_line) : UInv none p1.heap := by
  obtain ⟨_, _, _, p4, _, p6⟩ := hinv parent pn hpn
  obtain ⟨f, r, hfr, _, _⟩ := p4 (by simp) hL
  obtain ⟨h1, hok, hlen, hE, hG, hold⟩ := pipe_surgery_spec p parent f r pn hpn hfr
    (fun x hx => p6 x (by rw [hfr]; exact List.mem_cons_of_mem _ hx))
  rw [hok] at h
  have e := Except.ok.inj h
  rw [← e]
  exact surgery_heap_uinv p.heap h1 parent f c r pn nd hinv hpn hL hfr hc hT hpar hlen hE hG hold

theorem Usage_Expr_terminal_uinv (p : DocoptParser) (n : DocoptNodeType) (r : Reason)
    (res : Reason × Option String × DocoptParser)
    (h : (do let p ← ensure_node p .Usage_Expr
             let p ← addToCurrent p n p.current_token
             pure (r, none, p) : ConsumeResult) = .ok res)
    (hinv : UInv none p.heap) (ht : is_usage_group n = false ∧ n ≠ .Usage_line) :
    UInv none res.2.2.heap := by
  simp only [bind_eq_ok, pure_eq_ok] at h
  obtain ⟨pa, hen, pb, hadd, rfl⟩ := h
  obtain ⟨g1, c1⟩ := ensure_node_uinv p pa hen hinv
  exact (addToCurrent_uinv pa pb n _ hadd g1 c1 ht).1

theorem Usage_Expr_group_uinv (fuel : Nat) (p : DocoptParser) (n : DocoptNodeType)
    (res : Reason × Option String × DocoptParser)
    (h : (do let p ← ensure_node p .Usage_Expr
             let (_, err, p) ← Consume_loop_with (group_def (Consume_group fuel)) n fuel p
             if err.isSome then pure (Error, err, p)
             else do
               let nt ← curNodeType p
               let p := if nt ≠ .Usage_Expr then
                   FatalError p ("Consume_loop(" ++ n.String ++
                     ") did not restore current_node: " ++ nt.String)
                 else p
               pure (Continue, none, p) : ConsumeResult) = .ok res)
    (hinv : UInv none p.heap) (ht : is_usage_group n = true) : UInv none res.2.2.heap := by
  simp only [bind_eq_ok] at h
  obtain ⟨pa, hen, ⟨r, e, q⟩, hl, h⟩ := h
  obtain ⟨g1, c1⟩ := ensure_node_uinv p pa hen hinv
  have g2 := group_loop_uinv _ (Consume_group_uinv fuel) n fuel pa (r, e, q) hl ht g1 c1
  simp only [] at g2 h
  by_cases he : e.isSome = true
  · simp only [he, if_true, pure_eq_ok] at h
    subst h
    exact g2
  · simp only [he, Bool.false_eq_true, if_false, bind_eq_ok, pure_eq_ok] at h
    obtain ⟨nt, _, rfl⟩ := h
    by_cases hnt : nt = .Usage_Expr
    · simp only [hnt, ne_eq, not_true_eq_false, if_false]
      exact g2
    · simp only [hnt, ne_eq, not_false_eq_true, if_true]
      exact g2

/-- The invariant through every call of `Consume_Usage_Expr` that returns. -/
theorem Consume_Usage_Expr_uinv (fuel : Nat) (p : DocoptParser)
    (res : Reason × Option String × DocoptParser)
    (h : Consume_Usage_Expr fuel p = .ok res) (hinv : UInv none p.heap) :
    UInv none res.2.2.heap := by
  unfold Consume_Usage_Expr at h
  simp only [bind_eq_ok] at h
  obtain ⟨⟨b1, r1⟩, h1, h⟩ := h
  simp only [] at h
  rcases has_reach_EOF_spec _ _ _ _ h1 with ⟨hb, hr⟩ | ⟨hb, hr⟩
  · subst hb
    subst hr
    simp only [if_true, pure_eq_ok] at h
    subst h
    exact hinv
  subst hb
  subst hr
  simp only [Bool.false_eq_true, if_false, bind_eq_ok] at h
  obtain ⟨⟨b2, r2, p2⟩, h2, h⟩ := h
  simp only [] at h
  rcases has_reach_two_NEWLINE_spec _ _ _ _ _ _ h2 with ⟨hb, hr, hst⟩ | ⟨hb, hr, hp⟩
  · subst hb
    subst hr
    simp only [if_true, pure_eq_ok] at h
    subst h
    show UInv none p2.heap
    rw [hst.1]
    exact hinv
  subst hb
  subst hr
  have hp2 := hp.symm
  subst hp2
  simp only [Bool.false_eq_true, if_false, bind_eq_ok] at h
  obtain ⟨⟨b3, r3⟩, h3, h⟩ := h
  simp only [] at h
  rcases has_reach_PROG_NAME_spec _ _ _ _ h3 with ⟨hb, hr, htok⟩ | ⟨hb, hr⟩
  · subst hb
    subst hr
    simp only [if_true, pure_eq_ok] at h
    subst h
    exact hinv
  subst hb
  subst hr
  simp only [Bool.false_eq_true, if_false, bind_eq_ok, deref_eq_ok] at h
  obtain ⟨tok, htok, h⟩ := h
  cases hT : tok.Typ <;> simp only [hT] at h
  case NEWLINE =>
    simp only [pure_eq_ok] at h
    subst h
    exact hinv
  case LONG_BLANK =>
    simp only [pure_eq_ok] at h
    subst h
    exact hinv
  case SHORT => exact Usage_Expr_terminal_uinv p _ _ res h hinv ⟨by decide, by decide⟩
  case LONG => exact Usage_Expr_terminal_uinv p _ _ res h hinv ⟨by decide, by decide⟩
  case ARGUMENT => exact Usage_Expr_terminal_uinv p _ _ res h hinv ⟨by decide, by decide⟩
  case IDENT => exact Usage_Expr_terminal_uinv p _ _ res h hinv ⟨by decide, by decide⟩
  case PUNCT =>
    by_cases v1 : tok.Value = "["
    · simp only [v1, if_true] at h
      exact Usage_Expr_group_uinv fuel p _ res h hinv (by decide)
    simp only [v1, if_false] at h
    by_cases v2 : tok.Value = "("
    · simp only [v2, if_true] at h
      exact Usage_Expr_group_uinv fuel p _ res h hinv (by decide)
    simp only [v2, if_false] at h
    by_cases v3 : tok.Value = "..."
    · simp only [v3, if_true, bind_eq_ok] at h
      obtain ⟨pa, hen, ⟨e, q⟩, hell, h⟩ := h
      obtain ⟨g1, _⟩ := ensure_node_uinv p pa hen hinv
      obtain ⟨g2, _⟩ := Consume_ellipsis_uinv _ _ _ hell g1
      simp only [] at h
      by_cases he : e.isSome = true
      · simp only [he, if_true, pure_eq_ok] at h
        subst h
        exact g2
      · simp only [he, Bool.false_eq_true, if_false, pure_eq_ok] at h
        subst h
        exact g2
    simp only [v3, if_false] at h
    by_cases v4 : tok.Value = "="
    · simp only [v4, if_true, bind_eq_ok] at h
      obtain ⟨pa, hen, ⟨e, q⟩, hasg, h⟩ := h
      obtain ⟨g1, _⟩ := ensure_node_uinv p pa hen hinv
      obtain ⟨g2, _⟩ := Consume_assign_uinv _ _ _ _ hasg g1
      simp only [] at h
      by_cases he : e.isSome = true
      · simp only [he, if_true, pure_eq_ok] at h
        subst h
        exact g2
      · simp only [he, Bool.false_eq_true, if_false, bind_eq_ok, pure_eq_ok] at h
        obtain ⟨q1, hnx, rfl⟩ := h
        show UInv none q1.heap
        rw [(NextToken_frame q q1 hnx).1]
        exact g2
    simp only [v4, if_false] at h
    by_cases v5 : tok.Value = "|"
    · simp only [v5, if_true, bind_eq_ok, deref_eq_ok, node_eq_ok] at h
      obtain ⟨c, hc, nd, hnd, h⟩ := h
      by_cases hty : nd.Typ = .Usage_Expr
      · simp only [hty, ne_eq, not_true_eq_false, if_false, bind_eq_ok, deref_eq_ok,
          node_eq_ok] at h
        obtain ⟨par, hpar, pn, hpn, h⟩ := h
        by_cases hl : pn.Typ = .Usage_line
        · simp only [hl, if_true, bind_eq_ok, pure_eq_ok] at h
          obtain ⟨q, hsur, rfl⟩ := h
          exact pipe_surgery_uinv p q c par nd pn hsur hinv hnd hty hpar hpn hl
        · simp only [hl, if_false] at h
          by_cases hrq : pn.Typ = .Usage_required_group
          · simp only [hrq, if_true, bind_eq_ok, pure_eq_ok] at h
            obtain ⟨⟨k, hh⟩, hadd, rfl⟩ := h
            have g := AddNode_uinv none p.heap hh par k .Usage_Expr none pn hinv hadd hpn
              (Or.inl rfl)
              (fun hx => by
                rcases hx with hx | hx <;> simp [is_usage_terminal, is_usage_group] at hx)
              (fun _ => rfl)
              (fun hl1 => absurd hl1 hl)
            simp only [is_usage_group, Bool.false_eq_true, false_or, reduceCtorEq,
              if_false] at g
            exact g
          · simp only [hrq, if_false, pure_eq_ok] at h
            subst h
            exact hinv
      · simp only [hty, ne_eq, not_false_eq_true, if_true, pure_eq_ok] at h
        subst h
        exact hinv
    simp only [v5, if_false, pure_eq_ok] at h
    subst h
    exact hinv
  all_goals
    simp only [pure_eq_ok] at h
    subst h
    exact hinv

/-- The invariant through the call `Consume_loop(Usage_Expr)`. -/
theorem Consume_loop_Usage_Expr_uinv (fuel : Nat) (p : DocoptParser)
    (res : Reason × Option String × DocoptParser)
    (h : Consume_loop fuel .Usage_Expr p = .ok res) (hinv : UInv none p.heap) :
    UInv none res.2.2.heap := by
  unfold Consume_loop at h
  simp only [Parse_def, deref, bind, Except.bind] at h
  unfold Consume_loop_with at h
  simp only [bind_eq_ok] at h
  obtain ⟨p0, henter, ⟨r, e, q⟩, hiter, hexit⟩ := h
  unfold Consume_loop_enter at henter
  simp only [Bool.false_eq_true, if_false, if_true, bind_eq_ok, pure_eq_ok] at henter
  obtain ⟨pa, rfl, pb, rfl, henter⟩ := henter
  have g0 : UInv none p0.heap := by
    rw [(reject_current_token_frame _ _ henter).1.1]
    exact hinv
  have g1 := iter_inv (fun p => UInv none p.heap) (fun h => UInv none h)
    (Consume_Usage_Expr fuel)
    (fun p p1 hn hi => by
      show UInv none p1.heap
      rw [(NextToken_frame p p1 hn).1]
      exact hi)
    (fun _ hi => hi)
    (fun p res hc hi =>
      ⟨Consume_Usage_Expr_uinv fuel p res hc hi,
        fun _ _ => Consume_Usage_Expr_uinv fuel p res hc hi⟩)
    fuel _ _ p0 (r, e, q) hiter g0
  simp only [] at g1
  unfold Consume_loop_exit at hexit
  by_cases hrun : q.run = true
  · simp only [hrun, if_true, pure_eq_ok] at hexit
    subst hexit
    exact g1
  · simp only [hrun, Bool.false_eq_true, if_false, bind_eq_ok, pure_eq_ok] at hexit
    obtain ⟨_, _, rfl⟩ := hexit
    exact g1

/-- A usage line, its program name and its first `Usage_Expr`, allocated under
a node that is neither a group nor a usage line, keep the invariant. -/
theorem usage_line_nodes_uinv (h h1 h2 : Heap) (par l n : Nat) (pn : DocoptAst)
    (tok : Option Token) (hinv : UInv none h) (hp : h[par]? = some pn)
    (hpg : is_usage_group pn.Typ = false) (hpl : pn.Typ ≠ .Usage_line)
    (a1 : AddNode h par .Usage_line none = .ok (l, h1))
    (a2 : AddNode h1 l .Prog_name tok = .ok (n, h2)) :
    UInv none h2 ∧ l = h.length ∧
      (∃ ln, h2[l]? = some ln ∧ ln.Typ = .Usage_line ∧ ln.Children ≠ []) ∧
      ∀ x k, kind_at h x = some k → kind_at h2 x = some k := by
  obtain ⟨hl, hlen1, _, hnew1, _⟩ := AddNode_at _ _ _ _ _ _ a1
  have g1 := AddNode_uinv none h h1 par l .Usage_line none pn hinv a1 hp (Or.inl rfl)
    (fun hx => by rcases hx with hx | hx <;> simp [is_usage_terminal, is_usage_group] at hx)
    (fun hg => by rw [hpg] at hg; simp at hg)
    (fun hl1 => absurd hl1 hpl)
  simp only [is_usage_group, Bool.false_eq_true, false_or, if_true] at g1
  rw [hl] at a2
  obtain ⟨_, _, _, _, ⟨ln, hln, hln2⟩, _⟩ := AddNode_at _ _ _ _ _ _ a2
  rw [hnew1] at hln
  have eln := (Option.some.inj hln).symm
  subst eln
  have g2 := AddNode_uinv (some h.length) h1 h2 h.length n .Prog_name tok _ g1 a2 hnew1
    (Or.inr rfl)
    (fun hx => by rcases hx with hx | hx <;> simp [is_usage_terminal, is_usage_group] at hx)
    (fun hg => by simp [is_usage_group] at hg)
    (fun _ => Or.inl ⟨rfl, rfl⟩)
  simp only [is_usage_group, Bool.false_eq_true, false_or, reduceCtorEq, if_false] at g2
  refine ⟨g2, hl, ⟨_, by rw [hl]; exact hln2, rfl, by simp⟩, ?_⟩
  intro x k hx
  exact AddNode_kind_at _ _ _ _ _ _ a2 x k (AddNode_kind_at _ _ _ _ _ _ a1 x k hx)

/-- The invariant through the loop of `Consume_Usage_line`. -/
theorem Consume_Usage_line_loop_uinv (us : Nat) :
    ∀ (fuel : Nat) (p p1 : DocoptParser) (e : Option String),
      Consume_Usage_line_loop us fuel p = .ok (e, p1) → UInv none p.heap →
      kind_at p.heap us = some .Usage_section → UInv none p1.heap := by
  intro fuel
  induction fuel with
  | zero =>
    intro p p1 e h hinv _
    rw [Consume_Usage_line_loop] at h
    by_cases hrun : p.run = true
    · simp [hrun] at h
    · simp only [hrun, Bool.false_eq_true, if_false, parser_stoped, bind_eq_ok, pure_eq_ok,
        Prod.mk.injEq] at h
      obtain ⟨_, _, _, rfl⟩ := h
      exact hinv
  | succ n ih =>
    intro p p1 e h hinv hus
    rw [Consume_Usage_line_loop] at h
    by_cases hrun : p.run = true
    · simp only [hrun, if_true, bind_eq_ok] at h
      obtain ⟨pa, hnx, ⟨b, r⟩, hE, h⟩ := h
      have hst := NextToken_frame p pa hnx
      have hinva : UInv none pa.heap := by rw [hst.1]; exact hinv
      have husa : kind_at pa.heap us = some .Usage_section := by rw [hst.1]; exact hus
      simp only [] at h
      by_cases hb : b = true
      · simp only [hb, if_true, pure_eq_ok, Prod.mk.injEq] at h
        obtain ⟨_, rfl⟩ := h
        exact hinva
      simp only [hb, Bool.false_eq_true, if_false, bind_eq_ok, deref_eq_ok] at h
      obtain ⟨tok, htok, h⟩ := h
      by_cases hT : tok.Typ = .PROG_NAME
      · simp only [hT, if_true] at h
        by_cases hname : pa.Prog_name = tok.Value
        · simp only [hname, ne_eq, not_true_eq_false, if_false] at h
          exact ih pa p1 e h hinva husa
        · simp only [hname, ne_eq, not_false_eq_true, if_true, pure_eq_ok,
            Prod.mk.injEq] at h
          obtain ⟨_, rfl⟩ := h
          exact hinva
      simp only [hT, if_false] at h
      by_cases hU : tok.Typ = .USAGE
      · simp only [hU, if_true, pure_eq_ok, Prod.mk.injEq] at h
        obtain ⟨_, rfl⟩ := h
        exact hinva
      simp only [hU, if_false, bind_eq_ok] at h
      obtain ⟨⟨r1, e1, q⟩, hloop, h⟩ := h
      have hq := Consume_loop_Usage_Expr_uinv n pa (r1, e1, q) hloop hinva
      have hgq := (Consume_loop_Usage_Expr_ustep n pa (r1, e1, q) hloop).1.1
      simp only [] at h hq hgq
      have husq : kind_at q.heap us = some .Usage_section := by
        obtain ⟨un, hu1, hu2, _⟩ := kind_at_some husa
        obtain ⟨un1, hv1, hv2, _⟩ := hgq.2.1 us un hu1
        rw [kind_at_of hv1, hv2, hu2]
      by_cases he : e1.isSome = true
      · simp only [he, if_true, pure_eq_ok, Prod.mk.injEq] at h
        obtain ⟨_, rfl⟩ := h
        exact hq
      simp only [he, Bool.false_eq_true, if_false] at h
      by_cases hr : r1 = TWO_NEWLINE ∨ r1 = EOF_reached
      · simp only [hr, if_true, pure_eq_ok, Prod.mk.injEq] at h
        obtain ⟨_, rfl⟩ := h
        exact hq
      simp only [hr, if_false] at h
      by_cases hs : r1 = PROG_NAME_sequence
      · simp only [hs, if_true, bind_eq_ok] at h
        obtain ⟨⟨l, h1⟩, a1, ⟨m, h2⟩, a2, ⟨x, h3⟩, a3, h⟩ := h
        simp only [] at a2 a3 h
        obtain ⟨un, hu1, hu2, _⟩ := kind_at_some husq
        obtain ⟨g2, hl, ⟨ln, hln, hlt, hlc⟩, hk2⟩ := usage_line_nodes_uinv q.heap h1 h2 us l m
          un _ hq hu1 (by rw [hu2]; rfl) (by rw [hu2]; decide) a1 a2
        have g3 := AddNode_uinv none h2 h3 l x .Usage_Expr none ln g2 a3 hln (Or.inl rfl)
          (fun hx => by
            rcases hx with hx | hx <;> simp [is_usage_terminal, is_usage_group] at hx)
          (fun _ => rfl)
          (fun _ => Or.inr ⟨hlc, rfl⟩)
        simp only [is_usage_group, Bool.false_eq_true, false_or, reduceCtorEq, if_false] at g3
        exact ih _ p1 e h g3 (AddNode_kind_at _ _ _ _ _ _ a3 us _ (hk2 us _ husq))
      · simp only [hs, if_false] at h
        exact ih _ p1 e h hq husq
    · simp only [hrun, Bool.false_eq_true, if_false, parser_stoped, bind_eq_ok, pure_eq_ok,
        Prod.mk.injEq] at h
      obtain ⟨_, _, _, rfl⟩ := h
      exact hinv

/-- The invariant through the loop of `Consume_First_Program_Usage`. -/
theorem Consume_First_Program_Usage_loop_uinv :
    ∀ (fuel : Nat) (p p1 : DocoptParser) (e : Option String),
      Consume_First_Program_Usage_loop fuel p = .ok (e, p1) → UInv none p.heap →
      PlainCurrent p → UInv none p1.heap := by
  intro fuel
  induction fuel with
  | zero =>
    intro p p1 e h hinv _
    rw [Consume_First_Program_Usage_loop] at h
    by_cases hrun : p.run = true
    · simp [hrun] at h
    · simp only [hrun, Bool.false_eq_true, if_false, parser_stoped, bind_eq_ok, pure_eq_ok,
        Prod.mk.injEq] at h
      obtain ⟨_, _, _, rfl⟩ := h
      exact hinv
  | succ n ih =>
    intro p p1 e h hinv hplain
    rw [Consume_First_Program_Usage_loop] at h
    by_cases hrun : p.run = true
    · simp only [hrun, if_true, bind_eq_ok, deref_eq_ok] at h
      obtain ⟨pa, hnx, tok, htok, h⟩ := h
      have hst := NextToken_frame p pa hnx
      have hinva : UInv none pa.heap := by rw [hst.1]; exact hinv
      have hplaina : PlainCurrent pa := by
        intro c nd hc hnd
        rw [hst.2.1] at hc
        rw [hst.1] at hnd
        exact hplain c nd hc hnd
      by_cases hT : tok.Typ = .PROG_NAME
      · simp only [hT, if_true, bind_eq_ok, deref_eq_ok, pure_eq_ok, Prod.mk.injEq] at h
        obtain ⟨c, hc, ⟨l, h1⟩, a1, ⟨m, h2⟩, a2, _, rfl⟩ := h
        simp only [] at a1 a2 hc
        obtain ⟨_, _, hcl, _⟩ := AddNode_at _ _ _ _ _ _ a1
        obtain ⟨cn, hcn⟩ : ∃ cn, pa.heap[c]? = some cn := ⟨_, List.getElem?_eq_getElem hcl⟩
        obtain ⟨k1, k2⟩ := hplaina c cn hc hcn
        exact (usage_line_nodes_uinv pa.heap h1 h2 c l m cn _ hinva hcn k1 k2 a1 a2).1
      simp only [hT, if_false] at h
      by_cases hB : tok.Typ = .BLANK
      · simp only [hB, if_true] at h
        exact ih pa p1 e h hinva hplaina
      simp only [hB, if_false] at h
      by_cases hN : tok.Typ = .NEWLINE
      · simp only [hN, if_true, bind_eq_ok] at h
        obtain ⟨nx, _, h⟩ := h
        by_cases hnn : nx = .NEWLINE
        · simp only [hnn, if_true] at h
          by_cases hname : pa.Prog_name = ""
          · simp only [hname, if_true, pure_eq_ok, Prod.mk.injEq] at h
            obtain ⟨_, rfl⟩ := h
            exact hinva
          · simp only [hname, if_false, bind_eq_ok, pure_eq_ok, Prod.mk.injEq] at h
            obtain ⟨pb, hnb, _, rfl⟩ := h
            rw [(NextToken_frame pa pb hnb).1]
            exact hinva
        · simp only [hnn, if_false] at h
          exact ih pa p1 e h hinva hplaina
      · simp only [hN, if_false, pure_eq_ok, Prod.mk.injEq] at h
        obtain ⟨_, rfl⟩ := h
        exact hinva
    · simp only [hrun, Bool.false_eq_true, if_false, parser_stoped, bind_eq_ok, pure_eq_ok,
        Prod.mk.injEq] at h
      obtain ⟨_, _, _, rfl⟩ := h
      exact hinv

/-- The invariant through `Consume_Usage`. -/
theorem Consume_Usage_uinv (fuel : Nat) (p p1 : DocoptParser) (e : Option String)
    (h : Consume_Usage fuel p = .ok (e, p1)) (hinv : UInv none p.heap)
    (hplain : PlainCurrent p) : UInv none p1.heap := by
  unfold Consume_Usage at h
  simp only [bind_eq_ok] at h
  obtain ⟨⟨e1, q⟩, hfirst, h⟩ := h
  have hq := Consume_First_Program_Usage_loop_uinv fuel _ q e1 hfirst hinv hplain
  simp only [] at h
  by_cases he : e1.isSome = true
  · simp only [he, if_true, pure_eq_ok, Prod.mk.injEq] at h
    obtain ⟨_, rfl⟩ := h
    exact hq
  simp only [he, Bool.false_eq_true, if_false, bind_eq_ok] at h
  obtain ⟨⟨e2, q2⟩, hline, h⟩ := h
  have hq2 : UInv none q2.heap := by
    unfold Consume_Usage_line at hline
    simp only [bind_eq_ok, deref_eq_ok, node_eq_ok] at hline
    obtain ⟨c, _, nd, _, us, _, un, hun, hline⟩ := hline
    by_cases hty : un.Typ = .Usage_section
    · simp only [hty, ne_eq, not_true_eq_false, if_false] at hline
      exact Consume_Usage_line_loop_uinv us fuel _ q2 e2 hline hq
        (by rw [kind_at_of hun, hty])
    · simp only [hty, ne_eq, not_false_eq_true, if_true, pure_eq_ok, Prod.mk.injEq] at hline
      obtain ⟨_, rfl⟩ := hline
      exact hq
  simp only [] at h
  by_cases he2 : e2.isSome = true
  · simp only [he2, if_true, pure_eq_ok, Prod.mk.injEq] at h
    obtain ⟨_, rfl⟩ := h
    exact hq2
  · simp only [he2, Bool.false_eq_true, if_false, pure_eq_ok, Prod.mk.injEq] at h
    obtain ⟨_, rfl⟩ := h
    exact hq2

/-- A node of a kind the usage parsing does not create, allocated in a store
that holds no node of the usage lines. -/
theorem AddNode_plain (h h1 : Heap) (par n : Nat) (t : DocoptNodeType) (tok : Option Token)
    (ha : AddNode h par t tok = .ok (n, h1)) (ht : is_usage_node t = false)
    (a : NoUsageNodes h) (w : ChildrenInRange h) : NoUsageNodes h1 ∧ ChildrenInRange h1 := by
  obtain ⟨_, hlen, hpl, _⟩ := AddNode_at _ _ _ _ _ _ ha
  unfold AddNode at ha
  cases hp : h[par]? with
  | none => simp [hp] at ha
  | some pn =>
    simp only [hp, Except.ok.injEq, Prod.mk.injEq] at ha
    obtain ⟨_, rfl⟩ := ha
    have hpm : pn ∈ h := mem_of_getElem?_eq_some _ _ _ hp
    have hmem : ∀ nd ∈ h.set par { pn with Children := pn.Children ++ [h.length] } ++
        [({ Typ := t, Token := tok, Parent := some par, Children := [],
            Repeat := false } : DocoptAst)],
        nd ∈ h ∨ nd = { pn with Children := pn.Children ++ [h.length] } ∨
          nd = { Typ := t, Token := tok, Parent := some par, Children := [],
                 Repeat := false } := by
      intro nd hnd
      rcases List.mem_append.1 hnd with h1 | h1
      · rcases List.mem_or_eq_of_mem_set h1 with h2 | h2
        · exact Or.inl h2
        · exact Or.inr (Or.inl h2)
      · exact Or.inr (Or.inr (List.mem_singleton.1 h1))
    refine ⟨?_, ?_⟩
    · intro nd hnd
      rcases hmem nd hnd with h1 | h1 | h1
      · exact a nd h1
      · rw [h1]
        exact a pn hpm
      · rw [h1]
        exact ht
    · intro nd hnd x hx
      rw [hlen]
      rcases hmem nd hnd with h1 | h1 | h1
      · have := w nd h1 x hx
        omega
      · rw [h1] at hx
        rcases List.mem_append.1 hx with h2 | h2
        · have := w pn hpm x h2
          omega
        · rw [List.mem_singleton.1 h2]
          omega
      · rw [h1] at hx
        simp at hx

theorem CreateNode_plain (p p1 : DocoptParser) (t : DocoptNodeType) (tok : Option Token)
    (h : CreateNode p t tok = .ok p1) (ht : is_usage_node t = false)
    (a : NoUsageNodes p.heap) (w : ChildrenInRange p.heap) :
    NoUsageNodes p1.heap ∧ ChildrenInRange p1.heap := by
  unfold CreateNode at h
  cases hcn : p.current_node with
  | none =>
    simp only [hcn, bind_eq_ok, pure_eq_ok] at h
    obtain ⟨pb, hb, hc⟩ := h
    have hh : p1.heap = pb.heap := by
      rw [← hc]
      split <;> rfl
    rw [hh, ← hb]
    refine ⟨?_, ?_⟩
    · intro nd hnd
      rcases List.mem_append.1 hnd with h1 | h1
      · exact a nd h1
      · rw [List.mem_singleton.1 h1]
        exact ht
    · intro nd hnd x hx
      rw [List.length_append]
      rcases List.mem_append.1 hnd with h1 | h1
      · have := w nd h1 x hx
        omega
      · rw [List.mem_singleton.1 h1] at hx
        simp at hx
  | some c =>
    simp only [hcn, bind_eq_ok, pure_eq_ok] at h
    obtain ⟨⟨n, hp⟩, hadd, pb, hb, hc⟩ := h
    have hh : p1.heap = pb.heap := by
      rw [← hc]
      split <;> rfl
    rw [hh, ← hb]
    exact AddNode_plain _ _ _ _ _ _ hadd ht a w

/-- The prologue leaves a store that holds no node of the usage lines. -/
theorem Consume_Prologue_loop_plain :
    ∀ (fuel : Nat) (p p1 : DocoptParser) (e : Option String),
      Consume_Prologue_loop fuel p = .ok (e, p1) → NoUsageNodes p.heap →
      ChildrenInRange p.heap → NoUsageNodes p1.heap ∧ ChildrenInRange p1.heap := by
  intro fuel
  induction fuel with
  | zero =>
    intro p p1 e h a w
    rw [Consume_Prologue_loop] at h
    by_cases hrun : p.run = true
    · simp [hrun] at h
    · simp only [hrun, Bool.false_eq_true, if_false, parser_stoped, bind_eq_ok, pure_eq_ok,
        Prod.mk.injEq] at h
      obtain ⟨_, _, _, rfl⟩ := h
      exact ⟨a, w⟩
  | succ n ih =>
    intro p p1 e h a w
    rw [Consume_Prologue_loop] at h
    by_cases hrun : p.run = true
    · simp only [hrun, if_true, bind_eq_ok] at h
      obtain ⟨pa, hnx, t, _, h⟩ := h
      have hst := NextToken_frame p pa hnx
      have aa : NoUsageNodes pa.heap := by rw [hst.1]; exact a
      have wa : ChildrenInRange pa.heap := by rw [hst.1]; exact w
      by_cases hU : t = .USAGE
      · simp only [hU, if_true, bind_eq_ok, deref_eq_ok, pure_eq_ok, Prod.mk.injEq] at h
        obtain ⟨root, _, ⟨u, h1⟩, a1, ⟨m, h2⟩, a2, _, rfl⟩ := h
        obtain ⟨b1, b2⟩ := AddNode_plain _ _ _ _ _ _ a1 (by decide) aa wa
        exact AddNode_plain _ _ _ _ _ _ a2 (by decide) b1 b2
      · simp only [hU, if_false, bind_eq_ok] at h
        obtain ⟨pb, hadd, h⟩ := h
        have hb : NoUsageNodes pb.heap ∧ ChildrenInRange pb.heap := by
          unfold addToCurrent at hadd
          simp only [bind_eq_ok, deref_eq_ok, pure_eq_ok] at hadd
          obtain ⟨c, _, ⟨m, h1⟩, a1, rfl⟩ := hadd
          exact AddNode_plain _ _ _ _ _ _ a1 (by decide) aa wa
        by_cases hE : t = .EOF
        · simp only [hE, if_true, pure_eq_ok, Prod.mk.injEq] at h
          obtain ⟨_, rfl⟩ := h
          exact hb
        · simp only [hE, if_false] at h
          exact ih pb p1 e h hb.1 hb.2
    · simp only [hrun, Bool.false_eq_true, if_false, parser_stoped, bind_eq_ok, pure_eq_ok,
        Prod.mk.injEq] at h
      obtain ⟨_, _, _, rfl⟩ := h
      exact ⟨a, w⟩

theorem PlainCurrent.plain_of_no_usage {p : DocoptParser} (a : NoUsageNodes p.heap) :
    PlainCurrent p := by
  intro c nd _ hnd
  have hn : is_usage_node nd.Typ = false := a nd (mem_of_getElem?_eq_some _ _ _ hnd)
  refine ⟨?_, ?_⟩
  · cases hg : is_usage_group nd.Typ with
    | false => rfl
    | true => simp [is_usage_node, hg] at hn
  · intro hl
    simp [is_usage_node, hl] at hn

/-- The store `Consume_Usage` receives from `Parse`, after the root and the
prologue, holds no node of the usage lines. -/
theorem prologue_plain (fuel : Nat) (source : List LexItem) (p0 p : DocoptParser)
    (e : Option String) (h0 : CreateNode (ParserInit source) .Root none = .ok p0)
    (h : Consume_Prologue fuel p0 = .ok (e, p)) :
    NoUsageNodes p.heap ∧ ChildrenInRange p.heap := by
  obtain ⟨a0, w0⟩ := CreateNode_plain _ _ _ _ h0 (by decide)
    (by intro nd hnd; simp [ParserInit] at hnd) (by intro nd hnd; simp [ParserInit] at hnd)
  unfold Consume_Prologue at h
  simp only [bind_eq_ok] at h
  obtain ⟨p1, hc, h⟩ := h
  obtain ⟨a1, w1⟩ := CreateNode_plain _ _ _ _ hc (by decide) a0 w0
  exact Consume_Prologue_loop_plain fuel p1 p e h a1 w1

/-- The rule `line_step` builds from an `Option_line`: it is appended to the
rules, its `Arg_count` is 1 exactly when an option child carries an argument,
and its `Argument_name` is the literal of the last such child. -/
theorem line_step_rule (h : Heap) (m m1 : OptionsMap) (o : Nat) (ln : DocoptAst)
    (hstep : line_step h m o = .ok m1) (hln : h[o]? = some ln)
    (hty : ln.Typ = .Option_line) :
    ∃ r, m1.rules = m.rules ++ [r] ∧
      r.Arg_count = (if ln.Children.any (carries_argument h) then 1 else 0) ∧
      (r.Arg_count = 1 ∨ r.Arg_count = 0) ∧
      (∀ s, (ln.Children.filter (carries_argument h)).getLast? = some s →
        r.Argument_name = argument_literal h s ∧ (argument_literal h s).isSome) ∧
      (ln.Children.any (carries_argument h) = false → r.Argument_name = none) := by
  unfold line_step at hstep
  simp only [bind_eq_ok, node_eq_ok] at hstep
  obtain ⟨ln1, hln1, hstep⟩ := hstep
  have : ln1 = ln := by rw [hln] at hln1; exact (Option.some.inj hln1).symm
  subst this
  simp [-bind_pure_comp, hty, bind_eq_ok, pure_eq_ok] at hstep
  obtain ⟨r, e, hf, hm⟩ := hstep
  have h1 := rule_fold_argument h m.rules.length OptionRule.empty m.entries ln1.Children r e hf
  refine ⟨r, by rw [← hm], ?_, ?_, h1.2.1, ?_⟩
  · rw [h1.1]; rfl
  · rw [h1.1]
    split
    · exact Or.inl rfl
    · exact Or.inr rfl
  · intro hno
    rw [h1.2.2 hno]
    rfl

/-- The rules allocated are kept by the steps for the later lines. -/
theorem line_fold_rules (h : Heap) (post : List Nat) :
    ∀ (m m1 : OptionsMap), post.foldlM (line_step h) m = .ok m1 →
      ∃ ext, m1.rules = m.rules ++ ext := by
  induction post with
  | nil =>
    intro m m1 hf
    simp [pure_eq_ok] at hf
    exact ⟨[], by simp [hf]⟩
  | cons o rest ih =>
    intro m m1 hf
    rw [List.foldlM_cons, bind_eq_ok] at hf
    obtain ⟨m2, hstep, hrest⟩ := hf
    obtain ⟨ext2, h2⟩ := ih m2 m1 hrest
    have h1 : ∃ ext1, m2.rules = m.rules ++ ext1 := by
      unfold line_step at hstep
      simp only [bind_eq_ok, node_eq_ok] at hstep
      obtain ⟨ln, _, hstep⟩ := hstep
      by_cases hty : ln.Typ = .Option_line
      · simp [-bind_pure_comp, hty, bind_eq_ok, pure_eq_ok] at hstep
        obtain ⟨r, e, _, hm⟩ := hstep
        exact ⟨[r], by rw [← hm]⟩
      · simp [hty, pure_eq_ok] at hstep
        exact ⟨[], by simp [hstep]⟩
    obtain ⟨ext1, h1⟩ := h1
    exact ⟨ext1 ++ ext2, by rw [h2, h1, List.append_assoc]⟩

/-- A literal no option child of a later line carries is not among the keys of
the later lines. -/
theorem not_mem_line_keys_of_later (h : Heap) (post : List Nat) (k : String)
    (hl : ∀ o1 ∈ post, ∀ l1, h[o1]? = some l1 → l1.Typ = .Option_line →
      ∀ s ∈ l1.Children, ∀ n t, h[s]? = some n →
        n.Typ = .Option_short ∨ n.Typ = .Option_long → n.Token = some t → t.Value ≠ k) :
    ∀ o1 ∈ post, k ∉ line_keys h o1 := by
  intro o1 ho1 hmem
  unfold line_keys at hmem
  cases hl1 : h[o1]? with
  | none => simp [hl1] at hmem
  | some l1 =>
    rw [hl1] at hmem
    by_cases hty1 : l1.Typ = .Option_line
    · simp only [hty1, if_true, List.mem_filterMap] at hmem
      obtain ⟨s, hs, hkey⟩ := hmem
      unfold option_key at hkey
      cases hn : h[s]? with
      | none => simp [hn] at hkey
      | some n =>
        rw [hn] at hkey
        by_cases hk : n.Typ = .Option_long ∨ n.Typ = .Option_short
        · simp only [hk, if_true, Option.map_eq_some'] at hkey
          obtain ⟨t, ht, hv⟩ := hkey
          exact hl o1 ho1 l1 hl1 hty1 s hs n t hn hk.symm ht hv
        · simp [hk] at hkey
    · simp [hty1] at hmem

/-- The last two statements of `NextToken`, with the lookahead they leave. -/
theorem NextToken_step_tail (q : DocoptParser) (i : Nat) (t : Token)
    (hclean : ∀ it ∈ q.s.items, ∃ k v, it = LexItem.tok k v)
    (herr : q.Error_count < q.max_error) (hi : i ≤ q.s.items.length)
    (hpos : q.s.pos = min (i + 1) q.s.items.length) (hcur : q.current_token = some t) :
    ∃ p1, (do
        let (_, q) ← try_get_NextToken q .next
        pure (NextToken_finish q)) = .ok p1 ∧
      p1.current_token = some t ∧ Ready p1 (min (i + 1) q.s.items.length) ∧ SameTree q p1 ∧
      p1.run = q.run ∧ p1.s.items = q.s.items ∧
      p1.next_token = some (token_at q.s.items (min (i + 1) q.s.items.length)) ∧
      p1.tokens ≠ [] ∧ p1.lexer_state_changed = q.lexer_state_changed := by
  obtain ⟨p2, h2, a1, a2, _, a4, a5, a6, a7, a8, a9, a10⟩ :=
    try_get_NextToken_clean q .next hclean herr (by rw [hpos]; omega)
  obtain ⟨b1, b2⟩ := a4 rfl
  have hn : ¬ p2.Error_count ≥ p2.max_error := by omega
  refine ⟨NextToken_finish p2, ?_, ?_, ?_, ?_, ?_, ?_, ?_, ?_, ?_⟩
  · rw [h2]
    rfl
  · simp only [NextToken_finish, hn, if_false]
    rw [b2, hcur]
  · simp only [NextToken_finish, hn, if_false, Ready]
    rw [a1, a5, a6, b1, a2, hpos]
    exact ⟨hclean, herr, by omega, Or.inr ⟨rfl, rfl, fun _ => by simp⟩⟩
  · simp only [NextToken_finish, hn, if_false]
    exact a9
  · simp only [NextToken_finish, hn, if_false]
    exact a10
  · simp only [NextToken_finish, hn, if_false]
    exact a1
  · simp only [NextToken_finish, hn, if_false]
    rw [b1, hpos]
  · simp [NextToken_finish]
  · simp only [NextToken_finish, hn, if_false]
    exact a7

theorem NextToken_step_fresh (q : DocoptParser) (i : Nat)
    (hclean : ∀ it ∈ q.s.items, ∃ k v, it = LexItem.tok k v)
    (herr : q.Error_count < q.max_error) (hi : i ≤ q.s.items.length)
    (hnx : q.next_token = none) (hpos : q.s.pos = i) :
    ∃ p1, (do
        let q ← NextToken_current q
        let (_, q) ← try_get_NextToken q .next
        pure (NextToken_finish q)) = .ok p1 ∧
      p1.current_token = some (token_at q.s.items i) ∧
      Ready p1 (min (i + 1) q.s.items.length) ∧ SameTree q p1 ∧ p1.run = q.run ∧
      p1.s.items = q.s.items ∧
      p1.next_token = some (token_at q.s.items (min (i + 1) q.s.items.length)) ∧
      p1.tokens ≠ [] ∧ p1.lexer_state_changed = q.lexer_state_changed := by
  obtain ⟨p2, h2, a1, a2, a3, _, a5, a6, a7, a8, a9, a10⟩ :=
    try_get_NextToken_clean q .current hclean herr (by rw [hpos]; exact hi)
  obtain ⟨b1, b2⟩ := a3 rfl
  rw [hpos] at a2 b1
  obtain ⟨p1, h1, c1, c2, c3, c4, c5, c6, c7, c8⟩ :=
    NextToken_step_tail p2 i (token_at q.s.items i)
      (by rw [a1]; exact hclean) (by omega) (by rw [a1]; exact hi) (by rw [a1]; exact a2) b1
  rw [a1] at c2 c6
  refine ⟨p1, ?_, c1, c2, ?_, c4.trans a10, c5.trans a1, c6, c7, c8.trans a7⟩
  · unfold NextToken_current
    simp only [hnx, h2, bind, Except.bind, pure, Except.pure]
    exact h1
  · obtain ⟨x1, x2, x3, x4, x5, x6, x7, x8⟩ := a9
    obtain ⟨y1, y2, y3, y4, y5, y6, y7, y8⟩ := c3
    exact ⟨y1.trans x1, y2.trans x2, y3.trans x3, y4.trans x4, y5.trans x5, y6.trans x6,
      y7.trans x7, y8.trans x8⟩

/-- The `NextToken` of a ready parser: the token at `i` becomes current, the
token after it is looked ahead and the history of tokens is not empty. -/
theorem NextToken_step (p : DocoptParser) (i : Nat) (h : Ready p i) :
    ∃ p1, NextToken p = .ok p1 ∧ p1.current_token = some (token_at p.s.items i) ∧
      Ready p1 (min (i + 1) p.s.items.length) ∧ SameTree p p1 ∧ p1.run = p.run ∧
      p1.s.items = p.s.items ∧
      p1.next_token = some (token_at p.s.items (min (i + 1) p.s.items.length)) ∧
      p1.tokens ≠ [] := by
  obtain ⟨hclean, herr, hi, hcase⟩ := h
  have hpos_tok : (token_at p.s.items i).Pos = i := token_at_pos _ _ hi hclean
  rcases hcase with ⟨hnx, hpos⟩ | ⟨hnx, hpos, htoks⟩
  · obtain ⟨p1, h1, h2, h3, h4, h5, h6, h7, h8, _⟩ :=
      NextToken_step_fresh p i hclean herr hi hnx hpos
    refine ⟨p1, ?_, h2, h3, h4, h5, h6, h7, h8⟩
    unfold NextToken NextToken_reject
    simp only [hnx]
    exact h1
  · by_cases hch : p.lexer_state_changed = true
    · obtain ⟨a, l, hl⟩ := List.exists_cons_of_ne_nil (htoks hch)
      obtain ⟨p1, h1, h2, h3, h4, h5, h6, h7, h8, h9⟩ := NextToken_step_fresh
        { p with s := p.s.Reject (token_at p.s.items i), lexer_state_changed := false,
                 next_token := none, tokens := (a :: l).dropLast }
        i hclean herr hi rfl (by simp [StateLexer.Reject, hpos_tok])
      refine ⟨p1, ?_, h2, h3, ?_, h5, h6, h7, h8⟩
      · unfold NextToken NextToken_reject
        simp only [hnx, hch, if_true, hl, removeBack, bind, Except.bind, pure, Except.pure]
        exact h1
      · obtain ⟨a1, a2, a3, a4, a5, a6, a7, a8⟩ := h4
        exact ⟨a1, a2, a3, a4, a5, a6, a7, a8⟩
    · obtain ⟨p1, h1, h2, h3, h4, h5, h6, h7, h8, h9⟩ := NextToken_step_tail
        { p with current_token := some (token_at p.s.items i),
                 next_token := some (token_at p.s.items i), lexer_state_changed := false }
        i (token_at p.s.items i) hclean herr hi hpos rfl
      refine ⟨p1, ?_, h2, h3, ?_, h5, h6, h7, h8⟩
      · unfold NextToken NextToken_reject NextToken_current
        simp only [bind, Except.bind, pure, Except.pure] at h1
        simp only [hnx, hch, Bool.false_eq_true, if_false, bind, Except.bind, pure,
          Except.pure]
        exact h1
      · obtain ⟨a1, a2, a3, a4, a5, a6, a7, a8⟩ := h4
        exact ⟨a1, a2, a3, a4, a5, a6, a7, a8⟩

/-- The position `Ready` speaks of depends on the lexer, the lookahead, the
error budget and the history of tokens only. -/
theorem Ready.of_lexer {p p1 : DocoptParser} {i : Nat} (h : Ready p i) (h1 : p1.s = p.s)
    (h2 : p1.next_token = p.next_token) (h3 : p1.Error_count = p.Error_count)
    (h4 : p1.max_error = p.max_error) (h5 : p1.lexer_state_changed = p.lexer_state_changed)
    (h6 : p1.tokens = p.tokens) : Ready p1 i := by
  unfold Ready at h ⊢
  rw [h1, h2, h3, h4, h5, h6]
  exact h

theorem AddNode_range (h h1 : Heap) (par n : Nat) (t : DocoptNodeType) (tok : Option Token)
    (ha : AddNode h par t tok = .ok (n, h1)) (w : ChildrenInRange h) : ChildrenInRange h1 := by
  obtain ⟨_, hlen, hpl, _⟩ := AddNode_at _ _ _ _ _ _ ha
  unfold AddNode at ha
  cases hp : h[par]? with
  | none => simp [hp] at ha
  | some pn =>
    simp only [hp, Except.ok.injEq, Prod.mk.injEq] at ha
    obtain ⟨_, rfl⟩ := ha
    have hpm : pn ∈ h := mem_of_getElem?_eq_some _ _ _ hp
    intro nd hnd x hx
    rw [hlen]
    rcases List.mem_append.1 hnd with h1 | h1
    · rcases List.mem_or_eq_of_mem_set h1 with h2 | h2
      · have := w nd h2 x hx
        omega
      · rw [h2] at hx
        rcases List.mem_append.1 hx with h3 | h3
        · have := w pn hpm x h3
          omega
        · rw [List.mem_singleton.1 h3]
          omega
    · rw [List.mem_singleton.1 h1] at hx
      simp at hx

/-- The call `AddNode` on a node of the store returns. -/
theorem AddNode_total (h : Heap) (par : Nat) (t : DocoptNodeType) (tok : Option Token)
    (hp : par < h.length) (w : ChildrenInRange h) :
    ∃ h1, AddNode h par t tok = .ok (h.length, h1) ∧ h1.length = h.length + 1 ∧
      ChildrenInRange h1 := by
  obtain ⟨pn, hpn⟩ : ∃ pn, h[par]? = some pn := ⟨_, List.getElem?_eq_getElem hp⟩
  have ha := AddNode_ok h par pn t tok hpn
  exact ⟨_, ha, by simp, AddNode_range _ _ _ _ _ _ ha w⟩

theorem addToCurrent_total (p : DocoptParser) (c : Nat) (t : DocoptNodeType)
    (tok : Option Token) (hc : p.current_node = some c) (hl : c < p.heap.length)
    (w : ChildrenInRange p.heap) :
    ∃ h1, addToCurrent p t tok = .ok { p with heap := h1 } ∧
      h1.length = p.heap.length + 1 ∧ ChildrenInRange h1 := by
  obtain ⟨h1, ha, hlen, hw⟩ := AddNode_total p.heap c t tok hl w
  refine ⟨h1, ?_, hlen, hw⟩
  unfold addToCurrent
  simp only [hc, deref, ha, bind, Except.bind, pure, Except.pure]

/-- The call `Consume_assign` with a token returns when the current node and
the children listed are nodes of the store; it changes the store only. -/
theorem Consume_assign_total (p : DocoptParser) (a : Token) (c : Nat)
    (hc : p.current_node = some c) (hl : c < p.heap.length) (w : ChildrenInRange p.heap) :
    ∃ e h1, Consume_assign p (some a) = .ok (e, { p with heap := h1 }) ∧
      p.heap.length ≤ h1.length ∧ ChildrenInRange h1 := by
  obtain ⟨nd, hnd⟩ : ∃ nd, p.heap[c]? = some nd := ⟨_, List.getElem?_eq_getElem hl⟩
  by_cases ha : a.Typ = .ARGUMENT
  · cases hlast : nd.Children.getLast? with
    | none =>
      have hval : ∃ e, Consume_assign p (some a) = .ok (e, p) := by
        unfold Consume_assign
        simp only [deref, ha, ne_eq, not_true_eq_false, if_false, hc, node, hnd, hlast, bind,
          Except.bind, pure, Except.pure]
        exact ⟨_, rfl⟩
      obtain ⟨e, hval⟩ := hval
      exact ⟨e, p.heap, hval, le_refl _, w⟩
    | some l =>
      have hmem : l ∈ nd.Children := List.mem_of_getLast?_eq_some hlast
      have hll : l < p.heap.length := w nd (mem_of_getElem?_eq_some _ _ _ hnd) l hmem
      obtain ⟨ln, hln⟩ : ∃ ln, p.heap[l]? = some ln := ⟨_, List.getElem?_eq_getElem hll⟩
      obtain ⟨h1, hadd, hlen, hw⟩ := AddNode_total p.heap l .Option_argument (some a) hll w
      obtain ⟨h2, hadd2, hlen2, hw2⟩ := AddNode_total p.heap l .Usage_argument (some a) hll w
      by_cases t1 : ln.Typ = .Usage_long_option
      · refine ⟨none, h2, ?_, by omega, hw2⟩
        unfold Consume_assign
        simp only [deref, ha, ne_eq, not_true_eq_false, if_false, hc, node, hnd, hlast, hln, t1,
          hadd2, bind, Except.bind, pure, Except.pure]
      by_cases t2 : ln.Typ = .Option_long
      · refine ⟨none, h1, ?_, by omega, hw⟩
        unfold Consume_assign
        simp only [deref, ha, ne_eq, not_true_eq_false, if_false, hc, node, hnd, hlast, hln, t2,
          hadd, bind, Except.bind, pure, Except.pure]
      by_cases t3 : ln.Typ = .Option_short
      · refine ⟨none, h1, ?_, by omega, hw⟩
        unfold Consume_assign
        simp only [deref, ha, ne_eq, not_true_eq_false, if_false, hc, node, hnd, hlast, hln, t3,
          hadd, bind, Except.bind, pure, Except.pure]
      have hval : ∃ e, Consume_assign p (some a) = .ok (e, p) := by
        unfold Consume_assign
        simp only [deref, ha, ne_eq, not_true_eq_false, if_false, hc, node, hnd, hlast, hln, bind,
          Except.bind, pure, Except.pure]
        cases hT : ln.Typ <;>
          first
          | exact absurd hT t1
          | exact absurd hT t2
          | exact absurd hT t3
          | exact ⟨_, rfl⟩
      obtain ⟨e, hval⟩ := hval
      exact ⟨e, p.heap, hval, le_refl _, w⟩
  · have hval : ∃ e, Consume_assign p (some a) = .ok (e, p) := by
      unfold Consume_assign
      simp only [deref, ha, ne_eq, not_false_eq_true, if_true, curNodeType, hc, node, hnd, bind,
        Except.bind, pure, Except.pure]
      exact ⟨_, rfl⟩
    obtain ⟨e, hval⟩ := hval
    exact ⟨e, p.heap, hval, le_refl _, w⟩

theorem OptStep.mono {q p1 : DocoptParser} {lo lo1 : Nat} (h : OptStep q p1 lo)
    (hl : lo1 ≤ lo) : OptStep q p1 lo1 := by
  obtain ⟨j, h1, h2⟩ := h
  exact ⟨j, le_trans hl h1, h2⟩

theorem OptStep.after {q pa p1 : DocoptParser} {lo : Nat} (h : OptStep pa p1 lo)
    (hc : pa.current_node = q.current_node) (hi : pa.s.items = q.s.items)
    (hh : q.heap.length ≤ pa.heap.length) : OptStep q p1 lo := by
  obtain ⟨j, h1, h2, h3, h4, h5⟩ := h
  exact ⟨j, h1, h2, h3.trans hc, h4.trans hi, le_trans hh h5⟩

/-- At the end of an error-free source the token is `EOF`. -/
theorem lt_of_token_at_ne_EOF (items : List LexItem) (i : Nat)
    (h : (token_at items i).Typ ≠ .EOF) : i < items.length := by
  rcases Nat.lt_or_ge i items.length with h1 | h1
  · exact h1
  · exfalso
    apply h
    unfold token_at
    rw [List.getElem?_eq_none h1]

/-- The parser after `NextToken` on a parser at work in the options section. -/
theorem NextToken_opt (q : DocoptParser) (i : Nat) (h : OptState q i) :
    ∃ pa, NextToken q = .ok pa ∧ pa.current_token = some (token_at q.s.items i) ∧
      pa.next_token = some (token_at q.s.items (min (i + 1) q.s.items.length)) ∧
      pa.tokens ≠ [] ∧ OptState pa (min (i + 1) q.s.items.length) ∧
      pa.current_node = q.current_node ∧ pa.s.items = q.s.items ∧ pa.heap = q.heap := by
  obtain ⟨hr, hrun, hw, c, hc, hcl⟩ := h
  obtain ⟨pa, h1, h2, h3, h4, h5, h6, h7, h8⟩ := NextToken_step q i hr
  refine ⟨pa, h1, h2, h7, h8, ⟨h3, h5.trans hrun, ?_, c, h4.2.1.trans hc, ?_⟩, h4.2.1, h6, h4.1⟩
  · rw [h4.1]
    exact hw
  · rw [h4.1]
    exact hcl

/-- A change of the store keeps the state of the options section. -/
theorem OptState.with_heap {p : DocoptParser} {i : Nat} (h : OptState p i) (h1 : Heap)
    (hl : p.heap.length ≤ h1.length) (w : ChildrenInRange h1) :
    OptState { p with heap := h1 } i := by
  obtain ⟨hr, hrun, _, c, hc, hcl⟩ := h
  exact ⟨hr.of_lexer rfl rfl rfl rfl rfl rfl, hrun, w, c, hc, lt_of_lt_of_le hcl hl⟩

/-- The loop of `Consume_option_description` returns when the fuel exceeds the
number of tokens left, and reads on from the position it was entered at. -/
theorem Consume_option_description_loop_total (d : Nat) :
    ∀ (fuel cl : Nat) (q : DocoptParser) (i : Nat), OptState q i → d < q.heap.length →
      q.s.items.length - i < fuel →
      ∃ e p1, Consume_option_description_loop d fuel cl q = .ok (e, p1) ∧
        OptStep q p1 (if cl = 0 then min (i + 1) q.s.items.length else i) := by
  intro fuel
  induction fuel with
  | zero =>
    intro cl q i _ _ hf
    omega
  | succ n ih =>
    intro cl q i hq hd hf
    have hrun : q.run = true := hq.2.1
    have hile : i ≤ q.s.items.length := hq.1.2.2.1
    obtain ⟨pa, hnext, hcur, hnx, htoks, hpa, hcn, hit, hheap⟩ := NextToken_opt q i hq
    have hlo : (if cl = 0 then min (i + 1) q.s.items.length else i) ≤
        min (i + 1) q.s.items.length := by
      split <;> omega
    have hda : d < pa.heap.length := by rw [hheap]; exact hd
    rw [Consume_option_description_loop]
    simp only [hrun, if_true, hnext, bind, Except.bind]
    clear hnext
    obtain ⟨s0, pn0, ct0, nt0, tk0, ec0, me0, er0, hp0, ast0, cn0, on0, un0, lc0, rn0, tl0⟩ := pa
    simp only [] at hcur hnx htoks hcn hit hheap hda
    subst hcur
    subst hnx
    -- the token is kept and the loop goes on
    have collect : ∀ cl1, (token_at q.s.items i).Typ ≠ .EOF →
        ∃ e p1, (do
            let (_, h) ← AddNode hp0 d .Description_node (some (token_at q.s.items i))
            Consume_option_description_loop d n cl1
                { s := s0, Prog_name := pn0, current_token := some (token_at q.s.items i),
                  next_token := some (token_at q.s.items (min (i + 1) q.s.items.length)),
                  tokens := tk0, Error_count := ec0, max_error := me0, Errors := er0,
                  heap := h, ast := ast0, current_node := cn0, options_node := on0,
                  usage_node := un0, lexer_state_changed := lc0, run := rn0,
                  toplevel := tl0 }) = .ok (e, p1) ∧
          OptStep q p1 (min (i + 1) q.s.items.length) := by
      intro cl1 hne
      have hlt := lt_of_token_at_ne_EOF _ _ hne
      obtain ⟨h1, hadd, hlen, hw⟩ := AddNode_total hp0 d .Description_node
        (some (token_at q.s.items i)) hda hpa.2.2.1
      have hs := hpa.with_heap h1 (by simp only []; omega) hw
      obtain ⟨e, p1, hrec, hstep⟩ := ih cl1 _ _ hs (by simp only []; omega)
        (by simp only []; rw [hit]; omega)
      refine ⟨e, p1, ?_, ?_⟩
      · simp only [hadd, bind, Except.bind]
        exact hrec
      · refine (hstep.after hcn hit (by simp only []; rw [← hheap]; omega)).mono ?_
        simp only []
        rw [hit]
        split <;> omega
    simp only [bind, Except.bind] at collect
    have hstay : OptStep q
        { s := s0, Prog_name := pn0, current_token := some (token_at q.s.items i),
          next_token := some (token_at q.s.items (min (i + 1) q.s.items.length)),
          tokens := tk0, Error_count := ec0, max_error := me0, Errors := er0,
          heap := hp0, ast := ast0, current_node := cn0, options_node := on0,
          usage_node := un0, lexer_state_changed := lc0, run := rn0, toplevel := tl0 }
        (if cl = 0 then min (i + 1) q.s.items.length else i) :=
      ⟨_, hlo, hpa, hcn, hit, by rw [hheap]⟩
    simp only [deref]
    cases hT : (token_at q.s.items i).Typ <;> simp only [hT]
    case EOF => exact ⟨none, _, rfl, hstay⟩
    case DEFAULT => exact ⟨none, _, rfl, hstay⟩
    case NEWLINE =>
      simp only [nextType, deref, bind, Except.bind, pure, Except.pure]
      by_cases hk : (token_at q.s.items (min (i + 1) q.s.items.length)).Typ = .NEWLINE
      · simp only [hk, if_true]
        obtain ⟨h1, hadd, hlen, hw⟩ := AddNode_total hp0 d .Description_node
          (some (token_at q.s.items i)) hda hpa.2.2.1
        have hs := hpa.with_heap h1 (by simp only []; omega) hw
        obtain ⟨pb, hnb, _, _, _, hpb, hcb, hib, hhb⟩ := NextToken_opt _ _ hs
        simp only [] at hnb hcb hib hhb hpb
        simp only [hadd, hnb]
        refine ⟨none, pb, rfl, _, ?_, hpb, hcb.trans hcn, hib.trans hit, ?_⟩
        · rw [hit]
          split <;> omega
        · rw [hhb, ← hheap]
          omega
      · simp only [hk, if_false]
        obtain ⟨e, p1, h1, h2⟩ := collect (cl + 1) (by rw [hT]; decide)
        exact ⟨e, p1, h1, h2.mono hlo⟩
    case LONG_BLANK =>
      by_cases hcl : cl > 0
      · simp only [hcl, if_true, true_and, nextType, deref, bind, Except.bind, pure,
          Except.pure]
        by_cases hk : (token_at q.s.items (min (i + 1) q.s.items.length)).Typ = .SHORT ∨
            (token_at q.s.items (min (i + 1) q.s.items.length)).Typ = .LONG
        · simp only [hk, if_true]
          obtain ⟨a, l, hl⟩ := List.exists_cons_of_ne_nil htoks
          obtain ⟨hclean, herr, _, _⟩ := hpa.1
          simp only [] at hclean herr
          have hpos : (token_at q.s.items i).Pos = i :=
            token_at_pos _ _ hile (by rw [← hit]; exact hclean)
          simp only [reject_current_token, deref, hl, removeBack, bind, Except.bind, pure,
            Except.pure]
          refine ⟨none, _, rfl, i, ?_, ⟨⟨hclean, herr, ?_, Or.inl ⟨rfl, ?_⟩⟩, hpa.2.1, hpa.2.2.1,
            hpa.2.2.2⟩, hcn, hit, by rw [hheap]⟩
          · have : cl ≠ 0 := by omega
            simp [this]
          · simp only [StateLexer.Reject]
            rw [hit]
            exact hile
          · simp only [StateLexer.Reject]
            exact hpos
        · simp only [hk, if_false]
          obtain ⟨e, p1, h1, h2⟩ := collect cl (by rw [hT]; decide)
          exact ⟨e, p1, h1, h2.mono hlo⟩
      · simp only [hcl, if_false, false_and, pure, Except.pure]
        obtain ⟨e, p1, h1, h2⟩ := collect cl (by rw [hT]; decide)
        exact ⟨e, p1, h1, h2.mono hlo⟩
    all_goals
      obtain ⟨e, p1, h1, h2⟩ := collect cl (by rw [hT]; decide)
      exact ⟨e, p1, h1, h2.mono hlo⟩

/-- The call `Consume_option_description` returns when the fuel exceeds the
number of tokens left. -/
theorem Consume_option_description_total (fuel : Nat) (p : DocoptParser) (i : Nat)
    (hp : OptState p i) (hf : p.s.items.length - i < fuel) :
    ∃ e p1, Consume_option_description fuel p = .ok (e, p1) ∧
      OptStep p p1 (min (i + 1) p.s.items.length) := by
  obtain ⟨c, hc, hcl⟩ := hp.2.2.2
  obtain ⟨h1, hadd, hlen, hw⟩ := AddNode_total p.heap c .Option_description none hcl hp.2.2.1
  have hs := hp.with_heap h1 (by omega) hw
  obtain ⟨e, p1, hrec, hstep⟩ := Consume_option_description_loop_total p.heap.length fuel 0
    { p with heap := h1 } i hs (by simp only []; omega) hf
  refine ⟨e, p1, ?_, ?_⟩
  · unfold Consume_option_description
    simp only [hc, deref, hadd, bind, Except.bind]
    simp only [hc] at hrec
    exact hrec
  · simp only [if_true] at hstep
    exact hstep.after rfl rfl (by simp only []; omega)

/-- The loop of `Consume_option_line` returns when the fuel exceeds the number
of tokens left, and reads at least one token unless the source is at its end. -/
theorem Consume_option_line_loop_total :
    ∀ (fuel : Nat) (err : Option String) (q : DocoptParser) (i : Nat), OptState q i →
      q.s.items.length - i < fuel →
      ∃ e p1, Consume_option_line_loop fuel err q = .ok (e, p1) ∧
        OptStep q p1 (min (i + 1) q.s.items.length) := by
  intro fuel
  induction fuel with
  | zero =>
    intro err q i _ hf
    omega
  | succ n ih =>
    intro err q i hq hf
    have hrun : q.run = true := hq.2.1
    have hile : i ≤ q.s.items.length := hq.1.2.2.1
    obtain ⟨pa, hnext, hcur, hnx, htoks, hpa, hcn, hit, hheap⟩ := NextToken_opt q i hq
    rw [Consume_option_line_loop]
    simp only [hrun, if_true, hnext, bind, Except.bind]
    clear hnext
    obtain ⟨c, hc, hcl⟩ := hpa.2.2.2
    obtain ⟨cnd, hcnd⟩ : ∃ cnd, pa.heap[c]? = some cnd := ⟨_, List.getElem?_eq_getElem hcl⟩
    obtain ⟨s0, pn0, ct0, nt0, tk0, ec0, me0, er0, hp0, ast0, cn0, on0, un0, lc0, rn0, tl0⟩ := pa
    simp only [] at hcur hnx htoks hcn hit hheap hc hcl hcnd
    subst hcur
    subst hnx
    subst hc
    -- the loop goes on from a parser that differs by the store only
    have goon : ∀ (h1 : Heap) (err1 : Option String), hp0.length ≤ h1.length →
        ChildrenInRange h1 → (token_at q.s.items i).Typ ≠ .EOF →
        ∃ e p1, Consume_option_line_loop n err1
            { s := s0, Prog_name := pn0, current_token := some (token_at q.s.items i),
              next_token := some (token_at q.s.items (min (i + 1) q.s.items.length)),
              tokens := tk0, Error_count := ec0, max_error := me0, Errors := er0,
              heap := h1, ast := ast0, current_node := some c, options_node := on0,
              usage_node := un0, lexer_state_changed := lc0, run := rn0, toplevel := tl0 } =
            .ok (e, p1) ∧
          OptStep q p1 (min (i + 1) q.s.items.length) := by
      intro h1 err1 hl hw hne
      have hlt := lt_of_token_at_ne_EOF _ _ hne
      have hs := hpa.with_heap h1 hl hw
      obtain ⟨e, p1, hrec, hstep⟩ := ih err1 _ _ hs (by simp only []; rw [hit]; omega)
      refine ⟨e, p1, hrec, ?_⟩
      refine (hstep.after hcn hit (by simp only []; rw [← hheap]; omega)).mono ?_
      simp only []
      rw [hit]
      omega
    have hstay : ∀ (h1 : Heap), hp0.length ≤ h1.length → ChildrenInRange h1 →
        OptStep q
          { s := s0, Prog_name := pn0, current_token := some (token_at q.s.items i),
            next_token := some (token_at q.s.items (min (i + 1) q.s.items.length)),
            tokens := tk0, Error_count := ec0, max_error := me0, Errors := er0,
            heap := h1, ast := ast0, current_node := some c, options_node := on0,
            usage_node := un0, lexer_state_changed := lc0, run := rn0, toplevel := tl0 }
          (min (i + 1) q.s.items.length) := by
      intro h1 hl hw
      exact ⟨_, le_refl _, hpa.with_heap h1 hl hw, hcn, hit, by rw [← hheap]; exact hl⟩
    simp only [deref]
    cases hT : (token_at q.s.items i).Typ <;> simp only [hT]
    case EOF =>
      simp only [node, hcnd, deref, bind, Except.bind]
      by_cases hz : cnd.Children.length = 0
      · simp only [hz, if_true, pure, Except.pure]
        exact ⟨_, _, rfl, hstay hp0 (le_refl _) hpa.2.2.1⟩
      · simp only [hz, if_false, pure, Except.pure]
        exact ⟨_, _, rfl, hstay hp0 (le_refl _) hpa.2.2.1⟩
    case NEWLINE =>
      simp only [node, hcnd, deref, bind, Except.bind]
      by_cases hz : cnd.Children.length = 0
      · simp only [hz, if_true, pure, Except.pure]
        exact ⟨_, _, rfl, hstay hp0 (le_refl _) hpa.2.2.1⟩
      · simp only [hz, if_false, pure, Except.pure]
        exact ⟨_, _, rfl, hstay hp0 (le_refl _) hpa.2.2.1⟩
    case LONG_BLANK =>
      have hlt := lt_of_token_at_ne_EOF q.s.items i (by rw [hT]; decide)
      obtain ⟨e, p1, hrec, hstep⟩ := Consume_option_description_total n _ _ hpa
        (by simp only []; rw [hit]; omega)
      refine ⟨e, p1, hrec, ?_⟩
      refine (hstep.after hcn hit (by rw [hheap])).mono ?_
      simp only []
      rw [hit]
      omega
    case SHORT =>
      obtain ⟨h1, hadd, hlen, hw⟩ := addToCurrent_total _ c .Option_short
        (some (token_at q.s.items i)) (rfl : (DocoptParser.mk s0 pn0 _ _ tk0 ec0 me0 er0 hp0 ast0
          (some c) on0 un0 lc0 rn0 tl0).current_node = some c) hcl hpa.2.2.1
      simp only [] at hadd hlen
      simp only [hadd]
      exact goon h1 err (by omega) hw (by rw [hT]; decide)
    case LONG =>
      obtain ⟨h1, hadd, hlen, hw⟩ := addToCurrent_total _ c .Option_long
        (some (token_at q.s.items i)) (rfl : (DocoptParser.mk s0 pn0 _ _ tk0 ec0 me0 er0 hp0 ast0
          (some c) on0 un0 lc0 rn0 tl0).current_node = some c) hcl hpa.2.2.1
      simp only [] at hadd hlen
      simp only [hadd]
      exact goon h1 err (by omega) hw (by rw [hT]; decide)
    case ARGUMENT =>
      obtain ⟨e1, h1, hasg, hlen, hw⟩ := Consume_assign_total _ (token_at q.s.items i) c
        (rfl : (DocoptParser.mk s0 pn0 _ _ tk0 ec0 me0 er0 hp0 ast0
          (some c) on0 un0 lc0 rn0 tl0).current_node = some c) hcl hpa.2.2.1
      simp only [] at hasg hlen
      simp only [hasg]
      by_cases he : e1.isSome = true
      · simp only [he, if_true, pure, Except.pure]
        exact ⟨_, _, rfl, hstay h1 hlen hw⟩
      · simp only [he, Bool.false_eq_true, if_false]
        exact goon h1 e1 hlen hw (by rw [hT]; decide)
    case PUNCT =>
      by_cases v1 : (token_at q.s.items i).Value = ","
      · simp only [v1, if_true]
        exact goon hp0 err (le_refl _) hpa.2.2.1 (by rw [hT]; decide)
      simp only [v1, if_false]
      by_cases v2 : (token_at q.s.items i).Value = "="
      · simp only [v2, if_true]
        obtain ⟨e1, h1, hasg, hlen, hw⟩ := Consume_assign_total _
          (token_at q.s.items (min (i + 1) q.s.items.length)) c
          (rfl : (DocoptParser.mk s0 pn0 _ _ tk0 ec0 me0 er0 hp0 ast0
            (some c) on0 un0 lc0 rn0 tl0).current_node = some c) hcl hpa.2.2.1
        simp only [] at hasg hlen
        simp only [hasg]
        by_cases he : e1.isSome = true
        · simp only [he, if_true, pure, Except.pure]
          exact ⟨_, _, rfl, hstay h1 hlen hw⟩
        · simp only [he, Bool.false_eq_true, if_false]
          have hlt := lt_of_token_at_ne_EOF q.s.items i (by rw [hT]; decide)
          have hs := hpa.with_heap h1 hlen hw
          obtain ⟨pb, hnb, _, _, _, hpb, hcb, hib, hhb⟩ := NextToken_opt _ _ hs
          simp only [] at hnb hcb hib hhb hpb
          simp only [hnb]
          obtain ⟨e, p1, hrec, hstep⟩ := ih err pb _ hpb (by rw [hib, hit]; omega)
          refine ⟨e, p1, hrec, ?_⟩
          refine (hstep.after (hcb.trans hcn) (hib.trans hit)
            (by rw [hhb, ← hheap]; exact hlen)).mono ?_
          rw [hib, hit]
          omega
      · simp only [v2, if_false, curNodeType, deref, node, hcnd, bind, Except.bind, pure,
          Except.pure]
        exact ⟨_, _, rfl, hstay hp0 (le_refl _) hpa.2.2.1⟩
    all_goals
      simp only [curNodeType, deref, node, hcnd, bind, Except.bind, pure, Except.pure]
      exact ⟨_, _, rfl, hstay hp0 (le_refl _) hpa.2.2.1⟩

/-- The call `Consume_option_line` returns when the fuel exceeds the number of
tokens left. -/
theorem Consume_option_line_total (fuel : Nat) (p : DocoptParser) (i : Nat)
    (hp : OptState p i) (hf : p.s.items.length - i < fuel) :
    ∃ e p1, Consume_option_line fuel p = .ok (e, p1) ∧
      OptStep p p1 (min (i + 1) p.s.items.length) := by
  obtain ⟨hr, hrun, hw0, c, hc, hcl⟩ := hp
  obtain ⟨h1, hadd, hlen, hw⟩ := AddNode_total p.heap c .Option_line none hcl hw0
  have hs : OptState { p with heap := h1, current_node := some p.heap.length } i :=
    ⟨hr.of_lexer rfl rfl rfl rfl rfl rfl, hrun, hw, p.heap.length, rfl, by simp only []; omega⟩
  obtain ⟨e, p1, hrec, j, hj, hs1, hc1, hi1, hl1⟩ :=
    Consume_option_line_loop_total fuel none _ i hs hf
  simp only [] at hc1 hi1 hl1 hj
  obtain ⟨hr1, hrun1, hw1, _⟩ := hs1
  refine ⟨e, { p1 with current_node := p.current_node }, ?_, j, hj,
    ⟨hr1.of_lexer rfl rfl rfl rfl rfl rfl, hrun1, hw1, c, hc, by simp only []; omega⟩,
    rfl, hi1, by simp only []; omega⟩
  unfold Consume_option_line
  simp only [hc, deref, hadd, bind, Except.bind]
  simp only [hrec, hrun1, if_true, pure, Except.pure]

/-- The loop of `Consume_Options` returns when the fuel exceeds the number of
tokens left. -/
theorem Consume_Options_loop_total :
    ∀ (fuel : Nat) (err : Option String) (q : DocoptParser) (i : Nat), OptState q i →
      q.s.items.length - i < fuel →
      ∃ e p1, Consume_Options_loop fuel err q = .ok (e, p1) ∧
        OptStep q p1 (min (i + 1) q.s.items.length) := by
  intro fuel
  induction fuel with
  | zero =>
    intro err q i _ hf
    omega
  | succ n ih =>
    intro err q i hq hf
    have hrun : q.run = true := hq.2.1
    have hile : i ≤ q.s.items.length := hq.1.2.2.1
    obtain ⟨pa, hnext, hcur, hnx, htoks, hpa, hcn, hit, hheap⟩ := NextToken_opt q i hq
    rw [Consume_Options_loop]
    simp only [hrun, if_true, hnext, bind, Except.bind]
    clear hnext
    obtain ⟨c, hc, hcl⟩ := hpa.2.2.2
    obtain ⟨s0, pn0, ct0, nt0, tk0, ec0, me0, er0, hp0, ast0, cn0, on0, un0, lc0, rn0, tl0⟩ := pa
    simp only [] at hcur hnx htoks hcn hit hheap hc hcl
    subst hcur
    subst hnx
    subst hc
    -- the loop goes on from a parser reached by reading on
    have goon : ∀ (err1 : Option String) (pb : DocoptParser),
        OptStep q pb (min (i + 1) q.s.items.length) →
        (token_at q.s.items i).Typ ≠ .EOF →
        ∃ e p1, Consume_Options_loop n err1 pb = .ok (e, p1) ∧
          OptStep q p1 (min (i + 1) q.s.items.length) := by
      intro err1 pb hb hne
      have hlt := lt_of_token_at_ne_EOF _ _ hne
      obtain ⟨j, hj, hsb, hcb, hib, hlb⟩ := hb
      obtain ⟨e, p1, hrec, hstep⟩ := ih err1 pb j hsb (by rw [hib]; omega)
      refine ⟨e, p1, hrec, ?_⟩
      refine (hstep.after hcb hib hlb).mono ?_
      rw [hib]
      omega
    have hstay : ∀ (h1 : Heap), hp0.length ≤ h1.length → ChildrenInRange h1 →
        OptStep q
          { s := s0, Prog_name := pn0, current_token := some (token_at q.s.items i),
            next_token := some (token_at q.s.items (min (i + 1) q.s.items.length)),
            tokens := tk0, Error_count := ec0, max_error := me0, Errors := er0,
            heap := h1, ast := ast0, current_node := some c, options_node := on0,
            usage_node := un0, lexer_state_changed := lc0, run := rn0, toplevel := tl0 }
          (min (i + 1) q.s.items.length) := by
      intro h1 hl hw
      exact ⟨_, le_refl _, hpa.with_heap h1 hl hw, hcn, hit, by rw [← hheap]; exact hl⟩
    have hstay0 := hstay hp0 (le_refl _) hpa.2.2.1
    simp only [deref]
    by_cases hE : (token_at q.s.items i).Typ = .EOF
    · simp only [hE, if_true, pure, Except.pure]
      exact ⟨_, _, rfl, hstay0⟩
    simp only [hE, if_false]
    by_cases hN : (token_at q.s.items i).Typ = .NEWLINE
    · simp only [hN, if_true, true_and, nextType, deref, bind, Except.bind, pure, Except.pure]
      by_cases hk : (token_at q.s.items (min (i + 1) q.s.items.length)).Typ = .NEWLINE
      · simp only [hk, if_true]
        obtain ⟨pb, hnb, _, _, _, hpb, hcb, hib, hhb⟩ := NextToken_opt _ _ hpa
        simp only [] at hnb hcb hib hhb hpb
        simp only [hnb]
        refine ⟨none, pb, rfl, _, ?_, hpb, hcb.trans hcn, hib.trans hit, ?_⟩
        · rw [hit]
          omega
        · rw [hhb, ← hheap]
      · simp only [hk, if_false]
        exact goon err _ hstay0 hE
    simp only [hN, if_false, false_and, pure, Except.pure]
    by_cases hS : (token_at q.s.items i).Typ = .SECTION
    · simp only [hS]
      exact ⟨_, _, rfl, hstay0⟩
    by_cases hL : (token_at q.s.items i).Typ = .LONG_BLANK
    · simp only [hL, nextType, deref, bind, Except.bind, pure, Except.pure]
      by_cases hk : (token_at q.s.items (min (i + 1) q.s.items.length)).Typ = .SHORT ∨
          (token_at q.s.items (min (i + 1) q.s.items.length)).Typ = .LONG
      · simp only [hk, if_true]
        have hlt := lt_of_token_at_ne_EOF q.s.items i hE
        obtain ⟨e1, pb, hline, hstep⟩ := Consume_option_line_total n _ _ hpa
          (by simp only []; rw [hit]; omega)
        simp only [hline]
        have hb : OptStep q pb (min (i + 1) q.s.items.length) := by
          refine (hstep.after hcn hit (by rw [hheap])).mono ?_
          simp only []
          rw [hit]
          omega
        by_cases he : e1.isSome = true
        · simp only [he, if_true]
          exact ⟨_, _, rfl, hb⟩
        · simp only [he, Bool.false_eq_true, if_false]
          exact goon e1 pb hb hE
      · simp only [hk, if_false]
        exact goon err _ hstay0 hE
    obtain ⟨h1, hadd, hlen, hw⟩ := addToCurrent_total _ c .Options_node
      (some (token_at q.s.items i)) (rfl : (DocoptParser.mk s0 pn0 _ _ tk0 ec0 me0 er0 hp0 ast0
        (some c) on0 un0 lc0 rn0 tl0).current_node = some c) hcl hpa.2.2.1
    simp only [] at hadd hlen
    have hgo := goon err _ (hstay h1 (by omega) hw) hE
    cases hT : (token_at q.s.items i).Typ <;> simp only [] <;>
      first
      | exact absurd hT hE
      | exact absurd hT hN
      | exact absurd hT hS
      | exact absurd hT hL
      | (simp only [hadd]; exact hgo)

/-- The call `Consume_Options` returns: on a parser whose root and current token
are set, over an error-free source within the error budget, when the fuel
exceeds the number of tokens left. -/
theorem Consume_Options_total (fuel : Nat) (p : DocoptParser) (root i : Nat) (tok : Token)
    (hast : p.ast = some root) (hroot : root < p.heap.length)
    (htok : p.current_token = some tok) (hready : Ready p i) (hw : ChildrenInRange p.heap)
    (htoks : p.tokens ≠ []) (hf : p.s.items.length - i < fuel) :
    ∃ e p1, Consume_Options fuel p = .ok (e, p1) := by
  obtain ⟨h1, hadd, hlen, hw1⟩ := AddNode_total p.heap root .Options_section none hroot hw
  obtain ⟨h2, hadd2, hlen2, hw2⟩ := AddNode_total h1 p.heap.length .Section_name (some tok)
    (by omega) hw1
  rw [hlen] at hadd2
  obtain ⟨s0, pn0, ct0, nt0, tk0, ec0, me0, er0, hp0, ast0, cn0, on0, un0, lc0, rn0, tl0⟩ := p
  simp only [] at hast hroot htok hw htoks hf hadd hlen hadd2 hlen2
  subst hast
  subst htok
  unfold Consume_Options
  simp only [deref, hadd, bind, Except.bind]
  by_cases hsec : tok.Typ ≠ .SECTION ∨ ¬ EqualFold tok.Value "options:" = true
  · simp only [hsec, if_true, pure, Except.pure]
    exact ⟨_, _, rfl⟩
  · simp only [hsec, if_false, Change_lexer_state, hadd2]
    by_cases hrun : rn0 = true
    · have hs : OptState
          { s := s0.ChangeState "state_Options", Prog_name := pn0, current_token := some tok,
            next_token := nt0, tokens := tk0, Error_count := ec0, max_error := me0,
            Errors := er0, heap := h2, ast := some root, current_node := some hp0.length,
            options_node := some hp0.length, usage_node := un0, lexer_state_changed := true,
            run := rn0, toplevel := tl0 } i := by
        obtain ⟨hclean, herr, hi, hcase⟩ := hready
        refine ⟨⟨hclean, herr, hi, ?_⟩, hrun, hw2, hp0.length, rfl, by simp only []; omega⟩
        rcases hcase with hc | ⟨hc1, hc2, _⟩
        · exact Or.inl hc
        · exact Or.inr ⟨hc1, hc2, fun _ => htoks⟩
      obtain ⟨e, p1, hrec, _⟩ := Consume_Options_loop_total fuel none _ i hs hf
      exact ⟨e, p1, hrec⟩
    · obtain ⟨sn, hsn⟩ : ∃ sn, h2[hp0.length]? = some sn :=
        ⟨_, List.getElem?_eq_getElem (by omega)⟩
      cases fuel with
      | zero => omega
      | succ n =>
        rw [Consume_Options_loop]
        simp only [hrun, Bool.false_eq_true, if_false, curNodeType, deref, node, hsn, bind,
          Except.bind, pure, Except.pure]
        exact ⟨_, _, rfl⟩

/-- Claim C1.  In the map returned by `transform_Options_section_to_map`, the
`Option_short` and `Option_long` nodes that are direct children of one
`Option_line` are keys (by token value) of one and the same rule pointer,
provided no later `Option_line` registers one of the two literals. -/
theorem transform_aliases_share_rule (p : DocoptParser) (m : OptionsMap)
    (sec o s1 s2 : Nat) (nd ln n1 n2 : DocoptAst) (t1 t2 : Token) (pre post : List Nat)
    (hmap : transform_Options_section_to_map p = .ok (some m, none))
    (hsec : p.options_node = some sec) (hnd : p.heap[sec]? = some nd)
    (hch : nd.Children = pre ++ o :: post)
    (hln : p.heap[o]? = some ln) (hty : ln.Typ = .Option_line)
    (hs1 : s1 ∈ ln.Children) (hn1 : p.heap[s1]? = some n1)
    (hk1 : n1.Typ = .Option_short ∨ n1.Typ = .Option_long) (ht1 : n1.Token = some t1)
    (hs2 : s2 ∈ ln.Children) (hn2 : p.heap[s2]? = some n2)
    (hk2 : n2.Typ = .Option_short ∨ n2.Typ = .Option_long) (ht2 : n2.Token = some t2)
    (hlater : ∀ o1 ∈ post, ∀ l1, p.heap[o1]? = some l1 → l1.Typ = .Option_line →
      ∀ s ∈ l1.Children, ∀ n t, p.heap[s]? = some n →
        n.Typ = .Option_short ∨ n.Typ = .Option_long → n.Token = some t →
        t.Value ≠ t1.Value ∧ t.Value ≠ t2.Value) :
    ∃ r, m.get t1.Value = some r ∧ m.get t2.Value = some r ∧ r < m.rules.length := by
  unfold transform_Options_section_to_map at hmap
  rw [hsec] at hmap
  simp only [bind_eq_ok, node_eq_ok, pure_eq_ok] at hmap
  obtain ⟨nd1, hnd1, m0, hfold, hm0⟩ := hmap
  have hnd2 : nd1 = nd := by rw [hnd] at hnd1; exact (Option.some.inj hnd1).symm
  subst hnd2
  have hm : m0 = m := by simpa using hm0
  subst hm
  rw [hch, List.foldlM_append, bind_eq_ok] at hfold
  obtain ⟨ma, _, hfold⟩ := hfold
  rw [List.foldlM_cons, bind_eq_ok] at hfold
  obtain ⟨mb, hstep, hpost⟩ := hfold
  have key_mem : ∀ (s : Nat) (n : DocoptAst) (t : Token), s ∈ ln.Children →
      p.heap[s]? = some n → n.Typ = .Option_short ∨ n.Typ = .Option_long → n.Token = some t →
      t.Value ∈ line_keys p.heap o := by
    intro s n t hs hn hk ht
    unfold line_keys
    rw [hln]
    simp only [hty, if_true, List.mem_filterMap]
    refine ⟨s, hs, ?_⟩
    unfold option_key
    rw [hn]
    simp [hk.symm, ht]
  have key_later : ∀ (t0 : Token), (∀ o1 ∈ post, ∀ l1, p.heap[o1]? = some l1 →
      l1.Typ = .Option_line → ∀ s ∈ l1.Children, ∀ n t, p.heap[s]? = some n →
        n.Typ = .Option_short ∨ n.Typ = .Option_long → n.Token = some t →
        t.Value ≠ t0.Value) → ∀ o1 ∈ post, t0.Value ∉ line_keys p.heap o1 := by
    intro t0 hl o1 ho1 hmem
    unfold line_keys at hmem
    cases hl1 : p.heap[o1]? with
    | none => simp [hl1] at hmem
    | some l1 =>
      rw [hl1] at hmem
      by_cases hty1 : l1.Typ = .Option_line
      · simp only [hty1, if_true, List.mem_filterMap] at hmem
        obtain ⟨s, hs, hkey⟩ := hmem
        unfold option_key at hkey
        cases hn : p.heap[s]? with
        | none => simp [hn] at hkey
        | some n =>
          rw [hn] at hkey
          by_cases hk : n.Typ = .Option_long ∨ n.Typ = .Option_short
          · simp only [hk, if_true, Option.map_eq_some'] at hkey
            obtain ⟨t, ht, hv⟩ := hkey
            exact hl o1 ho1 l1 hl1 hty1 s hs n t hn hk.symm ht hv
          · simp [hk] at hkey
      · simp [hty1] at hmem
  have g1 := line_step_get_of_mem p.heap ma mb o t1.Value hstep (key_mem s1 n1 t1 hs1 hn1 hk1 ht1)
  have g2 := line_step_get_of_mem p.heap ma mb o t2.Value hstep (key_mem s2 n2 t2 hs2 hn2 hk2 ht2)
  have p1 := line_fold_get p.heap post t1.Value mb m0 hpost
    (key_later t1 (fun o1 ho1 l1 a b s c n t d e f => (hlater o1 ho1 l1 a b s c n t d e f).1))
  have p2 := line_fold_get p.heap post t2.Value mb m0 hpost
    (key_later t2 (fun o1 ho1 l1 a b s c n t d e f => (hlater o1 ho1 l1 a b s c n t d e f).2))
  exact ⟨ma.rules.length, p1.1.trans g1.1, p2.1.trans g2.1, lt_of_lt_of_le g1.2 p1.2⟩

theorem transform_aliases_share_rule_witness :
    transform_Options_section_to_map options_state = .ok (some options_map, none) ∧
      ∃ r, options_map.get "-s" = some r ∧ options_map.get "--separator" = some r ∧
        r < options_map.rules.length :=
  ⟨by rfl,
   transform_aliases_share_rule options_state options_map 0 1 2 3
    { Typ := .Options_section, Token := none, Parent := none, Children := [1], Repeat := false }
    { Typ := .Option_line, Token := none, Parent := some 0, Children := [2, 3], Repeat := false }
    { Typ := .Option_short, Token := some ⟨.SHORT, "-s", 0⟩, Parent := some 1, Children := [],
      Repeat := false }
    { Typ := .Option_long, Token := some ⟨.LONG, "--separator", 1⟩, Parent := some 1,
      Children := [4], Repeat := false }
    ⟨.SHORT, "-s", 0⟩ ⟨.LONG, "--separator", 1⟩ [] []
    (by rfl) (by rfl) (by rfl) (by rfl) (by rfl) (by rfl) (by decide) (by rfl)
    (by decide) (by rfl) (by decide) (by rfl) (by decide) (by rfl) (by simp)⟩


/-- Claim C2.  In the map `transform_Options_section_to_map` returns, the rule
built from an `Option_line` of the options section is stored in the map, and
every literal of an `Option_short`/`Option_long` direct child of the line that
no later line registers is a key of that rule.  The rule has `Arg_count = 1` if
some `Option_short`/`Option_long` direct child of the line has exactly one
child and that child is an `Option_argument`, and `Arg_count = 0` otherwise;
when it is 1, `Argument_name` is the token value of the `Option_argument` of
the last such option child. -/
theorem option_line_rule_arg_count (p : DocoptParser) (m : OptionsMap)
    (sec o : Nat) (nd ln : DocoptAst) (pre post : List Nat)
    (hmap : transform_Options_section_to_map p = .ok (some m, none))
    (hsec : p.options_node = some sec) (hnd : p.heap[sec]? = some nd)
    (hch : nd.Children = pre ++ o :: post)
    (hln : p.heap[o]? = some ln) (hty : ln.Typ = .Option_line) :
    ∃ rid r, m.rules[rid]? = some r ∧
      r.Arg_count = (if ln.Children.any (carries_argument p.heap) then 1 else 0) ∧
      (r.Arg_count = 1 ∨ r.Arg_count = 0) ∧
      (∀ s, (ln.Children.filter (carries_argument p.heap)).getLast? = some s →
        r.Argument_name = argument_literal p.heap s ∧ (argument_literal p.heap s).isSome) ∧
      (ln.Children.any (carries_argument p.heap) = false → r.Argument_name = none) ∧
      ∀ s ∈ ln.Children, ∀ n t, p.heap[s]? = some n →
        n.Typ = .Option_short ∨ n.Typ = .Option_long → n.Token = some t →
        (∀ o1 ∈ post, ∀ l1, p.heap[o1]? = some l1 → l1.Typ = .Option_line →
          ∀ s1 ∈ l1.Children, ∀ n1 t1, p.heap[s1]? = some n1 →
            n1.Typ = .Option_short ∨ n1.Typ = .Option_long → n1.Token = some t1 →
            t1.Value ≠ t.Value) →
        m.get t.Value = some rid := by
  unfold transform_Options_section_to_map at hmap
  rw [hsec] at hmap
  simp only [bind_eq_ok, node_eq_ok, pure_eq_ok] at hmap
  obtain ⟨nd1, hnd1, m0, hfold, hm0⟩ := hmap
  have hnd2 : nd1 = nd := by rw [hnd] at hnd1; exact (Option.some.inj hnd1).symm
  subst hnd2
  have hm : m0 = m := by simpa using hm0
  subst hm
  rw [hch, List.foldlM_append, bind_eq_ok] at hfold
  obtain ⟨ma, _, hfold⟩ := hfold
  rw [List.foldlM_cons, bind_eq_ok] at hfold
  obtain ⟨mb, hstep, hpost⟩ := hfold
  obtain ⟨r, hr, h1, h2, h3, h4⟩ := line_step_rule p.heap ma mb o ln hstep hln hty
  obtain ⟨ext, hext⟩ := line_fold_rules p.heap post mb m0 hpost
  refine ⟨ma.rules.length, r, ?_, h1, h2, h3, h4, ?_⟩
  · rw [hext, hr, List.append_assoc, List.getElem?_append_right (le_refl _)]
    simp
  · intro s hs n t hn hk ht hlater
    have hmem : t.Value ∈ line_keys p.heap o := by
      unfold line_keys
      rw [hln]
      simp only [hty, if_true, List.mem_filterMap]
      refine ⟨s, hs, ?_⟩
      unfold option_key
      rw [hn]
      simp [hk.symm, ht]
    have g1 := line_step_get_of_mem p.heap ma mb o t.Value hstep hmem
    have p1 := line_fold_get p.heap post t.Value mb m0 hpost
      (not_mem_line_keys_of_later p.heap post t.Value hlater)
    exact p1.1.trans g1.1

theorem option_line_rule_arg_count_witness :
    transform_Options_section_to_map options_state = .ok (some options_map, none) ∧
      ∃ rid r, options_map.rules[rid]? = some r ∧
        r.Arg_count = (if [2, 3].any (carries_argument options_heap) then 1 else 0) ∧
        (r.Arg_count = 1 ∨ r.Arg_count = 0) ∧
        (∀ s, ([2, 3].filter (carries_argument options_heap)).getLast? = some s →
          r.Argument_name = argument_literal options_heap s ∧
            (argument_literal options_heap s).isSome) ∧
        ([2, 3].any (carries_argument options_heap) = false → r.Argument_name = none) ∧
        ∀ s ∈ [2, 3], ∀ n t, options_heap[s]? = some n →
          n.Typ = .Option_short ∨ n.Typ = .Option_long → n.Token = some t →
          (∀ o1 ∈ ([] : List Nat), ∀ l1, options_heap[o1]? = some l1 → l1.Typ = .Option_line →
            ∀ s1 ∈ l1.Children, ∀ n1 t1, options_heap[s1]? = some n1 →
              n1.Typ = .Option_short ∨ n1.Typ = .Option_long → n1.Token = some t1 →
              t1.Value ≠ t.Value) →
          options_map.get t.Value = some rid :=
  ⟨by rfl,
   option_line_rule_arg_count options_state options_map 0 1
    { Typ := .Options_section, Token := none, Parent := none, Children := [1], Repeat := false }
    { Typ := .Option_line, Token := none, Parent := some 0, Children := [2, 3], Repeat := false }
    [] [] (by rfl) (by rfl) (by rfl) (by rfl) (by rfl) (by rfl)⟩

/-- Claim C3, refuted as stated.  For the options section whose `Option_line`
holds `Option_short "-s"` and `Option_long "--separator"` inside an
`Option_alternative_group`, `transform_Options_section_to_map` returns a map in
which neither `"-s"` nor `"--separator"` is a key. -/
theorem transform_grouped_aliases_absent :
    ∃ m, transform_Options_section_to_map grouped_options_state = .ok (some m, none) ∧
      m.get "-s" = none ∧ m.get "--separator" = none :=
  ⟨{ entries := [], rules := [OptionRule.empty] }, by rfl, by rfl, by rfl⟩

/-- Claim C3, amended.  For the options section `Parse` builds from the line
`-s, --separator=<str>  Field separator.`, whose `Option_line` holds
`Option_short "-s"` and `Option_long "--separator"` as direct children (the long
carrying one `Option_argument "<str>"`) followed by the `Option_description`,
`transform_Options_section_to_map` returns a map in which `"-s"` and
`"--separator"` are keys of the same rule, with `Arg_count = 1`. -/
theorem transform_direct_aliases_share_rule :
    after_Parse 40 options_source (fun p => labels_at p.heap [3, 1]) =
        some (some [some (.Option_short, some "-s"), some (.Option_long, some "--separator"),
                    some (.Option_description, none)]) ∧
      after_Parse 40 options_source (fun p => labels_at p.heap [3, 1, 1]) =
        some (some [some (.Option_argument, some "<str>")]) ∧
      after_Parse 40 options_source (fun p => (options_of p).map fun m => rule_of m "-s") =
        some (some (some (0, 1, some "<str>"))) ∧
      after_Parse 40 options_source
          (fun p => (options_of p).map fun m => rule_of m "--separator") =
        some (some (some (0, 1, some "<str>"))) := by
  refine ⟨?_, ?_, ?_, ?_⟩ <;> decide!

/-- Claim C4, refuted as stated.  `Consume_option_line` on the tokens `-s`, `,`,
`--separator`, NEWLINE returns nil and leaves an `Option_line` whose direct
children are the `Option_short` and the `Option_long`; the tree holds no
`Option_alternative_group`. -/
theorem option_line_comma_no_group :
    after_options_entry
        [.tok .LONG_BLANK "  ", .tok .SHORT "-s", .tok .PUNCT ",", .tok .LONG "--separator",
         .tok .NEWLINE "\n"]
        (Consume_option_line 20) (fun r => r.1) = some none ∧
      after_options_entry
        [.tok .LONG_BLANK "  ", .tok .SHORT "-s", .tok .PUNCT ",", .tok .LONG "--separator",
         .tok .NEWLINE "\n"]
        (Consume_option_line 20) (fun r => labels_at r.2.heap [0, 0]) =
        some (some [some (.Option_short, some "-s"), some (.Option_long, some "--separator")]) ∧
      after_options_entry
        [.tok .LONG_BLANK "  ", .tok .SHORT "-s", .tok .PUNCT ",", .tok .LONG "--separator",
         .tok .NEWLINE "\n"]
        (Consume_option_line 20)
        (fun r => (kinds r.2.heap).contains .Option_alternative_group) = some false := by
  refine ⟨?_, ?_, ?_⟩ <;> decide!

/-- Claim C4, amended.  When the loop of `Consume_option_line` meets `PUNCT ","`
it only skips the token: the tree and the current node are unchanged and the
loop goes on with the next token, so the option nodes stay direct children of
the `Option_line`. -/
theorem option_line_skips_comma (n : Nat) (err : Option String) (p p1 : DocoptParser)
    (tok : Token) (hrun : p.run = true) (hnext : NextToken p = .ok p1)
    (htok : p1.current_token = some tok) (hty : tok.Typ = .PUNCT) (hv : tok.Value = ",") :
    SameTree p p1 ∧
      Consume_option_line_loop (n + 1) err p = Consume_option_line_loop n err p1 := by
  refine ⟨NextToken_frame p p1 hnext, ?_⟩
  rw [Consume_option_line_loop]
  simp [hrun, hnext, htok, deref, hty, hv, bind, Except.bind]

theorem option_line_skips_comma_witness :
    SameTree comma_state (result_or (NextToken comma_state) comma_state) ∧
      Consume_option_line_loop (3 + 1) none comma_state =
        Consume_option_line_loop 3 none (result_or (NextToken comma_state) comma_state) :=
  option_line_skips_comma 3 none comma_state (result_or (NextToken comma_state) comma_state)
    ⟨.PUNCT, ",", 1⟩ (by rfl) (by rfl) (by rfl) (by rfl) (by rfl)

/-- Claim C5.  Alternative-group surgery.  When `Consume_Usage_Expr` receives
`PUNCT "|"` while the current node is a `Usage_Expr` whose parent is a
`Usage_line` `L` with children `P :: cs` (nodes of the tree), it returns
`Continue` with a nil
error; afterwards `L` has exactly the children `[P, E]`, where `E` is a new
`Usage_Expr` whose only child is a new `Usage_required_group` `G`, the children
of `G` are exactly `cs` in their order (each with `G` as parent) and the current
node is `G`.  A following terminal token is appended inside a fresh `Usage_Expr`
child of `G`. -/
theorem pipe_outside_group_surgery (fuel : Nat) (p : DocoptParser) (tok : Token)
    (cur L P : Nat) (cs : List Nat) (nd ln : DocoptAst)
    (htok : p.current_token = some tok) (hty : tok.Typ = .PUNCT) (hv : tok.Value = "|")
    (hcur : p.current_node = some cur) (hnd : p.heap[cur]? = some nd)
    (hndt : nd.Typ = .Usage_Expr) (hpar : nd.Parent = some L)
    (hln : p.heap[L]? = some ln) (hlt : ln.Typ = .Usage_line)
    (hch : ln.Children = P :: cs) (hvalid : ∀ c ∈ cs, c < p.heap.length) :
    ∃ p1, Consume_Usage_Expr fuel p = .ok (Continue, none, p1) ∧
      p1.current_node = some (p.heap.length + 1) ∧
      children_of p1.heap L = [P, p.heap.length] ∧
      p1.heap[p.heap.length]? = some
        { Typ := .Usage_Expr, Token := none, Parent := some L,
          Children := [p.heap.length + 1], Repeat := false } ∧
      p1.heap[p.heap.length + 1]? = some
        { Typ := .Usage_required_group, Token := none, Parent := some p.heap.length,
          Children := cs, Repeat := false } ∧
      (∀ c ∈ cs, ∃ cn, p1.heap[c]? = some cn ∧ cn.Parent = some (p.heap.length + 1)) ∧
      ∀ (q : DocoptParser) (tok2 : Token) (t : DocoptNodeType),
        q.heap = p1.heap → q.current_node = p1.current_node →
        q.current_token = some tok2 → usage_terminal tok2.Typ = some t →
        ∃ q1 r, Consume_Usage_Expr fuel q = .ok (r, none, q1) ∧ r.Leaving = false ∧
          children_of q1.heap (p.heap.length + 1) = cs ++ [p.heap.length + 2] ∧
          q1.heap[p.heap.length + 2]? = some
            { Typ := .Usage_Expr, Token := none, Parent := some (p.heap.length + 1),
              Children := [p.heap.length + 3], Repeat := false } ∧
          q1.heap[p.heap.length + 3]? = some
            { Typ := t, Token := some tok2, Parent := some (p.heap.length + 2),
              Children := [], Repeat := false } := by
  obtain ⟨h1, hrun, hlen, hE, hG, hold⟩ := pipe_surgery_spec p L P cs ln hln hch hvalid
  refine ⟨{ p with heap := h1, current_node := some (p.heap.length + 1) }, ?_, rfl, ?_, hE, hG,
    ?_, ?_⟩
  · rw [Consume_Usage_Expr_pipe fuel p tok cur L nd ln htok hty hv hcur hnd hndt hpar hln hlt,
      hrun]
    rfl
  · unfold children_of
    simp only []
    rw [hold L ln hln]
    simp
  · intro c hc
    have hcl := hvalid c hc
    refine ⟨_, hold c p.heap[c] (List.getElem?_eq_getElem hcl), ?_⟩
    simp [hc]
  · intro q tok2 t hqh hqc hqt hterm
    simp only [] at hqh hqc
    obtain ⟨q1, hq1, _, hq3, hq4, hq5⟩ := Consume_Usage_Expr_terminal_fresh fuel q tok2
      (p.heap.length + 1)
      { Typ := .Usage_required_group, Token := none, Parent := some p.heap.length,
        Children := cs, Repeat := false } t hqt hterm hqc (by rw [hqh]; exact hG) (by simp)
    rw [hqh, hlen] at hq3 hq4 hq5
    refine ⟨q1, Reason.zero, hq1, rfl, ?_, hq4, hq5⟩
    unfold children_of
    rw [hq3]

theorem pipe_outside_group_surgery_witness :
    ∃ p1, Consume_Usage_Expr 5 pipe_state = .ok (Continue, none, p1) ∧
      p1.current_node = some (pipe_state.heap.length + 1) ∧
      children_of p1.heap 4 = [5, pipe_state.heap.length] ∧
      p1.heap[pipe_state.heap.length]? = some
        { Typ := .Usage_Expr, Token := none, Parent := some 4,
          Children := [pipe_state.heap.length + 1], Repeat := false } ∧
      p1.heap[pipe_state.heap.length + 1]? = some
        { Typ := .Usage_required_group, Token := none, Parent := some pipe_state.heap.length,
          Children := [6], Repeat := false } ∧
      (∀ c ∈ [6], ∃ cn, p1.heap[c]? = some cn ∧
        cn.Parent = some (pipe_state.heap.length + 1)) ∧
      ∀ (q : DocoptParser) (tok2 : Token) (t : DocoptNodeType),
        q.heap = p1.heap → q.current_node = p1.current_node →
        q.current_token = some tok2 → usage_terminal tok2.Typ = some t →
        ∃ q1 r, Consume_Usage_Expr 5 q = .ok (r, none, q1) ∧ r.Leaving = false ∧
          children_of q1.heap (pipe_state.heap.length + 1) =
            [6] ++ [pipe_state.heap.length + 2] ∧
          q1.heap[pipe_state.heap.length + 2]? = some
            { Typ := .Usage_Expr, Token := none, Parent := some (pipe_state.heap.length + 1),
              Children := [pipe_state.heap.length + 3], Repeat := false } ∧
          q1.heap[pipe_state.heap.length + 3]? = some
            { Typ := t, Token := some tok2, Parent := some (pipe_state.heap.length + 2),
              Children := [], Repeat := false } :=
  pipe_outside_group_surgery 5 pipe_state ⟨.PUNCT, "|", 3⟩ 6 4 5 [6]
    { Typ := .Usage_Expr, Token := none, Parent := some 4, Children := [7], Repeat := false }
    { Typ := .Usage_line, Token := none, Parent := some 2, Children := [5, 6], Repeat := false }
    (by decide!) (by rfl) (by rfl) (by decide!) (by decide!) (by rfl) (by rfl) (by decide!)
    (by rfl) (by rfl) (by decide!)

/-- Claim C6.  Parent/child consistency is preserved by the alternative-group
surgery: if before a top-level `|` the tree is consistent (every node with a
parent occurs exactly once among the children of its parent, and the children
lists agree with the parent pointers), then `Consume_Usage_Expr` succeeds and
the tree is consistent afterwards, the new `Usage_Expr`, the new
`Usage_required_group` and the moved children included, and no node is a child
of more than one parent. -/
theorem pipe_surgery_preserves_consistency (fuel : Nat) (p : DocoptParser) (tok : Token)
    (cur L : Nat) (nd ln : DocoptAst)
    (htok : p.current_token = some tok) (hty : tok.Typ = .PUNCT) (hv : tok.Value = "|")
    (hcur : p.current_node = some cur) (hnd : p.heap[cur]? = some nd)
    (hndt : nd.Typ = .Usage_Expr) (hpar : nd.Parent = some L)
    (hln : p.heap[L]? = some ln) (hlt : ln.Typ = .Usage_line)
    (hc : Consistent p.heap) :
    ∃ p1, Consume_Usage_Expr fuel p = .ok (Continue, none, p1) ∧
      Consistent p1.heap ∧
      ∀ (m1 m2 c : Nat) (n1 n2 : DocoptAst), p1.heap[m1]? = some n1 → p1.heap[m2]? = some n2 →
        c ∈ n1.Children → c ∈ n2.Children → m1 = m2 := by
  obtain ⟨pn, hpn, hcnt⟩ := hc.1 cur nd L hnd hpar
  have hpnln : pn = ln := by rw [hln] at hpn; exact (Option.some.inj hpn).symm
  subst hpnln
  obtain ⟨P, cs, hch⟩ : ∃ P cs, pn.Children = P :: cs := by
    cases hcc : pn.Children with
    | nil => rw [hcc] at hcnt; simp at hcnt
    | cons a l => exact ⟨a, l, rfl⟩
  have hvalid : ∀ c ∈ cs, c < p.heap.length := by
    intro c hcm
    obtain ⟨cn, hcn, _⟩ := hc.2 L pn c hln (by rw [hch]; simp [hcm])
    exact lt_of_getElem?_eq_some _ _ _ hcn
  obtain ⟨h1, hrun, hlen, hE, hG, hold⟩ := pipe_surgery_spec p L P cs pn hln hch hvalid
  have hcons : Consistent h1 := surgery_consistent p.heap h1 L P cs pn hln hch hlen hE hG hold hc
  refine ⟨{ p with heap := h1, current_node := some (p.heap.length + 1) }, ?_, hcons, ?_⟩
  · rw [Consume_Usage_Expr_pipe fuel p tok cur L nd pn htok hty hv hcur hnd hndt hpar hln hlt,
      hrun]
    rfl
  · intro m1 m2 c n1 n2 h1m h2m hc1 hc2
    obtain ⟨cn1, hcn1, hp1⟩ := hcons.2 m1 n1 c h1m hc1
    obtain ⟨cn2, hcn2, hp2⟩ := hcons.2 m2 n2 c h2m hc2
    rw [hcn1] at hcn2
    have : cn1 = cn2 := Option.some.inj hcn2
    subst this
    rw [hp1] at hp2
    exact Option.some.inj hp2

theorem pipe_surgery_preserves_consistency_witness :
    Consistent pipe_state.heap ∧
      ∃ p1, Consume_Usage_Expr 5 pipe_state = .ok (Continue, none, p1) ∧
        Consistent p1.heap ∧
        ∀ (m1 m2 c : Nat) (n1 n2 : DocoptAst), p1.heap[m1]? = some n1 →
          p1.heap[m2]? = some n2 → c ∈ n1.Children → c ∈ n2.Children → m1 = m2 :=
  ⟨consistent_of_check _ (by decide!),
   pipe_surgery_preserves_consistency 5 pipe_state ⟨.PUNCT, "|", 3⟩ 6 4
    { Typ := .Usage_Expr, Token := none, Parent := some 4, Children := [7], Repeat := false }
    { Typ := .Usage_line, Token := none, Parent := some 2, Children := [5, 6], Repeat := false }
    (by decide!) (by rfl) (by rfl) (by decide!) (by decide!) (by rfl) (by rfl) (by decide!)
    (by rfl) (consistent_of_check _ (by decide!))⟩

/-- Claim C7, refuted as stated.  For the tokens of `Usage: p [-c COLOR] FILE` the
children of the `Usage_optional_group` are not the two terminals
`Usage_short_option "-c"` and `Usage_argument "COLOR"`. -/
theorem optional_group_children_not_terminals :
    after_Parse 40 color_source (fun p => labels_at p.heap [1, 1, 1, 0]) ≠
      some (some [some (.Usage_short_option, some "-c"), some (.Usage_argument, some "COLOR")]) := by
  decide!

/-- Claim C7, amended.  For the tokens of `Usage: p [-c COLOR] FILE` the usage line
has the single `Usage_Expr`, whose children are exactly
`[Usage_optional_group, Usage_argument "FILE"]`; the only child of the
`Usage_optional_group` is a `Usage_Expr`, and the children of that `Usage_Expr`
are `[Usage_short_option "-c", Usage_argument "COLOR"]`. -/
theorem optional_group_holds_usage_expr :
    after_Parse 40 color_source (fun p => labels_at p.heap [1, 1]) =
        some (some [some (.Prog_name, some "p"), some (.Usage_Expr, none)]) ∧
      after_Parse 40 color_source (fun p => labels_at p.heap [1, 1, 1]) =
        some (some [some (.Usage_optional_group, none), some (.Usage_argument, some "FILE")]) ∧
      after_Parse 40 color_source (fun p => labels_at p.heap [1, 1, 1, 0]) =
        some (some [some (.Usage_Expr, none)]) ∧
      after_Parse 40 color_source (fun p => labels_at p.heap [1, 1, 1, 0, 0]) =
        some (some [some (.Usage_short_option, some "-c"),
                    some (.Usage_argument, some "COLOR")]) := by
  refine ⟨?_, ?_, ?_, ?_⟩ <;> decide!

/-- Claim C8, the code at the failing input.  For the token stream `USAGE`,
`PROG_NAME "p"`, `NEWLINE`, `LONG_BLANK`, `PROG_NAME "p"`, `IDENT "two"`,
`NEWLINE` (the usage lines `Usage:p` and `   p two`, with nothing between the
keyword and the program name), when `Consume_Usage_Expr` receives the second
`PROG_NAME "p"` the
token history holds exactly the three tokens `NEWLINE`, `LONG_BLANK`,
`PROG_NAME "p"`, and `has_reach_PROG_NAME` returns false, leaving the reason
untouched; so the second line starts no `Usage_line`.  With one more token
before the three it returns true and stores `PROG_NAME_sequence`, and for
`Usage: p one` and `   p two` the second line starts a `Usage_line`. -/
theorem has_reach_PROG_NAME_three_tokens :
    second_line_state.Prog_name = "p" ∧
      second_line_state.current_token = some ⟨.PROG_NAME, "p", 4⟩ ∧
      second_line_state.tokens =
        [some ⟨.NEWLINE, "\n", 2⟩, some ⟨.LONG_BLANK, "   ", 3⟩, some ⟨.PROG_NAME, "p", 4⟩] ∧
      has_reach_PROG_NAME second_line_state Reason.zero = .ok (false, Reason.zero) ∧
      has_reach_PROG_NAME (line_start_state []) Reason.zero = .ok (false, Reason.zero) ∧
      has_reach_PROG_NAME (line_start_state [some ⟨.IDENT, "one", 0⟩]) Reason.zero =
        .ok (true, PROG_NAME_sequence) ∧
      after_Parse 40 bare_first_line_source (fun p => labels_at p.heap [1]) =
        some (some [some (.Usage, some "Usage:"), some (.Usage_line, none)]) ∧
      after_Parse 40 two_lines_source (fun p => labels_at p.heap [1]) =
        some (some [some (.Usage, some "Usage:"), some (.Usage_line, none),
                    some (.Usage_line, none)]) := by
  refine ⟨by decide!, by decide!, by decide!, ?_, by rfl, by rfl, by decide!, by decide!⟩
  have h1 : second_line_state.tokens.length = 3 := by decide!
  have h2 : second_line_state.current_token = some ⟨.PROG_NAME, "p", 4⟩ := by decide!
  have h3 : second_line_state.Prog_name = "p" := by decide!
  unfold has_reach_PROG_NAME
  rw [h2]
  simp [h1, h3, pure, Except.pure]

/-- Claim C9, the code at the failing input.  On the option line `-a=` the call
`Consume_assign(p.next_token)` made for the `=` returns an error (the next token
is a NEWLINE), and `Consume_option_line` returns nil. -/
theorem option_line_drops_assign_error :
    dangling_assign_state.current_token = some ⟨.PUNCT, "=", 2⟩ ∧
      (Consume_assign dangling_assign_state dangling_assign_state.next_token).toOption.map
          (fun r => r.1.isSome) = some true ∧
      after_options_entry dangling_assign_source (Consume_option_line 20) (fun r => r.1) =
        some none := by
  refine ⟨?_, ?_, ?_⟩ <;> decide!

/-- Claim C10, the code at the failing input.  In the description `a`, NEWLINE, `b`,
LONG_BLANK, `-x` the LONG_BLANK stands in the middle of a line (the token
before it is `b`), yet `Consume_option_description` leaves on it: the
description holds the three nodes `a`, NEWLINE, `b` only, the LONG_BLANK is
pushed back (the lexer is back at its position 6 and no token is current) and
nil is returned. -/
theorem description_leaves_on_midline_blank :
    after_options_entry midline_blank_source (Consume_option_line 20) (fun r => r.1) =
        some none ∧
      after_options_entry midline_blank_source (Consume_option_line 20)
          (fun r => labels_at r.2.heap [0, 0]) =
        some (some [some (.Option_short, some "-s"), some (.Option_description, none)]) ∧
      after_options_entry midline_blank_source (Consume_option_line 20)
          (fun r => labels_at r.2.heap [0, 0, 1]) =
        some (some [some (.Description_node, some "a"), some (.Description_node, some "\n"),
                    some (.Description_node, some "b")]) ∧
      after_options_entry midline_blank_source (Consume_option_line 20)
          (fun r => (r.2.s.pos, r.2.current_token)) = some (6, none) := by
  refine ⟨?_, ?_, ?_, ?_⟩ <;> decide!

/-- Claim C11.  `Consume_assign(argument)` returns nil if and only if `argument`
has kind `ARGUMENT` and the current node has a last child of type
`Usage_long_option`, `Option_long` or `Option_short`.  On success exactly one
node carrying `argument` is appended as a child of that last child, of type
`Usage_argument` when the last child is a `Usage_long_option` and
`Option_argument` when it is an `Option_long` or `Option_short`, and nothing
else changes; on failure the parser, hence the tree, is unchanged. -/
theorem Consume_assign_spec (p : DocoptParser) (arg : Token) (c : Nat) (nd : DocoptAst)
    (hcur : p.current_node = some c) (hnd : p.heap[c]? = some nd)
    (hlast : ∀ l, nd.Children.getLast? = some l → ∃ ln, p.heap[l]? = some ln) :
    ∃ err p1, Consume_assign p (some arg) = .ok (err, p1) ∧
      (err = none ↔ arg.Typ = .ARGUMENT ∧ ∃ l ln, nd.Children.getLast? = some l ∧
        p.heap[l]? = some ln ∧
        (ln.Typ = .Usage_long_option ∨ ln.Typ = .Option_long ∨ ln.Typ = .Option_short)) ∧
      (err ≠ none → p1 = p) ∧
      (err = none → ∃ l ln, nd.Children.getLast? = some l ∧ p.heap[l]? = some ln ∧
        p1 = { p with
          heap := p.heap.set l { ln with Children := ln.Children ++ [p.heap.length] } ++
            [{ Typ := if ln.Typ = .Usage_long_option then .Usage_argument
                      else .Option_argument,
               Token := some arg, Parent := some l, Children := [], Repeat := false }] }) := by
  by_cases ha : arg.Typ = .ARGUMENT
  · cases hl : nd.Children.getLast? with
    | none =>
      exact ⟨_, _, Consume_assign_no_child p arg c nd hcur hnd ha hl, by simp, fun _ => rfl,
        by simp⟩
    | some l =>
      obtain ⟨ln, hln⟩ := hlast l hl
      by_cases hT : ln.Typ = .Usage_long_option ∨ ln.Typ = .Option_long ∨ ln.Typ = .Option_short
      · exact ⟨_, _, Consume_assign_attach p arg c l nd ln hcur hnd ha hl hln hT,
          by simp [ha, hln, hT], by simp, fun _ => ⟨l, ln, rfl, hln, rfl⟩⟩
      · have h1 : ln.Typ ≠ .Usage_long_option := fun h => hT (Or.inl h)
        have h2 : ln.Typ ≠ .Option_long := fun h => hT (Or.inr (Or.inl h))
        have h3 : ln.Typ ≠ .Option_short := fun h => hT (Or.inr (Or.inr h))
        exact ⟨_, _, Consume_assign_bad_child p arg c l nd ln hcur hnd ha hl hln h1 h2 h3,
          by simp [hln, h1, h2, h3], fun _ => rfl, by simp⟩
  · exact ⟨_, _, Consume_assign_not_argument p arg c nd hcur hnd ha, by simp [ha],
      fun _ => rfl, by simp⟩

theorem Consume_assign_spec_witness :
    ∃ err p1, Consume_assign dangling_assign_state (some ⟨.ARGUMENT, "<v>", 3⟩) = .ok (err, p1) ∧
      (err = none ↔ (⟨.ARGUMENT, "<v>", 3⟩ : Token).Typ = .ARGUMENT ∧
        ∃ l ln, [3].getLast? = some l ∧ dangling_assign_state.heap[l]? = some ln ∧
        (ln.Typ = .Usage_long_option ∨ ln.Typ = .Option_long ∨ ln.Typ = .Option_short)) ∧
      (err ≠ none → p1 = dangling_assign_state) ∧
      (err = none → ∃ l ln, [3].getLast? = some l ∧ dangling_assign_state.heap[l]? = some ln ∧
        p1 = { dangling_assign_state with
          heap := dangling_assign_state.heap.set l
              { ln with Children := ln.Children ++ [dangling_assign_state.heap.length] } ++
            [{ Typ := if ln.Typ = .Usage_long_option then .Usage_argument
                      else .Option_argument,
               Token := some ⟨.ARGUMENT, "<v>", 3⟩, Parent := some l, Children := [],
               Repeat := false }] }) :=
  Consume_assign_spec dangling_assign_state ⟨.ARGUMENT, "<v>", 3⟩ 2
    { Typ := .Option_line, Token := none, Parent := some 1, Children := [3], Repeat := false }
    (by decide!) (by decide!)
    (fun l hl => ⟨{ Typ := .Option_short, Token := some ⟨.SHORT, "-a", 1⟩, Parent := some 2,
                    Children := [], Repeat := false },
      by
        have : l = 3 := by simpa using hl.symm
        subst this
        decide!⟩)

/-- Claim C13, the code at the failing input.  For `Usage: p ( a` with the input
ending inside the parenthesis, the open group is a `Usage_required_group` and
the error `Consume_Usage` returns is the one of `Consume_group` on `EOF`: it
names the closer `]`, and no `)` occurs in it.  For `Usage: p [ a` the open
group is a `Usage_optional_group` and the error is the same text. -/
theorem unterminated_paren_names_bracket :
    after_Usage 40 open_paren_source (fun r => labels_at r.2.heap [1, 1, 1]) =
        some (some [some (.Usage_required_group, none)]) ∧
      after_Usage 40 open_paren_source (fun r => r.1) =
        some (some "Usage_Expr: EOF unexpected, missing closing bracket ']'") ∧
      ¬ ("Usage_Expr: EOF unexpected, missing closing bracket ']'".data.contains ')') ∧
      after_Usage 40 open_bracket_source (fun r => labels_at r.2.heap [1, 1, 1]) =
        some (some [some (.Usage_optional_group, none)]) ∧
      after_Usage 40 open_bracket_source (fun r => r.1) =
        some (some "Usage_Expr: EOF unexpected, missing closing bracket ']'") := by
  refine ⟨?_, ?_, ?_, ?_, ?_⟩ <;> decide!

/-- What `Consume_group` does when it meets `EOF`, `PROG_NAME` or `USAGE`: it
returns `Error` with a non-nil error and leaves the parser unchanged (no node
is added).  On `EOF` and `PROG_NAME` the message ends in the fixed text
`missing closing bracket ']'`, whatever the kind of the open group; on `USAGE`
the message reports the invalid token. -/
theorem Consume_group_unterminated (fuel : Nat) (p : DocoptParser) (tok : Token) (c : Nat)
    (nd : DocoptAst) (htok : p.current_token = some tok)
    (hk : tok.Typ = .EOF ∨ tok.Typ = .PROG_NAME ∨ tok.Typ = .USAGE)
    (hcur : p.current_node = some c) (hnd : p.heap[c]? = some nd) :
    ∃ msg, Consume_group (fuel + 1) p = .ok (Error, some msg, p) ∧
      (tok.Typ ≠ .USAGE →
        msg = nd.Typ.String ++ ": " ++ tok.Typ.name ++
          " unexpected, missing closing bracket ']'") ∧
      (tok.Typ = .USAGE →
        msg = nd.Typ.String ++ ": USAGE invalid Token: " ++ fmtToken (some tok)) := by
  rw [Consume_group]
  rcases hk with hk | hk | hk
  · refine ⟨nd.Typ.String ++ ": " ++ tok.Typ.name ++
      " unexpected, missing closing bracket ']'", ?_, ?_, ?_⟩
    · simp [htok, deref, hk, curNodeType, hcur, node, hnd, bind, Except.bind, pure,
        Except.pure]
    · intro _; rfl
    · intro h; rw [hk] at h; exact absurd h (by decide)
  · refine ⟨nd.Typ.String ++ ": " ++ tok.Typ.name ++
      " unexpected, missing closing bracket ']'", ?_, ?_, ?_⟩
    · simp [htok, deref, hk, curNodeType, hcur, node, hnd, bind, Except.bind, pure,
        Except.pure]
    · intro _; rfl
    · intro h; rw [hk] at h; exact absurd h (by decide)
  · refine ⟨nd.Typ.String ++ ": USAGE invalid Token: " ++ fmtToken (some tok), ?_, ?_, ?_⟩
    · simp [htok, deref, hk, curNodeType, hcur, node, hnd, bind, Except.bind, pure,
        Except.pure]
    · intro h; exact absurd hk h
    · intro _; rfl

/-- Claim C14, the code at the failing input.  Inside a group a `LONG_BLANK` is
not skipped: for `Usage: p [a  b]` `Consume_group` returns the error of its
default case on the `LONG_BLANK` and `b` is never added; outside a group
(`Usage: p a  b`) `Consume_Usage_Expr` skips the same token, and a single
`NEWLINE` inside a group is skipped. -/
theorem group_rejects_long_blank :
    after_Usage 40 group_blank_source (fun r => r.1) =
        some (some "Usage_Expr: unmatched node, invalid Token:   ") ∧
      after_Usage 40 group_blank_source (fun r => labels_at r.2.heap [1, 1, 1, 0, 0]) =
        some (some [some (.Usage_command, some "a")]) ∧
      after_Usage 40 expr_blank_source (fun r => r.1) = some none ∧
      after_Usage 40 expr_blank_source (fun r => labels_at r.2.heap [1, 1, 1]) =
        some (some [some (.Usage_command, some "a"), some (.Usage_command, some "b")]) ∧
      after_Usage 40 group_newline_source (fun r => r.1) = some none ∧
      after_Usage 40 group_newline_source (fun r => labels_at r.2.heap [1, 1, 1, 0, 0]) =
        some (some [some (.Usage_command, some "a"), some (.Usage_command, some "b")]) := by
  refine ⟨?_, ?_, ?_, ?_, ?_, ?_⟩ <;> decide!

theorem Consume_group_unterminated_witness :
    ∃ msg, Consume_group (3 + 1) open_bracket_state = .ok (Error, some msg, open_bracket_state) ∧
      ((⟨.EOF, "", 4⟩ : Token).Typ ≠ .USAGE →
        msg = DocoptNodeType.Usage_Expr.String ++ ": " ++ TokenKind.EOF.name ++
          " unexpected, missing closing bracket ']'") ∧
      ((⟨.EOF, "", 4⟩ : Token).Typ = .USAGE →
        msg = DocoptNodeType.Usage_Expr.String ++ ": USAGE invalid Token: " ++
          fmtToken (some ⟨.EOF, "", 4⟩)) :=
  Consume_group_unterminated 3 open_bracket_state ⟨.EOF, "", 4⟩ 8
    { Typ := .Usage_Expr, Token := none, Parent := some 7, Children := [9], Repeat := false }
    (by decide!) (Or.inl rfl) (by decide!) (by decide!)

/-- Claim C18.  `Consume_ellipsis` sets `Repeat = true` on the last child of the
current node and leaves every other node and field unchanged; it returns an
error, changing nothing, if and only if the current node has no children.  So
for `Usage: p FILE...` the `Usage_argument "FILE"` node carries `Repeat = true`,
and for `Usage: p ...`, where the active `Usage_Expr` has no child, an error is
returned. -/
theorem Consume_ellipsis_spec (p : DocoptParser) (c : Nat) (nd : DocoptAst)
    (hcur : p.current_node = some c) (hnd : p.heap[c]? = some nd)
    (hlast : ∀ l, nd.Children.getLast? = some l → ∃ ln, p.heap[l]? = some ln) :
    (∃ err p1, Consume_ellipsis p = .ok (err, p1) ∧
      (err ≠ none ↔ nd.Children = []) ∧
      (err ≠ none → p1 = p) ∧
      (err = none → ∃ l ln, nd.Children.getLast? = some l ∧ p.heap[l]? = some ln ∧
        p1 = { p with heap := p.heap.set l { ln with Repeat := true } })) ∧
    after_Usage 40 repeat_source (fun r => r.1) = some none ∧
    after_Usage 40 repeat_source (fun r => node_at r.2.heap [1, 1, 1, 0]) =
      some (some { Typ := .Usage_argument, Token := some ⟨.ARGUMENT, "FILE", 2⟩,
                   Parent := some 6, Children := [], Repeat := true }) ∧
    after_Usage 40 leading_ellipsis_source (fun r => r.1.isSome) = some true ∧
    after_Usage 40 leading_ellipsis_source (fun r => labels_at r.2.heap [1, 1, 1]) =
      some (some []) := by
  refine ⟨?_, by decide!, by decide!, by decide!, by decide!⟩
  unfold Consume_ellipsis
  cases hl : nd.Children.getLast? with
  | none =>
    have hnil : nd.Children = [] := List.getLast?_eq_none_iff.mp hl
    refine ⟨some (nd.Typ.String ++
      ": elipsis not expected on such node without Children, invalid Token: " ++
      fmtToken p.current_token), p, ?_, ?_, ?_, ?_⟩
    · simp only [hcur, deref, node, hnd, hl, bind, Except.bind, pure, Except.pure]
    · simp [hnil]
    · intro _; rfl
    · simp
  | some l =>
    obtain ⟨ln, hln⟩ := hlast l hl
    have hne : nd.Children ≠ [] := by
      intro h; rw [h] at hl; simp at hl
    refine ⟨none, { p with heap := p.heap.set l { ln with Repeat := true } }, ?_, ?_, ?_, ?_⟩
    · simp only [hcur, deref, node, hnd, hl, hln, bind, Except.bind, pure, Except.pure]
    · simp [hne]
    · simp
    · intro _
      exact ⟨l, ln, rfl, hln, rfl⟩

theorem Consume_ellipsis_spec_witness :
    (∃ err p1, Consume_ellipsis ellipsis_state = .ok (err, p1) ∧
      (err ≠ none ↔ [7] = []) ∧
      (err ≠ none → p1 = ellipsis_state) ∧
      (err = none → ∃ l ln, [7].getLast? = some l ∧ ellipsis_state.heap[l]? = some ln ∧
        p1 = { ellipsis_state with
               heap := ellipsis_state.heap.set l { ln with Repeat := true } })) ∧
    after_Usage 40 repeat_source (fun r => r.1) = some none ∧
    after_Usage 40 repeat_source (fun r => node_at r.2.heap [1, 1, 1, 0]) =
      some (some { Typ := .Usage_argument, Token := some ⟨.ARGUMENT, "FILE", 2⟩,
                   Parent := some 6, Children := [], Repeat := true }) ∧
    after_Usage 40 leading_ellipsis_source (fun r => r.1.isSome) = some true ∧
    after_Usage 40 leading_ellipsis_source (fun r => labels_at r.2.heap [1, 1, 1]) =
      some (some []) :=
  Consume_ellipsis_spec ellipsis_state 6
    { Typ := .Usage_Expr, Token := none, Parent := some 4, Children := [7], Repeat := false }
    (by decide!) (by decide!)
    (fun l hl => ⟨{ Typ := .Usage_argument, Token := some ⟨.ARGUMENT, "FILE", 2⟩,
                    Parent := some 6, Children := [], Repeat := false },
      by
        have : l = 7 := by simpa using hl.symm
        subst this
        decide!⟩)

/-- Claim C19.  For a current token of kind `SHORT`, `LONG`, `ARGUMENT` or
`IDENT` (no leaving condition applies to these kinds) `Consume_Usage_Expr`
appends exactly one terminal node carrying the token, of type
`Usage_short_option`, `Usage_long_option`, `Usage_argument` or `Usage_command`
respectively, as the last child of the active `Usage_Expr`, first creating a
`Usage_Expr` under the current node (and making it current) when the current
node is not one; it returns a non-leaving reason with a nil error and changes
nothing else.  So `Usage: myprog go` yields
`Usage_line[Prog_name "myprog", Usage_Expr[Usage_command "go"]]`. -/
theorem Consume_Usage_Expr_terminal (fuel : Nat) (p : DocoptParser) (tok : Token)
    (t : DocoptNodeType) (c : Nat) (nd : DocoptAst)
    (htok : p.current_token = some tok) (hterm : usage_terminal tok.Typ = some t)
    (hcur : p.current_node = some c) (hnd : p.heap[c]? = some nd) :
    (∃ r p1, Consume_Usage_Expr fuel p = .ok (r, none, p1) ∧ r.Leaving = false ∧
      (nd.Typ = .Usage_Expr →
        p1 = { p with
          heap := p.heap.set c { nd with Children := nd.Children ++ [p.heap.length] } ++
            [{ Typ := t, Token := some tok, Parent := some c, Children := [],
               Repeat := false }] }) ∧
      (nd.Typ ≠ .Usage_Expr →
        p1 = { p with
          heap := (p.heap.set c { nd with Children := nd.Children ++ [p.heap.length] } ++
              [({ Typ := .Usage_Expr, Token := none, Parent := some c, Children := [],
                  Repeat := false } : DocoptAst)]).set p.heap.length
                { Typ := .Usage_Expr, Token := none, Parent := some c,
                  Children := [p.heap.length + 1], Repeat := false } ++
            [{ Typ := t, Token := some tok, Parent := some p.heap.length, Children := [],
               Repeat := false }],
          current_node := some p.heap.length })) ∧
    after_Usage 40 myprog_source (fun r => (r.1, r.2.Prog_name)) = some (none, "myprog") ∧
    after_Usage 40 myprog_source (fun r => labels_at r.2.heap [1]) =
      some (some [some (.Usage, some "Usage:"), some (.Usage_line, none)]) ∧
    after_Usage 40 myprog_source (fun r => labels_at r.2.heap [1, 1]) =
      some (some [some (.Prog_name, some "myprog"), some (.Usage_Expr, none)]) ∧
    after_Usage 40 myprog_source (fun r => labels_at r.2.heap [1, 1, 1]) =
      some (some [some (.Usage_command, some "go")]) := by
  refine ⟨?_, by decide!, by decide!, by decide!, by decide!⟩
  have hT : tok.Typ = .SHORT ∨ tok.Typ = .LONG ∨ tok.Typ = .ARGUMENT ∨ tok.Typ = .IDENT := by
    cases hk : tok.Typ <;> simp [usage_terminal, hk] at hterm ⊢
  have hcl : c < p.heap.length := lt_of_getElem?_eq_some _ _ _ hnd
  by_cases hE : nd.Typ = .Usage_Expr
  · refine ⟨Reason.zero, _, ?_, rfl, fun _ => rfl, fun h => absurd hE h⟩
    unfold Consume_Usage_Expr
    rcases hT with hk | hk | hk | hk <;>
      · rw [hk] at hterm
        simp only [usage_terminal, Option.some.injEq] at hterm
        subst hterm
        simp [has_reach_EOF, has_reach_two_NEWLINE, has_reach_PROG_NAME, curType, htok, deref,
          hk, ensure_node, addToCurrent, hcur, node, hnd, hE, AddNode_ok p.heap c nd _ _ hnd,
          bind, Except.bind, pure, Except.pure]
  · have hnew : (p.heap.set c { nd with Children := nd.Children ++ [p.heap.length] } ++
        [({ Typ := .Usage_Expr, Token := none, Parent := some c, Children := [],
            Repeat := false } : DocoptAst)])[p.heap.length]? = some
        { Typ := .Usage_Expr, Token := none, Parent := some c, Children := [],
          Repeat := false } := by
      rw [List.getElem?_append_right (by simp)]
      simp
    refine ⟨Reason.zero, _, ?_, rfl, fun h => absurd h hE, fun _ => rfl⟩
    unfold Consume_Usage_Expr
    rcases hT with hk | hk | hk | hk <;>
      · rw [hk] at hterm
        simp only [usage_terminal, Option.some.injEq] at hterm
        subst hterm
        simp only [has_reach_EOF, has_reach_two_NEWLINE, has_reach_PROG_NAME, curType, htok,
          deref, hk, ensure_node, addToCurrent, hcur, node, hnd, hE,
          AddNode_ok p.heap c nd _ _ hnd, bind, Except.bind, pure, Except.pure, ne_eq,
          not_false_eq_true, if_true, reduceCtorEq, if_false, false_and]
        rw [AddNode_ok _ _ _ _ _ hnew]
        simp

theorem Consume_Usage_Expr_terminal_witness :
    (∃ r p1, Consume_Usage_Expr 5 go_state = .ok (r, none, p1) ∧ r.Leaving = false ∧
      (DocoptNodeType.Usage_line = .Usage_Expr →
        p1 = { go_state with
          heap := go_state.heap.set 4
              { Typ := .Usage_line, Token := none, Parent := some 2,
                Children := [5] ++ [go_state.heap.length], Repeat := false } ++
            [{ Typ := .Usage_command, Token := some ⟨.IDENT, "go", 2⟩, Parent := some 4,
               Children := [], Repeat := false }] }) ∧
      (DocoptNodeType.Usage_line ≠ .Usage_Expr →
        p1 = { go_state with
          heap := (go_state.heap.set 4
                { Typ := .Usage_line, Token := none, Parent := some 2,
                  Children := [5] ++ [go_state.heap.length], Repeat := false } ++
              [({ Typ := .Usage_Expr, Token := none, Parent := some 4, Children := [],
                  Repeat := false } : DocoptAst)]).set go_state.heap.length
                { Typ := .Usage_Expr, Token := none, Parent := some 4,
                  Children := [go_state.heap.length + 1], Repeat := false } ++
            [{ Typ := .Usage_command, Token := some ⟨.IDENT, "go", 2⟩,
               Parent := some go_state.heap.length, Children := [], Repeat := false }],
          current_node := some go_state.heap.length })) ∧
    after_Usage 40 myprog_source (fun r => (r.1, r.2.Prog_name)) = some (none, "myprog") ∧
    after_Usage 40 myprog_source (fun r => labels_at r.2.heap [1]) =
      some (some [some (.Usage, some "Usage:"), some (.Usage_line, none)]) ∧
    after_Usage 40 myprog_source (fun r => labels_at r.2.heap [1, 1]) =
      some (some [some (.Prog_name, some "myprog"), some (.Usage_Expr, none)]) ∧
    after_Usage 40 myprog_source (fun r => labels_at r.2.heap [1, 1, 1]) =
      some (some [some (.Usage_command, some "go")]) :=
  Consume_Usage_Expr_terminal 5 go_state ⟨.IDENT, "go", 2⟩ .Usage_command 4
    { Typ := .Usage_line, Token := none, Parent := some 2, Children := [5], Repeat := false }
    (by decide!) (by rfl) (by decide!) (by decide!)

/-- Claim C15.  `Consume_loop` returns the result of the consume function
unchanged: for every definition `c` and every parser whose run flag stays true,
if after the entry statements the consume function returns non-leaving reasons
with nil errors on its first `k` calls (one `NextToken` before each call) and
then `(r, e)` with `r.Leaving` or `e` not nil, then `Consume_loop`, given fuel
for `k + 1` iterations, makes exactly these `k + 1` calls and returns `(r, e)`,
with the parser of the last call (its current node restored when
`save_current_node` is set). -/
theorem Consume_loop_returns_consume_result (c : Consumer_Definition) (t : DocoptNodeType)
    (fuel k : Nat) (p p0 q : DocoptParser) (r : Reason) (e : Option String)
    (henter : Consume_loop_enter c t p = .ok p0)
    (hcalls : Iterates c.consume_func k p0 (r, e, q)) (hrun : q.run = true)
    (hfuel : k < fuel) :
    Consume_loop_with c t fuel p =
      .ok (r, e, if c.save_current_node then { q with current_node := p.current_node } else q) := by
  unfold Consume_loop_with
  simp only [henter, bind, Except.bind,
    Consume_loop_iter_of_Iterates c.consume_func k p0 (r, e, q) hcalls fuel Reason.zero none
      hfuel]
  unfold Consume_loop_exit
  simp only [hrun, if_true, pure, Except.pure]
  by_cases hs : c.save_current_node = true
  · simp [hs]
  · simp [hs]

theorem Consume_loop_returns_consume_result_witness :
    Consume_loop_with test_def test_kind 1 test_state =
      .ok (⟨33, true⟩, none,
        if test_def.save_current_node then
          { test_called with current_node := test_state.current_node }
        else test_called) :=
  Consume_loop_returns_consume_result test_def test_kind 1 0 test_state test_entered
    test_called ⟨33, true⟩ none (by rfl)
    (Iterates.last test_entered test_first _ _ _ (by rfl) (by rfl) (by rfl) (Or.inr rfl))
    (by rfl) (by decide)

/-- Claim C16.  With `create_self_node` and `create_node` set, `Consume_loop(t)`
appends, as the new last child of the node current on entry, a token-less node
of type `t`, and as the only (first) child of that node a token-less node of
type `toplevel_node`, which becomes the current node; with both flags false it
creates no node before the loop.  The push-back of the first token and the
`NextToken` of the first iteration leave the tree and the current node alone, so
the consume function runs with the current node at the inner node: in
`Test_Consume_loop` the node it adds lands there,
`Root[our_def[Usage_Expr[NONE_node]]]`. -/
theorem Consume_loop_enter_nodes (c : Consumer_Definition) (t : DocoptNodeType)
    (p : DocoptParser) (cur : Nat) (nd : DocoptAst)
    (hcur : p.current_node = some cur) (hnd : p.heap[cur]? = some nd) :
    (c.create_self_node = true → c.create_node = true →
      Consume_loop_enter c t p =
        (fun q => if c.reject_first_token then reject_current_token q else pure q)
          { p with
            heap := (p.heap.set cur { nd with Children := nd.Children ++ [p.heap.length] } ++
                [({ Typ := t, Token := none, Parent := some cur, Children := [],
                    Repeat := false } : DocoptAst)]).set p.heap.length
                  { Typ := t, Token := none, Parent := some cur,
                    Children := [p.heap.length + 1], Repeat := false } ++
              [{ Typ := c.toplevel_node, Token := none, Parent := some p.heap.length,
                 Children := [], Repeat := false }],
            toplevel := (t, p.heap.length) :: p.toplevel,
            current_node := some (p.heap.length + 1) }) ∧
    (c.create_self_node = false → c.create_node = false →
      Consume_loop_enter c t p =
        if c.reject_first_token then reject_current_token p else pure p) ∧
    (∀ q q1, reject_current_token q = .ok q1 →
      q1.heap = q.heap ∧ q1.current_node = q.current_node) ∧
    (∀ (n : Nat) (r0 : Reason) (e0 : Option String) (p0 p1 : DocoptParser),
      p0.run = true → NextToken p0 = .ok p1 →
      p1.heap = p0.heap ∧ p1.current_node = p0.current_node ∧
      Consume_loop_iter c.consume_func (n + 1) r0 e0 p0 =
        (c.consume_func p1 >>= fun res =>
          if res.2.1.isSome ∨ res.1.Leaving then pure res
          else Consume_loop_iter c.consume_func n res.1 res.2.1 res.2.2)) ∧
    (Consume_loop_with test_def test_kind 1 test_state).toOption.map
        (fun r => (r.1.Value, r.2.1)) = some (33, none) ∧
    (Consume_loop_with test_def test_kind 1 test_state).toOption.map
        (fun r => labels_at r.2.2.heap []) = some (some [some (test_kind, none)]) ∧
    (Consume_loop_with test_def test_kind 1 test_state).toOption.map
        (fun r => labels_at r.2.2.heap [0]) = some (some [some (.Usage_Expr, none)]) ∧
    (Consume_loop_with test_def test_kind 1 test_state).toOption.map
        (fun r => labels_at r.2.2.heap [0, 0]) = some (some [some (.NONE_node, none)]) := by
  refine ⟨?_, ?_, ?_, ?_, by decide!, by decide!, by decide!, by decide!⟩
  · intro hs hn
    have hnew : (p.heap.set cur { nd with Children := nd.Children ++ [p.heap.length] } ++
        [({ Typ := t, Token := none, Parent := some cur, Children := [],
            Repeat := false } : DocoptAst)])[p.heap.length]? = some
        { Typ := t, Token := none, Parent := some cur, Children := [], Repeat := false } := by
      rw [List.getElem?_append_right (by simp)]
      simp
    unfold Consume_loop_enter
    simp only [hs, hn, if_true, hcur, deref, bind, Except.bind, pure, Except.pure,
      AddNode_ok p.heap cur nd _ _ hnd]
    rw [AddNode_ok _ _ _ _ _ hnew]
    simp
  · intro hs hn
    unfold Consume_loop_enter
    simp [hs, hn, bind, Except.bind, pure, Except.pure]
  · intro q q1 h
    have := (reject_current_token_frame q q1 h).1
    exact ⟨this.1, this.2.1⟩
  · intro n r0 e0 p0 p1 hrun hnext
    have hf := NextToken_frame p0 p1 hnext
    refine ⟨hf.1, hf.2.1, ?_⟩
    rw [Consume_loop_iter]
    simp only [hrun, if_true, hnext, bind, Except.bind]

theorem Consume_loop_enter_nodes_witness :
    test_state.current_node = some 0 ∧
      (Consume_loop_enter test_def test_kind test_state).toOption.map
        (fun q => (q.current_node, labels_at q.heap [], labels_at q.heap [0])) =
        some (some 2, some [some (test_kind, none)], some [some (.Usage_Expr, none)]) :=
  have h := Consume_loop_enter_nodes test_def test_kind test_state 0
    { Typ := .Root, Token := none, Parent := none, Children := [], Repeat := false }
    (by rfl) (by rfl)
  ⟨by rfl, by rw [h.1 rfl rfl]; rfl⟩

/-- Claim C12.  On a `PUNCT` token `]` `Consume_group` returns `END_OF_Group`
with a nil error and the parser unchanged if and only if the parent of the
current node is a `Usage_optional_group`, and otherwise `Error` with a non-nil
error; on `)` it does so if and only if that parent is a `Usage_required_group`.
Consequently, whenever `Consume_loop` on a group kind returns with a nil error,
the current token it returns with is the closer of that kind: `]` for
`Usage_optional_group`, `)` for `Usage_required_group`. -/
theorem Consume_group_closer (fuel : Nat) (p : DocoptParser) (tok : Token) (c par : Nat)
    (nd pn : DocoptAst) (htok : p.current_token = some tok) (hT : tok.Typ = .PUNCT)
    (hc : p.current_node = some c) (hnd : p.heap[c]? = some nd)
    (hpar : nd.Parent = some par) (hpn : p.heap[par]? = some pn)
    (lfuel : Nat) (t : DocoptNodeType) (q q1 : DocoptParser) (r : Reason)
    (hloop : Consume_loop lfuel t q = .ok (r, none, q1)) :
    (tok.Value = "]" →
      (Consume_group (fuel + 1) p = .ok (END_OF_Group, none, p) ↔
        pn.Typ = .Usage_optional_group) ∧
      (pn.Typ ≠ .Usage_optional_group →
        ∃ msg, Consume_group (fuel + 1) p = .ok (Error, some msg, p))) ∧
    (tok.Value = ")" →
      (Consume_group (fuel + 1) p = .ok (END_OF_Group, none, p) ↔
        pn.Typ = .Usage_required_group) ∧
      (pn.Typ ≠ .Usage_required_group →
        ∃ msg, Consume_group (fuel + 1) p = .ok (Error, some msg, p))) ∧
    (t = .Usage_optional_group →
      ∃ k, q1.current_token = some k ∧ k.Typ = .PUNCT ∧ k.Value = "]") ∧
    (t = .Usage_required_group →
      ∃ k, q1.current_token = some k ∧ k.Typ = .PUNCT ∧ k.Value = ")") := by
  refine ⟨?_, ?_, ?_, ?_⟩
  · intro hv
    rw [Consume_group_bracket fuel p tok c par nd pn htok hT hc hnd hpar hpn hv]
    by_cases hty : pn.Typ = .Usage_optional_group
    · simp [hty]
    · simp [hty, Error, END_OF_Group]
  · intro hv
    rw [Consume_group_parenthese fuel p tok c par nd pn htok hT hc hnd hpar hpn hv]
    by_cases hty : pn.Typ = .Usage_required_group
    · simp [hty]
    · simp [hty, Error, END_OF_Group]
  · intro ht
    obtain ⟨k, h1, h2, h3⟩ := (Consume_loop_group_closer lfuel t q q1 r (Or.inl ht) hloop).2.2
    refine ⟨k, h1, h2, ?_⟩
    rcases h3 with h3 | h3
    · exact h3.1
    · rw [ht] at h3
      exact absurd h3.2 (by decide)
  · intro ht
    obtain ⟨k, h1, h2, h3⟩ := (Consume_loop_group_closer lfuel t q q1 r (Or.inr ht) hloop).2.2
    refine ⟨k, h1, h2, ?_⟩
    rcases h3 with h3 | h3
    · rw [ht] at h3
      exact absurd h3.2 (by decide)
    · exact h3.1

theorem Consume_group_closer_witness :
    Consume_group (3 + 1) closing_bracket_state =
        .ok (END_OF_Group, none, closing_bracket_state) ∧
      ∃ k, (result_or (Consume_loop 5 .Usage_optional_group bracket_state)
              no_result).2.2.current_token = some k ∧
        k.Typ = .PUNCT ∧ k.Value = "]" :=
  have h := Consume_group_closer 3 closing_bracket_state ⟨.PUNCT, "]", 4⟩ 8 7
    { Typ := .Usage_Expr, Token := none, Parent := some 7, Children := [9], Repeat := false }
    { Typ := .Usage_optional_group, Token := none, Parent := some 6, Children := [8],
      Repeat := false }
    (by decide!) rfl (by decide!) (by decide!) rfl (by decide!)
    5 .Usage_optional_group bracket_state
    (result_or (Consume_loop 5 .Usage_optional_group bracket_state) no_result).2.2
    (result_or (Consume_loop 5 .Usage_optional_group bracket_state) no_result).1
    (eq_ok_result_or (Consume_loop 5 .Usage_optional_group bracket_state) no_result
      (by decide!) (by decide!))
  ⟨(h.1 rfl).1.mpr rfl, h.2.2.1 rfl⟩

/-- Claim C17.  For every definition `c` with `save_current_node` set, whenever
`Consume_loop` returns with the run flag true, whatever reason and error the
consume function left with and whatever it did to the tree, the current node is
the node that was current when `Consume_loop` was entered.  In particular, when
`Consume_Usage_Expr` has made sure the current node is a `Usage_Expr` and calls
`Consume_loop` on a group kind, the current node after the call is that node
again and it is a `Usage_Expr`. -/
theorem Consume_loop_restores_current_node (c : Consumer_Definition) (t : DocoptNodeType)
    (fuel : Nat) (p p1 : DocoptParser) (r : Reason) (e : Option String)
    (hs : c.save_current_node = true)
    (h : Consume_loop_with c t fuel p = .ok (r, e, p1)) (hrun : p1.run = true)
    (gfuel : Nat) (n : DocoptNodeType) (q q0 q1 : DocoptParser) (gr : Reason)
    (ge : Option String) (hn : n = .Usage_optional_group ∨ n = .Usage_required_group)
    (hq : ensure_node q .Usage_Expr = .ok q0)
    (hg : Consume_loop gfuel n q0 = .ok (gr, ge, q1)) (hgrun : q1.run = true) :
    p1.current_node = p.current_node ∧
      q1.current_node = q0.current_node ∧
      ∃ k nd, q1.current_node = some k ∧ q1.heap[k]? = some nd ∧ nd.Typ = .Usage_Expr := by
  refine ⟨Consume_loop_with_restores c t fuel p p1 r e hs h hrun, ?_⟩
  unfold Consume_loop at hg
  have hdef : Parse_def gfuel n = some (group_def (Consume_group gfuel)) := by
    rcases hn with hn | hn <;> subst hn <;> rfl
  simp only [hdef, deref, bind, Except.bind, pure, Except.pure] at hg
  have h1t : n ≠ .Usage_line := by rcases hn with hn | hn <;> subst hn <;> decide
  have h2t : n ≠ .Prog_name := by rcases hn with hn | hn <;> subst hn <;> decide
  have hcur := Consume_loop_with_restores _ n gfuel q0 q1 gr ge rfl hg hgrun
  have hgrow := (group_loop _ (Consume_group_step gfuel) n gfuel q0 (gr, ge, q1) hg h1t h2t).1
  obtain ⟨_, _, _, _, k, nd, hk, hnd, hty⟩ := ensure_node_pgrow q q0 hq
  obtain ⟨nd1, a1, a2, _⟩ := hgrow.1.2.1 k nd hnd
  exact ⟨hcur, k, nd1, hcur.trans hk, a1, a2.trans hty⟩

theorem Consume_loop_restores_current_node_witness :
    (result_or (Consume_loop_with (group_def (Consume_group 5)) .Usage_optional_group 5
        bracket_state) no_result).2.2.current_node = bracket_state.current_node ∧
      (result_or (Consume_loop 5 .Usage_optional_group bracket_state)
        no_result).2.2.current_node = bracket_state.current_node ∧
      ∃ k nd,
        (result_or (Consume_loop 5 .Usage_optional_group bracket_state)
          no_result).2.2.current_node = some k ∧
        (result_or (Consume_loop 5 .Usage_optional_group bracket_state)
          no_result).2.2.heap[k]? = some nd ∧ nd.Typ = .Usage_Expr :=
  Consume_loop_restores_current_node (group_def (Consume_group 5)) .Usage_optional_group 5
    bracket_state
    (result_or (Consume_loop_with (group_def (Consume_group 5)) .Usage_optional_group 5
        bracket_state) no_result).2.2
    (result_or (Consume_loop_with (group_def (Consume_group 5)) .Usage_optional_group 5
        bracket_state) no_result).1
    none rfl
    (eq_ok_result_or
      (Consume_loop_with (group_def (Consume_group 5)) .Usage_optional_group 5 bracket_state)
      no_result (by decide!) (by decide!))
    (by decide!)
    5 .Usage_optional_group bracket_token_state bracket_state
    (result_or (Consume_loop 5 .Usage_optional_group bracket_state) no_result).2.2
    (result_or (Consume_loop 5 .Usage_optional_group bracket_state) no_result).1
    none (Or.inl rfl)
    (eq_ok_result_or_state (ensure_node bracket_token_state .Usage_Expr) (ParserInit [])
      (by decide!))
    (eq_ok_result_or (Consume_loop 5 .Usage_optional_group bracket_state) no_result
      (by decide!) (by decide!))
    (by decide!)

/-- Claim C20.  When `Consume_Usage` is entered on a tree without usage lines
and returns, with or without an error, every `Usage_line` node of the tree has a
`Prog_name` node as its first child and the token of every `Prog_name` node has
the value of the `Prog_name` of the parser; the lines started on a
`PROG_NAME_sequence` and the alternative-group surgery keep this. -/
theorem Consume_Usage_lines_start_with_prog_name (fuel : Nat) (p p1 : DocoptParser)
    (e : Option String) (hno : NoLines p.heap)
    (h : Consume_Usage fuel p = .ok (e, p1)) : LineInv p1.heap p1.Prog_name := by
  unfold Consume_Usage at h
  simp only [bind_eq_ok] at h
  obtain ⟨⟨e1, q⟩, hfirst, h⟩ := h
  unfold Consume_First_Program_Usage at hfirst
  have hinv := Consume_First_Program_Usage_loop_inv fuel
    (Change_lexer_state p "state_First_Program_Usage") q e1 hno hfirst
  simp only [] at h
  by_cases he : e1.isSome = true
  · simp only [he, if_true, pure_eq_ok, Prod.mk.injEq] at h
    obtain ⟨_, rfl⟩ := h
    exact hinv
  simp only [he, Bool.false_eq_true, if_false, bind_eq_ok] at h
  obtain ⟨⟨e2, q2⟩, hline, h⟩ := h
  have hinv2 : LineInv q2.heap q2.Prog_name := by
    unfold Consume_Usage_line at hline
    simp only [bind_eq_ok, deref_eq_ok, node_eq_ok] at hline
    obtain ⟨c, _, nd, _, us, _, un, _, hline⟩ := hline
    by_cases hty : un.Typ = .Usage_section
    · simp only [hty, ne_eq, not_true_eq_false, if_false] at hline
      exact Consume_Usage_line_loop_inv us fuel (Change_lexer_state q "state_Usage_Line") q2 e2
        hinv hline
    · simp only [hty, ne_eq, not_false_eq_true, if_true, pure_eq_ok, Prod.mk.injEq] at hline
      obtain ⟨_, rfl⟩ := hline
      exact hinv
  simp only [] at h
  by_cases he2 : e2.isSome = true
  · simp only [he2, if_true, pure_eq_ok, Prod.mk.injEq] at h
    obtain ⟨_, rfl⟩ := h
    exact hinv2
  · simp only [he2, Bool.false_eq_true, if_false, pure_eq_ok, Prod.mk.injEq] at h
    obtain ⟨_, rfl⟩ := h
    exact hinv2

theorem Consume_Usage_lines_start_with_prog_name_witness :
    NoLines usage_entry_state.heap ∧
      LineInv (result_or (Consume_Usage 40 usage_entry_state) no_step).2.heap
        (result_or (Consume_Usage 40 usage_entry_state) no_step).2.Prog_name :=
  ⟨by decide!,
    Consume_Usage_lines_start_with_prog_name 40 usage_entry_state
      (result_or (Consume_Usage 40 usage_entry_state) no_step).2
      (result_or (Consume_Usage 40 usage_entry_state) no_step).1
      (by decide!)
      (eq_ok_result_or_step (Consume_Usage 40 usage_entry_state) no_step (by decide!))⟩

/-- Claim C27.  When `Consume_group` receives `PUNCT "|"` and the parent of the
current node is a `Usage_optional_group` or a `Usage_required_group`, it returns
`Continue` with a nil error; a new `Usage_Expr` without children is appended as
the last child of that group and becomes the current node, and nothing else
changes (the children the group had stay in place).  When the parent is of any
other kind it returns `Error` with a non-nil error and changes nothing. -/
theorem Consume_group_pipe (fuel : Nat) (p : DocoptParser) (tok : Token) (c par : Nat)
    (nd pn : DocoptAst) (htok : p.current_token = some tok) (hT : tok.Typ = .PUNCT)
    (hv : tok.Value = "|") (hc : p.current_node = some c) (hnd : p.heap[c]? = some nd)
    (hpar : nd.Parent = some par) (hpn : p.heap[par]? = some pn) :
    ((pn.Typ = .Usage_optional_group ∨ pn.Typ = .Usage_required_group) →
      Consume_group (fuel + 1) p = .ok (Continue, none,
        { p with
          heap := p.heap.set par { pn with Children := pn.Children ++ [p.heap.length] } ++
            [{ Typ := .Usage_Expr, Token := none, Parent := some par, Children := [],
               Repeat := false }],
          current_node := some p.heap.length })) ∧
    (¬ (pn.Typ = .Usage_optional_group ∨ pn.Typ = .Usage_required_group) →
      ∃ msg, Consume_group (fuel + 1) p = .ok (Error, some msg, p)) := by
  refine ⟨?_, ?_⟩
  · intro hty
    rw [Consume_group]
    simp [htok, deref, hT, hv, hc, node, hnd, hpar, hpn, hty, AddNode, bind, Except.bind, pure,
      Except.pure]
  · intro hty
    rw [Consume_group]
    exact ⟨nd.Typ.String ++ ": unexpected parent node: " ++ pn.Typ.String ++ " " ++
      fmtToken (some tok), by simp [htok, deref, hT, hv, hc, node, hnd, hpar, hpn, hty, bind,
      Except.bind, pure, Except.pure]⟩

theorem Consume_group_pipe_witness :
    Consume_group (3 + 1) group_pipe_state = .ok (Continue, none,
      { group_pipe_state with
        heap := group_pipe_state.heap.set 7
            { ({ Typ := .Usage_optional_group, Token := none, Parent := some 6,
                 Children := [8], Repeat := false } : DocoptAst) with
              Children := [8] ++ [group_pipe_state.heap.length] } ++
          [{ Typ := .Usage_Expr, Token := none, Parent := some 7, Children := [],
             Repeat := false }],
        current_node := some group_pipe_state.heap.length }) :=
  (Consume_group_pipe 3 group_pipe_state ⟨.PUNCT, "|", 4⟩ 8 7
    { Typ := .Usage_Expr, Token := none, Parent := some 7, Children := [9], Repeat := false }
    { Typ := .Usage_optional_group, Token := none, Parent := some 6, Children := [8],
      Repeat := false }
    (by decide!) rfl rfl (by decide!) (by decide!) rfl (by decide!)).1 (Or.inl rfl)

/-- Claim C30.  The six `Reason` sentinels are pairwise distinct and `Continue`
is the only one whose `Leaving` is false.  `EOF_reached` carries the tag
`Reason_PROG_NAME_sequence` and `PROG_NAME_sequence` the tag
`Reason_EOF_reached`; `has_reach_EOF`, `has_reach_PROG_NAME` and the switch of
`Consume_Usage_line` use the sentinels by name: on `EOF` the reason is
`EOF_reached` and `Consume_Usage_line` returns nil, on a program-name sequence
the reason is `PROG_NAME_sequence` and `Consume_Usage_line` starts a new
`Usage_line`.  So `Usage: myprog go` ends with a nil error at `EOF`, and
`Usage: p one` followed by the line `p two` gives two usage lines. -/
theorem reason_sentinels_used_by_name (us n : Nat) (p pa q : DocoptParser) (tok : Token)
    (r r1 reason : Reason) :
    [Error, TWO_NEWLINE, PROG_NAME_sequence, EOF_reached, Continue, END_OF_Group].Nodup ∧
    (∀ x ∈ [Error, TWO_NEWLINE, PROG_NAME_sequence, EOF_reached, Continue, END_OF_Group],
      (x.Leaving = false ↔ x = Continue)) ∧
    EOF_reached.Value = Reason_PROG_NAME_sequence ∧
    PROG_NAME_sequence.Value = Reason_EOF_reached ∧
    (has_reach_EOF p r = .ok (true, r1) → r1 = EOF_reached) ∧
    (has_reach_PROG_NAME p r = .ok (true, r1) → r1 = PROG_NAME_sequence) ∧
    (p.run = true → NextToken p = .ok pa → pa.current_token = some tok → tok.Typ = .EOF →
      Consume_Usage_line_loop us (n + 1) p = .ok (none, pa)) ∧
    (p.run = true → NextToken p = .ok pa → pa.current_token = some tok → tok.Typ ≠ .EOF →
      tok.Typ ≠ .PROG_NAME → tok.Typ ≠ .USAGE →
      Consume_loop n .Usage_Expr pa = .ok (reason, none, q) →
      (reason = EOF_reached → Consume_Usage_line_loop us (n + 1) p = .ok (none, q)) ∧
      (reason = PROG_NAME_sequence →
        Consume_Usage_line_loop us (n + 1) p =
          (do
            let (usage_line, h) ← AddNode q.heap us .Usage_line none
            let (_, h) ← AddNode h usage_line .Prog_name q.current_token
            let (e, h) ← AddNode h usage_line .Usage_Expr none
            Consume_Usage_line_loop us n { q with heap := h, current_node := some e }))) ∧
    after_Usage 40 myprog_source (fun x => (x.1, x.2.current_token)) =
      some (none, some ⟨.EOF, "", 4⟩) ∧
    after_Usage 40 two_lines_source (fun x => x.1) = some none ∧
    after_Usage 40 two_lines_source (fun x => labels_at x.2.heap [1]) =
      some (some [some (.Usage, some "Usage:"), some (.Usage_line, none),
        some (.Usage_line, none)]) ∧
    after_Usage 40 two_lines_source (fun x => labels_at x.2.heap [1, 2]) =
      some (some [some (.Prog_name, some "p"), some (.Usage_Expr, none)]) := by
  refine ⟨by decide, by decide, rfl, rfl, ?_, ?_, ?_, ?_, by decide!, by decide!, by decide!,
    by decide!⟩
  · intro h
    rcases has_reach_EOF_spec _ _ _ _ h with ⟨_, h1⟩ | ⟨h0, _⟩
    · exact h1
    · exact absurd h0 (by decide)
  · intro h
    rcases has_reach_PROG_NAME_spec _ _ _ _ h with ⟨_, h1, _⟩ | ⟨h0, _⟩
    · exact h1
    · exact absurd h0 (by decide)
  · intro hrun hnext htok hT
    rw [Consume_Usage_line_loop]
    simp [hrun, hnext, has_reach_EOF, curType, htok, deref, hT, bind, Except.bind, pure,
      Except.pure]
  · intro hrun hnext htok hT1 hT2 hT3 hloop
    refine ⟨?_, ?_⟩
    · intro hr
      subst hr
      rw [Consume_Usage_line_loop]
      simp [hrun, hnext, has_reach_EOF, curType, htok, deref, hT1, hT2, hT3, hloop, bind,
        Except.bind, pure, Except.pure]
    · intro hr
      subst hr
      rw [Consume_Usage_line_loop]
      have h1 : ¬ (PROG_NAME_sequence = TWO_NEWLINE ∨ PROG_NAME_sequence = EOF_reached) := by
        decide
      simp [hrun, hnext, has_reach_EOF, curType, htok, deref, hT1, hT2, hT3, hloop, h1, bind,
        Except.bind, pure, Except.pure]

/-- Claim C29.  When the loop of `Consume_option_description` reads a `DEFAULT`
token it hands over to `Consume_option_default`, which returns nil, and returns
nil at once: the parser returned is the one `NextToken` left, so the tree is
unchanged (no node for the `DEFAULT` token, the `Option_description` keeps the
`Description_node`s collected before) and no further token is read.  For the
option line `-a  text [default: x] more` the description holds `text` only and
the `DEFAULT` token is still the current token when `Consume_option_line`
returns. -/
theorem description_returns_on_default (description n current_line : Nat)
    (p pa : DocoptParser) (tok : Token) (hrun : p.run = true)
    (hnext : NextToken p = .ok pa) (htok : pa.current_token = some tok)
    (hT : tok.Typ = .DEFAULT) :
    Consume_option_description_loop description (n + 1) current_line p = .ok (none, pa) ∧
    Consume_option_default pa = .ok (none, pa) ∧
    pa.heap = p.heap ∧ pa.current_node = p.current_node ∧
    after_options_entry default_source (Consume_option_line 20) (fun r => r.1) = some none ∧
    after_options_entry default_source (Consume_option_line 20) (fun r => r.2.heap.length) =
      some 6 ∧
    after_options_entry default_source (Consume_option_line 20)
        (fun r => labels_at r.2.heap [0, 0]) =
      some (some [some (.Option_short, some "-a"), some (.Option_description, none)]) ∧
    after_options_entry default_source (Consume_option_line 20)
        (fun r => labels_at r.2.heap [0, 0, 1]) =
      some (some [some (.Description_node, some "text")]) ∧
    after_options_entry default_source (Consume_option_line 20)
        (fun r => r.2.current_token) = some (some ⟨.DEFAULT, "[default: x]", 4⟩) ∧
    after_options_entry default_source (Consume_option_line 20)
        (fun r => r.2.next_token) = some (some ⟨.IDENT, "more", 5⟩) := by
  have hst := NextToken_frame p pa hnext
  refine ⟨?_, rfl, hst.1, hst.2.1, by decide!, by decide!, by decide!, by decide!, by decide!,
    by decide!⟩
  rw [Consume_option_description_loop]
  simp [hrun, hnext, htok, deref, hT, Consume_option_default, bind, Except.bind, pure,
    Except.pure]

theorem description_returns_on_default_witness :
    Consume_option_description_loop 4 (3 + 1) 0 default_state =
        .ok (none, result_or (NextToken default_state) (ParserInit [])) ∧
      (result_or (NextToken default_state) (ParserInit [])).heap = default_state.heap :=
  have h := description_returns_on_default 4 3 0 default_state
    (result_or (NextToken default_state) (ParserInit [])) ⟨.DEFAULT, "[default: x]", 4⟩
    (by decide!)
    (eq_ok_result_or_state (NextToken default_state) (ParserInit []) (by decide!))
    (by decide!) rfl
  ⟨h.1, h.2.2.1⟩

/-- Claim C28, refuted as stated.  With `max_error = 10` and a source in which
exactly ten bytes match no rule, the first `NextToken` collects the ten errors
and clears the run flag: no eleventh error has occurred.  With nine such bytes
the run flag stays set. -/
theorem run_flag_cleared_on_tenth_error :
    (ParserInit (unmatched_source 10)).max_error = 10 ∧
      (NextToken (ParserInit (unmatched_source 10))).toOption.map
          (fun p => (p.Errors.length, p.Error_count, p.run)) = some (10, 10, false) ∧
      (NextToken (ParserInit (unmatched_source 9))).toOption.map
          (fun p => (p.Errors.length, p.Error_count, p.run)) = some (9, 9, true) := by
  refine ⟨rfl, ?_, ?_⟩ <;> decide!

/-- Claim C28, amended.  `NextToken` only adds errors: the error count grows by
the number of errors appended to `Errors` and never passes `max_error` when it
was within it (so with `max_error = 10` at most ten errors are collected).
After `NextToken` the run flag is set if and only if it was set before and the
error count is below `max_error`: the flag is cleared as soon as the count
reaches `max_error`, that is on the tenth error, and stays set with nine. -/
theorem NextToken_error_budget (p p1 : DocoptParser) (h : NextToken p = .ok p1) :
    p.Error_count ≤ p1.Error_count ∧
      p1.Errors.length + p.Error_count = p.Errors.length + p1.Error_count ∧
      (p.Error_count ≤ p.max_error → p1.Error_count ≤ p.max_error) ∧
      p1.max_error = p.max_error ∧
      (p1.run = true ↔ p.run = true ∧ p1.Error_count < p1.max_error) ∧
      (ParserInit p.s.items).max_error = 10 :=
  have hc := NextToken_counts p p1 h
  ⟨hc.1, hc.2.1, hc.2.2.1, hc.2.2.2.1, hc.2.2.2.2, rfl⟩

theorem NextToken_error_budget_witness :
    (ParserInit (unmatched_source 9)).Error_count ≤
        (result_or (NextToken (ParserInit (unmatched_source 9))) (ParserInit [])).Error_count ∧
      ((result_or (NextToken (ParserInit (unmatched_source 9))) (ParserInit [])).run = true ↔
        (ParserInit (unmatched_source 9)).run = true ∧
          (result_or (NextToken (ParserInit (unmatched_source 9))) (ParserInit [])).Error_count <
            (result_or (NextToken (ParserInit (unmatched_source 9)))
              (ParserInit [])).max_error) :=
  have h := NextToken_error_budget (ParserInit (unmatched_source 9))
    (result_or (NextToken (ParserInit (unmatched_source 9))) (ParserInit []))
    (eq_ok_result_or_state (NextToken (ParserInit (unmatched_source 9))) (ParserInit [])
      (by decide!))
  ⟨h.1, h.2.2.2.2.1⟩

/-- Claim C22, the code at the failing input.  When a step of `Parse` returns an
error, `Parse` only increments `Error_count`; the error is not appended to
`Errors`.  On the empty input `Consume_Prologue` returns its `EOF` error and
`Consume_Usage` returns an error too, and after `Parse` the list `Errors` is
empty while `Error_count` is 2. -/
theorem Parse_counts_error_without_recording :
    (∀ (step : DocoptParser → StepResult) (p q : DocoptParser) (e : String),
      step p = .ok (some e, q) →
      Parse_step step p = .ok { q with Error_count := q.Error_count + 1 }) ∧
    (CreateNode (ParserInit []) .Root none >>= Consume_Prologue 40).toOption.map
        (fun r => r.1) =
      some (some "EOF encountered will parsing Prologue, without 'Usage:' found") ∧
    after_Parse 40 [] (fun p => p.Errors) = some [] ∧
    after_Parse 40 [] (fun p => p.Error_count) = some 2 := by
  refine ⟨?_, by decide!, by decide!, by decide!⟩
  intro step p q e h
  simp [Parse_step, h, bind, Except.bind, pure, Except.pure]

/-- Claim C21, refuted as stated.  For `Usage: p one` followed by the
continuation line `   q two`, whose first word `q` is an `IDENT`,
`Consume_Usage` returns no error: the word is appended to the current usage
expression, which holds `one`, `q`, `two`, and there is one usage line. -/
theorem continuation_word_is_appended :
    after_Usage 40 continuation_source (fun r => r.1) = some none ∧
      after_Usage 40 continuation_source (fun r => labels_at r.2.heap [1]) =
        some (some [some (.Usage, some "Usage:"), some (.Usage_line, none)]) ∧
      after_Usage 40 continuation_source (fun r => labels_at r.2.heap [1, 1, 1]) =
        some (some [some (.Usage_command, some "one"), some (.Usage_command, some "q"),
          some (.Usage_command, some "two")]) := by
  refine ⟨?_, ?_, ?_⟩ <;> decide!

/-- Claim C21, amended.  In a usage expression `Consume_Usage_Expr` skips a
`LONG_BLANK` and a single `NEWLINE` (`Continue`, nil error, nothing changed), so
a continuation line goes on with the current expression.  A `PROG_NAME` token
whose value differs from `Prog_name` is an error: `Consume_Usage_Expr` returns
`Error` with the message `Consume_Usage_Expr: Unmatched token`, records it in
`Errors` and leaves the tree unchanged, so the word neither starts a usage line
nor is appended; for `Usage: p one` followed by `   q two` with `q` a
`PROG_NAME` token, `Consume_Usage` returns that error and the expression holds
`one` only. -/
theorem continuation_line_words (fuel : Nat) (p : DocoptParser) (tok : Token)
    (htok : p.current_token = some tok) :
    (tok.Typ = .LONG_BLANK → Consume_Usage_Expr fuel p = .ok (Continue, none, p)) ∧
    (tok.Typ = .NEWLINE → (∃ nx, p.next_token = some nx ∧ nx.Typ ≠ .NEWLINE) →
      Consume_Usage_Expr fuel p = .ok (Continue, none, p)) ∧
    (tok.Typ = .PROG_NAME → tok.Value ≠ p.Prog_name →
      Consume_Usage_Expr fuel p =
        .ok (Error, some ("Consume_Usage_Expr: Unmatched token: " ++ fmtToken (some tok)),
          AddError p ("Consume_Usage_Expr: Unmatched token: " ++ fmtToken (some tok))) ∧
      (AddError p ("Consume_Usage_Expr: Unmatched token: " ++ fmtToken (some tok))).heap =
        p.heap) ∧
    after_Usage 40 other_name_source (fun r => r.1) =
      some (some "Consume_Usage_Expr: Unmatched token: q") ∧
    after_Usage 40 other_name_source (fun r => labels_at r.2.heap [1]) =
      some (some [some (.Usage, some "Usage:"), some (.Usage_line, none)]) ∧
    after_Usage 40 other_name_source (fun r => labels_at r.2.heap [1, 1, 1]) =
      some (some [some (.Usage_command, some "one")]) := by
  refine ⟨?_, ?_, ?_, by decide!, by decide!, by decide!⟩
  · intro hT
    unfold Consume_Usage_Expr
    simp [has_reach_EOF, has_reach_two_NEWLINE, has_reach_PROG_NAME, curType, htok, deref, hT,
      bind, Except.bind, pure, Except.pure]
  · intro hT hnx
    obtain ⟨nx, hnx, hne⟩ := hnx
    unfold Consume_Usage_Expr
    simp [has_reach_EOF, has_reach_two_NEWLINE, has_reach_PROG_NAME, curType, nextType, htok,
      hnx, deref, hT, hne, bind, Except.bind, pure, Except.pure]
  · intro hT hv
    refine ⟨?_, rfl⟩
    unfold Consume_Usage_Expr
    simp [has_reach_EOF, has_reach_two_NEWLINE, has_reach_PROG_NAME, curType, htok, deref, hT,
      hv, bind, Except.bind, pure, Except.pure]

theorem continuation_line_words_witness :
    Consume_Usage_Expr 5 other_name_state =
      .ok (Error,
        some ("Consume_Usage_Expr: Unmatched token: " ++ fmtToken (some ⟨.PROG_NAME, "q", 5⟩)),
        AddError other_name_state
          ("Consume_Usage_Expr: Unmatched token: " ++ fmtToken (some ⟨.PROG_NAME, "q", 5⟩))) :=
  ((continuation_line_words 5 other_name_state ⟨.PROG_NAME, "q", 5⟩ (by decide!)).2.2.1 rfl
    (by decide!)).1

/-- Claim C25.  `Consume_Options` returns: on a parser over an error-free source
within the error budget, about to be delivered the token at position `i`, it
yields a result as soon as the fuel exceeds the number of tokens left; and when
the current token on entry is not a `SECTION` equal to `options:` ignoring case
it returns nil at once, whatever the lexer and the fuel, and the parser differs
from the one on entry by the new node and `options_node` only: no token is
consumed and the section has no child.  In every result it appends one
`Options_section` as the last child of the `Root` and makes `options_node`
point to it: the section is the node allocated first, a token-less child of the
`Root` listed right after the children the `Root` had; the nodes that were
there keep their kind and every node allocated after the section is section
content, so no other `Options_section` is added.  Hence the step of `Parse`
that calls it returns with `options_node` set, and after `Parse` `options_node`
is not nil and `transform_Options_section_to_map` does not return its error
`options_node is nil`; `Parse` returns so for a document with an options section,
for one without and for the empty input. -/
theorem Consume_Options_section (fuel : Nat) (p : DocoptParser) (root : Nat) (rn : DocoptAst)
    (tok : Token) (hast : p.ast = some root) (hroot : p.heap[root]? = some rn)
    (htok : p.current_token = some tok) :
    (∀ i, Ready p i → ChildrenInRange p.heap → p.tokens ≠ [] →
      p.s.items.length - i < fuel → ∃ e p1, Consume_Options fuel p = .ok (e, p1)) ∧
    ((tok.Typ ≠ .SECTION ∨ EqualFold tok.Value "options:" = false) →
      Consume_Options fuel p = .ok (none,
        { p with
          heap := p.heap.set root { rn with Children := rn.Children ++ [p.heap.length] } ++
            [{ Typ := .Options_section, Token := none, Parent := some root, Children := [],
               Repeat := false }],
          options_node := some p.heap.length })) ∧
    (∀ (e : Option String) (p1 : DocoptParser), Consume_Options fuel p = .ok (e, p1) →
      p1.options_node = some p.heap.length ∧
      (∃ sn, p1.heap[p.heap.length]? = some sn ∧ sn.Typ = .Options_section ∧
        sn.Token = none ∧ sn.Parent = some root) ∧
      (∃ rn1 ext, p1.heap[root]? = some rn1 ∧
        rn1.Children = rn.Children ++ [p.heap.length] ++ ext) ∧
      (∀ (i : Nat) (nd : DocoptAst), p.heap[i]? = some nd →
        ∃ nd1, p1.heap[i]? = some nd1 ∧ nd1.Typ = nd.Typ) ∧
      (∀ (i : Nat) (nd : DocoptAst), p.heap.length < i → p1.heap[i]? = some nd →
        nd.Typ ≠ .Options_section)) ∧
    (∀ i, Ready p i → ChildrenInRange p.heap → p.tokens ≠ [] →
      p.s.items.length - i < fuel →
      ∃ p4, Parse_step (Consume_Options fuel) p = .ok p4 ∧
        p4.options_node = some p.heap.length) ∧
    (∀ (pfuel : Nat) (q q1 : DocoptParser), Parse pfuel q = .ok q1 →
      q1.options_node ≠ none ∧
      ∀ (m : Option OptionsMap) (er : Option String),
        transform_Options_section_to_map q1 = .ok (m, er) →
        er ≠ some "error: options_node is nil") ∧
    after_Parse 40 options_doc_source (fun q => q.options_node.isSome) = some true ∧
    after_Parse 40 myprog_source (fun q => q.options_node.isSome) = some true ∧
    after_Parse 40 [] (fun q => q.options_node.isSome) = some true := by
  have hrl : root < p.heap.length := lt_of_getElem?_eq_some _ _ _ hroot
  refine ⟨?_, ?_, ?_, ?_, ?_, by decide!, by decide!, by decide!⟩
  · intro i hr hw ht hf
    exact Consume_Options_total fuel p root i tok hast hrl htok hr hw ht hf
  · intro hc
    have hc' : tok.Typ ≠ .SECTION ∨ ¬ EqualFold tok.Value "options:" = true := by
      rcases hc with hc | hc
      · exact Or.inl hc
      · exact Or.inr (by rw [hc]; decide)
    unfold Consume_Options
    simp only [hast, deref, AddNode, hroot, htok, hc', if_true, bind, Except.bind, pure,
      Except.pure]
  · intro e p1 h
    obtain ⟨root', h0, hast', hadd, hext, hopt, _, _⟩ := Consume_Options_result fuel p p1 e h
    rw [hast] at hast'
    have hr : root = root' := Option.some.inj hast'
    subst hr
    obtain ⟨_, hlen, hnew, hold⟩ := AddNode_spec _ _ _ _ _ _ hadd
    refine ⟨hopt, ?_, ?_, ?_, ?_⟩
    · obtain ⟨sn, a1, a2, a3, a4, _⟩ := hext.2.1 _ _ hnew
      exact ⟨sn, a1, a2, a3, a4⟩
    · obtain ⟨rn0, b1, _, _, _, b5⟩ := hold root rn hroot
      obtain ⟨rn1, a1, _, _, _, ext, a5⟩ := hext.2.1 _ _ b1
      exact ⟨rn1, ext, a1, by rw [a5, b5 rfl]⟩
    · intro i nd hi
      obtain ⟨nd0, b1, b2, _⟩ := hold i nd hi
      obtain ⟨nd1, a1, a2, _⟩ := hext.2.1 _ _ b1
      exact ⟨nd1, a1, a2.trans b2⟩
    · intro i nd hlt hi hty
      have hc := hext.2.2 i nd (by omega) hi
      rw [hty] at hc
      exact absurd hc (by decide)
  · intro i hr hw ht hf
    obtain ⟨e, p1, h⟩ := Consume_Options_total fuel p root i tok hast hrl htok hr hw ht hf
    obtain ⟨_, _, _, _, _, hopt, _, _⟩ := Consume_Options_result fuel p p1 e h
    unfold Parse_step
    simp only [h, bind, Except.bind]
    by_cases he : e.isSome = true
    · simp only [he, if_true, pure, Except.pure]
      exact ⟨_, rfl, hopt⟩
    · simp only [he, Bool.false_eq_true, if_false, pure, Except.pure]
      exact ⟨_, rfl, hopt⟩
  · intro pfuel q q1 hp
    unfold Parse at hp
    simp only [bind_eq_ok, pure_eq_ok] at hp
    obtain ⟨_, _, _, _, _, _, p3, _, p4, h4, p5, h5, rfl⟩ := hp
    unfold Parse_step at h4 h5
    simp only [bind_eq_ok] at h4 h5
    obtain ⟨⟨e4, r4⟩, hopts, h4⟩ := h4
    obtain ⟨⟨e5, r5⟩, hfree, h5⟩ := h5
    obtain ⟨_, _, _, _, _, ho4, _, _⟩ := Consume_Options_result _ _ _ _ hopts
    have hs5 := (Consume_Free_section_sec _ _ _ _ hfree).2.2.1
    have hp4 : p4.options_node = some p3.heap.length := by
      simp only [] at h4
      by_cases he : e4.isSome = true
      · simp only [he, if_true, pure_eq_ok] at h4
        rw [← h4]
        exact ho4
      · simp only [he, Bool.false_eq_true, if_false, pure_eq_ok] at h4
        rw [← h4]
        exact ho4
    have hp5 : p5.options_node = some p3.heap.length := by
      simp only [] at h5
      by_cases he : e5.isSome = true
      · simp only [he, if_true, pure_eq_ok] at h5
        rw [← h5]
        exact hs5.trans hp4
      · simp only [he, Bool.false_eq_true, if_false, pure_eq_ok] at h5
        rw [← h5]
        exact hs5.trans hp4
    refine ⟨by rw [hp5]; simp, ?_⟩
    intro m er ht
    unfold transform_Options_section_to_map at ht
    simp only [hp5, bind_eq_ok, pure_eq_ok, Prod.mk.injEq] at ht
    obtain ⟨_, _, _, _, _, rfl⟩ := ht
    simp

theorem Consume_Options_section_witness :
    (∃ e p1, Consume_Options 40 options_ready_state = .ok (e, p1)) ∧
      (result_or (Consume_Options 40 options_ready_state) no_step).2.options_node =
        some options_ready_state.heap.length ∧
      ∃ p4, Parse_step (Consume_Options 40) options_ready_state = .ok p4 ∧
        p4.options_node = some options_ready_state.heap.length := by
  have h := Consume_Options_section 40 options_ready_state 0
    { Typ := .Root, Token := none, Parent := none, Children := [1, 2, 6], Repeat := false }
    ⟨.SECTION, "Options:", 4⟩ (by decide!) (by decide!) (by decide!)
  have hitems : options_ready_state.s.items = options_doc_source := by decide!
  have r1 : Ready options_ready_state 5 := by
    refine ⟨?_, by decide!, by decide!, Or.inr ⟨by decide!, by decide!, fun _ => by decide!⟩⟩
    intro it hit
    rw [hitems] at hit
    simp only [options_doc_source, List.mem_cons, List.mem_singleton, List.not_mem_nil,
      or_false] at hit
    rcases hit with rfl | rfl | rfl | rfl | rfl | rfl | rfl | rfl | rfl | rfl | rfl <;>
      exact ⟨_, _, rfl⟩
  have hw : ChildrenInRange options_ready_state.heap := by decide!
  have ht : options_ready_state.tokens ≠ [] := by decide!
  have hf : options_ready_state.s.items.length - 5 < 40 := by decide!
  exact ⟨h.1 5 r1 hw ht hf,
    (h.2.2.1 _ _ (eq_ok_result_or_step (Consume_Options 40 options_ready_state) no_step
      (by decide!))).1,
    h.2.2.2.1 5 r1 hw ht hf⟩

/-- Claim C26.  One round of the loop of `Consume_Free_section`, after
`NextToken` has made `tok` the current token: at `EOF` and at a `SECTION` equal
to `options:` ignoring case it returns nil; at a `SECTION` equal to `usage:`
ignoring case it returns an error; any other `SECTION` becomes the
`Section_name` of the current section when that has no children, and otherwise
`Consume_Free_section` is entered again: a new `Free_section` is appended as
the last child of the `Root` (not under the previous section), gets the token
as `Section_name` and becomes the current node; every other token is appended
as a `Section_node`.  A nil error is returned at `EOF` or at such a `SECTION`
only. -/
theorem Consume_Free_section_round (n : Nat) (p pa : DocoptParser) (tok : Token)
    (c root : Nat) (nd rn : DocoptAst) (hrun : p.run = true)
    (hnext : NextToken p = .ok pa) (htok : pa.current_token = some tok)
    (hcur : pa.current_node = some c) (hnd : pa.heap[c]? = some nd)
    (hast : pa.ast = some root) (hroot : pa.heap[root]? = some rn) :
    (tok.Typ = .EOF → Consume_Free_section_loop (n + 1) p = .ok (none, pa)) ∧
    (tok.Typ = .SECTION → EqualFold tok.Value "options:" = true →
      Consume_Free_section_loop (n + 1) p = .ok (none, pa)) ∧
    (tok.Typ = .SECTION → EqualFold tok.Value "options:" = false →
      EqualFold tok.Value "usage:" = true →
      ∃ msg, Consume_Free_section_loop (n + 1) p = .ok (some msg, pa)) ∧
    (tok.Typ = .SECTION → EqualFold tok.Value "options:" = false →
      EqualFold tok.Value "usage:" = false → nd.Children = [] →
      Consume_Free_section_loop (n + 1) p =
        (addToCurrent pa .Section_name (some tok) >>= Consume_Free_section_loop n)) ∧
    (tok.Typ = .SECTION → EqualFold tok.Value "options:" = false →
      EqualFold tok.Value "usage:" = false → nd.Children ≠ [] →
      Consume_Free_section_loop (n + 1) p =
        Consume_Free_section_loop n
          { (if pa.s.Current_state ≠ "state_Free" then Change_lexer_state pa "state_Free"
             else pa) with
            heap := (pa.heap.set root { rn with Children := rn.Children ++ [pa.heap.length] } ++
                [({ Typ := .Free_section, Token := none, Parent := some root, Children := [],
                    Repeat := false } : DocoptAst)]).set pa.heap.length
                  { Typ := .Free_section, Token := none, Parent := some root,
                    Children := [pa.heap.length + 1], Repeat := false } ++
              [{ Typ := .Section_name, Token := some tok, Parent := some pa.heap.length,
                 Children := [], Repeat := false }],
            current_node := some pa.heap.length }) ∧
    (tok.Typ ≠ .EOF → tok.Typ ≠ .SECTION →
      Consume_Free_section_loop (n + 1) p =
        (addToCurrent pa .Section_node (some tok) >>= Consume_Free_section_loop n)) ∧
    (∀ (fuel : Nat) (q q1 : DocoptParser), Consume_Free_section_loop fuel q = .ok (none, q1) →
      ∃ t, q1.current_token = some t ∧
        (t.Typ = .EOF ∨ (t.Typ = .SECTION ∧ EqualFold t.Value "options:" = true))) ∧
    after_Parse 40 free_doc_source (fun x => labels_at x.heap []) =
      some (some [some (.Prologue, none), some (.Usage_section, none),
        some (.Free_section, none), some (.Free_section, none),
        some (.Options_section, none), some (.Free_section, none)]) ∧
    after_Parse 40 free_doc_source (fun x => labels_at x.heap [2]) =
      some (some [some (.Section_name, some "Notes:"), some (.Section_node, some "text"),
        some (.Section_node, some "\n")]) ∧
    after_Parse 40 free_doc_source (fun x => labels_at x.heap [3]) =
      some (some [some (.Section_name, some "More:"), some (.Section_node, some "x"),
        some (.Section_node, some "\n")]) := by
  refine ⟨?_, ?_, ?_, ?_, ?_, ?_, Consume_Free_section_loop_nil, by decide!, by decide!,
    by decide!⟩
  · intro hT
    rw [Consume_Free_section_loop]
    simp [hrun, hnext, htok, deref, hT, bind, Except.bind, pure, Except.pure]
  · intro hT ho
    rw [Consume_Free_section_loop]
    simp [hrun, hnext, htok, deref, hT, ho, bind, Except.bind, pure, Except.pure]
  · intro hT ho hu
    rw [Consume_Free_section_loop]
    exact ⟨nd.Typ.String ++ ": Usage: token found outside Usage_section: " ++
      fmtToken (some tok), by
      simp [hrun, hnext, htok, deref, hT, ho, hu, curNodeType, hcur, node, hnd, bind,
        Except.bind, pure, Except.pure]⟩
  · intro hT ho hu hz
    rw [Consume_Free_section_loop]
    simp [hrun, hnext, htok, deref, hT, ho, hu, hcur, node, hnd, hz, bind, Except.bind, pure,
      Except.pure]
  · intro hT ho hu hz
    rw [Consume_Free_section_loop]
    have hz' : ¬ nd.Children.length = 0 := by
      intro hl
      exact hz (List.length_eq_zero.mp hl)
    by_cases hc : pa.s.Current_state = "state_Free"
    · simp [hrun, hnext, htok, deref, hT, ho, hu, hcur, node, hnd, hz', Free_section_enter, hc,
        hast, hroot, AddNode, curType, addToCurrent, bind, Except.bind, pure, Except.pure]
    · simp [hrun, hnext, htok, deref, hT, ho, hu, hcur, node, hnd, hz', Free_section_enter, hc,
        Change_lexer_state, hast, hroot, AddNode, curType, addToCurrent, bind, Except.bind,
        pure, Except.pure]
  · intro hT1 hT2
    rw [Consume_Free_section_loop]
    simp [hrun, hnext, htok, deref, hT1, hT2, bind, Except.bind, pure, Except.pure]

theorem Consume_Free_section_round_witness :
    Consume_Free_section_loop (20 + 1) free_state =
      Consume_Free_section_loop 20
        { (if free_next_state.s.Current_state ≠ "state_Free" then
             Change_lexer_state free_next_state "state_Free"
           else free_next_state) with
          heap := (free_next_state.heap.set 0
                { ({ Typ := .Root, Token := none, Parent := none, Children := [1, 2, 6],
                     Repeat := false } : DocoptAst) with
                  Children := [1, 2, 6] ++ [free_next_state.heap.length] } ++
              [({ Typ := .Free_section, Token := none, Parent := some 0, Children := [],
                  Repeat := false } : DocoptAst)]).set free_next_state.heap.length
                { Typ := .Free_section, Token := none, Parent := some 0,
                  Children := [free_next_state.heap.length + 1], Repeat := false } ++
            [{ Typ := .Section_name, Token := some ⟨.SECTION, "More:", 7⟩,
               Parent := some free_next_state.heap.length, Children := [], Repeat := false }],
          current_node := some free_next_state.heap.length } :=
  (Consume_Free_section_round 20 free_state free_next_state ⟨.SECTION, "More:", 7⟩ 6 0
    { Typ := .Free_section, Token := none, Parent := some 0, Children := [7, 8, 9],
      Repeat := false }
    { Typ := .Root, Token := none, Parent := none, Children := [1, 2, 6], Repeat := false }
    (by decide!)
    (eq_ok_result_or_state (NextToken free_state) (ParserInit []) (by decide!))
    (by decide!) (by decide!) (by decide!) (by decide!) (by decide!)).2.2.2.2.1 rfl
    (by decide!) (by decide!) (by simp)

/-- Claim C24.  `Consume_First_Program_Usage` switches the lexer state and runs
its loop.  For a parser without a program name, one round of the loop, after
`NextToken` has made `tok` the current token: the name is still empty and the
tree and current node untouched; at a `PROG_NAME` the round returns nil with
the program name set to the value of the token, a `Usage_line` appended under
the current node with one `Prog_name` child carrying the token, and the
`Usage_line` current; a `BLANK`, and a `NEWLINE` whose lookahead is no
`NEWLINE`, are skipped; at a `NEWLINE` followed by a `NEWLINE`, and at a token
of any other kind, an error is returned and the parser is the one `NextToken`
left, so the name is empty and the tree unchanged.  Whenever the loop returns,
the result is one of these two; and `Consume_Prologue`, `Consume_Usage_line`,
`Consume_Free_section` and `Consume_Options` keep the program name. -/
theorem First_Program_Usage_round (n : Nat) (p pa : DocoptParser) (tok : Token) (c : Nat)
    (nd : DocoptAst) (hname : p.Prog_name = "") (hrun : p.run = true)
    (hnext : NextToken p = .ok pa) (htok : pa.current_token = some tok)
    (hcur : pa.current_node = some c) (hnd : pa.heap[c]? = some nd) :
    (∀ (fuel : Nat) (q : DocoptParser), Consume_First_Program_Usage fuel q =
      Consume_First_Program_Usage_loop fuel
        { q with lexer_state_changed := true,
                 s := { q.s with Current_state := "state_First_Program_Usage" } }) ∧
    (pa.Prog_name = "" ∧ pa.heap = p.heap ∧ pa.current_node = p.current_node) ∧
    (tok.Typ = .PROG_NAME →
      Consume_First_Program_Usage_loop (n + 1) p = .ok (none,
        { pa with
          Prog_name := tok.Value,
          heap := (pa.heap.set c { nd with Children := nd.Children ++ [pa.heap.length] } ++
              [({ Typ := .Usage_line, Token := none, Parent := some c, Children := [],
                  Repeat := false } : DocoptAst)]).set pa.heap.length
                { Typ := .Usage_line, Token := none, Parent := some c,
                  Children := [pa.heap.length + 1], Repeat := false } ++
            [{ Typ := .Prog_name, Token := some tok, Parent := some pa.heap.length,
               Children := [], Repeat := false }],
          current_node := some pa.heap.length })) ∧
    (tok.Typ = .BLANK →
      Consume_First_Program_Usage_loop (n + 1) p = Consume_First_Program_Usage_loop n pa) ∧
    (∀ nx : Token, tok.Typ = .NEWLINE → pa.next_token = some nx → nx.Typ ≠ .NEWLINE →
      Consume_First_Program_Usage_loop (n + 1) p = Consume_First_Program_Usage_loop n pa) ∧
    (∀ nx : Token, tok.Typ = .NEWLINE → pa.next_token = some nx → nx.Typ = .NEWLINE →
      ∃ msg, Consume_First_Program_Usage_loop (n + 1) p = .ok (some msg, pa)) ∧
    (tok.Typ ≠ .PROG_NAME → tok.Typ ≠ .BLANK → tok.Typ ≠ .NEWLINE →
      ∃ msg, Consume_First_Program_Usage_loop (n + 1) p = .ok (some msg, pa)) ∧
    (∀ (fuel : Nat) (q q1 : DocoptParser) (e : Option String), q.Prog_name = "" →
      Consume_First_Program_Usage fuel q = .ok (e, q1) →
      (e.isSome = true →
        q1.Prog_name = "" ∧ q1.heap = q.heap ∧ q1.current_node = q.current_node) ∧
      (e = none → ∃ (t : Token) (k : Nat) (h1 : Heap),
        q1.current_token = some t ∧ t.Typ = .PROG_NAME ∧ q1.Prog_name = t.Value ∧
        q.current_node = some k ∧
        AddNode q.heap k .Usage_line none = .ok (q.heap.length, h1) ∧
        AddNode h1 q.heap.length .Prog_name (some t) = .ok (q.heap.length + 1, q1.heap) ∧
        q1.current_node = some q.heap.length)) ∧
    (∀ (fuel : Nat) (q q1 : DocoptParser) (e : Option String),
      (Consume_Prologue fuel q = .ok (e, q1) ∨ Consume_Usage_line fuel q = .ok (e, q1) ∨
        Consume_Free_section fuel q = .ok (e, q1) ∨ Consume_Options fuel q = .ok (e, q1)) →
      q1.Prog_name = q.Prog_name) ∧
    after_Usage 40 no_name_source (fun x => (x.1.isSome, x.2.Prog_name)) = some (true, "") ∧
    after_Usage 40 no_name_source (fun x => labels_at x.2.heap [1]) =
      some (some [some (.Usage, some "Usage:")]) ∧
    after_Usage 40 late_name_source (fun x => (x.1, x.2.Prog_name)) = some (none, "p") ∧
    after_Usage 40 late_name_source (fun x => labels_at x.2.heap [1]) =
      some (some [some (.Usage, some "Usage:"), some (.Usage_line, none)]) ∧
    after_Usage 40 late_name_source (fun x => labels_at x.2.heap [1, 1]) =
      some (some [some (.Prog_name, some "p"), some (.Usage_Expr, none)]) := by
  obtain ⟨hh, hc, _, _, _, hn, _, _⟩ := NextToken_frame p pa hnext
  have hna : pa.Prog_name = "" := hn.trans hname
  refine ⟨fun _ _ => rfl, ⟨hna, hh, hc⟩, ?_, ?_, ?_, ?_, ?_, ?_, ?_, by decide!, by decide!,
    by decide!, by decide!, by decide!⟩
  · intro hT
    have hlt : c < pa.heap.length := lt_of_getElem?_eq_some _ _ _ hnd
    rw [Consume_First_Program_Usage_loop]
    simp [hrun, hnext, htok, deref, hT, hcur, AddNode, hnd, StateLexer.DynamicRuleUpdate, bind,
      Except.bind, pure, Except.pure, hlt]
  · intro hT
    rw [Consume_First_Program_Usage_loop]
    simp [hrun, hnext, htok, deref, hT, bind, Except.bind, pure, Except.pure]
  · intro nx hT hnx hne
    rw [Consume_First_Program_Usage_loop]
    simp [hrun, hnext, htok, deref, hT, nextType, hnx, hne, bind, Except.bind, pure,
      Except.pure]
  · intro nx hT hnx he
    rw [Consume_First_Program_Usage_loop]
    exact ⟨"Consume_First_Program_Usage: PROG_NAME not defined while leaving " ++
      "on 2 consecutive NEWLINE: " ++ fmtToken (some tok), by
      simp [hrun, hnext, htok, deref, hT, nextType, hnx, he, hna, bind, Except.bind, pure,
        Except.pure]⟩
  · intro h1 h2 h3
    rw [Consume_First_Program_Usage_loop]
    exact ⟨"Consume_First_Program_Usage: expecting PROG_NAME, got: " ++ tok.Typ.name, by
      simp [hrun, hnext, htok, deref, h1, h2, h3, bind, Except.bind, pure, Except.pure]⟩
  · intro fuel q q1 e hq h
    exact First_Program_Usage_loop_result fuel
      (Change_lexer_state q "state_First_Program_Usage") q1 e hq h
  · intro fuel q q1 e h
    rcases h with h | h | h | h
    · exact Consume_Prologue_name fuel q q1 e h
    · exact Consume_Usage_line_name fuel q q1 e h
    · exact (Consume_Free_section_sec fuel q q1 e h).2.1
    · obtain ⟨_, _, _, _, _, _, hp, _⟩ := Consume_Options_result fuel q q1 e h
      exact hp

theorem First_Program_Usage_round_witness :
    first_usage_state.Prog_name = "" ∧ first_usage_state.run = true ∧
      first_usage_next.current_token = some ⟨.PROG_NAME, "p", 1⟩ ∧
      Consume_First_Program_Usage_loop 1 first_usage_state = .ok (none,
        { first_usage_next with
          Prog_name := "p",
          heap := (first_usage_next.heap.set 2
              { Typ := .Usage_section, Token := none, Parent := some 0,
                Children := [3] ++ [first_usage_next.heap.length], Repeat := false } ++
              [({ Typ := .Usage_line, Token := none, Parent := some 2, Children := [],
                  Repeat := false } : DocoptAst)]).set first_usage_next.heap.length
                { Typ := .Usage_line, Token := none, Parent := some 2,
                  Children := [first_usage_next.heap.length + 1], Repeat := false } ++
            [{ Typ := .Prog_name, Token := some ⟨.PROG_NAME, "p", 1⟩,
               Parent := some first_usage_next.heap.length, Children := [],
               Repeat := false }],
          current_node := some first_usage_next.heap.length }) :=
  ⟨by decide!, by decide!, by decide!,
    (First_Program_Usage_round 0 first_usage_state first_usage_next ⟨.PROG_NAME, "p", 1⟩ 2
      { Typ := .Usage_section, Token := none, Parent := some 0, Children := [3],
        Repeat := false }
      (by decide!) (by decide!)
      (eq_ok_result_or_state (NextToken first_usage_state) (ParserInit []) (by decide!))
      (by decide!) (by decide!) (by decide!)).2.2.1 rfl⟩

/-- Claim C23.  `Consume_Prologue` on a running parser whose lexer is error-free
and whose next token is the one at position `i`, with the `Root` current: the
source from `i` is the tokens `pre`, none of them `USAGE` or `EOF`, followed by
`tail`, which is empty or starts with a `USAGE` or an `EOF`.  With more fuel than
`pre` has tokens the call returns, and returns nil exactly when `tail` starts
with `USAGE`.  Then the `Root` has gained a `Prologue` with one `Prologue_node`
per token of `pre`, in order, followed by a `Usage_section` whose only child is
the `Usage` terminal carrying the `USAGE` token, and the `Usage_section` is the
current node and `usage_node`.  Otherwise the error is the one about `EOF`, the
`Root` has gained the `Prologue` only, and no node added is a
`Usage_section`. -/
theorem Consume_Prologue_stream (p : DocoptParser) (i root : Nat) (rn : DocoptAst)
    (pre : List (TokenKind × String)) (tail : List LexItem) (fuel : Nat)
    (hrun : p.run = true) (hready : Ready p i)
    (hsrc : p.s.items.drop i = pre.map (fun x => LexItem.tok x.1 x.2) ++ tail)
    (hpre : ∀ x ∈ pre, x.1 ≠ .USAGE ∧ x.1 ≠ .EOF)
    (htail : ∀ k v rest, tail = .tok k v :: rest → k = .USAGE ∨ k = .EOF)
    (hcur : p.current_node = some root) (hast : p.ast = some root)
    (hroot : p.heap[root]? = some rn) (hfuel : pre.length < fuel) :
    ∃ e p1, Consume_Prologue fuel p = .ok (e, p1) ∧
      (e = none ↔ ∃ v rest, tail = .tok .USAGE v :: rest) ∧
      (∀ v rest, tail = .tok .USAGE v :: rest →
        p1.heap = p.heap.set root
            { rn with Children := rn.Children ++
                [p.heap.length, p.heap.length + pre.length + 1] } ++
          [{ Typ := .Prologue, Token := none, Parent := some root,
             Children := List.range' (p.heap.length + 1) pre.length, Repeat := false }] ++
          prologue_nodes p.heap.length i pre ++
          [{ Typ := .Usage_section, Token := none, Parent := some root,
             Children := [p.heap.length + pre.length + 2], Repeat := false },
           { Typ := .Usage, Token := some ⟨.USAGE, v, i + pre.length⟩,
             Parent := some (p.heap.length + pre.length + 1), Children := [],
             Repeat := false }] ∧
        p1.current_node = some (p.heap.length + pre.length + 1) ∧
        p1.usage_node = some (p.heap.length + pre.length + 1)) ∧
      ((¬ ∃ v rest, tail = .tok .USAGE v :: rest) →
        e = some "EOF encountered will parsing Prologue, without 'Usage:' found" ∧
        (∃ tk : Token, tk.Typ = .EOF ∧
          p1.heap = p.heap.set root { rn with Children := rn.Children ++ [p.heap.length] } ++
            [{ Typ := .Prologue, Token := none, Parent := some root,
               Children := List.range' (p.heap.length + 1) (pre.length + 1),
               Repeat := false }] ++
            (prologue_nodes p.heap.length i pre ++
              [{ Typ := .Prologue_node, Token := some tk, Parent := some p.heap.length,
                 Children := [], Repeat := false }])) ∧
        p1.usage_node = p.usage_node ∧
        ∀ (j : Nat) (nd : DocoptAst), p.heap.length ≤ j → p1.heap[j]? = some nd →
          nd.Typ ≠ .Usage_section) := by
  have hlt : root < p.heap.length := lt_of_getElem?_eq_some _ _ _ hroot
  have hc := CreateNode_Prologue_root p root rn hcur hast hroot
  have hH0 : (p.heap.set root
      ({ rn with Children := rn.Children ++ [p.heap.length] } : DocoptAst)).length =
      p.heap.length := List.length_set _ _ _
  have hloop := Consume_Prologue_loop_stream tail
    (p.heap.set root ({ rn with Children := rn.Children ++ [p.heap.length] } : DocoptAst))
    (some root) i pre []
    { p with
      heap := p.heap.set root { rn with Children := rn.Children ++ [p.heap.length] } ++
        [{ Typ := .Prologue, Token := none, Parent := some root, Children := [],
           Repeat := false }],
      current_node := some p.heap.length } fuel
    (by
      obtain ⟨r1, r2, r3, r4⟩ := hready
      exact ⟨r1, r2, r3, r4⟩)
    hrun (by rw [hH0]) (by simp [prologue_nodes]) hsrc hpre hfuel
  simp only [List.nil_append, List.length_set] at hloop
  obtain ⟨hA, hB⟩ := hloop
  have hval : Consume_Prologue fuel p = Consume_Prologue_loop fuel
      { p with
        heap := p.heap.set root { rn with Children := rn.Children ++ [p.heap.length] } ++
          [{ Typ := .Prologue, Token := none, Parent := some root, Children := [],
             Repeat := false }],
        current_node := some p.heap.length } := by
    unfold Consume_Prologue
    rw [hc]
    rfl
  rw [hval]
  by_cases hU : ∃ v rest, tail = .tok .USAGE v :: rest
  · obtain ⟨v, rest, hv⟩ := hU
    obtain ⟨p1, h1, h2, h3, h4, _⟩ := hA v rest root
      { rn with Children := rn.Children ++ [p.heap.length] } hv hast
      (by rw [List.getElem?_set_self hlt])
    refine ⟨none, p1, h1, ⟨fun _ => ⟨v, rest, hv⟩, fun _ => rfl⟩, ?_, ?_⟩
    · intro v1 rest1 hv1
      have hvv : v1 = v := by
        rw [hv] at hv1
        simp only [List.cons.injEq, LexItem.tok.injEq, true_and] at hv1
        exact hv1.1.symm
      subst hvv
      refine ⟨?_, ?_, ?_⟩
      · rw [h2, List.set_set]
        simp only [List.append_assoc, List.cons_append, List.nil_append, Nat.add_assoc]
      · exact h3
      · exact h4
    · intro hno
      exact absurd ⟨v, rest, hv⟩ hno
  · have hE : tail = [] ∨ ∃ v rest, tail = .tok .EOF v :: rest := by
      cases htl : tail with
      | nil => exact Or.inl rfl
      | cons it rest =>
        right
        have hmem : it ∈ p.s.items := by
          have : it ∈ p.s.items.drop i := by
            rw [hsrc, htl]
            simp
          exact List.mem_of_mem_drop this
        obtain ⟨k, v, rfl⟩ := hready.1 it hmem
        rcases htail k v rest htl with hk | hk
        · exact absurd ⟨v, rest, by rw [htl, hk]⟩ hU
        · exact ⟨v, rest, by rw [hk]⟩
    obtain ⟨p1, tk, h1, hty, h2, _, h4, _⟩ := hB hE
    refine ⟨_, p1, h1, ⟨fun h => by simp at h, fun h => absurd h hU⟩, ?_, ?_⟩
    · intro v rest hv
      exact absurd ⟨v, rest, hv⟩ hU
    · intro _
      refine ⟨rfl, ⟨tk, hty, ?_⟩, h4, ?_⟩
      · rw [h2]
      · intro j nd hj hnd
        rw [h2, List.append_assoc, List.getElem?_append_right (by rw [hH0]; exact hj)] at hnd
        have hmem := mem_of_getElem?_eq_some _ _ _ hnd
        simp only [List.mem_append, List.mem_singleton] at hmem
        rcases hmem with rfl | hmem | rfl
        · simp
        · rw [prologue_nodes_typ _ _ _ _ hmem]
          simp
        · simp

theorem Consume_Prologue_stream_witness :
    (prologue_entry prologue_source).run = true ∧
      (∃ p1, Consume_Prologue 4 (prologue_entry prologue_source) = .ok (none, p1) ∧
        p1.current_node = some 5 ∧ p1.usage_node = some 5) ∧
      ∃ msg p1, Consume_Prologue 3 (prologue_entry prologue_only_source) =
        .ok (some msg, p1) ∧ p1.usage_node = none := by
  have hitems : ∀ src, (prologue_entry src).s.items = src := fun _ => rfl
  have r1 : Ready (prologue_entry prologue_source) 0 := by
    refine ⟨?_, by decide!, by decide!, Or.inl ⟨by decide!, by decide!⟩⟩
    intro it hit
    rw [hitems] at hit
    simp only [prologue_source, List.mem_cons, List.mem_singleton, List.not_mem_nil,
      or_false] at hit
    rcases hit with rfl | rfl | rfl | rfl | rfl <;> exact ⟨_, _, rfl⟩
  have r2 : Ready (prologue_entry prologue_only_source) 0 := by
    refine ⟨?_, by decide!, by decide!, Or.inl ⟨by decide!, by decide!⟩⟩
    intro it hit
    rw [hitems] at hit
    simp only [prologue_only_source, List.mem_cons, List.mem_singleton, List.not_mem_nil,
      or_false] at hit
    rcases hit with rfl | rfl <;> exact ⟨_, _, rfl⟩
  refine ⟨by decide!, ?_, ?_⟩
  · obtain ⟨e, p1, h, hiff, hs, _⟩ := Consume_Prologue_stream (prologue_entry prologue_source)
      0 0 { Typ := .Root, Token := none, Parent := none, Children := [], Repeat := false }
      [(.OTHER, "my"), (.OTHER, "tool"), (.NEWLINE, "\n")]
      [.tok .USAGE "Usage:", .tok .PROG_NAME "p"] 4 (by decide!) r1 rfl (by decide)
      (by
        intro k v rest hk
        simp only [List.cons.injEq, LexItem.tok.injEq] at hk
        exact Or.inl hk.1.1.symm)
      (by decide!) (by decide!) (by decide!) (by decide)
    have he : e = none := hiff.mpr ⟨_, _, rfl⟩
    subst he
    obtain ⟨_, h2, h3⟩ := hs _ _ rfl
    have hl : (prologue_entry prologue_source).heap.length = 1 := by decide!
    rw [hl] at h2 h3
    exact ⟨p1, h, h2, h3⟩
  · obtain ⟨e, p1, h, hiff, _, hs⟩ := Consume_Prologue_stream
      (prologue_entry prologue_only_source)
      0 0 { Typ := .Root, Token := none, Parent := none, Children := [], Repeat := false }
      [(.OTHER, "my"), (.OTHER, "tool")] [] 3 (by decide!) r2 rfl (by decide)
      (by
        intro k v rest hk
        simp at hk)
      (by decide!) (by decide!) (by decide!) (by decide)
    obtain ⟨he, _, hu, _⟩ := hs (by simp)
    subst he
    have hn : (prologue_entry prologue_only_source).usage_node = none := by decide!
    exact ⟨_, p1, h, hu.trans hn⟩

/-- Claim C31.  `try_get_NextToken` returns for every source, whatever the lexer
answers: entered with `Error_count = e` and `max_error = m` it calls `Next` at
most `m - e` times, and not at all when `e ≥ m` (it then returns its error and
changes nothing).  The errors appended to `Errors` are as many as `Error_count`
has grown, one for each failing call, and `Error_count` is not raised above `m`.
When it returns nil a token has been stored in the variable asked for; the calls
were the failing ones and the successful one, and the token was read one byte
further for each failing call.  When it returns an error within the budget,
the budget is used up, every call failed, each but the last was followed by the
discard of one byte, and no token has been stored.  With three unmatched bytes
before `Usage:` there are four calls; with twelve, ten calls. -/
theorem try_get_NextToken_terminates (p : DocoptParser) (slot : Slot) :
    ∃ e1 p1, try_get_NextToken p slot = .ok (e1, p1) ∧
      try_get_NextToken_calls (p.max_error - p.Error_count) p ≤ p.max_error - p.Error_count ∧
      (p.max_error ≤ p.Error_count →
        try_get_NextToken_calls (p.max_error - p.Error_count) p = 0 ∧ p1 = p ∧
          e1.isSome = true) ∧
      p.Error_count ≤ p1.Error_count ∧
      p1.Errors.length + p.Error_count = p.Errors.length + p1.Error_count ∧
      p1.max_error = p.max_error ∧
      (p.Error_count ≤ p.max_error → p1.Error_count ≤ p.max_error) ∧
      (e1 = none → ∃ tok, stored p1 slot tok ∧
        tok.Pos + p.Error_count = p.s.pos + p1.Error_count ∧
        try_get_NextToken_calls (p.max_error - p.Error_count) p + p.Error_count =
          p1.Error_count + 1) ∧
      (e1.isSome = true → p.Error_count < p.max_error →
        p1.Error_count = p.max_error ∧
        p1.s.pos + 1 + p.Error_count = p.s.pos + p1.Error_count ∧
        try_get_NextToken_calls (p.max_error - p.Error_count) p + p.Error_count =
          p1.Error_count ∧
        p1.current_token = p.current_token ∧ p1.next_token = p.next_token) ∧
      (try_get_NextToken (ParserInit (unmatched_source 3)) .current).toOption.map
          (fun r => (r.1, r.2.Error_count, r.2.Errors.length, r.2.s.pos, r.2.current_token)) =
        some (none, 3, 3, 4, some ⟨.USAGE, "Usage:", 3⟩) ∧
      try_get_NextToken_calls 10 (ParserInit (unmatched_source 3)) = 4 ∧
      (try_get_NextToken (ParserInit (unmatched_source 12)) .current).toOption.map
          (fun r => (r.1, r.2.Error_count, r.2.Errors.length, r.2.s.pos, r.2.current_token)) =
        some (some "try_get_NextToken: too many errors", 10, 10, 9, none) ∧
      try_get_NextToken_calls 10 (ParserInit (unmatched_source 12)) = 10 := by
  obtain ⟨e1, p1, h1, h2, h3, h4, h5, h6, h7, h8, h9⟩ :=
    try_get_NextToken_rec_budget slot (p.max_error - p.Error_count) p (le_refl _)
  exact ⟨e1, p1, h1, h2, h3, h4, h5, h6, h7, h8, h9, by decide!, by decide!, by decide!,
    by decide!⟩

/-- Claim C32, the code at the failing input.  For `Usage: myprog go`, when
`Consume_Usage_Expr` receives the `IDENT` token `go` it appends the terminal and
returns, with a nil error, the reason of value 0 with `Leaving` false: the
variable `reason` as declared, which none of the leaving tests has assigned.
This is none of the six sentinels, so it is not `Continue`.  On the same parser
`Consume_group` appends the terminal and returns `Continue`, and on a `NEWLINE`
`Consume_Usage_Expr` itself returns `Continue`. -/
theorem terminal_reason_is_no_sentinel :
    ident_state.current_token = some ⟨.IDENT, "go", 2⟩ ∧
      (Consume_Usage_Expr 5 ident_state).toOption.map (fun r => (r.1, r.2.1)) =
        some (⟨0, false⟩, none) ∧
      (⟨0, false⟩ : Reason) ∉
        [Error, TWO_NEWLINE, PROG_NAME_sequence, EOF_reached, Continue, END_OF_Group] ∧
      (Consume_Usage_Expr 5 ident_state).toOption.map
          (fun r => labels_at r.2.2.heap [1, 1, 1]) =
        some (some [some (.Usage_command, some "go")]) ∧
      (Consume_group 5 ident_state).toOption.map (fun r => (r.1, r.2.1)) =
        some (Continue, none) ∧
      ((NextToken (result_or (Consume_Usage_Expr 5 ident_state)
            (Error, none, ParserInit [])).2.2).toOption.map (·.current_token) =
          some (some ⟨.NEWLINE, "\n", 3⟩) ∧
        ((NextToken (result_or (Consume_Usage_Expr 5 ident_state)
            (Error, none, ParserInit [])).2.2).bind (Consume_Usage_Expr 5)).toOption.map
            (fun r => (r.1, r.2.1)) = some (Continue, none)) := by
  refine ⟨?_, ?_, ?_, ?_, ?_, ?_, ?_⟩ <;> decide!

/-- The reasons of `Consume_Usage_Expr`.  Every reason it returns is one of the
sentinels `Error`, `TWO_NEWLINE`, `PROG_NAME_sequence`, `EOF_reached`,
`Continue`, or the zero value of `Reason` (value 0, `Leaving` false), which is
no sentinel; it never returns `END_OF_Group`.  The zero value is returned
exactly after a terminal has been appended for a `SHORT`, `LONG`, `ARGUMENT` or
`IDENT` token, with a nil error; like `Continue` it is not leaving, so the loop
of `Consume_loop` goes on after it. -/
theorem Consume_Usage_Expr_reasons (fuel : Nat) (p p1 : DocoptParser) (r : Reason)
    (e : Option String) (h : Consume_Usage_Expr fuel p = .ok (r, e, p1)) :
    (r ∈ [Error, TWO_NEWLINE, PROG_NAME_sequence, EOF_reached, Continue] ∨ r = Reason.zero) ∧
    r ≠ END_OF_Group ∧
    (r = Reason.zero → e = none ∧
      ∃ tok t, p.current_token = some tok ∧ usage_terminal tok.Typ = some t) ∧
    (∀ tok t, p.current_token = some tok → usage_terminal tok.Typ = some t →
      r = Reason.zero ∧ e = none) ∧
    Reason.zero ∉ [Error, TWO_NEWLINE, PROG_NAME_sequence, EOF_reached, Continue,
      END_OF_Group] ∧
    Reason.zero.Leaving = false ∧ Continue.Leaving = false := by
  have hr := Consume_Usage_Expr_reason fuel p p1 r e h
  refine ⟨?_, ?_, ?_, ?_, by decide, rfl, rfl⟩
  · rcases hr with hr | ⟨hr, _⟩
    · exact Or.inl hr
    · exact Or.inr hr
  · rcases hr with hr | ⟨hr, _⟩
    · intro hE
      rw [hE] at hr
      exact absurd hr (by decide)
    · rw [hr]
      decide
  · intro hz
    rcases hr with hr | ⟨_, he, ht⟩
    · rw [hz] at hr
      exact absurd hr (by decide)
    · exact ⟨he, ht⟩
  · intro tok t htok hterm
    have hT : tok.Typ = .SHORT ∨ tok.Typ = .LONG ∨ tok.Typ = .ARGUMENT ∨ tok.Typ = .IDENT := by
      cases hk : tok.Typ <;> simp [usage_terminal, hk] at hterm ⊢
    unfold Consume_Usage_Expr at h
    rcases hT with hk | hk | hk | hk <;>
      · simp only [has_reach_EOF, has_reach_two_NEWLINE, has_reach_PROG_NAME, curType, htok,
          deref, hk, bind, Except.bind, pure, Except.pure, reduceCtorEq, if_false,
          Bool.false_eq_true, false_and, and_false] at h
        revert h
        cases ensure_node p .Usage_Expr with
        | error x =>
          intro h
          exact absurd h (by simp)
        | ok v =>
          dsimp only
          generalize addToCurrent v _ v.current_token = y
          cases y with
          | error x =>
            intro h
            exact absurd h (by simp)
          | ok w =>
            intro h
            simp only [Except.ok.injEq, Prod.mk.injEq] at h
            exact ⟨h.1.symm, h.2.1.symm⟩

theorem Consume_Usage_Expr_reasons_witness :
    (result_or (Consume_Usage_Expr 5 ident_state) (Error, none, ParserInit [])).1 =
        Reason.zero ∧
      (result_or (Consume_Usage_Expr 5 ident_state) (Error, none, ParserInit [])).1 ≠
        END_OF_Group :=
  have h := Consume_Usage_Expr_reasons 5 ident_state
    (result_or (Consume_Usage_Expr 5 ident_state) (Error, none, ParserInit [])).2.2
    (result_or (Consume_Usage_Expr 5 ident_state) (Error, none, ParserInit [])).1 none
    (eq_ok_result_or (Consume_Usage_Expr 5 ident_state) (Error, none, ParserInit [])
      (by decide!) (by decide!))
  ⟨(h.2.2.2.1 ⟨.IDENT, "go", 2⟩ .Usage_command (by decide!) rfl).1, h.2.1⟩

/-- Claim C33.  `Consume_option_line` entered on a running parser whose lexer is
error-free and whose lookahead, the token at position `i`, is a `SHORT` or a
`LONG`: the call equals the one of the function without the test for an empty
option, so the branch of the error `unexpected empty option` is never taken.
When the call returns, the `Option_line` it created (the node allocated first)
has as children the option read from the lookahead and further `Option_short`
or `Option_long` nodes, followed by nothing else or by one
`Option_description`, which is thus the last child and the only description.
For the line `  -a, --all=<x>  text` the children are `Option_short -a`,
`Option_long --all` and the `Option_description`. -/
theorem Consume_option_line_never_empty (fuel : Nat) (p : DocoptParser) (i c : Nat)
    (nd : DocoptAst) (hrun : p.run = true) (hready : Ready p i)
    (hlook : (token_at p.s.items i).Typ = .SHORT ∨ (token_at p.s.items i).Typ = .LONG)
    (hcur : p.current_node = some c) (hnd : p.heap[c]? = some nd) :
    Consume_option_line fuel p = Consume_option_line_no_empty fuel p ∧
    (∀ e p1, Consume_option_line fuel p = .ok (e, p1) →
      ∃ ln, p1.heap[p.heap.length]? = some ln ∧ ln.Typ = .Option_line ∧
        ∃ ext desc, ln.Children = ([p.heap.length + 1] ++ ext) ++ desc ∧
          (∀ x ∈ [p.heap.length + 1] ++ ext, ∃ cn, p1.heap[x]? = some cn ∧
            (cn.Typ = .Option_short ∨ cn.Typ = .Option_long)) ∧
          (desc = [] ∨ ∃ d dn, desc = [d] ∧ p1.heap[d]? = some dn ∧
            dn.Typ = .Option_description)) ∧
    (Consume_option_line 20 option_line_state).toOption.map
        (fun r => (r.1, labels_at r.2.heap [0, 0])) =
      some (none, some [some (.Option_short, some "-a"), some (.Option_long, some "--all"),
        some (.Option_description, none)]) := by
  refine ⟨?_, ?_, by decide!⟩
  · unfold Consume_option_line Consume_option_line_no_empty
    simp only [hcur, deref, AddNode_ok p.heap c nd _ _ hnd, bind, Except.bind, pure,
      Except.pure]
    cases fuel with
    | zero =>
      rw [Consume_option_line_loop, Consume_option_line_loop_no_empty]
    | succ n =>
      obtain ⟨pb, b1, b2, g1, g2⟩ := option_line_first_round n p i c nd hrun hready hlook
      obtain ⟨ln, k1, _, k3, _⟩ := b1
      rw [g1, g2, Consume_option_line_loop_eq_no_empty n none pb
        ⟨_, ln, b2, k1, by rw [k3]; simp⟩]
  · intro e p1 h
    unfold Consume_option_line at h
    simp only [hcur, deref, AddNode_ok p.heap c nd _ _ hnd, bind, Except.bind, pure,
      Except.pure] at h
    cases fuel with
    | zero =>
      rw [Consume_option_line_loop] at h
      simp [hrun] at h
    | succ n =>
      obtain ⟨pb, b1, b2, g1, _⟩ := option_line_first_round n p i c nd hrun hready hlook
      rw [g1] at h
      cases hl : Consume_option_line_loop n none pb with
      | error f =>
        rw [hl] at h
        simp at h
      | ok r =>
        obtain ⟨e1, q⟩ := r
        have hs := Consume_option_line_loop_shape _ n none pb q e1 _ hl b2 b1
        rw [hl] at h
        simp only [] at h
        by_cases hq : q.run = true
        · simp only [hq, if_true, Except.ok.injEq, Prod.mk.injEq] at h
          obtain ⟨_, rfl⟩ := h
          exact hs
        · simp only [hq, Bool.false_eq_true, if_false] at h
          rw [(parser_stoped_eq _ _ _ h).1]
          exact hs

theorem Consume_option_line_never_empty_witness :
    option_line_state.run = true ∧
      Consume_option_line 20 option_line_state =
        Consume_option_line_no_empty 20 option_line_state := by
  have hitems : option_line_state.s.items = option_line_source := by decide!
  have r1 : Ready option_line_state 1 := by
    refine ⟨?_, by decide!, by decide!, Or.inr ⟨by decide!, by decide!, fun _ => by decide!⟩⟩
    intro it hit
    rw [hitems] at hit
    simp only [option_line_source, List.mem_cons, List.mem_singleton, List.not_mem_nil,
      or_false] at hit
    rcases hit with rfl | rfl | rfl | rfl | rfl | rfl | rfl | rfl | rfl <;> exact ⟨_, _, rfl⟩
  exact ⟨by decide!, (Consume_option_line_never_empty 20 option_line_state 1 1
    { Typ := .Options_section, Token := none, Parent := some 0, Children := [],
      Repeat := false }
    (by decide!) r1 (Or.inl (by decide!)) (by decide!) (by decide!)).1⟩

/-- Claim C34, refuted as stated.  For `Usage: p --opt=<arg>` the usage parsing
returns a nil error, and in the tree it built the terminal `Usage_argument`
`<arg>` is the child of the `Usage_long_option` `--opt`, which `Consume_assign`
attached it to: a terminal that is not the child of a `Usage_Expr`. -/
theorem assigned_argument_under_long_option :
    after_Usage 40 assign_source (fun x => x.1) = some none ∧
      after_Usage 40 assign_source (fun x => labels_at x.2.heap [1, 1, 1]) =
        some (some [some (.Usage_long_option, some "--opt")]) ∧
      after_Usage 40 assign_source (fun x => labels_at x.2.heap [1, 1, 1, 0]) =
        some (some [some (.Usage_argument, some "<arg>")]) ∧
      kind_at (usage_heap 40 assign_source) 7 = some .Usage_long_option ∧
      (usage_heap 40 assign_source)[7]?.map (·.Children) = some [8] ∧
      kind_at (usage_heap 40 assign_source) 8 = some .Usage_argument ∧
      is_usage_terminal .Usage_argument = true ∧
      ¬ UsageTreeStrict (usage_heap 40 assign_source) := by
  have e7 : (usage_heap 40 assign_source)[7]?.map (·.Children) = some [8] := by decide!
  have k7 : kind_at (usage_heap 40 assign_source) 7 = some .Usage_long_option := by decide!
  have k8 : kind_at (usage_heap 40 assign_source) 8 = some .Usage_argument := by decide!
  refine ⟨by decide!, by decide!, by decide!, k7, e7, k8, rfl, ?_⟩
  intro hs
  obtain ⟨nd, hnd, hty, _⟩ := kind_at_some k7
  rw [hnd] at e7
  simp only [Option.map_some', Option.some.injEq] at e7
  have := (hs 7 nd hnd).2 8 (by rw [e7]; simp) _ k8 (Or.inl rfl)
  rw [hty] at this
  exact absurd this (by decide)

/-- Claim C34, amended.  In every tree built by `Consume_Usage` from a store
that holds no node of the usage lines yet (the store `Parse` hands to it after
the root and the prologue is such a store, for every source), each
`Usage_optional_group` and each `Usage_required_group` has at least one child
and all of its children are `Usage_Expr` nodes; a terminal or a group is listed
as a child only by a `Usage_Expr`, except that a `Usage_argument` is also listed
by the `Usage_long_option` an `=` assigned it to. -/
theorem Consume_Usage_tree (fuel : Nat) (p p1 : DocoptParser) (e : Option String)
    (hplain : NoUsageNodes p.heap) (hwf : ChildrenInRange p.heap)
    (h : Consume_Usage fuel p = .ok (e, p1)) :
    UsageTree p1.heap ∧
    (∀ (i : Nat) (nd : DocoptAst), p1.heap[i]? = some nd →
      nd.Typ = .Usage_optional_group ∨ nd.Typ = .Usage_required_group →
      nd.Children ≠ [] ∧ ∀ x ∈ nd.Children, kind_at p1.heap x = some .Usage_Expr) ∧
    (∀ (i : Nat) (nd : DocoptAst), p1.heap[i]? = some nd →
      ∀ x ∈ nd.Children, ∀ k, kind_at p1.heap x = some k →
        k ∈ [DocoptNodeType.Usage_short_option, .Usage_long_option, .Usage_argument,
          .Usage_command, .Usage_optional_group, .Usage_required_group] →
        nd.Typ = .Usage_Expr ∨ (k = .Usage_argument ∧ nd.Typ = .Usage_long_option)) ∧
    (∀ (fuel0 : Nat) (source : List LexItem) (p0 pa : DocoptParser) (e0 : Option String),
      CreateNode (ParserInit source) .Root none = .ok p0 →
      Consume_Prologue fuel0 p0 = .ok (e0, pa) →
      NoUsageNodes pa.heap ∧ ChildrenInRange pa.heap) ∧
    ∀ (fuel0 : Nat) (source : List LexItem), UsageTree (usage_heap fuel0 source) := by
  have main : ∀ (f : Nat) (q q1 : DocoptParser) (e1 : Option String),
      NoUsageNodes q.heap → ChildrenInRange q.heap → Consume_Usage f q = .ok (e1, q1) →
      UsageTree q1.heap := by
    intro f q q1 e1 a w hq
    exact UsageTree.of_uinv
      (Consume_Usage_uinv f q q1 e1 hq (UInv.of_no_usage a w) (PlainCurrent.plain_of_no_usage a))
  have ht := main fuel p p1 e hplain hwf h
  refine ⟨ht, ?_, ?_, ?_, ?_⟩
  · intro i nd hi hk
    refine (ht i nd hi).1 ?_
    rcases hk with hk | hk <;> rw [hk] <;> rfl
  · intro i nd hi x hx k hk hmem
    refine (ht i nd hi).2 x hx k hk ?_
    simp only [List.mem_cons, List.mem_singleton, List.not_mem_nil, or_false] at hmem
    rcases hmem with hm | hm | hm | hm | hm | hm <;> rw [hm] <;> simp [is_usage_terminal, is_usage_group]
  · intro fuel0 source p0 pa e0 h0 hp
    exact prologue_plain fuel0 source p0 pa e0 h0 hp
  · intro fuel0 source
    unfold usage_heap after_Usage
    cases h0 : CreateNode (ParserInit source) .Root none with
    | error f =>
      simp only [bind, Except.bind, Except.toOption, Option.map_none', Option.getD_none]
      intro i nd hi
      simp at hi
    | ok p0 =>
      cases hp : Consume_Prologue fuel0 p0 with
      | error f =>
        simp only [bind, Except.bind, hp, Except.toOption, Option.map_none', Option.getD_none]
        intro i nd hi
        simp at hi
      | ok r =>
        obtain ⟨e0, pa⟩ := r
        obtain ⟨a, w⟩ := prologue_plain fuel0 source p0 pa e0 h0 hp
        by_cases he : e0.isSome = true
        · simp only [bind, Except.bind, hp, he, if_true, Except.toOption, Option.map_none',
            Option.getD_none]
          intro i nd hi
          simp at hi
        · cases hu : Consume_Usage fuel0 pa with
          | error f =>
            simp only [bind, Except.bind, hp, he, Bool.false_eq_true, if_false, hu,
              Except.toOption, Option.map_none', Option.getD_none]
            intro i nd hi
            simp at hi
          | ok r1 =>
            obtain ⟨e1, q1⟩ := r1
            simp only [bind, Except.bind, hp, he, Bool.false_eq_true, if_false, hu,
              Except.toOption, Option.map_some', Option.getD_some]
            exact main fuel0 pa q1 e1 a w hu

theorem Consume_Usage_tree_witness :
    NoUsageNodes tree_entry_state.heap ∧ ChildrenInRange tree_entry_state.heap ∧
      UsageTree (result_or (Consume_Usage 40 tree_entry_state) no_step).2.heap :=
  ⟨by decide!, by decide!,
    (Consume_Usage_tree 40 tree_entry_state
      (result_or (Consume_Usage 40 tree_entry_state) no_step).2
      (result_or (Consume_Usage 40 tree_entry_state) no_step).1
      (by decide!) (by decide!)
      (eq_ok_result_or_step (Consume_Usage 40 tree_entry_state) no_step (by decide!))).1⟩

end Docopt
